import Mathlib

/-!
# Coverage / binning front-end of the polygon rasterizer

A shallow embedding of `src/polyrenderer/drawers/screen_triangle.cpp`
(`ScreenTriangle::SetupNormal`, `SetupSubsector`, `StencilWrite`,
`SubsectorWrite`) and the properties of it that the specification states.

Conventions of the embedding.

* C `int` values are `Int`; `a << 4` is `a * 16` and `a >> 4` is the
  arithmetic shift `Int.shiftRight a 4`.  The binners are embedded twice.
  `SetupNormal` and `SetupSubsector` compute over exact integers: this is
  what the code does while no value that decides the output leaves the range
  of `int` (`SetupNormal32_eq`, `SetupSubsector32_eq`).  `SetupNormal32` and
  `SetupSubsector32` wrap every operation on a vertex coordinate or an edge
  value modulo `2 ^ 32`, as the 32-bit two's complement `int` of the source
  does; the properties that depend on the signs of the half-space functions
  of large triangles are stated on them.
* `uint32_t` coverage masks are `Nat`; the shift `mask <<= 1` wraps and is
  written with an explicit `% 2 ^ 32`.
* The division `/` of C truncates.  The binners divide the block
  coordinates `x`, `y`, which are multiples of 8 and not negative, so their
  `x / 8` is the exact quotient; the writers divide the coordinates of
  arbitrary list entries, and their `X / 8` is the truncating `Int.tdiv`.
* A buffer reached through a pointer (`stencilValues`, `stencilMasks`,
  `subsectorGBuffer`, `FullSpans`, `PartialBlocks`) is a function from the
  index to the element; a store is `Function.update`.
* The binners are embedded from the six integers `X1 .. Y3` on, which the
  float to 28.4 conversion (lines 60-82) yields.  The conversion itself is
  embedded apart, in its scalar and its packed form (`fixedScalar`,
  `fixedPacked`), over finite binary32 values `man * 2 ^ exp` with the
  rounding of every operation made explicit.
* A `for` loop with a constant trip count is a fold over the list of its
  indices; the two tile loops, whose bounds are data, are `forLoop`, which
  tests the loop condition on every iteration and carries a fuel that is
  proved not to run out.
-/

namespace ScreenTriangle

/-! ## Data model -/

/-- A run of fully covered 8x8 tiles on one tile row (`TriFullSpan`). -/
structure TriFullSpan where
  X : Int
  Y : Int
  Length : Nat

/-- One 8x8 tile with its 64 coverage bits (`TriPartialBlock`). -/
structure TriPartialBlock where
  X : Int
  Y : Int
  Mask0 : Nat
  Mask1 : Nat

/-- The fields of `TriDrawTriangleArgs` that the binner and the writers read.
`X1 .. Y3` are the vertices after conversion to 28.4 fixed point. -/
structure TriDrawTriangleArgs where
  X1 : Int
  Y1 : Int
  X2 : Int
  Y2 : Int
  X3 : Int
  Y3 : Int
  clipright : Int
  clipbottom : Int
  stencilPitch : Int
  stencilValues : Int → Nat
  stencilMasks : Int → Nat
  stencilTestValue : Nat
  stencilWriteValue : Nat
  subsectorGBuffer : Int → Nat
  subsectorDepth : Nat
  pitch : Int

/-- The per-worker scratch block (`WorkerThreadData`). -/
structure WorkerThreadData where
  core : Int
  num_cores : Int
  FullSpans : Nat → TriFullSpan
  PartialBlocks : Nat → TriPartialBlock
  NumFullSpans : Nat
  NumPartialBlocks : Nat
  StartX : Int
  StartY : Int

/-- The output cursor of a binner while it runs: the two scratch arrays, the
offset `span - thread->FullSpans` of the current span and the offset
`partial - thread->PartialBlocks` of the next free block. -/
structure BinState where
  FullSpans : Nat → TriFullSpan
  span : Nat
  PartialBlocks : Nat → TriPartialBlock
  block : Nat

/-! ## Edge setup (lines 84-129) -/

def DX12 (args : TriDrawTriangleArgs) : Int := args.X1 - args.X2

def DX23 (args : TriDrawTriangleArgs) : Int := args.X2 - args.X3

def DX31 (args : TriDrawTriangleArgs) : Int := args.X3 - args.X1

def DY12 (args : TriDrawTriangleArgs) : Int := args.Y1 - args.Y2

def DY23 (args : TriDrawTriangleArgs) : Int := args.Y2 - args.Y3

def DY31 (args : TriDrawTriangleArgs) : Int := args.Y3 - args.Y1

def FDX12 (args : TriDrawTriangleArgs) : Int := DX12 args * 16

def FDX23 (args : TriDrawTriangleArgs) : Int := DX23 args * 16

def FDX31 (args : TriDrawTriangleArgs) : Int := DX31 args * 16

def FDY12 (args : TriDrawTriangleArgs) : Int := DY12 args * 16

def FDY23 (args : TriDrawTriangleArgs) : Int := DY23 args * 16

def FDY31 (args : TriDrawTriangleArgs) : Int := DY31 args * 16

/-- The half-edge constant `DY * X - DX * Y` of the directed edge that starts
at `(X, Y)`, incremented by one where the fill convention says so
(lines 122-129). -/
def edgeConstant (DX DY X Y : Int) : Int :=
  let C := DY * X - DX * Y
  if DY < 0 ∨ (DY = 0 ∧ DX > 0) then C + 1 else C

def C1 (args : TriDrawTriangleArgs) : Int :=
  edgeConstant (DX12 args) (DY12 args) args.X1 args.Y1

def C2 (args : TriDrawTriangleArgs) : Int :=
  edgeConstant (DX23 args) (DY23 args) args.X2 args.Y2

def C3 (args : TriDrawTriangleArgs) : Int :=
  edgeConstant (DX31 args) (DY31 args) args.X3 args.Y3

/-- Left bound of the bounding rectangle, before it is snapped (line 103). -/
def minx (args : TriDrawTriangleArgs) : Int :=
  max (Int.shiftRight (min (min args.X1 args.X2) args.X3 + 0xF) 4) 0

/-- Right bound of the bounding rectangle (line 104). -/
def maxx (args : TriDrawTriangleArgs) : Int :=
  min (Int.shiftRight (max (max args.X1 args.X2) args.X3 + 0xF) 4) (args.clipright - 1)

/-- Top bound of the bounding rectangle, before it is snapped (line 105). -/
def miny (args : TriDrawTriangleArgs) : Int :=
  max (Int.shiftRight (min (min args.Y1 args.Y2) args.Y3 + 0xF) 4) 0

/-- Bottom bound of the bounding rectangle (line 106). -/
def maxy (args : TriDrawTriangleArgs) : Int :=
  min (Int.shiftRight (max (max args.Y1 args.Y2) args.Y3 + 0xF) 4) (args.clipbottom - 1)

/-- The block size `q` (line 115). -/
def q : Int := 8

/-- Snapping to the corner of a block, `v &= ~(q - 1)` (lines 118-119). -/
def snap (v : Int) : Int := Int.land v (~~~(q - 1))

/-- First block line of a worker, `core_skip` of line 134; `%` truncates. -/
def core_skip (miny core num_cores : Int) : Int :=
  Int.tmod (num_cores - Int.tmod (miny / q - core) num_cores) num_cores

/-! ## Emission of spans and blocks -/

/-- The statement pair `span++; span->Length = 0;`. -/
def nextSpan (st : BinState) : BinState :=
  { st with
    span := st.span + 1
    FullSpans := Function.update st.FullSpans (st.span + 1)
      { st.FullSpans (st.span + 1) with Length := 0 } }

/-- A rejected block (lines 181-186) and the end of a block row
(lines 290-294): the current span, when it is not empty, is finished. -/
def closeSpan (st : BinState) : BinState :=
  if (st.FullSpans st.span).Length ≠ 0 then nextSpan st else st

/-- A fully covered block (lines 192-201 and 277-286): the current span grows
by one block, or starts at the block. -/
def growSpan (st : BinState) (x y : Int) : BinState :=
  if (st.FullSpans st.span).Length ≠ 0 then
    { st with
      FullSpans := Function.update st.FullSpans st.span
        { st.FullSpans st.span with Length := (st.FullSpans st.span).Length + 1 } }
  else
    { st with FullSpans := Function.update st.FullSpans st.span ⟨x, y, 1⟩ }

/-- What is done with the two masks of a block (lines 260-286). -/
def emitMasks (st : BinState) (x y : Int) (mask0 mask1 : Nat) : BinState :=
  if mask0 ≠ 0xffffffff ∨ mask1 ≠ 0xffffffff then
    let st1 := if (st.FullSpans st.span).Length > 0 then nextSpan st else st
    if mask0 = 0 ∧ mask1 = 0 then st1
    else
      { st1 with
        PartialBlocks := Function.update st1.PartialBlocks st1.block ⟨x, y, mask0, mask1⟩
        block := st1.block + 1 }
  else growSpan st x y

/-! ## Classification of one block -/

/-- The four corner tests of one edge packed into `a`, `b` or `c`
(lines 147-169). -/
def cornerMask (C DX DY x y : Int) : Nat :=
  let x0 := x * 16
  let x1 := (x + q - 1) * 16
  let y0 := y * 16
  let y1 := (y + q - 1) * 16
  let a00 := decide (C + DX * y0 - DY * x0 > 0)
  let a10 := decide (C + DX * y0 - DY * x1 > 0)
  let a01 := decide (C + DX * y1 - DY * x0 > 0)
  let a11 := decide (C + DX * y1 - DY * x1 > 0)
  (a00.toNat <<< 0) ||| (a10.toNat <<< 1) ||| (a01.toNat <<< 2) ||| (a11.toNat <<< 3)

/-- The statements `mask <<= 1; mask |= (uint32_t)covered;` on a `uint32_t`. -/
def pushBit (mask : Nat) (covered : Bool) : Nat :=
  ((mask <<< 1) % 2 ^ 32) ||| covered.toNat

/-- The index `block` of the stencil tile of the block at `(x, y)`
(line 172). -/
def stencilBlockIndex (args : TriDrawTriangleArgs) (x y : Int) : Int :=
  x / 8 + y / 8 * args.stencilPitch

/-- Whether the stencil tile holds a single value, `blockIsSingleStencil`
(line 175). -/
def blockIsSingleStencil (args : TriDrawTriangleArgs) (block : Int) : Bool :=
  (args.stencilMasks block &&& 0xffffff00) == 0xffffff00

/-- One pixel of the partially covered path of `SetupNormal` (lines 222-229):
the accumulator is the mask and the three running values `CX1, CX2, CX3`. -/
def normalPixel (args : TriDrawTriangleArgs) (x y : Int) (iy : Nat)
    (a : Nat × Int × Int × Int) (ix : Nat) : Nat × Int × Int × Int :=
  let block := stencilBlockIndex args x y
  let passStencilTest := blockIsSingleStencil args block ||
    (args.stencilValues (block * 64 + ((ix : Int) + (iy : Int) * q)) == args.stencilTestValue)
  let covered := decide (a.2.1 > 0) && decide (a.2.2.1 > 0) && decide (a.2.2.2 > 0) &&
    decide (x + (ix : Int) < args.clipright) && decide (y + (iy : Int) < args.clipbottom) &&
    passStencilTest
  (pushBit a.1 covered, a.2.1 - FDY12 args, a.2.2.1 - FDY23 args, a.2.2.2 - FDY31 args)

/-- One pixel row of the partially covered path of `SetupNormal`
(lines 216-234): the accumulator is the mask and the three row values
`CY1, CY2, CY3`. -/
def normalRow (args : TriDrawTriangleArgs) (x y : Int)
    (acc : Nat × Int × Int × Int) (iy : Nat) : Nat × Int × Int × Int :=
  let inner := (List.range 8).foldl (normalPixel args x y iy) acc
  (inner.1, acc.2.1 + FDX12 args, acc.2.2.1 + FDX23 args, acc.2.2.2 + FDX31 args)

/-- The two masks of the partially covered path of `SetupNormal`
(lines 205-258). -/
def normalMasks (args : TriDrawTriangleArgs) (x y : Int) : Nat × Nat :=
  let x0 := x * 16
  let y0 := y * 16
  let CY1 := C1 args + DX12 args * y0 - DY12 args * x0
  let CY2 := C2 args + DX23 args * y0 - DY23 args * x0
  let CY3 := C3 args + DX31 args * y0 - DY31 args * x0
  let top := [0, 1, 2, 3].foldl (normalRow args x y) (0, CY1, CY2, CY3)
  let bottom := [4, 5, 6, 7].foldl (normalRow args x y) (0, top.2.1, top.2.2.1, top.2.2.2)
  (top.1, bottom.1)

/-- The body of the block loop of `SetupNormal` for the block at `(x, y)`
(lines 146-287). -/
def normalBlock (args : TriDrawTriangleArgs) (y x : Int) (st : BinState) : BinState :=
  let a := cornerMask (C1 args) (DX12 args) (DY12 args) x y
  let b := cornerMask (C2 args) (DX23 args) (DY23 args) x y
  let c := cornerMask (C3 args) (DX31 args) (DY31 args) x y
  let block := stencilBlockIndex args x y
  let single := blockIsSingleStencil args block
  let skipBlock := single && (args.stencilMasks block &&& 0xff) != args.stencilTestValue
  if a = 0 ∨ b = 0 ∨ c = 0 ∨ skipBlock = true then closeSpan st
  else if a = 0xf ∧ b = 0xf ∧ c = 0xf ∧ x + q ≤ args.clipright ∧ y + q ≤ args.clipbottom ∧
      single = true then
    growSpan st x y
  else
    emitMasks st x y (normalMasks args x y).1 (normalMasks args x y).2

/-! ## The block loops -/

/-- The loop `for (int v = start; v < bound; v += stride) body(v)`.  The first
argument is a fuel; `forLoop_fuel` shows that the fuel the binners pass is
never used up while the loop condition still holds. -/
def forLoop {σ : Type} (bound stride : Int) (body : Int → σ → σ) : Nat → Int → σ → σ
  | 0, _, st => st
  | fuel + 1, v, st =>
    if v < bound then forLoop bound stride body fuel (v + stride) (body v st) else st

/-- The two nested block loops with the end-of-row step (lines 142-295), over
the block body `body y x`. -/
def blockLoops (body : Int → Int → BinState → BinState)
    (minx maxx miny maxy num_cores : Int) (st : BinState) : BinState :=
  forLoop maxy (q * num_cores)
    (fun y st => closeSpan (forLoop maxx q (body y) (maxx - minx).toNat minx st))
    (maxy - miny).toNat miny st

/-- The binner `ScreenTriangle::SetupNormal` (lines 44-299), from the
fixed-point vertices on. -/
def SetupNormal (args : TriDrawTriangleArgs) (thread : WorkerThreadData) : WorkerThreadData :=
  if minx args ≥ maxx args ∨ miny args ≥ maxy args then
    { thread with NumFullSpans := 0, NumPartialBlocks := 0 }
  else
    let minx := snap (minx args)
    let miny := snap (miny args)
    let miny := miny + core_skip miny thread.core thread.num_cores * q
    let st0 : BinState :=
      { FullSpans := Function.update thread.FullSpans 0 { thread.FullSpans 0 with Length := 0 }
        span := 0
        PartialBlocks := thread.PartialBlocks
        block := 0 }
    let st := blockLoops (normalBlock args) minx (maxx args) miny (maxy args) thread.num_cores st0
    { thread with
      StartX := minx
      StartY := miny
      FullSpans := st.FullSpans
      PartialBlocks := st.PartialBlocks
      NumFullSpans := st.span
      NumPartialBlocks := st.block }


/-! ## Coverage denoted by an output -/

/-- The coverage bit of the pixel in column `ix` and row `iy` of a block:
bit `31 - (ix + 8 * iy)` of `Mask0` for the rows 0..3, and bit
`31 - (ix + 8 * (iy - 4))` of `Mask1` for the rows 4..7. -/
def maskBit (mask0 mask1 : Nat) (ix iy : Nat) : Bool :=
  if iy < 4 then mask0.testBit (31 - (ix + 8 * iy))
  else mask1.testBit (31 - (ix + 8 * (iy - 4)))

/-- The pixel `(px, py)` lies in one of the blocks of the span. -/
def inSpan (s : TriFullSpan) (px py : Int) : Prop :=
  s.X ≤ px ∧ px < s.X + 8 * (s.Length : Int) ∧ s.Y ≤ py ∧ py < s.Y + 8

/-- The pixel `(px, py)` lies in the block and its coverage bit is set. -/
def inBlock (b : TriPartialBlock) (px py : Int) : Prop :=
  b.X ≤ px ∧ px < b.X + 8 ∧ b.Y ≤ py ∧ py < b.Y + 8 ∧
    maskBit b.Mask0 b.Mask1 (px - b.X).toNat (py - b.Y).toNat = true

/-- The pixel is covered by the output of a binner: by one of the first
`NumFullSpans` spans or by one of the first `NumPartialBlocks` blocks. -/
def Covers (t : WorkerThreadData) (px py : Int) : Prop :=
  (∃ i, i < t.NumFullSpans ∧ inSpan (t.FullSpans i) px py) ∨
    (∃ i, i < t.NumPartialBlocks ∧ inBlock (t.PartialBlocks i) px py)

/-- Coverage of a cursor: the finished spans, the current span and the blocks
written so far. -/
def covSt (st : BinState) (px py : Int) : Prop :=
  (∃ i, i ≤ st.span ∧ inSpan (st.FullSpans i) px py) ∨
    (∃ i, i < st.block ∧ inBlock (st.PartialBlocks i) px py)

/-- What holds of a cursor that is about to handle the block at `(x, y)`,
when `S` is the set of blocks handled so far and `M0`, `M1` give the masks
that `emitMasks` received for each of them. -/
structure BinInv (M0 M1 : Int → Int → Nat) (S : Int → Int → Prop)
    (st : BinState) (x y : Int) : Prop where
  adj : (st.FullSpans st.span).Length ≠ 0 →
    (st.FullSpans st.span).Y = y ∧
      (st.FullSpans st.span).X + 8 * ((st.FullSpans st.span).Length : Int) = x
  cov : ∀ px py, covSt st px py ↔
    ∃ tx ty, S tx ty ∧ inBlock ⟨tx, ty, M0 tx ty, M1 tx ty⟩ px py
  done : ∀ i, i < st.span → (st.FullSpans i).Length ≠ 0
  spans : ∀ i, i ≤ st.span → ∀ j : Nat, j < (st.FullSpans i).Length →
    S ((st.FullSpans i).X + 8 * (j : Int)) (st.FullSpans i).Y ∧
      M0 ((st.FullSpans i).X + 8 * (j : Int)) (st.FullSpans i).Y = 0xffffffff ∧
      M1 ((st.FullSpans i).X + 8 * (j : Int)) (st.FullSpans i).Y = 0xffffffff
  blocks : ∀ i, i < st.block →
    S (st.PartialBlocks i).X (st.PartialBlocks i).Y ∧
      (st.PartialBlocks i).Mask0 = M0 (st.PartialBlocks i).X (st.PartialBlocks i).Y ∧
      (st.PartialBlocks i).Mask1 = M1 (st.PartialBlocks i).X (st.PartialBlocks i).Y ∧
      ¬ ((st.PartialBlocks i).Mask0 = 0 ∧ (st.PartialBlocks i).Mask1 = 0) ∧
      ¬ ((st.PartialBlocks i).Mask0 = 0xffffffff ∧ (st.PartialBlocks i).Mask1 = 0xffffffff)

/-- The corrected half-space function of edge 1 evaluated directly at the
pixel `(px, py)`: `C1 + DX12 * (py << 4) - DY12 * (px << 4)`. -/
def edge1 (args : TriDrawTriangleArgs) (px py : Int) : Int :=
  C1 args + DX12 args * (py * 16) - DY12 args * (px * 16)

/-- The corrected half-space function of edge 2 at the pixel `(px, py)`. -/
def edge2 (args : TriDrawTriangleArgs) (px py : Int) : Int :=
  C2 args + DX23 args * (py * 16) - DY23 args * (px * 16)

/-- The corrected half-space function of edge 3 at the pixel `(px, py)`. -/
def edge3 (args : TriDrawTriangleArgs) (px py : Int) : Int :=
  C3 args + DX31 args * (py * 16) - DY31 args * (px * 16)

/-- The pixel is inside the triangle: all three half-space functions are
strictly positive. -/
def insideTriangle (args : TriDrawTriangleArgs) (px py : Int) : Prop :=
  edge1 args px py > 0 ∧ edge2 args px py > 0 ∧ edge3 args px py > 0

/-- The stencil value that the stencil buffer denotes at a pixel: the value
of its tile when the tile is uniform, its per-pixel byte otherwise. -/
def stencilAt (masks values : Int → Nat) (stencilPitch : Int) (px py : Int) : Nat :=
  let block := px / 8 + py / 8 * stencilPitch
  if (masks block &&& 0xffffff00) = 0xffffff00 then masks block &&& 0xff
  else values (block * 64 + (px % 8 + py % 8 * 8))

/-- The coverage test of the pixel in column `ix`, row `iy` of the block at
`(x, y)`, as `SetupNormal` states it, with the half-space functions evaluated
directly. -/
def normalCovered (args : TriDrawTriangleArgs) (x y : Int) (ix iy : Nat) : Bool :=
  decide (edge1 args (x + ix) (y + iy) > 0) && decide (edge2 args (x + ix) (y + iy) > 0) &&
    decide (edge3 args (x + ix) (y + iy) > 0) &&
    decide (x + (ix : Int) < args.clipright) && decide (y + (iy : Int) < args.clipbottom) &&
    (blockIsSingleStencil args (stencilBlockIndex args x y) ||
      (args.stencilValues (stencilBlockIndex args x y * 64 + ((ix : Int) + (iy : Int) * q))
        == args.stencilTestValue))

/-- Pushing the bits `f 0, f 1, .., f (n - 1)` into a mask, in this order. -/
def pushMany (mask : Nat) (f : Nat → Bool) : Nat → Nat
  | 0 => mask
  | n + 1 => pushBit (pushMany mask f n) (f n)

/-- The two masks of a block whose pixel in column `ix`, row `iy` is covered
exactly when `f ix iy` holds. -/
def packTile (f : Nat → Nat → Bool) : Nat × Nat :=
  (pushMany 0 (fun k => f (k % 8) (k / 8)) 32, pushMany 0 (fun k => f (k % 8) (4 + k / 8)) 32)

/-- The pixel passes every test of `SetupNormal`: it is inside the triangle,
inside the clip rectangle, and its stencil value equals `stencilTestValue`. -/
def normalPass (args : TriDrawTriangleArgs) (px py : Int) : Prop :=
  insideTriangle args px py ∧ px < args.clipright ∧ py < args.clipbottom ∧
    stencilAt args.stencilMasks args.stencilValues args.stencilPitch px py =
      args.stencilTestValue

/-- The masks that stand for what `normalBlock` does with the block at
`(x, y)`: no bit for a rejected block, all bits for an accepted one, the
computed masks otherwise. -/
def normalTileMasks (args : TriDrawTriangleArgs) (x y : Int) : Nat × Nat :=
  let a := cornerMask (C1 args) (DX12 args) (DY12 args) x y
  let b := cornerMask (C2 args) (DX23 args) (DY23 args) x y
  let c := cornerMask (C3 args) (DX31 args) (DY31 args) x y
  let block := stencilBlockIndex args x y
  let single := blockIsSingleStencil args block
  let skipBlock := single && (args.stencilMasks block &&& 0xff) != args.stencilTestValue
  if a = 0 ∨ b = 0 ∨ c = 0 ∨ skipBlock = true then (0, 0)
  else if a = 0xf ∧ b = 0xf ∧ c = 0xf ∧ x + q ≤ args.clipright ∧ y + q ≤ args.clipbottom ∧
      single = true then
    (0xffffffff, 0xffffffff)
  else normalMasks args x y

/-- The first block row that a worker handles, `thread->StartY`. -/
def startY (args : TriDrawTriangleArgs) (thread : WorkerThreadData) : Int :=
  snap (miny args) + core_skip (snap (miny args)) thread.core thread.num_cores * q

/-- The block at `(tx, ty)` is one that the block loops of the worker reach. -/
def visits (args : TriDrawTriangleArgs) (thread : WorkerThreadData) (tx ty : Int) : Prop :=
  ∃ i j : Nat, tx = snap (minx args) + (i : Int) * 8 ∧ tx < maxx args ∧
    ty = startY args thread + (j : Int) * (8 * thread.num_cores) ∧ ty < maxy args

/-- The output of a binner read as a cursor. -/
def outState (t : WorkerThreadData) : BinState :=
  { FullSpans := t.FullSpans
    span := t.NumFullSpans
    PartialBlocks := t.PartialBlocks
    block := t.NumPartialBlocks }

/-! ## The subsector variant (lines 301-610) -/

/-- One pixel of the subsector test of a totally covered block
(lines 464-466): the accumulator is the mask; `subsector` is the offset of the
row pointer into `subsectorGBuffer`. -/
def subsectorTestPixel (args : TriDrawTriangleArgs) (subsector : Int) (mask : Nat) (ix : Nat) :
    Nat :=
  let covered := decide (args.subsectorGBuffer (subsector + (ix : Int)) ≥ args.subsectorDepth)
  pushBit mask covered

/-- One pixel row of the subsector test of a totally covered block
(lines 462-468): the accumulator is the mask and the row pointer. -/
def subsectorTestRow (args : TriDrawTriangleArgs) (acc : Nat × Int) (_iy : Nat) : Nat × Int :=
  ((List.range 8).foldl (subsectorTestPixel args acc.2) acc.1, acc.2 + args.pitch)

/-- The two masks of a totally covered block of `SetupSubsector`
(lines 455-480). -/
def subsectorTestMasks (args : TriDrawTriangleArgs) (x y : Int) : Nat × Nat :=
  let subsector := x + y * args.pitch
  let top := [0, 1, 2, 3].foldl (subsectorTestRow args) (0, subsector)
  let bottom := [4, 5, 6, 7].foldl (subsectorTestRow args) (0, top.2)
  (top.1, bottom.1)

/-- One pixel of the partially covered path of `SetupSubsector`
(lines 531-538). -/
def subsectorPixel (args : TriDrawTriangleArgs) (x y : Int) (iy : Nat) (subsector : Int)
    (a : Nat × Int × Int × Int) (ix : Nat) : Nat × Int × Int × Int :=
  let block := stencilBlockIndex args x y
  let passStencilTest := blockIsSingleStencil args block ||
    decide (args.stencilValues (block * 64 + ((ix : Int) + (iy : Int) * q)) ≥ args.stencilTestValue)
  let covered := decide (a.2.1 > 0) && decide (a.2.2.1 > 0) && decide (a.2.2.2 > 0) &&
    decide (x + (ix : Int) < args.clipright) && decide (y + (iy : Int) < args.clipbottom) &&
    passStencilTest &&
    decide (args.subsectorGBuffer (subsector + (ix : Int)) ≥ args.subsectorDepth)
  (pushBit a.1 covered, a.2.1 - FDY12 args, a.2.2.1 - FDY23 args, a.2.2.2 - FDY31 args)

/-- One pixel row of the partially covered path of `SetupSubsector`
(lines 525-544): the accumulator is the mask, the three row values
`CY1, CY2, CY3` and the row pointer. -/
def subsectorRow (args : TriDrawTriangleArgs) (x y : Int)
    (acc : Nat × Int × Int × Int × Int) (iy : Nat) : Nat × Int × Int × Int × Int :=
  let inner := (List.range 8).foldl (subsectorPixel args x y iy acc.2.2.2.2)
    (acc.1, acc.2.1, acc.2.2.1, acc.2.2.2.1)
  (inner.1, acc.2.1 + FDX12 args, acc.2.2.1 + FDX23 args, acc.2.2.2.1 + FDX31 args,
    acc.2.2.2.2 + args.pitch)

/-- The two masks of the partially covered path of `SetupSubsector`
(lines 512-569). -/
def subsectorMasks (args : TriDrawTriangleArgs) (x y : Int) : Nat × Nat :=
  let x0 := x * 16
  let y0 := y * 16
  let CY1 := C1 args + DX12 args * y0 - DY12 args * x0
  let CY2 := C2 args + DX23 args * y0 - DY23 args * x0
  let CY3 := C3 args + DX31 args * y0 - DY31 args * x0
  let subsector := x + y * args.pitch
  let top := [0, 1, 2, 3].foldl (subsectorRow args x y) (0, CY1, CY2, CY3, subsector)
  let bottom := [4, 5, 6, 7].foldl (subsectorRow args x y)
    (0, top.2.1, top.2.2.1, top.2.2.2.1, top.2.2.2.2)
  (top.1, bottom.1)

/-- The body of the block loop of `SetupSubsector` for the block at `(x, y)`
(lines 407-598). -/
def subsectorBlock (args : TriDrawTriangleArgs) (y x : Int) (st : BinState) : BinState :=
  let a := cornerMask (C1 args) (DX12 args) (DY12 args) x y
  let b := cornerMask (C2 args) (DX23 args) (DY23 args) x y
  let c := cornerMask (C3 args) (DX31 args) (DY31 args) x y
  let block := stencilBlockIndex args x y
  let single := blockIsSingleStencil args block
  let skipBlock := single && decide ((args.stencilMasks block &&& 0xff) < args.stencilTestValue)
  if a = 0 ∨ b = 0 ∨ c = 0 ∨ skipBlock = true then closeSpan st
  else if a = 0xf ∧ b = 0xf ∧ c = 0xf ∧ x + q ≤ args.clipright ∧ y + q ≤ args.clipbottom ∧
      single = true then
    emitMasks st x y (subsectorTestMasks args x y).1 (subsectorTestMasks args x y).2
  else
    emitMasks st x y (subsectorMasks args x y).1 (subsectorMasks args x y).2

/-- The binner `ScreenTriangle::SetupSubsector` (lines 301-610), from the
fixed-point vertices on. -/
def SetupSubsector (args : TriDrawTriangleArgs) (thread : WorkerThreadData) :
    WorkerThreadData :=
  if minx args ≥ maxx args ∨ miny args ≥ maxy args then
    { thread with NumFullSpans := 0, NumPartialBlocks := 0 }
  else
    let minx := snap (minx args)
    let miny := snap (miny args)
    let miny := miny + core_skip miny thread.core thread.num_cores * q
    let st0 : BinState :=
      { FullSpans := Function.update thread.FullSpans 0 { thread.FullSpans 0 with Length := 0 }
        span := 0
        PartialBlocks := thread.PartialBlocks
        block := 0 }
    let st := blockLoops (subsectorBlock args) minx (maxx args) miny (maxy args)
      thread.num_cores st0
    { thread with
      StartX := minx
      StartY := miny
      FullSpans := st.FullSpans
      PartialBlocks := st.PartialBlocks
      NumFullSpans := st.span
      NumPartialBlocks := st.block }

/-- The subsector test of the pixel in column `ix`, row `iy` of the block at
`(x, y)`. -/
def subsectorTest (args : TriDrawTriangleArgs) (x y : Int) (ix iy : Nat) : Bool :=
  decide (args.subsectorGBuffer (x + y * args.pitch + (iy : Int) * args.pitch + (ix : Int)) ≥
    args.subsectorDepth)

/-- The coverage test of the pixel in column `ix`, row `iy` of the block at
`(x, y)`, as the partially covered path of `SetupSubsector` states it, with
the half-space functions evaluated directly. -/
def subsectorCovered (args : TriDrawTriangleArgs) (x y : Int) (ix iy : Nat) : Bool :=
  decide (edge1 args (x + ix) (y + iy) > 0) && decide (edge2 args (x + ix) (y + iy) > 0) &&
    decide (edge3 args (x + ix) (y + iy) > 0) &&
    decide (x + (ix : Int) < args.clipright) && decide (y + (iy : Int) < args.clipbottom) &&
    (blockIsSingleStencil args (stencilBlockIndex args x y) ||
      decide (args.stencilValues (stencilBlockIndex args x y * 64 + ((ix : Int) + (iy : Int) * q))
        ≥ args.stencilTestValue)) &&
    subsectorTest args x y ix iy

/-- The pixel passes every test of `SetupSubsector`: it is inside the
triangle, inside the clip rectangle, its stencil value is at least
`stencilTestValue`, and its subsector entry is at least `subsectorDepth`. -/
def subsectorPass (args : TriDrawTriangleArgs) (px py : Int) : Prop :=
  insideTriangle args px py ∧ px < args.clipright ∧ py < args.clipbottom ∧
    stencilAt args.stencilMasks args.stencilValues args.stencilPitch px py ≥
      args.stencilTestValue ∧
    args.subsectorGBuffer (px + py * args.pitch) ≥ args.subsectorDepth

/-- The masks that stand for what `subsectorBlock` does with the block at
`(x, y)`. -/
def subsectorTileMasks (args : TriDrawTriangleArgs) (x y : Int) : Nat × Nat :=
  let a := cornerMask (C1 args) (DX12 args) (DY12 args) x y
  let b := cornerMask (C2 args) (DX23 args) (DY23 args) x y
  let c := cornerMask (C3 args) (DX31 args) (DY31 args) x y
  let block := stencilBlockIndex args x y
  let single := blockIsSingleStencil args block
  let skipBlock := single && decide ((args.stencilMasks block &&& 0xff) < args.stencilTestValue)
  if a = 0 ∨ b = 0 ∨ c = 0 ∨ skipBlock = true then (0, 0)
  else if a = 0xf ∧ b = 0xf ∧ c = 0xf ∧ x + q ≤ args.clipright ∧ y + q ≤ args.clipbottom ∧
      single = true then
    subsectorTestMasks args x y
  else subsectorMasks args x y

/-- The corrected half-space function of the directed edge from `(XA, YA)` to
`(XB, YB)` at the sample point `(PX, PY)`, all in 28.4 fixed point: the
constant of lines 122-129 and the expression of line 153. -/
def edgeValue (XA YA XB YB PX PY : Int) : Int :=
  edgeConstant (XA - XB) (YA - YB) XA YA + (XA - XB) * PY - (YA - YB) * PX

/-- The triangle (0,0), (0,32), (32,0) in pixels, a 9 x 9 clip rectangle and a
stencil buffer that is uniformly 0, tested against 0. -/
def sampleArgs : TriDrawTriangleArgs :=
  { X1 := 0, Y1 := 0, X2 := 0, Y2 := 512, X3 := 512, Y3 := 0
    clipright := 9, clipbottom := 9
    stencilPitch := 2
    stencilValues := fun _ => 0
    stencilMasks := fun _ => 0xffffff00
    stencilTestValue := 0
    stencilWriteValue := 7
    subsectorGBuffer := fun _ => 0
    subsectorDepth := 0
    pitch := 16 }

/-- The sample triangle with its second vertex moved onto the first. -/
def coincidentArgs : TriDrawTriangleArgs :=
  { sampleArgs with X2 := 0, Y2 := 0 }

/-- A single worker with empty scratch arrays. -/
def sampleThread : WorkerThreadData :=
  { core := 0, num_cores := 1
    FullSpans := fun _ => ⟨0, 0, 0⟩
    PartialBlocks := fun _ => ⟨0, 0, 0, 0⟩
    NumFullSpans := 0, NumPartialBlocks := 0
    StartX := 0, StartY := 0 }

/-- Clip containment of an output: every set coverage bit of an emitted block
is a pixel of `[0, clipright) x [0, clipbottom)`, and every emitted span lies
inside that rectangle. -/
def ClipContained (args : TriDrawTriangleArgs) (out : WorkerThreadData) : Prop :=
  (∀ i, i < out.NumPartialBlocks → ∀ px py : Int, inBlock (out.PartialBlocks i) px py →
      0 ≤ px ∧ px < args.clipright ∧ 0 ≤ py ∧ py < args.clipbottom) ∧
    (∀ i, i < out.NumFullSpans →
      0 ≤ (out.FullSpans i).X ∧ 0 ≤ (out.FullSpans i).Y ∧
      (out.FullSpans i).X + 8 * ((out.FullSpans i).Length : Int) ≤ args.clipright ∧
      (out.FullSpans i).Y + 8 ≤ args.clipbottom)

/-- Two stencil buffer states denote the same content on the tile `b`: the
mask word and the 64 bytes are the same, or the tile is uniform with a value
`v` in one state (mask `0xFFFFFF00 | v`) and heterogeneous (mask `0`) with all
64 bytes equal to `v` in the other. -/
def tileEquiv (masks1 values1 masks2 values2 : Int → Nat) (b : Int) : Prop :=
  (masks1 b = masks2 b ∧ ∀ k : Int, 0 ≤ k → k < 64 → values1 (b * 64 + k) = values2 (b * 64 + k)) ∨
  (∃ v, v < 256 ∧ masks1 b = 0xFFFFFF00 ||| v ∧ masks2 b = 0 ∧
    ∀ k : Int, 0 ≤ k → k < 64 → values2 (b * 64 + k) = v) ∨
  (∃ v, v < 256 ∧ masks2 b = 0xFFFFFF00 ||| v ∧ masks1 b = 0 ∧
    ∀ k : Int, 0 ≤ k → k < 64 → values1 (b * 64 + k) = v)

/-! ## The stencil writer (lines 612-680) -/

/-- The two arrays of the tiled stencil buffer. -/
structure StencilBuffer where
  stencilValues : Int → Nat
  stencilMasks : Int → Nat

/-- The body of the loop over the full spans of `StencilWrite`
(lines 626-634): the mask words of `Length` consecutive tiles are set to
`0xffffff00 | stencilWriteValue`. -/
def writeSpan (stencilWriteValue : Nat) (stencilPitch : Int) (s : StencilBuffer)
    (span : TriFullSpan) : StencilBuffer :=
  let block := Int.tdiv span.X 8 + Int.tdiv span.Y 8 * stencilPitch
  let width := span.Length
  { s with
    stencilMasks := (List.range width).foldl
      (fun masks (x : Nat) =>
        Function.update masks (block + (x : Int)) (0xffffff00 ||| stencilWriteValue))
      s.stencilMasks }

/-- One pixel of the loops over the 64 bytes of a tile in `StencilWrite`
(lines 660-665 and 669-674): the accumulator is the per-pixel bytes, `count`
and the mask that is shifted left. -/
def writePixel (stencilWriteValue : Nat) (sblock : Int) (acc : (Int → Nat) × Nat × Nat)
    (v : Nat) : (Int → Nat) × Nat × Nat :=
  if (acc.2.2 &&& (1 <<< 31)) ≠ 0 ∨ acc.1 (sblock * 64 + (v : Int)) = stencilWriteValue then
    (Function.update acc.1 (sblock * 64 + (v : Int)) stencilWriteValue, acc.2.1 + 1,
      (acc.2.2 <<< 1) % 2 ^ 32)
  else (acc.1, acc.2.1, (acc.2.2 <<< 1) % 2 ^ 32)

/-- The tile of a partial block after a uniform tile has been materialized
(lines 648-655). -/
def materialize (s : StencilBuffer) (sblock : Int) : StencilBuffer :=
  if (s.stencilMasks sblock &&& 0xffffff00) = 0xffffff00 then
    { stencilValues := (List.range 64).foldl
        (fun values (v : Nat) => Function.update values (sblock * 64 + (v : Int))
          (s.stencilMasks sblock &&& 0xff))
        s.stencilValues
      stencilMasks := Function.update s.stencilMasks sblock 0 }
  else s

/-- The body of the loop over the partial blocks of `StencilWrite`
(lines 639-678). -/
def writeBlock (stencilWriteValue : Nat) (stencilPitch : Int) (s : StencilBuffer)
    (block : TriPartialBlock) : StencilBuffer :=
  let mask0 := block.Mask0
  let mask1 := block.Mask1
  let sblock := Int.tdiv block.X 8 + Int.tdiv block.Y 8 * stencilPitch
  let s1 := materialize s sblock
  let r0 := (List.range' 0 32).foldl (writePixel stencilWriteValue sblock)
    (s1.stencilValues, 0, mask0)
  let r1 := (List.range' 32 32).foldl (writePixel stencilWriteValue sblock) (r0.1, r0.2.1, mask1)
  if r1.2.1 = 64 then
    { stencilValues := r1.1
      stencilMasks := Function.update s1.stencilMasks sblock (0xffffff00 ||| stencilWriteValue) }
  else { stencilValues := r1.1, stencilMasks := s1.stencilMasks }

/-- The stencil writer `ScreenTriangle::StencilWrite` (lines 612-680): the
stencil buffer after the call. -/
def StencilWrite (args : TriDrawTriangleArgs) (thread : WorkerThreadData) : StencilBuffer :=
  let s0 : StencilBuffer :=
    { stencilValues := args.stencilValues, stencilMasks := args.stencilMasks }
  let s1 := (List.range thread.NumFullSpans).foldl
    (fun s i => writeSpan args.stencilWriteValue args.stencilPitch s (thread.FullSpans i)) s0
  (List.range thread.NumPartialBlocks).foldl
    (fun s i => writeBlock args.stencilWriteValue args.stencilPitch s (thread.PartialBlocks i)) s1

/-- The stencil value that a buffer denotes at byte `k` of the tile `b`. -/
def tileValue (s : StencilBuffer) (b k : Int) : Nat :=
  if (s.stencilMasks b &&& 0xffffff00) = 0xffffff00 then s.stencilMasks b &&& 0xff
  else s.stencilValues (b * 64 + k)

/-- A span list whose single span, three tiles long, runs past the end of a
stencil row that is two tiles wide. -/
def overlongThread : WorkerThreadData :=
  { core := 0, num_cores := 1
    FullSpans := fun _ => ⟨0, 0, 3⟩
    PartialBlocks := fun _ => ⟨0, 0, 0, 0⟩
    NumFullSpans := 1, NumPartialBlocks := 0
    StartX := 0, StartY := 0 }

/-- The entries of a span/block list are tile-aligned, not negative, and lie
within the row of `stencilPitch` tiles. -/
def WithinRows (stencilPitch : Int) (thread : WorkerThreadData) : Prop :=
  (∀ i, i < thread.NumFullSpans →
      0 ≤ (thread.FullSpans i).X ∧ 0 ≤ (thread.FullSpans i).Y ∧
      8 ∣ (thread.FullSpans i).X ∧ 8 ∣ (thread.FullSpans i).Y ∧
      (thread.FullSpans i).X + 8 * ((thread.FullSpans i).Length : Int) ≤ 8 * stencilPitch) ∧
    (∀ i, i < thread.NumPartialBlocks →
      0 ≤ (thread.PartialBlocks i).X ∧ 0 ≤ (thread.PartialBlocks i).Y ∧
      8 ∣ (thread.PartialBlocks i).X ∧ 8 ∣ (thread.PartialBlocks i).Y ∧
      (thread.PartialBlocks i).X + 8 ≤ 8 * stencilPitch)

/-- A span list within a stencil row of two tiles: one span of two tiles and
one partial block below it. -/
def sampleList : WorkerThreadData :=
  { core := 0, num_cores := 1
    FullSpans := fun _ => ⟨0, 0, 2⟩
    PartialBlocks := fun _ => ⟨0, 8, 0xf0000000, 0⟩
    NumFullSpans := 1, NumPartialBlocks := 1
    StartX := 0, StartY := 0 }

/-- A legal stencil mask word: `0` for a heterogeneous tile, or
`0xFFFFFF00 | v` with a byte `v` for a uniform tile. -/
def LegalMask (m : Nat) : Prop :=
  m = 0 ∨ ∃ v, v < 256 ∧ m = 0xFFFFFF00 ||| v

/-- The stencil buffer of the sample arguments. -/
def sampleBuffer : StencilBuffer :=
  { stencilValues := sampleArgs.stencilValues, stencilMasks := sampleArgs.stencilMasks }

/-- A partial block in the second tile row that covers the first four pixels
of its tile. -/
def sampleBlock : TriPartialBlock := ⟨0, 8, 0xf0000000, 0⟩

/-! ## The subsector writer (lines 682-736) -/

/-- One pixel row of a full span in `SubsectorWrite` (lines 700-705): the
accumulator is the buffer and the offset of the row pointer `subsector`. -/
def subsectorSpanRow (subsectorDepth : Nat) (pitch : Int) (width : Nat)
    (acc : (Int → Nat) × Int) (_y : Nat) : (Int → Nat) × Int :=
  ((List.range width).foldl
      (fun buffer (x : Nat) => Function.update buffer (acc.2 + (x : Int)) subsectorDepth) acc.1,
    acc.2 + pitch)

/-- The body of the loop over the full spans of `SubsectorWrite`
(lines 695-705). -/
def subsectorSpan (subsectorDepth : Nat) (pitch : Int) (buffer : Int → Nat)
    (span : TriFullSpan) : Int → Nat :=
  let subsector := span.X + span.Y * pitch
  let width := span.Length * 8
  let height := 8
  ((List.range height).foldl (subsectorSpanRow subsectorDepth pitch width) (buffer, subsector)).1

/-- One pixel of a partial block in `SubsectorWrite` (lines 719-721 and
729-731): the accumulator is the buffer and the mask that is shifted left. -/
def subsectorMaskPixel (subsectorDepth : Nat) (subsector : Int) (acc : (Int → Nat) × Nat)
    (x : Nat) : (Int → Nat) × Nat :=
  (if (acc.2 &&& (1 <<< 31)) ≠ 0 then Function.update acc.1 (subsector + (x : Int)) subsectorDepth
    else acc.1,
    (acc.2 <<< 1) % 2 ^ 32)

/-- One pixel row of a partial block in `SubsectorWrite` (lines 717-723 and
727-733): the accumulator is the buffer, the mask and the row pointer. -/
def subsectorMaskRow (subsectorDepth : Nat) (pitch : Int) (acc : (Int → Nat) × Nat × Int)
    (_y : Nat) : (Int → Nat) × Nat × Int :=
  let inner := (List.range 8).foldl (subsectorMaskPixel subsectorDepth acc.2.2) (acc.1, acc.2.1)
  (inner.1, inner.2, acc.2.2 + pitch)

/-- The body of the loop over the partial blocks of `SubsectorWrite`
(lines 710-734). -/
def subsectorPartial (subsectorDepth : Nat) (pitch : Int) (buffer : Int → Nat)
    (block : TriPartialBlock) : Int → Nat :=
  let subsector := block.X + block.Y * pitch
  let mask0 := block.Mask0
  let mask1 := block.Mask1
  let top := [0, 1, 2, 3].foldl (subsectorMaskRow subsectorDepth pitch) (buffer, mask0, subsector)
  let bottom := [4, 5, 6, 7].foldl (subsectorMaskRow subsectorDepth pitch) (top.1, mask1, top.2.2)
  bottom.1

/-- The subsector writer `ScreenTriangle::SubsectorWrite` (lines 682-736): the
subsector buffer after the call. -/
def SubsectorWrite (args : TriDrawTriangleArgs) (thread : WorkerThreadData) : Int → Nat :=
  let b1 := (List.range thread.NumFullSpans).foldl
    (fun buffer i => subsectorSpan args.subsectorDepth args.pitch buffer (thread.FullSpans i))
    args.subsectorGBuffer
  (List.range thread.NumPartialBlocks).foldl
    (fun buffer i => subsectorPartial args.subsectorDepth args.pitch buffer (thread.PartialBlocks i))
    b1

/-- The entries of a span/block list lie within a row of `pitch` pixels. -/
def WithinPitch (pitch : Int) (thread : WorkerThreadData) : Prop :=
  (∀ i, i < thread.NumFullSpans →
      0 ≤ (thread.FullSpans i).X ∧
      (thread.FullSpans i).X + 8 * ((thread.FullSpans i).Length : Int) ≤ pitch) ∧
    (∀ i, i < thread.NumPartialBlocks →
      0 ≤ (thread.PartialBlocks i).X ∧ (thread.PartialBlocks i).X + 8 ≤ pitch)

/-- The sample arguments with a subsector buffer filled with 10 and
`subsectorDepth = 11`. -/
def depthRejectArgs : TriDrawTriangleArgs :=
  { sampleArgs with subsectorGBuffer := fun _ => 10, subsectorDepth := 11 }

/-- The entries of an output are well formed: every span has a length of at
least 1, every span and block lies at non-negative multiples of 8, and the mask
pair of a block is neither `(0, 0)` nor `(0xFFFFFFFF, 0xFFFFFFFF)`. -/
def WellFormed (out : WorkerThreadData) : Prop :=
  (∀ i, i < out.NumFullSpans →
      1 ≤ (out.FullSpans i).Length ∧
      0 ≤ (out.FullSpans i).X ∧ 8 ∣ (out.FullSpans i).X ∧
      0 ≤ (out.FullSpans i).Y ∧ 8 ∣ (out.FullSpans i).Y) ∧
    (∀ i, i < out.NumPartialBlocks →
      0 ≤ (out.PartialBlocks i).X ∧ 8 ∣ (out.PartialBlocks i).X ∧
      0 ≤ (out.PartialBlocks i).Y ∧ 8 ∣ (out.PartialBlocks i).Y ∧
      ¬ ((out.PartialBlocks i).Mask0 = 0 ∧ (out.PartialBlocks i).Mask1 = 0) ∧
      ¬ ((out.PartialBlocks i).Mask0 = 0xFFFFFFFF ∧ (out.PartialBlocks i).Mask1 = 0xFFFFFFFF))

/-- The tile at `(X1, Y1)` comes before the position `(X2, Y2)` in the order
of the walk: on an earlier row, or on the same row further left. -/
def precedes (X1 Y1 X2 Y2 : Int) : Prop :=
  Y1 < Y2 ∨ (Y1 = Y2 ∧ X1 < X2)

/-- What holds of the order of the entries of a cursor that is about to
handle the block at `(x, y)`: the blocks are strictly increasing and lie
before `(x, y)`; the last tile of every non-empty span lies before `(x, y)`
and before the first tile of every later non-empty span. -/
structure OrdInv (st : BinState) (x y : Int) : Prop where
  adj : (st.FullSpans st.span).Length ≠ 0 →
    (st.FullSpans st.span).Y = y ∧
      (st.FullSpans st.span).X + 8 * ((st.FullSpans st.span).Length : Int) = x
  done : ∀ i, i < st.span → (st.FullSpans i).Length ≠ 0
  blockPos : ∀ i, i < st.block → precedes (st.PartialBlocks i).X (st.PartialBlocks i).Y x y
  blockOrd : ∀ i j, i < j → j < st.block →
    precedes (st.PartialBlocks i).X (st.PartialBlocks i).Y
      (st.PartialBlocks j).X (st.PartialBlocks j).Y
  spanPos : ∀ i, i ≤ st.span → (st.FullSpans i).Length ≠ 0 →
    precedes ((st.FullSpans i).X + 8 * (((st.FullSpans i).Length : Int) - 1)) (st.FullSpans i).Y
      x y
  spanOrd : ∀ i j, i < j → j ≤ st.span → (st.FullSpans j).Length ≠ 0 →
    precedes ((st.FullSpans i).X + 8 * (((st.FullSpans i).Length : Int) - 1)) (st.FullSpans i).Y
      (st.FullSpans j).X (st.FullSpans j).Y

/-- The emission order of an output of the worker: the blocks are strictly
increasing in the lexicographic order of `(Y, X)`; so are the spans; two spans
of the same row do not overlap, the later one starts to the right of the last
tile of the earlier one; and every tile of a span is a tile of the row `Y` of
the span that the worker walks. -/
def EmissionOrder (args : TriDrawTriangleArgs) (thread out : WorkerThreadData) : Prop :=
  (∀ i j, i < j → j < out.NumPartialBlocks →
      precedes (out.PartialBlocks i).X (out.PartialBlocks i).Y
        (out.PartialBlocks j).X (out.PartialBlocks j).Y) ∧
    (∀ i j, i < j → j < out.NumFullSpans →
      precedes (out.FullSpans i).X (out.FullSpans i).Y (out.FullSpans j).X (out.FullSpans j).Y) ∧
    (∀ i j, i < j → j < out.NumFullSpans → (out.FullSpans i).Y = (out.FullSpans j).Y →
      (out.FullSpans i).X + 8 * (((out.FullSpans i).Length : Int) - 1) < (out.FullSpans j).X) ∧
    (∀ i, i < out.NumFullSpans → ∀ k : Nat, k < (out.FullSpans i).Length →
      visits args thread ((out.FullSpans i).X + 8 * (k : Int)) (out.FullSpans i).Y)

/-- The arguments `args` with the triangle replaced by the one with the
fixed-point vertices `(X1, Y1)`, `(X2, Y2)`, `(X3, Y3)`. -/
def withVertices (args : TriDrawTriangleArgs) (X1 Y1 X2 Y2 X3 Y3 : Int) : TriDrawTriangleArgs :=
  { args with X1 := X1, Y1 := Y1, X2 := X2, Y2 := Y2, X3 := X3, Y3 := Y3 }

/-- The sample arguments with a clip rectangle of 17 x 17 pixels and a stencil
row of three tiles. -/
def wideArgs : TriDrawTriangleArgs :=
  { sampleArgs with clipright := 17, clipbottom := 17, stencilPitch := 3 }

/-- The sample arguments with a heterogeneous stencil buffer that holds the
byte 5 in the columns 0..3 and the byte 3 in the columns 4..7 of every tile,
tested against 5. -/
def halfArgs : TriDrawTriangleArgs :=
  { sampleArgs with
    stencilMasks := fun _ => 0
    stencilValues := fun a => if a % 8 < 4 then 5 else 3
    stencilTestValue := 5 }

/-- The doubled signed area `S = C1 + C2 + C3` of the triangle, with the
half-edge constants taken before the fill-convention correction
(lines 122-124). -/
def doubledArea (args : TriDrawTriangleArgs) : Int :=
  DY12 args * args.X1 - DX12 args * args.Y1 + (DY23 args * args.X2 - DX23 args * args.Y2) +
    (DY31 args * args.X3 - DX31 args * args.Y3)

/-- What holds of the gaps between the spans of a cursor that is about to
handle the block at `(x, y)`: the tile that follows every finished span lies
before `(x, y)`, and every non-empty span starts behind the tile that follows
each earlier span. -/
structure GapInv (st : BinState) (x y : Int) : Prop where
  gapPos : ∀ i, i < st.span →
    precedes ((st.FullSpans i).X + 8 * ((st.FullSpans i).Length : Int)) (st.FullSpans i).Y x y
  gapOrd : ∀ i j, i < j → j ≤ st.span → (st.FullSpans j).Length ≠ 0 →
    precedes ((st.FullSpans i).X + 8 * ((st.FullSpans i).Length : Int)) (st.FullSpans i).Y
      (st.FullSpans j).X (st.FullSpans j).Y

/-- No tile appears in more than one entry of an output: the tiles of distinct
spans are distinct, distinct blocks lie at distinct tiles, no block lies at a
tile of a span, and the tile that follows a span on its row is a tile of no
span. -/
def TileDisjoint (out : WorkerThreadData) : Prop :=
  (∀ i j, i < out.NumFullSpans → j < out.NumFullSpans → i ≠ j →
      ∀ k n : Nat, k < (out.FullSpans i).Length → n < (out.FullSpans j).Length →
        ¬ ((out.FullSpans i).X + 8 * (k : Int) = (out.FullSpans j).X + 8 * (n : Int) ∧
          (out.FullSpans i).Y = (out.FullSpans j).Y)) ∧
    (∀ i j, i < out.NumPartialBlocks → j < out.NumPartialBlocks → i ≠ j →
      ¬ ((out.PartialBlocks i).X = (out.PartialBlocks j).X ∧
        (out.PartialBlocks i).Y = (out.PartialBlocks j).Y)) ∧
    (∀ i j, i < out.NumPartialBlocks → j < out.NumFullSpans →
      ∀ k : Nat, k < (out.FullSpans j).Length →
        ¬ ((out.PartialBlocks i).X = (out.FullSpans j).X + 8 * (k : Int) ∧
          (out.PartialBlocks i).Y = (out.FullSpans j).Y)) ∧
    (∀ i j, i < out.NumFullSpans → j < out.NumFullSpans →
      ∀ k : Nat, k < (out.FullSpans j).Length →
        ¬ ((out.FullSpans j).X + 8 * (k : Int) =
            (out.FullSpans i).X + 8 * ((out.FullSpans i).Length : Int) ∧
          (out.FullSpans j).Y = (out.FullSpans i).Y))


/-! ## What the binners read -/

/-- The arguments with other stencil buffers and another subsector buffer. -/
def withBuffers (args : TriDrawTriangleArgs) (masks2 values2 g2 : Int → Nat) :
    TriDrawTriangleArgs :=
  { args with stencilMasks := masks2, stencilValues := values2, subsectorGBuffer := g2 }

/-- Two stencil buffers hold the same mask word and the same 64 bytes for
every tile index `b` with `0 ≤ b < n`. -/
def AgreeOnTiles (masks1 values1 masks2 values2 : Int → Nat) (n : Int) : Prop :=
  ∀ b, 0 ≤ b → b < n →
    masks2 b = masks1 b ∧ ∀ k, 0 ≤ k → k < 64 → values2 (b * 64 + k) = values1 (b * 64 + k)

/-- Two subsector buffers hold the same entry for every pixel of the clip
rectangle `[0, clipright) x [0, clipbottom)`. -/
def AgreeInClip (g1 g2 : Int → Nat) (pitch clipright clipbottom : Int) : Prop :=
  ∀ px py, 0 ≤ px → px < clipright → 0 ≤ py → py < clipbottom →
    g2 (px + py * pitch) = g1 (px + py * pitch)

/-- Whether the partially covered path of `SetupSubsector` evaluates
`subsector[ix]` in row `iy` of the block at `(x, y)` (lines 532, 556): the
entry is the last operand of the `&&` chain, read only when every operand
before it holds. -/
def subsectorEntryRead (args : TriDrawTriangleArgs) (x y : Int) (ix iy : Nat) : Bool :=
  decide (edge1 args (x + ix) (y + iy) > 0) && decide (edge2 args (x + ix) (y + iy) > 0) &&
    decide (edge3 args (x + ix) (y + iy) > 0) &&
    decide (x + (ix : Int) < args.clipright) && decide (y + (iy : Int) < args.clipbottom) &&
    (blockIsSingleStencil args (stencilBlockIndex args x y) ||
      decide (args.stencilValues (stencilBlockIndex args x y * 64 + ((ix : Int) + (iy : Int) * q))
        ≥ args.stencilTestValue))

/-- Whether `SetupSubsector` reads `subsector[ix]` in row `iy` of the block at
`(x, y)`: never in a rejected block (line 440), always in a totally covered
block (lines 464, 475), and in a partially covered block when the operands
before it hold. -/
def subsectorReads (args : TriDrawTriangleArgs) (x y : Int) (ix iy : Nat) : Bool :=
  let a := cornerMask (C1 args) (DX12 args) (DY12 args) x y
  let b := cornerMask (C2 args) (DX23 args) (DY23 args) x y
  let c := cornerMask (C3 args) (DX31 args) (DY31 args) x y
  let block := stencilBlockIndex args x y
  let single := blockIsSingleStencil args block
  let skipBlock := single && decide ((args.stencilMasks block &&& 0xff) < args.stencilTestValue)
  if a = 0 ∨ b = 0 ∨ c = 0 ∨ skipBlock = true then false
  else if a = 0xf ∧ b = 0xf ∧ c = 0xf ∧ x + q ≤ args.clipright ∧ y + q ≤ args.clipbottom ∧
      single = true then true
  else subsectorEntryRead args x y ix iy

/-! ## Scratch capacity -/

/-- The number of block columns of the snapped bounding box: the blocks at
`x = minx, minx + q, ...` below `maxx` that the block loop ranges over
(line 144). -/
def tileColumns (args : TriDrawTriangleArgs) : Nat :=
  ((maxx args - snap (minx args) + 7) / 8).toNat

/-- The number of block rows of the snapped bounding box (line 142, for a
single worker). -/
def tileRows (args : TriDrawTriangleArgs) : Nat :=
  ((maxy args - snap (miny args) + 7) / 8).toNat

/-- The number of 8x8 blocks of the clipped, snapped bounding box. -/
def tileCount (args : TriDrawTriangleArgs) : Nat :=
  tileColumns args * tileRows args

/-- The slots that the cursor has used up: the finished spans, the blocks, and
the current span when it is not empty. -/
def slotsUsed (st : BinState) : Nat :=
  st.span + st.block + (if (st.FullSpans st.span).Length ≠ 0 then 1 else 0)

/-- The capacity invariant of the emission step, against the scratch arrays
`F0`, `P0` that the binner started from: at most `n` slots are used up, the
span slots after the current one hold what they held at the start, and so do
the block slots from the next free one on. -/
structure CapInv (F0 : Nat → TriFullSpan) (P0 : Nat → TriPartialBlock) (st : BinState)
    (n : Nat) : Prop where
  used : slotsUsed st ≤ n
  spanFrame : ∀ i, st.span < i → st.FullSpans i = F0 i
  blockFrame : ∀ i, st.block ≤ i → st.PartialBlocks i = P0 i

/-- The binner leaves the slots of `FullSpans` from `nspans` on and the slots
of `PartialBlocks` from `nblocks` on as they were: it stores to no index
`i ≥ nspans` of `FullSpans` and to no index `i ≥ nblocks` of
`PartialBlocks`. -/
def ScratchWithin (args : TriDrawTriangleArgs) (thread : WorkerThreadData)
    (nspans nblocks : Nat) : Prop :=
  (∀ i, nspans ≤ i → (SetupNormal args thread).FullSpans i = thread.FullSpans i) ∧
    (∀ i, nblocks ≤ i → (SetupNormal args thread).PartialBlocks i = thread.PartialBlocks i)

/-- The sample arguments with a clip rectangle of 8 x 8 pixels: the bounding
box is the single block at the origin, which the triangle covers. -/
def capArgs : TriDrawTriangleArgs :=
  { sampleArgs with clipright := 8, clipbottom := 8 }

/-- A single worker whose span slots all hold the length 5. -/
def capThread : WorkerThreadData :=
  { sampleThread with FullSpans := fun _ => ⟨0, 0, 5⟩ }

/-! ## The conversion of a vertex coordinate to 28.4 fixed point (lines 60-82) -/

/-- A finite `float` (binary32) value `man * 2 ^ exp`. -/
structure Float32 where
  man : Int
  exp : Int

/-- The number of binary digits of `n`, for `n < 2 ^ fuel`. -/
def binaryDigits : Nat → Nat → Nat
  | 0, _ => 0
  | fuel + 1, n => if n = 0 then 0 else binaryDigits fuel (n / 2) + 1

/-- The integer nearest to `n / d` for `d > 0`, a tie going to the even
neighbour: rounding to nearest-even, the default mode of the floating-point
unit. -/
def divNearestEven (n d : Int) : Int :=
  let f := n / d
  let r := n % d
  if 2 * r < d then f
  else if 2 * r > d then f + 1
  else if f % 2 = 0 then f else f + 1

/-- The binary32 value nearest to `man * 2 ^ exp` (ties to even): the
significand keeps 24 binary digits, and no digit below `2 ^ -149`. The range
is taken to be unbounded above. -/
def Float32.round (man exp : Int) : Float32 :=
  let shift := max ((binaryDigits 512 man.natAbs : Int) - 24) (-149 - exp)
  if shift ≤ 0 then ⟨man, exp⟩
  else ⟨divNearestEven man (2 ^ shift.toNat), exp + shift⟩

/-- The product of two `float` values, `_mm_mul_ps` and the scalar `*`. -/
def Float32.mul (a b : Float32) : Float32 :=
  Float32.round (a.man * b.man) (a.exp + b.exp)

/-- The sum of two `float` values, `_mm_add_ps`. -/
def Float32.add (a b : Float32) : Float32 :=
  let e := min a.exp b.exp
  Float32.round (a.man * 2 ^ (a.exp - e).toNat + b.man * 2 ^ (b.exp - e).toNat) e

/-- The constant `16.0f`. -/
def m16 : Float32 := ⟨1, 4⟩

/-- The constant `0.5f`. -/
def mhalf : Float32 := ⟨1, -1⟩

/-- The C expression `(int)round(x)`: `round` rounds to the nearest integer, a
tie going away from zero. -/
def intRound (x : Float32) : Int :=
  if x.exp ≥ 0 then x.man * 2 ^ x.exp.toNat
  else
    let d : Int := 2 ^ (-x.exp).toNat
    if x.man ≥ 0 then (2 * x.man + d) / (2 * d) else -((2 * (-x.man) + d) / (2 * d))

/-- One lane of `_mm_cvtps_epi32` under the default rounding mode: the nearest
integer, a tie going to the even neighbour; a value outside the range of `int`
gives `0x80000000`. -/
def cvtps_epi32 (x : Float32) : Int :=
  let r := if x.exp ≥ 0 then x.man * 2 ^ x.exp.toNat
    else divNearestEven x.man (2 ^ (-x.exp).toNat)
  if -2147483648 ≤ r ∧ r < 2147483648 then r else -2147483648

/-- The 28.4 coordinate of the scalar path, `(int)round(16.0f * v)`
(lines 62-68). -/
def fixedScalar (v : Float32) : Int :=
  intRound (Float32.mul m16 v)

/-- The 28.4 coordinate of the packed path,
`_mm_cvtps_epi32(_mm_add_ps(_mm_mul_ps(v, m16), mhalf))` (lines 73-81). -/
def fixedPacked (v : Float32) : Int :=
  cvtps_epi32 (Float32.add (Float32.mul v m16) mhalf)

/-! ## The binners over 32-bit `int` arithmetic

The source computes on `int`, which is 32 bits wide: the deltas, the
half-edge constants, the corner tests and the per-pixel stepping wrap around
modulo `2 ^ 32` when a value leaves `[-2 ^ 31, 2 ^ 31)`.  The definitions of
this section repeat the edge setup and the two binners with every operation
on a vertex coordinate or an edge value wrapped; the counters of the block
loops and the pixel positions, which are bounded by the clip rectangle, are
left exact. -/

/-- The value of an `int` after wrap-around: the representative of `v` modulo
`2 ^ 32` in `[-2 ^ 31, 2 ^ 31)`. -/
def wrap32 (v : Int) : Int := (v + 2147483648) % 4294967296 - 2147483648

/-- The C operation `a + b` on `int`. -/
def add32 (a b : Int) : Int := wrap32 (a + b)

/-- The C operation `a - b` on `int`. -/
def sub32 (a b : Int) : Int := wrap32 (a - b)

/-- The C operation `a * b` on `int`. -/
def mul32 (a b : Int) : Int := wrap32 (a * b)

/-- The C operation `a << 4` on `int`. -/
def shl32 (a : Int) : Int := wrap32 (a * 16)

/-- The value fits in an `int`. -/
def InRange (v : Int) : Prop := -2147483648 ≤ v ∧ v < 2147483648

def DX12_32 (args : TriDrawTriangleArgs) : Int := sub32 args.X1 args.X2

def DX23_32 (args : TriDrawTriangleArgs) : Int := sub32 args.X2 args.X3

def DX31_32 (args : TriDrawTriangleArgs) : Int := sub32 args.X3 args.X1

def DY12_32 (args : TriDrawTriangleArgs) : Int := sub32 args.Y1 args.Y2

def DY23_32 (args : TriDrawTriangleArgs) : Int := sub32 args.Y2 args.Y3

def DY31_32 (args : TriDrawTriangleArgs) : Int := sub32 args.Y3 args.Y1

def FDX12_32 (args : TriDrawTriangleArgs) : Int := shl32 (DX12_32 args)

def FDX23_32 (args : TriDrawTriangleArgs) : Int := shl32 (DX23_32 args)

def FDX31_32 (args : TriDrawTriangleArgs) : Int := shl32 (DX31_32 args)

def FDY12_32 (args : TriDrawTriangleArgs) : Int := shl32 (DY12_32 args)

def FDY23_32 (args : TriDrawTriangleArgs) : Int := shl32 (DY23_32 args)

def FDY31_32 (args : TriDrawTriangleArgs) : Int := shl32 (DY31_32 args)

/-- The half-edge constant `DY * X - DX * Y` on `int`, incremented by one
where the fill convention says so (lines 122-129). -/
def edgeConstant32 (DX DY X Y : Int) : Int :=
  let C := sub32 (mul32 DY X) (mul32 DX Y)
  if DY < 0 ∨ (DY = 0 ∧ DX > 0) then add32 C 1 else C

def C1_32 (args : TriDrawTriangleArgs) : Int :=
  edgeConstant32 (DX12_32 args) (DY12_32 args) args.X1 args.Y1

def C2_32 (args : TriDrawTriangleArgs) : Int :=
  edgeConstant32 (DX23_32 args) (DY23_32 args) args.X2 args.Y2

def C3_32 (args : TriDrawTriangleArgs) : Int :=
  edgeConstant32 (DX31_32 args) (DY31_32 args) args.X3 args.Y3

/-- Left bound of the bounding rectangle on `int` (line 103). -/
def minx32 (args : TriDrawTriangleArgs) : Int :=
  max (Int.shiftRight (add32 (min (min args.X1 args.X2) args.X3) 0xF) 4) 0

/-- Right bound of the bounding rectangle on `int` (line 104). -/
def maxx32 (args : TriDrawTriangleArgs) : Int :=
  min (Int.shiftRight (add32 (max (max args.X1 args.X2) args.X3) 0xF) 4) (args.clipright - 1)

/-- Top bound of the bounding rectangle on `int` (line 105). -/
def miny32 (args : TriDrawTriangleArgs) : Int :=
  max (Int.shiftRight (add32 (min (min args.Y1 args.Y2) args.Y3) 0xF) 4) 0

/-- Bottom bound of the bounding rectangle on `int` (line 106). -/
def maxy32 (args : TriDrawTriangleArgs) : Int :=
  min (Int.shiftRight (add32 (max (max args.Y1 args.Y2) args.Y3) 0xF) 4) (args.clipbottom - 1)

/-- The four corner tests of one edge on `int` (lines 147-169). -/
def cornerMask32 (C DX DY x y : Int) : Nat :=
  let x0 := shl32 x
  let x1 := shl32 (x + q - 1)
  let y0 := shl32 y
  let y1 := shl32 (y + q - 1)
  let a00 := decide (sub32 (add32 C (mul32 DX y0)) (mul32 DY x0) > 0)
  let a10 := decide (sub32 (add32 C (mul32 DX y0)) (mul32 DY x1) > 0)
  let a01 := decide (sub32 (add32 C (mul32 DX y1)) (mul32 DY x0) > 0)
  let a11 := decide (sub32 (add32 C (mul32 DX y1)) (mul32 DY x1) > 0)
  (a00.toNat <<< 0) ||| (a10.toNat <<< 1) ||| (a01.toNat <<< 2) ||| (a11.toNat <<< 3)

/-- One pixel of the partially covered path of `SetupNormal` on `int`
(lines 222-229). -/
def normalPixel32 (args : TriDrawTriangleArgs) (x y : Int) (iy : Nat)
    (a : Nat × Int × Int × Int) (ix : Nat) : Nat × Int × Int × Int :=
  let block := stencilBlockIndex args x y
  let passStencilTest := blockIsSingleStencil args block ||
    (args.stencilValues (block * 64 + ((ix : Int) + (iy : Int) * q)) == args.stencilTestValue)
  let covered := decide (a.2.1 > 0) && decide (a.2.2.1 > 0) && decide (a.2.2.2 > 0) &&
    decide (x + (ix : Int) < args.clipright) && decide (y + (iy : Int) < args.clipbottom) &&
    passStencilTest
  (pushBit a.1 covered, sub32 a.2.1 (FDY12_32 args), sub32 a.2.2.1 (FDY23_32 args),
    sub32 a.2.2.2 (FDY31_32 args))

/-- One pixel row of the partially covered path of `SetupNormal` on `int`
(lines 216-234). -/
def normalRow32 (args : TriDrawTriangleArgs) (x y : Int)
    (acc : Nat × Int × Int × Int) (iy : Nat) : Nat × Int × Int × Int :=
  let inner := (List.range 8).foldl (normalPixel32 args x y iy) acc
  (inner.1, add32 acc.2.1 (FDX12_32 args), add32 acc.2.2.1 (FDX23_32 args),
    add32 acc.2.2.2 (FDX31_32 args))

/-- The two masks of the partially covered path of `SetupNormal` on `int`
(lines 205-258). -/
def normalMasks32 (args : TriDrawTriangleArgs) (x y : Int) : Nat × Nat :=
  let x0 := shl32 x
  let y0 := shl32 y
  let CY1 := sub32 (add32 (C1_32 args) (mul32 (DX12_32 args) y0)) (mul32 (DY12_32 args) x0)
  let CY2 := sub32 (add32 (C2_32 args) (mul32 (DX23_32 args) y0)) (mul32 (DY23_32 args) x0)
  let CY3 := sub32 (add32 (C3_32 args) (mul32 (DX31_32 args) y0)) (mul32 (DY31_32 args) x0)
  let top := [0, 1, 2, 3].foldl (normalRow32 args x y) (0, CY1, CY2, CY3)
  let bottom := [4, 5, 6, 7].foldl (normalRow32 args x y) (0, top.2.1, top.2.2.1, top.2.2.2)
  (top.1, bottom.1)

/-- The body of the block loop of `SetupNormal` on `int` (lines 146-287). -/
def normalBlock32 (args : TriDrawTriangleArgs) (y x : Int) (st : BinState) : BinState :=
  let a := cornerMask32 (C1_32 args) (DX12_32 args) (DY12_32 args) x y
  let b := cornerMask32 (C2_32 args) (DX23_32 args) (DY23_32 args) x y
  let c := cornerMask32 (C3_32 args) (DX31_32 args) (DY31_32 args) x y
  let block := stencilBlockIndex args x y
  let single := blockIsSingleStencil args block
  let skipBlock := single && (args.stencilMasks block &&& 0xff) != args.stencilTestValue
  if a = 0 ∨ b = 0 ∨ c = 0 ∨ skipBlock = true then closeSpan st
  else if a = 0xf ∧ b = 0xf ∧ c = 0xf ∧ x + q ≤ args.clipright ∧ y + q ≤ args.clipbottom ∧
      single = true then
    growSpan st x y
  else
    emitMasks st x y (normalMasks32 args x y).1 (normalMasks32 args x y).2

/-- The binner `ScreenTriangle::SetupNormal` on `int` (lines 44-299), from the
fixed-point vertices on. -/
def SetupNormal32 (args : TriDrawTriangleArgs) (thread : WorkerThreadData) :
    WorkerThreadData :=
  if minx32 args ≥ maxx32 args ∨ miny32 args ≥ maxy32 args then
    { thread with NumFullSpans := 0, NumPartialBlocks := 0 }
  else
    let minx := snap (minx32 args)
    let miny := snap (miny32 args)
    let miny := miny + core_skip miny thread.core thread.num_cores * q
    let st0 : BinState :=
      { FullSpans := Function.update thread.FullSpans 0 { thread.FullSpans 0 with Length := 0 }
        span := 0
        PartialBlocks := thread.PartialBlocks
        block := 0 }
    let st := blockLoops (normalBlock32 args) minx (maxx32 args) miny (maxy32 args)
      thread.num_cores st0
    { thread with
      StartX := minx
      StartY := miny
      FullSpans := st.FullSpans
      PartialBlocks := st.PartialBlocks
      NumFullSpans := st.span
      NumPartialBlocks := st.block }

/-- One pixel of the partially covered path of `SetupSubsector` on `int`
(lines 531-538). -/
def subsectorPixel32 (args : TriDrawTriangleArgs) (x y : Int) (iy : Nat) (subsector : Int)
    (a : Nat × Int × Int × Int) (ix : Nat) : Nat × Int × Int × Int :=
  let block := stencilBlockIndex args x y
  let passStencilTest := blockIsSingleStencil args block ||
    decide (args.stencilValues (block * 64 + ((ix : Int) + (iy : Int) * q)) ≥ args.stencilTestValue)
  let covered := decide (a.2.1 > 0) && decide (a.2.2.1 > 0) && decide (a.2.2.2 > 0) &&
    decide (x + (ix : Int) < args.clipright) && decide (y + (iy : Int) < args.clipbottom) &&
    passStencilTest &&
    decide (args.subsectorGBuffer (subsector + (ix : Int)) ≥ args.subsectorDepth)
  (pushBit a.1 covered, sub32 a.2.1 (FDY12_32 args), sub32 a.2.2.1 (FDY23_32 args),
    sub32 a.2.2.2 (FDY31_32 args))

/-- One pixel row of the partially covered path of `SetupSubsector` on `int`
(lines 525-544). -/
def subsectorRow32 (args : TriDrawTriangleArgs) (x y : Int)
    (acc : Nat × Int × Int × Int × Int) (iy : Nat) : Nat × Int × Int × Int × Int :=
  let inner := (List.range 8).foldl (subsectorPixel32 args x y iy acc.2.2.2.2)
    (acc.1, acc.2.1, acc.2.2.1, acc.2.2.2.1)
  (inner.1, add32 acc.2.1 (FDX12_32 args), add32 acc.2.2.1 (FDX23_32 args),
    add32 acc.2.2.2.1 (FDX31_32 args), acc.2.2.2.2 + args.pitch)

/-- The two masks of the partially covered path of `SetupSubsector` on `int`
(lines 512-569). -/
def subsectorMasks32 (args : TriDrawTriangleArgs) (x y : Int) : Nat × Nat :=
  let x0 := shl32 x
  let y0 := shl32 y
  let CY1 := sub32 (add32 (C1_32 args) (mul32 (DX12_32 args) y0)) (mul32 (DY12_32 args) x0)
  let CY2 := sub32 (add32 (C2_32 args) (mul32 (DX23_32 args) y0)) (mul32 (DY23_32 args) x0)
  let CY3 := sub32 (add32 (C3_32 args) (mul32 (DX31_32 args) y0)) (mul32 (DY31_32 args) x0)
  let subsector := x + y * args.pitch
  let top := [0, 1, 2, 3].foldl (subsectorRow32 args x y) (0, CY1, CY2, CY3, subsector)
  let bottom := [4, 5, 6, 7].foldl (subsectorRow32 args x y)
    (0, top.2.1, top.2.2.1, top.2.2.2.1, top.2.2.2.2)
  (top.1, bottom.1)

/-- The body of the block loop of `SetupSubsector` on `int` (lines 407-598). -/
def subsectorBlock32 (args : TriDrawTriangleArgs) (y x : Int) (st : BinState) : BinState :=
  let a := cornerMask32 (C1_32 args) (DX12_32 args) (DY12_32 args) x y
  let b := cornerMask32 (C2_32 args) (DX23_32 args) (DY23_32 args) x y
  let c := cornerMask32 (C3_32 args) (DX31_32 args) (DY31_32 args) x y
  let block := stencilBlockIndex args x y
  let single := blockIsSingleStencil args block
  let skipBlock := single && decide ((args.stencilMasks block &&& 0xff) < args.stencilTestValue)
  if a = 0 ∨ b = 0 ∨ c = 0 ∨ skipBlock = true then closeSpan st
  else if a = 0xf ∧ b = 0xf ∧ c = 0xf ∧ x + q ≤ args.clipright ∧ y + q ≤ args.clipbottom ∧
      single = true then
    emitMasks st x y (subsectorTestMasks args x y).1 (subsectorTestMasks args x y).2
  else
    emitMasks st x y (subsectorMasks32 args x y).1 (subsectorMasks32 args x y).2

/-- The binner `ScreenTriangle::SetupSubsector` on `int` (lines 301-610), from
the fixed-point vertices on. -/
def SetupSubsector32 (args : TriDrawTriangleArgs) (thread : WorkerThreadData) :
    WorkerThreadData :=
  if minx32 args ≥ maxx32 args ∨ miny32 args ≥ maxy32 args then
    { thread with NumFullSpans := 0, NumPartialBlocks := 0 }
  else
    let minx := snap (minx32 args)
    let miny := snap (miny32 args)
    let miny := miny + core_skip miny thread.core thread.num_cores * q
    let st0 : BinState :=
      { FullSpans := Function.update thread.FullSpans 0 { thread.FullSpans 0 with Length := 0 }
        span := 0
        PartialBlocks := thread.PartialBlocks
        block := 0 }
    let st := blockLoops (subsectorBlock32 args) minx (maxx32 args) miny (maxy32 args)
      thread.num_cores st0
    { thread with
      StartX := minx
      StartY := miny
      FullSpans := st.FullSpans
      PartialBlocks := st.PartialBlocks
      NumFullSpans := st.span
      NumPartialBlocks := st.block }

/-- The half-space function of edge 1 at the pixel `(px, py)` as the 32-bit
code holds it. -/
def edge1_32 (args : TriDrawTriangleArgs) (px py : Int) : Int :=
  wrap32 (C1_32 args + DX12_32 args * (py * 16) - DY12_32 args * (px * 16))

/-- The half-space function of edge 2 at the pixel `(px, py)` as the 32-bit
code holds it. -/
def edge2_32 (args : TriDrawTriangleArgs) (px py : Int) : Int :=
  wrap32 (C2_32 args + DX23_32 args * (py * 16) - DY23_32 args * (px * 16))

/-- The half-space function of edge 3 at the pixel `(px, py)` as the 32-bit
code holds it. -/
def edge3_32 (args : TriDrawTriangleArgs) (px py : Int) : Int :=
  wrap32 (C3_32 args + DX31_32 args * (py * 16) - DY31_32 args * (px * 16))

/-- The coverage test of a pixel of the block at `(x, y)` as the 32-bit
`SetupNormal` states it. -/
def normalCovered32 (args : TriDrawTriangleArgs) (x y : Int) (ix iy : Nat) : Bool :=
  decide (edge1_32 args (x + ix) (y + iy) > 0) && decide (edge2_32 args (x + ix) (y + iy) > 0) &&
    decide (edge3_32 args (x + ix) (y + iy) > 0) &&
    decide (x + (ix : Int) < args.clipright) && decide (y + (iy : Int) < args.clipbottom) &&
    (blockIsSingleStencil args (stencilBlockIndex args x y) ||
      (args.stencilValues (stencilBlockIndex args x y * 64 + ((ix : Int) + (iy : Int) * q))
        == args.stencilTestValue))

/-- The coverage test of a pixel of the block at `(x, y)` as the partially
covered path of the 32-bit `SetupSubsector` states it. -/
def subsectorCovered32 (args : TriDrawTriangleArgs) (x y : Int) (ix iy : Nat) : Bool :=
  decide (edge1_32 args (x + ix) (y + iy) > 0) && decide (edge2_32 args (x + ix) (y + iy) > 0) &&
    decide (edge3_32 args (x + ix) (y + iy) > 0) &&
    decide (x + (ix : Int) < args.clipright) && decide (y + (iy : Int) < args.clipbottom) &&
    (blockIsSingleStencil args (stencilBlockIndex args x y) ||
      decide (args.stencilValues (stencilBlockIndex args x y * 64 + ((ix : Int) + (iy : Int) * q))
        ≥ args.stencilTestValue)) &&
    subsectorTest args x y ix iy

/-- No value that decides the output of a binner leaves the range of `int`:
the sums `+ 0xF` of the bounding rectangle, the six deltas, and the three
half-space functions at every pixel of the blocks of the bounding
rectangle. -/
def EdgesInRange (args : TriDrawTriangleArgs) : Prop :=
  (InRange (min (min args.X1 args.X2) args.X3 + 0xF) ∧
    InRange (max (max args.X1 args.X2) args.X3 + 0xF) ∧
    InRange (min (min args.Y1 args.Y2) args.Y3 + 0xF) ∧
    InRange (max (max args.Y1 args.Y2) args.Y3 + 0xF)) ∧
  (InRange (args.X1 - args.X2) ∧ InRange (args.X2 - args.X3) ∧ InRange (args.X3 - args.X1) ∧
    InRange (args.Y1 - args.Y2) ∧ InRange (args.Y2 - args.Y3) ∧ InRange (args.Y3 - args.Y1)) ∧
  ∀ px py : Int, snap (minx args) ≤ px → px < maxx args + 7 →
    snap (miny args) ≤ py → py < maxy args + 7 →
    InRange (edge1 args px py) ∧ InRange (edge2 args px py) ∧ InRange (edge3 args px py)

/-- The triangle (0,0), (0,3424), (3424,0) in pixels with a clip rectangle of
16 x 16 pixels: its constant `C2 = 54784 * 54784` does not fit in `int`. -/
def overflowArgs : TriDrawTriangleArgs :=
  { withVertices sampleArgs 0 0 0 54784 54784 0 with clipright := 16, clipbottom := 16 }

/-- The triangle of `overflowArgs` over the stencil buffer of `halfArgs`. -/
def overflowHalfArgs : TriDrawTriangleArgs :=
  withVertices halfArgs 0 0 0 54784 54784 0

/-- The clockwise triangle (-2400,-2400), (2400,-2400), (2400,2400) in pixels
with a clip rectangle of 8 x 8 pixels. -/
def clockwiseArgs : TriDrawTriangleArgs :=
  { withVertices sampleArgs (-38400) (-38400) 38400 (-38400) 38400 38400 with
    clipright := 8, clipbottom := 8 }

/-- A triangle with vertices about 800 000 pixels from the origin, with a clip
rectangle of 8 x 8 pixels. -/
def wrapTileArgs : TriDrawTriangleArgs :=
  { withVertices sampleArgs (-13250436) 8363299 15567607 1417941 (-10430669) (-72019) with
    clipright := 8, clipbottom := 8 }
/-! ## Emission lemmas -/

theorem maskBit_zero (ix iy : Nat) : maskBit 0 0 ix iy = false := by
  unfold maskBit; split <;> simp

theorem maskBit_ones (ix iy : Nat) : maskBit 0xffffffff 0xffffffff ix iy = true := by
  have h : (0xffffffff : Nat) = 2 ^ 32 - 1 := by norm_num
  unfold maskBit
  rw [h]
  split <;> rw [Nat.testBit_two_pow_sub_one] <;> exact decide_eq_true (by omega)

theorem inBlock_zero (x y px py : Int) : ¬ inBlock ⟨x, y, 0, 0⟩ px py := by
  intro h
  have := h.2.2.2.2
  simp [maskBit_zero] at this

theorem inBlock_ones (x y px py : Int) :
    inBlock ⟨x, y, 0xffffffff, 0xffffffff⟩ px py ↔ x ≤ px ∧ px < x + 8 ∧ y ≤ py ∧ py < y + 8 := by
  unfold inBlock
  simp only [maskBit_ones, and_true]

theorem inSpan_length_zero (s : TriFullSpan) (h : s.Length = 0) (px py : Int) :
    ¬ inSpan s px py := by
  intro hs
  have h1 := hs.1
  have h2 := hs.2.1
  rw [h] at h2
  simp at h2
  omega

theorem closeSpan_eq_emitMasks (st : BinState) (x y : Int) :
    closeSpan st = emitMasks st x y 0 0 := by
  unfold closeSpan emitMasks
  simp [Nat.pos_iff_ne_zero]

theorem growSpan_eq_emitMasks (st : BinState) (x y : Int) :
    growSpan st x y = emitMasks st x y 0xffffffff 0xffffffff := by
  unfold emitMasks
  simp


theorem nextSpan_FullSpans_of_ne (st : BinState) (i : Nat) (h : i ≠ st.span + 1) :
    (nextSpan st).FullSpans i = st.FullSpans i := by
  unfold nextSpan
  exact Function.update_noteq h _ _

theorem nextSpan_FullSpans_length (st : BinState) :
    ((nextSpan st).FullSpans (st.span + 1)).Length = 0 := by
  unfold nextSpan
  simp

theorem covSt_nextSpan (st : BinState) (px py : Int) :
    covSt (nextSpan st) px py ↔ covSt st px py := by
  unfold covSt
  have hspan : (nextSpan st).span = st.span + 1 := rfl
  have hblock : (nextSpan st).block = st.block := rfl
  have hpb : (nextSpan st).PartialBlocks = st.PartialBlocks := rfl
  rw [hspan, hblock, hpb]
  constructor
  · rintro (⟨i, hi, hs⟩ | hb)
    · by_cases hii : i = st.span + 1
      · subst hii
        exact absurd hs (inSpan_length_zero _ (nextSpan_FullSpans_length st) px py)
      · rw [nextSpan_FullSpans_of_ne st i hii] at hs
        exact Or.inl ⟨i, by omega, hs⟩
    · exact Or.inr hb
  · rintro (⟨i, hi, hs⟩ | hb)
    · refine Or.inl ⟨i, by omega, ?_⟩
      rw [nextSpan_FullSpans_of_ne st i (by omega)]
      exact hs
    · exact Or.inr hb

theorem BinInv.nextSpan {M0 M1 : Int → Int → Nat} {S : Int → Int → Prop} {st : BinState}
    {x y : Int} (h : BinInv M0 M1 S st x y) (hl : (st.FullSpans st.span).Length ≠ 0)
    (x' y' : Int) : BinInv M0 M1 S (nextSpan st) x' y' := by
  have hspan : (ScreenTriangle.nextSpan st).span = st.span + 1 := rfl
  refine ⟨?_, ?_, ?_, ?_, ?_⟩
  · intro hne
    rw [hspan] at hne
    exact absurd (nextSpan_FullSpans_length st) hne
  · intro px py
    rw [covSt_nextSpan]
    exact h.cov px py
  · intro i hi
    rw [hspan] at hi
    rw [nextSpan_FullSpans_of_ne st i (by omega)]
    by_cases hlt : i < st.span
    · exact h.done i hlt
    · have : i = st.span := by omega
      rw [this]; exact hl
  · intro i hi j hj
    rw [hspan] at hi
    by_cases hii : i = st.span + 1
    · subst hii
      rw [nextSpan_FullSpans_length] at hj
      exact absurd hj (Nat.not_lt_zero _)
    · rw [nextSpan_FullSpans_of_ne st i hii] at hj ⊢
      exact h.spans i (by omega) j hj
  · exact h.blocks

theorem closeSpan_length (st : BinState) :
    ((closeSpan st).FullSpans (closeSpan st).span).Length = 0 := by
  unfold closeSpan
  split
  · exact nextSpan_FullSpans_length st
  · rename_i h
    simpa using h

theorem BinInv.closeSpan {M0 M1 : Int → Int → Nat} {S : Int → Int → Prop} {st : BinState}
    {x y : Int} (h : BinInv M0 M1 S st x y) (x' y' : Int) :
    BinInv M0 M1 S (closeSpan st) x' y' := by
  unfold ScreenTriangle.closeSpan
  split
  · rename_i hl
    exact h.nextSpan hl x' y'
  · rename_i hl
    exact ⟨fun hne => absurd hne hl, h.cov, h.done, h.spans, h.blocks⟩


theorem exists_tile_insert (M0 M1 : Int → Int → Nat) (S : Int → Int → Prop) (x y px py : Int) :
    (∃ tx ty, (S tx ty ∨ (tx = x ∧ ty = y)) ∧ inBlock ⟨tx, ty, M0 tx ty, M1 tx ty⟩ px py) ↔
      (∃ tx ty, S tx ty ∧ inBlock ⟨tx, ty, M0 tx ty, M1 tx ty⟩ px py) ∨
        inBlock ⟨x, y, M0 x y, M1 x y⟩ px py := by
  constructor
  · rintro ⟨tx, ty, hS | ⟨rfl, rfl⟩, hb⟩
    · exact Or.inl ⟨tx, ty, hS, hb⟩
    · exact Or.inr hb
  · rintro (⟨tx, ty, hS, hb⟩ | hb)
    · exact ⟨tx, ty, Or.inl hS, hb⟩
    · exact ⟨x, y, Or.inr ⟨rfl, rfl⟩, hb⟩

theorem BinInv.insert_empty {M0 M1 : Int → Int → Nat} {S : Int → Int → Prop} {st : BinState}
    {x y : Int} (h : BinInv M0 M1 S st x y) (hl : (st.FullSpans st.span).Length = 0)
    (h0 : M0 x y = 0) (h1 : M1 x y = 0) (x' y' : Int) :
    BinInv M0 M1 (fun tx ty => S tx ty ∨ (tx = x ∧ ty = y)) st x' y' := by
  refine ⟨fun hne => absurd hl hne, ?_, h.done, ?_, ?_⟩
  · intro px py
    rw [exists_tile_insert, h0, h1, h.cov]
    exact ⟨Or.inl, fun hh => hh.resolve_right (inBlock_zero x y px py)⟩
  · intro i hi j hj
    have := h.spans i hi j hj
    exact ⟨Or.inl this.1, this.2⟩
  · intro i hi
    have := h.blocks i hi
    exact ⟨Or.inl this.1, this.2⟩

theorem BinInv.insert_block {M0 M1 : Int → Int → Nat} {S : Int → Int → Prop} {st : BinState}
    {x y : Int} (h : BinInv M0 M1 S st x y) (hl : (st.FullSpans st.span).Length = 0)
    (hz : ¬ (M0 x y = 0 ∧ M1 x y = 0)) (ho : ¬ (M0 x y = 0xffffffff ∧ M1 x y = 0xffffffff))
    (x' y' : Int) :
    BinInv M0 M1 (fun tx ty => S tx ty ∨ (tx = x ∧ ty = y))
      { st with
        PartialBlocks := Function.update st.PartialBlocks st.block ⟨x, y, M0 x y, M1 x y⟩
        block := st.block + 1 } x' y' := by
  refine ⟨fun hne => absurd hl hne, ?_, h.done, ?_, ?_⟩
  · intro px py
    rw [exists_tile_insert, ← h.cov]
    unfold covSt
    simp only
    constructor
    · rintro (hs | ⟨i, hi, hb⟩)
      · exact Or.inl (Or.inl hs)
      · by_cases hii : i = st.block
        · subst hii
          rw [Function.update_same] at hb
          exact Or.inr hb
        · rw [Function.update_noteq hii] at hb
          exact Or.inl (Or.inr ⟨i, by omega, hb⟩)
    · rintro ((hs | ⟨i, hi, hb⟩) | hb)
      · exact Or.inl hs
      · refine Or.inr ⟨i, by omega, ?_⟩
        rw [Function.update_noteq (by omega)]
        exact hb
      · refine Or.inr ⟨st.block, by omega, ?_⟩
        rw [Function.update_same]
        exact hb
  · intro i hi j hj
    have := h.spans i hi j hj
    exact ⟨Or.inl this.1, this.2⟩
  · intro i hi
    simp only at hi ⊢
    by_cases hii : i = st.block
    · subst hii
      rw [Function.update_same]
      exact ⟨Or.inr ⟨rfl, rfl⟩, rfl, rfl, hz, ho⟩
    · rw [Function.update_noteq hii]
      have := h.blocks i (by omega)
      exact ⟨Or.inl this.1, this.2⟩

theorem BinInv.growSpan {M0 M1 : Int → Int → Nat} {S : Int → Int → Prop} {st : BinState}
    {x y : Int} (h : BinInv M0 M1 S st x y)
    (h0 : M0 x y = 0xffffffff) (h1 : M1 x y = 0xffffffff) :
    BinInv M0 M1 (fun tx ty => S tx ty ∨ (tx = x ∧ ty = y)) (growSpan st x y) (x + 8) y := by
  unfold ScreenTriangle.growSpan
  split
  · rename_i hl
    obtain ⟨hY, hX⟩ := h.adj hl
    refine ⟨?_, ?_, ?_, ?_, ?_⟩
    · intro _
      simp only [Function.update_same]
      refine ⟨hY, ?_⟩
      push_cast
      omega
    · intro px py
      rw [exists_tile_insert, ← h.cov, h0, h1, inBlock_ones]
      unfold covSt
      simp only
      constructor
      · rintro (⟨i, hi, hs⟩ | hb)
        · by_cases hii : i = st.span
          · subst hii
            rw [Function.update_same] at hs
            unfold inSpan at hs
            simp only at hs
            push_cast at hs
            by_cases hpx : px < x
            · refine Or.inl (Or.inl ⟨st.span, le_refl _, ?_⟩)
              unfold inSpan
              exact ⟨hs.1, by omega, hs.2.2⟩
            · refine Or.inr ⟨by omega, by omega, by omega, by omega⟩
          · rw [Function.update_noteq hii] at hs
            exact Or.inl (Or.inl ⟨i, hi, hs⟩)
        · exact Or.inl (Or.inr hb)
      · rintro ((⟨i, hi, hs⟩ | hb) | hb)
        · refine Or.inl ⟨i, hi, ?_⟩
          by_cases hii : i = st.span
          · subst hii
            rw [Function.update_same]
            unfold inSpan at hs ⊢
            simp only
            push_cast
            exact ⟨hs.1, by omega, hs.2.2⟩
          · rw [Function.update_noteq hii]
            exact hs
        · exact Or.inr hb
        · refine Or.inl ⟨st.span, le_refl _, ?_⟩
          rw [Function.update_same]
          unfold inSpan
          simp only
          push_cast
          have hL : (0 : Int) ≤ ((st.FullSpans st.span).Length : Int) := Int.natCast_nonneg _
          refine ⟨by omega, by omega, by omega, by omega⟩
    · intro i hi
      simp only at hi ⊢
      rw [Function.update_noteq (by omega)]
      exact h.done i hi
    · intro i hi j hj
      simp only at hi hj ⊢
      by_cases hii : i = st.span
      · subst hii
        rw [Function.update_same] at hj ⊢
        simp only at hj ⊢
        by_cases hjl : j < (st.FullSpans st.span).Length
        · have := h.spans st.span (le_refl _) j hjl
          exact ⟨Or.inl this.1, this.2⟩
        · have hje : j = (st.FullSpans st.span).Length := by omega
          have hxe : (st.FullSpans st.span).X + 8 * (j : Int) = x := by rw [hje]; exact hX
          rw [hxe, hY]
          exact ⟨Or.inr ⟨rfl, rfl⟩, h0, h1⟩
      · rw [Function.update_noteq hii] at hj ⊢
        have := h.spans i hi j hj
        exact ⟨Or.inl this.1, this.2⟩
    · intro i hi
      have := h.blocks i hi
      exact ⟨Or.inl this.1, this.2⟩
  · rename_i hl
    have hl0 : (st.FullSpans st.span).Length = 0 := by simpa using hl
    refine ⟨?_, ?_, ?_, ?_, ?_⟩
    · intro _
      simp only [Function.update_same]
      norm_num
    · intro px py
      rw [exists_tile_insert, ← h.cov, h0, h1, inBlock_ones]
      unfold covSt
      simp only
      constructor
      · rintro (⟨i, hi, hs⟩ | hb)
        · by_cases hii : i = st.span
          · subst hii
            rw [Function.update_same] at hs
            unfold inSpan at hs
            simp only at hs
            exact Or.inr ⟨hs.1, by omega, hs.2.2.1, hs.2.2.2⟩
          · rw [Function.update_noteq hii] at hs
            exact Or.inl (Or.inl ⟨i, hi, hs⟩)
        · exact Or.inl (Or.inr hb)
      · rintro ((⟨i, hi, hs⟩ | hb) | hb)
        · refine Or.inl ⟨i, hi, ?_⟩
          by_cases hii : i = st.span
          · subst hii
            exact absurd hs (inSpan_length_zero _ hl0 px py)
          · rw [Function.update_noteq hii]
            exact hs
        · exact Or.inr hb
        · refine Or.inl ⟨st.span, le_refl _, ?_⟩
          rw [Function.update_same]
          unfold inSpan
          simp only
          exact ⟨hb.1, by omega, hb.2.2.1, hb.2.2.2⟩
    · intro i hi
      simp only at hi ⊢
      rw [Function.update_noteq (by omega)]
      exact h.done i hi
    · intro i hi j hj
      simp only at hi hj ⊢
      by_cases hii : i = st.span
      · subst hii
        rw [Function.update_same] at hj ⊢
        simp only at hj ⊢
        have hj0 : j = 0 := by omega
        subst hj0
        simp only [Nat.cast_zero, mul_zero, add_zero]
        exact ⟨Or.inr (by simp), h0, h1⟩
      · rw [Function.update_noteq hii] at hj ⊢
        have := h.spans i hi j hj
        exact ⟨Or.inl this.1, this.2⟩
    · intro i hi
      have := h.blocks i hi
      exact ⟨Or.inl this.1, this.2⟩

theorem BinInv.emitMasks {M0 M1 : Int → Int → Nat} {S : Int → Int → Prop} {st : BinState}
    {x y : Int} (h : BinInv M0 M1 S st x y) :
    BinInv M0 M1 (fun tx ty => S tx ty ∨ (tx = x ∧ ty = y))
      (emitMasks st x y (M0 x y) (M1 x y)) (x + 8) y := by
  unfold ScreenTriangle.emitMasks
  split
  · rename_i hno
    have hno' : ¬ (M0 x y = 0xffffffff ∧ M1 x y = 0xffffffff) := by
      intro hh; rcases hno with h1 | h1 <;> exact h1 (by simp [hh.1, hh.2])
    have hc : BinInv M0 M1 S (ScreenTriangle.closeSpan st) x y := h.closeSpan x y
    have hcl := closeSpan_length st
    have hce : (if (st.FullSpans st.span).Length > 0 then ScreenTriangle.nextSpan st else st)
        = ScreenTriangle.closeSpan st := by
      unfold ScreenTriangle.closeSpan
      simp [Nat.pos_iff_ne_zero]
    simp only [hce]
    split
    · rename_i hz
      exact hc.insert_empty hcl hz.1 hz.2 _ _
    · rename_i hz
      exact hc.insert_block hcl hz hno' _ _
  · rename_i hno
    have hh : M0 x y = 0xffffffff ∧ M1 x y = 0xffffffff := by
      constructor
      · by_contra hc; exact hno (Or.inl hc)
      · by_contra hc; exact hno (Or.inr hc)
    exact h.growSpan hh.1 hh.2


/-! ## The block loops -/

theorem forLoop_rec {σ : Type} (bound stride : Int) (hs : 0 < stride) (body : Int → σ → σ)
    (start : Int) (R : Nat → σ → Prop)
    (hstep : ∀ (n : Nat) (st : σ), start + (n : Int) * stride < bound → R n st →
      R (n + 1) (body (start + (n : Int) * stride) st)) :
    ∀ (fuel n : Nat) (st : σ), R n st → (bound - (start + (n : Int) * stride)).toNat ≤ fuel →
      ∃ m : Nat, n ≤ m ∧ bound ≤ start + (m : Int) * stride ∧
        (∀ k : Nat, n ≤ k → k < m → start + (k : Int) * stride < bound) ∧
        R m (forLoop bound stride body fuel (start + (n : Int) * stride) st) := by
  intro fuel
  induction fuel with
  | zero =>
    intro n st hR hf
    have hb : bound ≤ start + (n : Int) * stride := by omega
    exact ⟨n, le_refl _, hb, fun k h1 h2 => absurd h2 (by omega), hR⟩
  | succ fuel ih =>
    intro n st hR hf
    have hnext : start + ((n + 1 : Nat) : Int) * stride = start + (n : Int) * stride + stride := by
      push_cast; ring
    by_cases hv : start + (n : Int) * stride < bound
    · have hR' := hstep n st hv hR
      have hf' : (bound - (start + ((n + 1 : Nat) : Int) * stride)).toNat ≤ fuel := by
        rw [hnext]
        generalize start + (n : Int) * stride = v at hf hv
        omega
      obtain ⟨m, hm, hb, hk, hRm⟩ := ih (n + 1) _ hR' hf'
      refine ⟨m, by omega, hb, ?_, ?_⟩
      · intro k h1 h2
        by_cases hkn : k = n
        · subst hkn; exact hv
        · exact hk k (by omega) h2
      · rw [hnext] at hRm
        show R m (if start + (n : Int) * stride < bound then _ else _)
        rw [if_pos hv]
        exact hRm
    · refine ⟨n, le_refl _, by omega, fun k h1 h2 => absurd h2 (by omega), ?_⟩
      show R n (if start + (n : Int) * stride < bound then _ else _)
      rw [if_neg hv]
      exact hR

theorem forLoop_visited {bound stride start : Int} (hs : 0 < stride) {m : Nat}
    (hb : bound ≤ start + (m : Int) * stride)
    (hk : ∀ k : Nat, 0 ≤ k → k < m → start + (k : Int) * stride < bound) (k : Nat) :
    k < m ↔ start + (k : Int) * stride < bound := by
  constructor
  · exact hk k (Nat.zero_le _)
  · intro h
    by_contra hc
    have hmk : (m : Int) ≤ (k : Int) := by exact_mod_cast Nat.le_of_not_lt hc
    have := mul_le_mul_of_nonneg_right hmk (le_of_lt hs)
    omega

/-- The fuel that `blockLoops` passes is enough: with more fuel the loop
returns the same state. -/
theorem forLoop_fuel {σ : Type} {bound stride : Int} (hs : 0 < stride) (body : Int → σ → σ) :
    ∀ (fuel : Nat) (v : Int) (st : σ) (extra : Nat), (bound - v).toNat ≤ fuel →
      forLoop bound stride body (fuel + extra) v st = forLoop bound stride body fuel v st := by
  intro fuel
  induction fuel with
  | zero =>
    intro v st extra hf
    cases extra with
    | zero => rfl
    | succ e =>
      show (if v < bound then _ else _) = st
      rw [if_neg (by omega)]
  | succ fuel ih =>
    intro v st extra hf
    have : fuel + 1 + extra = (fuel + extra) + 1 := by omega
    rw [this]
    show (if v < bound then _ else _) = (if v < bound then _ else _)
    by_cases hv : v < bound
    · rw [if_pos hv, if_pos hv]
      exact ih _ _ _ (by omega)
    · rw [if_neg hv, if_neg hv]

theorem BinInv.congr {M0 M1 : Int → Int → Nat} {S S' : Int → Int → Prop} {st : BinState}
    {x y : Int} (h : BinInv M0 M1 S st x y) (hS : ∀ tx ty, S tx ty ↔ S' tx ty) :
    BinInv M0 M1 S' st x y := by
  have hSe : S = S' := by funext tx ty; exact propext (hS tx ty)
  rw [← hSe]; exact h

theorem BinInv.move {M0 M1 : Int → Int → Nat} {S : Int → Int → Prop} {st : BinState}
    {x y : Int} (h : BinInv M0 M1 S st x y) (hl : (st.FullSpans st.span).Length = 0)
    (x' y' : Int) : BinInv M0 M1 S st x' y' :=
  ⟨fun hne => absurd hl hne, h.cov, h.done, h.spans, h.blocks⟩

theorem rowLoop_inv {M0 M1 : Int → Int → Nat} {body : Int → Int → BinState → BinState}
    (hbody : ∀ x y st, body y x st = emitMasks st x y (M0 x y) (M1 x y))
    (minx maxx : Int) {S : Int → Int → Prop} {st : BinState} {x0 y0 : Int}
    (h : BinInv M0 M1 S st x0 y0) (hl : (st.FullSpans st.span).Length = 0)
    (y x' y' : Int) :
    BinInv M0 M1 (fun tx ty => S tx ty ∨ (ty = y ∧ ∃ i : Nat, tx = minx + (i : Int) * 8 ∧ tx < maxx))
      (closeSpan (forLoop maxx q (body y) (maxx - minx).toNat minx st)) x' y' := by
  have hq : (0 : Int) < q := by decide
  have key := forLoop_rec maxx q hq (body y) minx
    (fun n st => BinInv M0 M1
      (fun tx ty => S tx ty ∨ (ty = y ∧ ∃ i : Nat, i < n ∧ tx = minx + (i : Int) * q)) st
      (minx + (n : Int) * q) y)
    (by
      intro n st hlt hR
      have h1 := hR.emitMasks
      rw [← hbody] at h1
      have hpos : minx + (n : Int) * q + 8 = minx + ((n + 1 : Nat) : Int) * q := by
        push_cast; unfold q; ring
      rw [hpos] at h1
      refine h1.congr ?_
      intro tx ty
      constructor
      · rintro ((hS | ⟨hy, i, hi, hx⟩) | ⟨hx, hy⟩)
        · exact Or.inl hS
        · exact Or.inr ⟨hy, i, by omega, hx⟩
        · exact Or.inr ⟨hy, n, by omega, hx⟩
      · rintro (hS | ⟨hy, i, hi, hx⟩)
        · exact Or.inl (Or.inl hS)
        · by_cases hin : i = n
          · subst hin; exact Or.inr ⟨hx, hy⟩
          · exact Or.inl (Or.inr ⟨hy, i, by omega, hx⟩))
    (maxx - minx).toNat 0 st
    (by
      refine (h.move hl _ _).congr ?_
      intro tx ty
      constructor
      · exact Or.inl
      · rintro (hS | ⟨_, i, hi, _⟩)
        · exact hS
        · exact absurd hi (Nat.not_lt_zero _))
    (le_of_eq (by simp))
  obtain ⟨m, _, hb, hk, hR⟩ := key
  have hz : minx + ((0 : Nat) : Int) * q = minx := by simp
  rw [hz] at hR
  refine (hR.closeSpan x' y').congr ?_
  intro tx ty
  have hvis := fun k => forLoop_visited hq hb (fun k h1 h2 => hk k h1 h2) k
  constructor
  · rintro (hS | ⟨hy, i, hi, hx⟩)
    · exact Or.inl hS
    · refine Or.inr ⟨hy, i, hx, ?_⟩
      rw [hx]
      exact (hvis i).1 hi
  · rintro (hS | ⟨hy, i, hx, hlt⟩)
    · exact Or.inl hS
    · refine Or.inr ⟨hy, i, ?_, hx⟩
      rw [hx] at hlt
      exact (hvis i).2 hlt

theorem blockLoops_inv {M0 M1 : Int → Int → Nat} {body : Int → Int → BinState → BinState}
    (hbody : ∀ x y st, body y x st = emitMasks st x y (M0 x y) (M1 x y))
    (minx maxx miny maxy : Int) {num_cores : Int} (hn : 0 < num_cores)
    {S : Int → Int → Prop} {st : BinState} {x0 y0 : Int}
    (h : BinInv M0 M1 S st x0 y0) (hl : (st.FullSpans st.span).Length = 0) :
    BinInv M0 M1
        (fun tx ty => S tx ty ∨ ∃ i j : Nat, tx = minx + (i : Int) * 8 ∧ tx < maxx ∧
          ty = miny + (j : Int) * (8 * num_cores) ∧ ty < maxy)
        (blockLoops body minx maxx miny maxy num_cores st) x0 y0 ∧
      (((blockLoops body minx maxx miny maxy num_cores st).FullSpans
        (blockLoops body minx maxx miny maxy num_cores st).span).Length = 0) := by
  have hq : (0 : Int) < q * num_cores := by unfold q; omega
  have key := forLoop_rec maxy (q * num_cores) hq
    (fun y st => closeSpan (forLoop maxx q (body y) (maxx - minx).toNat minx st)) miny
    (fun n st => BinInv M0 M1
      (fun tx ty => S tx ty ∨ ∃ i j : Nat, j < n ∧ tx = minx + (i : Int) * 8 ∧ tx < maxx ∧
          ty = miny + (j : Int) * (q * num_cores)) st x0 y0 ∧
      (st.FullSpans st.span).Length = 0)
    (by
      intro n st hlt hR
      refine ⟨?_, closeSpan_length _⟩
      refine (rowLoop_inv hbody minx maxx hR.1 hR.2 _ x0 y0).congr ?_
      intro tx ty
      constructor
      · rintro ((hS | ⟨i, j, hj, hx, hxl, hy⟩) | ⟨hy, i, hx, hxl⟩)
        · exact Or.inl hS
        · exact Or.inr ⟨i, j, by omega, hx, hxl, hy⟩
        · exact Or.inr ⟨i, n, by omega, hx, hxl, hy⟩
      · rintro (hS | ⟨i, j, hj, hx, hxl, hy⟩)
        · exact Or.inl (Or.inl hS)
        · by_cases hjn : j = n
          · subst hjn; exact Or.inr ⟨hy, i, hx, hxl⟩
          · exact Or.inl (Or.inr ⟨i, j, by omega, hx, hxl, hy⟩))
    (maxy - miny).toNat 0 st
    (by
      refine ⟨h.congr ?_, hl⟩
      intro tx ty
      constructor
      · exact Or.inl
      · rintro (hS | ⟨_, j, hj, _⟩)
        · exact hS
        · exact absurd hj (Nat.not_lt_zero _))
    (le_of_eq (by simp))
  obtain ⟨m, _, hb, hk, hR, hlen⟩ := key
  have hz : miny + ((0 : Nat) : Int) * (q * num_cores) = miny := by simp
  rw [hz] at hR hlen
  refine ⟨?_, hlen⟩
  refine hR.congr ?_
  intro tx ty
  have hvis := fun k => forLoop_visited hq hb (fun k h1 h2 => hk k h1 h2) k
  have hq8 : q = 8 := rfl
  constructor
  · rintro (hS | ⟨i, j, hj, hx, hxl, hy⟩)
    · exact Or.inl hS
    · refine Or.inr ⟨i, j, hx, hxl, by rw [hy, hq8], ?_⟩
      rw [hy]
      exact (hvis j).1 hj
  · rintro (hS | ⟨i, j, hx, hxl, hy, hyl⟩)
    · exact Or.inl hS
    · refine Or.inr ⟨i, j, ?_, hx, hxl, by rw [hy, hq8]⟩
      rw [hy, ← hq8] at hyl
      exact (hvis j).2 hyl

/-! ## Coverage masks -/

theorem pushBit_eq (m : Nat) (b : Bool) : pushBit m b = 2 * (m % 2 ^ 31) + b.toNat := by
  unfold pushBit
  have h1 : (m <<< 1) % 2 ^ 32 = 2 ^ 1 * (m % 2 ^ 31) := by
    rw [Nat.shiftLeft_eq]
    omega
  rw [h1, ← Nat.mul_add_lt_is_or (by cases b <;> simp)]

theorem pushMany_add (m : Nat) (f : Nat → Bool) (a n : Nat) :
    pushMany (pushMany m f a) (fun i => f (a + i)) n = pushMany m f (a + n) := by
  induction n with
  | zero => rfl
  | succ n ih =>
    show pushBit (pushMany (pushMany m f a) (fun i => f (a + i)) n) (f (a + n)) =
      pushBit (pushMany m f (a + n)) (f (a + n))
    rw [ih]

theorem pushMany_congr (m : Nat) (f g : Nat → Bool) (n : Nat) (h : ∀ i, i < n → f i = g i) :
    pushMany m f n = pushMany m g n := by
  induction n with
  | zero => rfl
  | succ n ih =>
    show pushBit (pushMany m f n) (f n) = pushBit (pushMany m g n) (g n)
    rw [ih (fun i hi => h i (by omega)), h n (by omega)]

theorem pushMany_bits (f : Nat → Bool) (n : Nat) (hn : n ≤ 32) :
    pushMany 0 f n < 2 ^ n ∧
      ∀ j, (pushMany 0 f n).testBit j = (decide (j < n) && f (n - 1 - j)) := by
  induction n with
  | zero =>
    refine ⟨by simp [pushMany], ?_⟩
    intro j
    simp [pushMany]
  | succ n ih =>
    obtain ⟨hlt, hbit⟩ := ih (by omega)
    have hlt31 : pushMany 0 f n < 2 ^ 31 :=
      lt_of_lt_of_le hlt (Nat.pow_le_pow_right (by norm_num) (by omega))
    have hval : pushMany 0 f (n + 1) = 2 * pushMany 0 f n + (f n).toNat := by
      show pushBit (pushMany 0 f n) (f n) = _
      rw [pushBit_eq, Nat.mod_eq_of_lt hlt31]
    have hb : (f n).toNat < 2 := by cases f n <;> simp
    refine ⟨?_, ?_⟩
    · rw [hval, pow_succ]; omega
    · intro j
      rw [hval]
      cases j with
      | zero =>
        rw [Nat.testBit_zero]
        have hidx : n + 1 - 1 - 0 = n := by omega
        rw [hidx]
        cases hf : f n
        · simp
        · simp; omega
      | succ j =>
        rw [Nat.testBit_succ]
        have hdiv : (2 * pushMany 0 f n + (f n).toNat) / 2 = pushMany 0 f n := by omega
        rw [hdiv, hbit j]
        have hidx : n + 1 - 1 - (j + 1) = n - 1 - j := by omega
        rw [hidx]
        by_cases hj : j < n
        · simp [hj]
        · simp [hj]

theorem edge_step (C DX DY px py : Int) :
    (C + DX * (py * 16) - DY * (px * 16)) - DY * 16 = C + DX * (py * 16) - DY * ((px + 1) * 16) ∧
    (C + DX * (py * 16) - DY * (px * 16)) + DX * 16 = C + DX * ((py + 1) * 16) - DY * (px * 16) := by
  constructor <;> ring

theorem normalPixel_fold (args : TriDrawTriangleArgs) (x y : Int) (iy : Nat) (m : Nat) (n : Nat) :
    (List.range n).foldl (normalPixel args x y iy)
        (m, edge1 args x (y + iy), edge2 args x (y + iy), edge3 args x (y + iy)) =
      (pushMany m (fun ix => normalCovered args x y ix iy) n,
        edge1 args (x + n) (y + iy), edge2 args (x + n) (y + iy), edge3 args (x + n) (y + iy)) := by
  induction n with
  | zero => simp [pushMany]
  | succ n ih =>
    rw [List.range_succ, List.foldl_append, ih]
    simp only [List.foldl_cons, List.foldl_nil, normalPixel, pushMany, normalCovered]
    have e1 := (edge_step (C1 args) (DX12 args) (DY12 args) (x + n) (y + iy)).1
    have e2 := (edge_step (C2 args) (DX23 args) (DY23 args) (x + n) (y + iy)).1
    have e3 := (edge_step (C3 args) (DX31 args) (DY31 args) (x + n) (y + iy)).1
    simp only [edge1, edge2, edge3, FDY12, FDY23, FDY31, Nat.cast_add, Nat.cast_one,
      ← add_assoc, e1, e2, e3]

theorem normalRow_eq (args : TriDrawTriangleArgs) (x y : Int) (iy : Nat) (m : Nat) :
    normalRow args x y
        (m, edge1 args x (y + iy), edge2 args x (y + iy), edge3 args x (y + iy)) iy =
      (pushMany m (fun ix => normalCovered args x y ix iy) 8,
        edge1 args x (y + (iy + 1 : Nat)), edge2 args x (y + (iy + 1 : Nat)),
        edge3 args x (y + (iy + 1 : Nat))) := by
  unfold normalRow
  rw [normalPixel_fold]
  have e1 := (edge_step (C1 args) (DX12 args) (DY12 args) x (y + iy)).2
  have e2 := (edge_step (C2 args) (DX23 args) (DY23 args) x (y + iy)).2
  have e3 := (edge_step (C3 args) (DX31 args) (DY31 args) x (y + iy)).2
  simp only [edge1, edge2, edge3, FDX12, FDX23, FDX31, Nat.cast_add, Nat.cast_one,
    ← add_assoc, e1, e2, e3]

theorem normalRow_fold (args : TriDrawTriangleArgs) (x y : Int) (a : Nat) (m : Nat) (n : Nat) :
    (List.range' a n).foldl (normalRow args x y)
        (m, edge1 args x (y + a), edge2 args x (y + a), edge3 args x (y + a)) =
      (pushMany m (fun k => normalCovered args x y (k % 8) (a + k / 8)) (8 * n),
        edge1 args x (y + (a + n : Nat)), edge2 args x (y + (a + n : Nat)),
        edge3 args x (y + (a + n : Nat))) := by
  induction n with
  | zero => simp [pushMany]
  | succ n ih =>
    rw [List.range'_1_concat, List.foldl_append, ih]
    simp only [List.foldl_cons, List.foldl_nil]
    rw [normalRow_eq]
    have h8 : 8 * (n + 1) = 8 * n + 8 := by ring
    rw [h8, ← pushMany_add]
    have hc : pushMany (pushMany m (fun k => normalCovered args x y (k % 8) (a + k / 8)) (8 * n))
        (fun ix => normalCovered args x y ix (a + n)) 8 =
        pushMany (pushMany m (fun k => normalCovered args x y (k % 8) (a + k / 8)) (8 * n))
        (fun i => normalCovered args x y ((8 * n + i) % 8) (a + (8 * n + i) / 8)) 8 := by
      apply pushMany_congr
      intro i hi
      have h1 : (8 * n + i) % 8 = i := by omega
      have h2 : (8 * n + i) / 8 = n := by omega
      rw [h1, h2]
    rw [hc]
    rfl

theorem normalMasks_eq (args : TriDrawTriangleArgs) (x y : Int) :
    normalMasks args x y = packTile (normalCovered args x y) := by
  have hl0 : ([0, 1, 2, 3] : List Nat) = List.range' 0 4 := rfl
  have hl4 : ([4, 5, 6, 7] : List Nat) = List.range' 4 4 := rfl
  have h0 : ∀ C DX DY : Int, C + DX * (y * 16) - DY * (x * 16) =
      C + DX * ((y + ((0 : Nat) : Int)) * 16) - DY * (x * 16) := by
    intro C DX DY; simp
  have top := normalRow_fold args x y 0 0 4
  have bottom := normalRow_fold args x y 4 0 4
  unfold normalMasks packTile
  simp only [hl0, hl4]
  have e1 : C1 args + DX12 args * (y * 16) - DY12 args * (x * 16) = edge1 args x (y + ((0 : Nat) : Int)) :=
    h0 _ _ _
  have e2 : C2 args + DX23 args * (y * 16) - DY23 args * (x * 16) = edge2 args x (y + ((0 : Nat) : Int)) :=
    h0 _ _ _
  have e3 : C3 args + DX31 args * (y * 16) - DY31 args * (x * 16) = edge3 args x (y + ((0 : Nat) : Int)) :=
    h0 _ _ _
  rw [e1, e2, e3, top]
  simp only [Nat.zero_add]
  rw [bottom]

theorem packTile_lt (f : Nat → Nat → Bool) :
    (packTile f).1 < 2 ^ 32 ∧ (packTile f).2 < 2 ^ 32 :=
  ⟨(pushMany_bits _ 32 (le_refl _)).1, (pushMany_bits _ 32 (le_refl _)).1⟩

theorem packTile_bit (f : Nat → Nat → Bool) (ix iy : Nat) (hx : ix < 8) (hy : iy < 8) :
    maskBit (packTile f).1 (packTile f).2 ix iy = f ix iy := by
  unfold maskBit packTile
  simp only
  split
  · rw [(pushMany_bits _ 32 (le_refl _)).2]
    have h1 : 32 - 1 - (31 - (ix + 8 * iy)) = ix + 8 * iy := by omega
    have h2 : (ix + 8 * iy) % 8 = ix := by omega
    have h3 : (ix + 8 * iy) / 8 = iy := by omega
    have h4 : 31 - (ix + 8 * iy) < 32 := by omega
    rw [h1, h2, h3]
    simp [h4]
  · rw [(pushMany_bits _ 32 (le_refl _)).2]
    have h1 : 32 - 1 - (31 - (ix + 8 * (iy - 4))) = ix + 8 * (iy - 4) := by omega
    have h2 : (ix + 8 * (iy - 4)) % 8 = ix := by omega
    have h3 : 4 + (ix + 8 * (iy - 4)) / 8 = iy := by omega
    have h4 : 31 - (ix + 8 * (iy - 4)) < 32 := by omega
    rw [h1, h2, h3]
    simp [h4]

theorem packTile_congr (f g : Nat → Nat → Bool)
    (h : ∀ ix iy, ix < 8 → iy < 8 → f ix iy = g ix iy) : packTile f = packTile g := by
  unfold packTile
  have h1 : pushMany 0 (fun k => f (k % 8) (k / 8)) 32 = pushMany 0 (fun k => g (k % 8) (k / 8)) 32 :=
    pushMany_congr _ _ _ _ (fun i hi => h _ _ (by omega) (by omega))
  have h2 : pushMany 0 (fun k => f (k % 8) (4 + k / 8)) 32 =
      pushMany 0 (fun k => g (k % 8) (4 + k / 8)) 32 :=
    pushMany_congr _ _ _ _ (fun i hi => h _ _ (by omega) (by omega))
  rw [h1, h2]

theorem packTile_false : packTile (fun _ _ => false) = (0, 0) := by
  unfold packTile
  have h : pushMany 0 (fun _ => false) 32 = 0 := by decide
  simp only [h]

theorem packTile_true : packTile (fun _ _ => true) = (0xffffffff, 0xffffffff) := by
  unfold packTile
  have h : pushMany 0 (fun _ => true) 32 = 0xffffffff := by decide
  simp only [h]

theorem normalMasks_bit (args : TriDrawTriangleArgs) (x y : Int) (ix iy : Nat)
    (hx : ix < 8) (hy : iy < 8) :
    maskBit (normalMasks args x y).1 (normalMasks args x y).2 ix iy =
      normalCovered args x y ix iy := by
  rw [normalMasks_eq]
  exact packTile_bit _ ix iy hx hy

/-- A mask below `2 ^ 32` is `0xffffffff` exactly when its 32 low bits are set. -/
theorem mask_eq_ones_iff (m : Nat) (hm : m < 2 ^ 32) :
    m = 0xffffffff ↔ ∀ j, j < 32 → m.testBit j = true := by
  have h : (0xffffffff : Nat) = 2 ^ 32 - 1 := by norm_num
  constructor
  · intro he j hj
    rw [he, h, Nat.testBit_two_pow_sub_one]
    exact decide_eq_true hj
  · intro hb
    rw [h]
    apply Nat.eq_of_testBit_eq
    intro j
    rw [Nat.testBit_two_pow_sub_one]
    by_cases hj : j < 32
    · rw [hb j hj]; exact (decide_eq_true hj).symm
    · have : m < 2 ^ j := lt_of_lt_of_le hm (Nat.pow_le_pow_right (by norm_num) (by omega))
      rw [Nat.testBit_lt_two_pow this]
      exact (decide_eq_false hj).symm

/-- A mask below `2 ^ 32` is `0` exactly when its 32 low bits are clear. -/
theorem mask_eq_zero_iff (m : Nat) (hm : m < 2 ^ 32) :
    m = 0 ↔ ∀ j, j < 32 → m.testBit j = false := by
  constructor
  · intro he j _
    rw [he]; simp
  · intro hb
    apply Nat.eq_of_testBit_eq
    intro j
    rw [Nat.zero_testBit]
    by_cases hj : j < 32
    · exact hb j hj
    · have : m < 2 ^ j := lt_of_lt_of_le hm (Nat.pow_le_pow_right (by norm_num) (by omega))
      exact Nat.testBit_lt_two_pow this

theorem snap_eq (v : Int) (hv : 0 ≤ v) : snap v = 8 * (v / 8) := by
  obtain ⟨m, rfl⟩ := Int.eq_ofNat_of_zero_le hv
  have h1 : snap (m : Int) = ((Nat.ldiff m 7 : Nat) : Int) := rfl
  rw [h1]
  have h2 : Nat.ldiff m 7 = 8 * (m / 8) := by
    apply Nat.eq_of_testBit_eq
    intro i
    rw [Nat.testBit_ldiff]
    have h8 : (8 : Nat) = 2 ^ 3 := by norm_num
    have h7 : (7 : Nat) = 2 ^ 3 - 1 := by norm_num
    rw [h7, Nat.testBit_two_pow_sub_one, h8, Nat.testBit_mul_pow_two, ← Nat.shiftRight_eq_div_pow,
      Nat.testBit_shiftRight]
    by_cases hi : i < 3
    · simp [hi]
    · have : 3 + (i - 3) = i := by omega
      simp [hi, this]
      intro _; omega
  rw [h2]
  push_cast
  rfl

/-! ## Corner tests -/

theorem cornerBits (a b c d : Bool) :
    ((a.toNat <<< 0 ||| b.toNat <<< 1 ||| c.toNat <<< 2 ||| d.toNat <<< 3 = 0) ↔
        (a = false ∧ b = false ∧ c = false ∧ d = false)) ∧
      ((a.toNat <<< 0 ||| b.toNat <<< 1 ||| c.toNat <<< 2 ||| d.toNat <<< 3 = 0xf) ↔
        (a = true ∧ b = true ∧ c = true ∧ d = true)) := by
  cases a <;> cases b <;> cases c <;> cases d <;> decide

theorem cornerMask_eq_zero (C DX DY x y : Int) :
    cornerMask C DX DY x y = 0 ↔
      (C + DX * (y * 16) - DY * (x * 16) ≤ 0 ∧ C + DX * (y * 16) - DY * ((x + 7) * 16) ≤ 0 ∧
        C + DX * ((y + 7) * 16) - DY * (x * 16) ≤ 0 ∧
        C + DX * ((y + 7) * 16) - DY * ((x + 7) * 16) ≤ 0) := by
  unfold cornerMask
  simp only
  rw [(cornerBits _ _ _ _).1]
  have hq : ∀ v : Int, v + q - 1 = v + 7 := by intro v; unfold q; ring
  simp only [hq, decide_eq_false_iff_not, not_lt, gt_iff_lt]

theorem cornerMask_eq_full (C DX DY x y : Int) :
    cornerMask C DX DY x y = 0xf ↔
      (C + DX * (y * 16) - DY * (x * 16) > 0 ∧ C + DX * (y * 16) - DY * ((x + 7) * 16) > 0 ∧
        C + DX * ((y + 7) * 16) - DY * (x * 16) > 0 ∧
        C + DX * ((y + 7) * 16) - DY * ((x + 7) * 16) > 0) := by
  unfold cornerMask
  simp only
  rw [(cornerBits _ _ _ _).2]
  have hq : ∀ v : Int, v + q - 1 = v + 7 := by intro v; unfold q; ring
  simp only [hq, decide_eq_true_eq]

/-- An affine function that is not positive at the four corners of a block is
not positive at any of its 64 pixels. -/
theorem affine_nonpos (C DX DY x y i j : Int) (hi : 0 ≤ i) (hi7 : i ≤ 7) (hj : 0 ≤ j) (hj7 : j ≤ 7)
    (h00 : C + DX * (y * 16) - DY * (x * 16) ≤ 0)
    (h10 : C + DX * (y * 16) - DY * ((x + 7) * 16) ≤ 0)
    (h01 : C + DX * ((y + 7) * 16) - DY * (x * 16) ≤ 0)
    (h11 : C + DX * ((y + 7) * 16) - DY * ((x + 7) * 16) ≤ 0) :
    C + DX * ((y + j) * 16) - DY * ((x + i) * 16) ≤ 0 := by
  have w00 := mul_nonneg (mul_nonneg (sub_nonneg.2 hi7) (sub_nonneg.2 hj7)) (neg_nonneg.2 h00)
  have w10 := mul_nonneg (mul_nonneg hi (sub_nonneg.2 hj7)) (neg_nonneg.2 h10)
  have w01 := mul_nonneg (mul_nonneg (sub_nonneg.2 hi7) hj) (neg_nonneg.2 h01)
  have w11 := mul_nonneg (mul_nonneg hi hj) (neg_nonneg.2 h11)
  nlinarith [w00, w10, w01, w11]

/-- An affine function that is positive at the four corners of a block is
positive at each of its 64 pixels. -/
theorem affine_pos (C DX DY x y i j : Int) (hi : 0 ≤ i) (hi7 : i ≤ 7) (hj : 0 ≤ j) (hj7 : j ≤ 7)
    (h00 : C + DX * (y * 16) - DY * (x * 16) > 0)
    (h10 : C + DX * (y * 16) - DY * ((x + 7) * 16) > 0)
    (h01 : C + DX * ((y + 7) * 16) - DY * (x * 16) > 0)
    (h11 : C + DX * ((y + 7) * 16) - DY * ((x + 7) * 16) > 0) :
    C + DX * ((y + j) * 16) - DY * ((x + i) * 16) > 0 := by
  have h00' : (0 : Int) ≤ C + DX * (y * 16) - DY * (x * 16) - 1 := by omega
  have h10' : (0 : Int) ≤ C + DX * (y * 16) - DY * ((x + 7) * 16) - 1 := by omega
  have h01' : (0 : Int) ≤ C + DX * ((y + 7) * 16) - DY * (x * 16) - 1 := by omega
  have h11' : (0 : Int) ≤ C + DX * ((y + 7) * 16) - DY * ((x + 7) * 16) - 1 := by omega
  have w00 := mul_nonneg (mul_nonneg (sub_nonneg.2 hi7) (sub_nonneg.2 hj7)) h00'
  have w10 := mul_nonneg (mul_nonneg hi (sub_nonneg.2 hj7)) h10'
  have w01 := mul_nonneg (mul_nonneg (sub_nonneg.2 hi7) hj) h01'
  have w11 := mul_nonneg (mul_nonneg hi hj) h11'
  nlinarith [w00, w10, w01, w11]

theorem normalBlock_eq (args : TriDrawTriangleArgs) (x y : Int) (st : BinState) :
    normalBlock args y x st =
      emitMasks st x y (normalTileMasks args x y).1 (normalTileMasks args x y).2 := by
  unfold normalBlock normalTileMasks
  simp only
  split
  · exact closeSpan_eq_emitMasks st x y
  · split
    · exact growSpan_eq_emitMasks st x y
    · rfl

/-! ## One block of `SetupNormal`, pixel by pixel -/

theorem stencilAt_tile (args : TriDrawTriangleArgs) (x y : Int) (ix iy : Nat)
    (hx : 8 ∣ x) (hy : 8 ∣ y) (hix : ix < 8) (hiy : iy < 8) :
    stencilAt args.stencilMasks args.stencilValues args.stencilPitch (x + ix) (y + iy) =
      if blockIsSingleStencil args (stencilBlockIndex args x y) = true then
        args.stencilMasks (stencilBlockIndex args x y) &&& 0xff
      else args.stencilValues (stencilBlockIndex args x y * 64 + ((ix : Int) + (iy : Int) * q)) := by
  obtain ⟨kx, rfl⟩ := hx
  obtain ⟨ky, rfl⟩ := hy
  have h1 : (8 * kx + (ix : Int)) / 8 = 8 * kx / 8 := by omega
  have h2 : (8 * ky + (iy : Int)) / 8 = 8 * ky / 8 := by omega
  have h3 : (8 * kx + (ix : Int)) % 8 = ix := by omega
  have h4 : (8 * ky + (iy : Int)) % 8 = iy := by omega
  unfold stencilAt stencilBlockIndex blockIsSingleStencil
  simp only [h1, h2, h3, h4, beq_iff_eq]
  rfl

theorem normalCovered_iff (args : TriDrawTriangleArgs) (x y : Int) (ix iy : Nat)
    (hx : 8 ∣ x) (hy : 8 ∣ y) (hix : ix < 8) (hiy : iy < 8)
    (hskip : blockIsSingleStencil args (stencilBlockIndex args x y) = true →
      args.stencilMasks (stencilBlockIndex args x y) &&& 0xff = args.stencilTestValue) :
    normalCovered args x y ix iy = true ↔ normalPass args (x + ix) (y + iy) := by
  unfold normalCovered normalPass insideTriangle
  rw [stencilAt_tile args x y ix iy hx hy hix hiy]
  simp only [Bool.and_eq_true, Bool.or_eq_true, decide_eq_true_eq, beq_iff_eq]
  by_cases hs : blockIsSingleStencil args (stencilBlockIndex args x y) = true
  · simp only [hs, if_true, hskip hs, true_or, and_true]
    tauto
  · simp only [hs, if_false, false_or]
    tauto

theorem normal_tile_iff (args : TriDrawTriangleArgs) (x y px py : Int)
    (hx : 8 ∣ x) (hy : 8 ∣ y) :
    inBlock ⟨x, y, (normalTileMasks args x y).1, (normalTileMasks args x y).2⟩ px py ↔
      (x ≤ px ∧ px < x + 8 ∧ y ≤ py ∧ py < y + 8 ∧ normalPass args px py) := by
  by_cases htile : x ≤ px ∧ px < x + 8 ∧ y ≤ py ∧ py < y + 8
  swap
  · constructor
    · intro h
      exact absurd ⟨h.1, h.2.1, h.2.2.1, h.2.2.2.1⟩ htile
    · intro h
      exact absurd ⟨h.1, h.2.1, h.2.2.1, h.2.2.2.1⟩ htile
  obtain ⟨hx0, hx8, hy0, hy8⟩ := htile
  obtain ⟨ix, hix⟩ := Int.eq_ofNat_of_zero_le (sub_nonneg.2 hx0)
  obtain ⟨iy, hiy⟩ := Int.eq_ofNat_of_zero_le (sub_nonneg.2 hy0)
  have hpx : px = x + ix := by omega
  have hpy : py = y + iy := by omega
  have hix8 : ix < 8 := by omega
  have hiy8 : iy < 8 := by omega
  subst hpx hpy
  have hi0 : (0 : Int) ≤ (ix : Int) := Int.natCast_nonneg _
  have hj0 : (0 : Int) ≤ (iy : Int) := Int.natCast_nonneg _
  have hi7 : (ix : Int) ≤ 7 := by omega
  have hj7 : (iy : Int) ≤ 7 := by omega
  unfold inBlock
  simp only [add_sub_cancel_left, Int.toNat_ofNat, hx0, hx8, hy0, hy8, true_and]
  unfold normalTileMasks
  simp only
  split
  · rename_i hrej
    simp only [maskBit_zero, Bool.false_eq_true, false_iff]
    intro hp
    rcases hrej with ha | hb | hc | hs
    · rw [cornerMask_eq_zero] at ha
      have := affine_nonpos _ _ _ x y ix iy hi0 hi7 hj0 hj7 ha.1 ha.2.1 ha.2.2.1 ha.2.2.2
      have h1 := hp.1.1
      unfold edge1 at h1
      omega
    · rw [cornerMask_eq_zero] at hb
      have := affine_nonpos _ _ _ x y ix iy hi0 hi7 hj0 hj7 hb.1 hb.2.1 hb.2.2.1 hb.2.2.2
      have h1 := hp.1.2.1
      unfold edge2 at h1
      omega
    · rw [cornerMask_eq_zero] at hc
      have := affine_nonpos _ _ _ x y ix iy hi0 hi7 hj0 hj7 hc.1 hc.2.1 hc.2.2.1 hc.2.2.2
      have h1 := hp.1.2.2
      unfold edge3 at h1
      omega
    · have h4 := hp.2.2.2
      rw [stencilAt_tile args x y ix iy hx hy hix8 hiy8] at h4
      simp only [Bool.and_eq_true, bne_iff_ne, ne_eq] at hs
      rw [if_pos hs.1] at h4
      exact hs.2 h4
  · rename_i hrej
    have hskip : blockIsSingleStencil args (stencilBlockIndex args x y) = true →
        args.stencilMasks (stencilBlockIndex args x y) &&& 0xff = args.stencilTestValue := by
      intro hs
      by_contra hne
      exact hrej (Or.inr (Or.inr (Or.inr (by simp [hs, hne]))))
    split
    · rename_i hfull
      obtain ⟨ha, hb, hc, hcx, hcy, hs⟩ := hfull
      simp only [maskBit_ones, true_iff]
      rw [cornerMask_eq_full] at ha hb hc
      refine ⟨⟨?_, ?_, ?_⟩, ?_, ?_, ?_⟩
      · exact affine_pos _ _ _ x y ix iy hi0 hi7 hj0 hj7 ha.1 ha.2.1 ha.2.2.1 ha.2.2.2
      · exact affine_pos _ _ _ x y ix iy hi0 hi7 hj0 hj7 hb.1 hb.2.1 hb.2.2.1 hb.2.2.2
      · exact affine_pos _ _ _ x y ix iy hi0 hi7 hj0 hj7 hc.1 hc.2.1 hc.2.2.1 hc.2.2.2
      · unfold q at hcx; omega
      · unfold q at hcy; omega
      · rw [stencilAt_tile args x y ix iy hx hy hix8 hiy8, if_pos hs]
        exact hskip hs
    · rw [normalMasks_bit args x y ix iy hix8 hiy8]
      exact normalCovered_iff args x y ix iy hx hy hix8 hiy8 hskip

/-! ## Worker sharding -/

theorem tmod_gt_neg (a : Int) {b : Int} (hb : 0 < b) : -b < Int.tmod a b := by
  by_cases ha : 0 ≤ a
  · have := Int.tmod_nonneg b ha
    omega
  · have hna : 0 ≤ -a := by omega
    have h1 := Int.tmod_nonneg b hna
    have h2 := Int.tmod_lt_of_pos (-a) hb
    have h3 := Int.tmod_def a b
    have h4 := Int.tmod_def (-a) b
    have h5 : (-a).tdiv b = -(a.tdiv b) := Int.neg_tdiv a b
    rw [h5] at h4
    have h6 : b * -(a.tdiv b) = -(b * a.tdiv b) := by ring
    rw [h6] at h4
    omega

theorem core_skip_spec (miny core num_cores : Int) (hn : 0 < num_cores)
    (hc0 : 0 ≤ core) (hc : core < num_cores) :
    0 ≤ core_skip miny core num_cores ∧ core_skip miny core num_cores < num_cores ∧
      (miny / 8 + core_skip miny core num_cores) % num_cores = core := by
  unfold core_skip
  have hq : q = 8 := rfl
  rw [hq]
  have hr1 := tmod_gt_neg (miny / 8 - core) hn
  have hr2 := Int.tmod_lt_of_pos (miny / 8 - core) hn
  have hr3 := Int.tmod_def (miny / 8 - core) num_cores
  generalize Int.tmod (miny / 8 - core) num_cores = r at hr1 hr2 hr3
  generalize (miny / 8 - core).tdiv num_cores = t at hr3
  have hpos : 0 ≤ num_cores - r := by omega
  rw [Int.tmod_eq_emod hpos (le_of_lt hn)]
  refine ⟨Int.emod_nonneg _ (by omega), Int.emod_lt_of_pos _ hn, ?_⟩
  have hs := Int.emod_def (num_cores - r) num_cores
  generalize (num_cores - r) / num_cores = u at hs
  have hsum : miny / 8 + (num_cores - r) % num_cores = core + num_cores * (1 + t - u) := by
    rw [hs, hr3]; ring
  rw [hsum, Int.add_mul_emod_self_left]
  exact Int.emod_eq_of_lt hc0 hc

theorem visited_col_iff (sx maxx px : Int) (hs : 8 ∣ sx) :
    (∃ i : Nat, sx + (i : Int) * 8 < maxx ∧ sx + (i : Int) * 8 ≤ px ∧ px < sx + (i : Int) * 8 + 8) ↔
      sx ≤ px ∧ 8 * (px / 8) < maxx := by
  obtain ⟨k, rfl⟩ := hs
  constructor
  · rintro ⟨i, h1, h2, h3⟩
    have hi : (0 : Int) ≤ (i : Int) := Int.natCast_nonneg _
    constructor <;> omega
  · rintro ⟨h1, h2⟩
    refine ⟨(px / 8 - k).toNat, ?_, ?_, ?_⟩ <;> omega

theorem visited_row_iff (sy skip num_cores maxy py core : Int) (hs : 8 ∣ sy)
    (hn : 0 < num_cores) (hs0 : 0 ≤ skip) (hs1 : skip < num_cores)
    (hmod : (sy / 8 + skip) % num_cores = core) :
    (∃ j : Nat, sy + skip * 8 + (j : Int) * (8 * num_cores) < maxy ∧
        sy + skip * 8 + (j : Int) * (8 * num_cores) ≤ py ∧
        py < sy + skip * 8 + (j : Int) * (8 * num_cores) + 8) ↔
      sy ≤ py ∧ 8 * (py / 8) < maxy ∧ (py / 8) % num_cores = core := by
  obtain ⟨k, rfl⟩ := hs
  have hk : 8 * k / 8 = k := by omega
  rw [hk] at hmod
  constructor
  · rintro ⟨j, h1, h2, h3⟩
    have hj : (0 : Int) ≤ (j : Int) * num_cores := mul_nonneg (Int.natCast_nonneg _) (le_of_lt hn)
    have hty : 8 * k + skip * 8 + (j : Int) * (8 * num_cores) =
        8 * (k + skip + (j : Int) * num_cores) := by ring
    rw [hty] at h1 h2 h3
    generalize hw : k + skip + (j : Int) * num_cores = w at h1 h2 h3
    have hpy : py / 8 = w := by omega
    refine ⟨by omega, by omega, ?_⟩
    rw [hpy, ← hw, Int.add_mul_emod_self]
    exact hmod
  · rintro ⟨h1, h2, h3⟩
    have hsub : (py / 8 - (k + skip)) % num_cores = 0 := by
      apply Int.emod_eq_emod_iff_emod_sub_eq_zero.1
      rw [h3, hmod]
    obtain ⟨c, hc⟩ := Int.dvd_of_emod_eq_zero hsub
    have hkpy : k ≤ py / 8 := by omega
    have hc0 : 0 ≤ c := by
      by_contra hneg
      have hc1 : c ≤ -1 := by omega
      have : num_cores * c ≤ num_cores * (-1) := mul_le_mul_of_nonneg_left hc1 (le_of_lt hn)
      omega
    obtain ⟨j, rfl⟩ := Int.eq_ofNat_of_zero_le hc0
    have hty : 8 * k + skip * 8 + (j : Int) * (8 * num_cores) = 8 * (py / 8) := by
      have : (j : Int) * (8 * num_cores) = 8 * (num_cores * (j : Int)) := by ring
      rw [this, ← hc]; ring
    refine ⟨j, ?_, ?_, ?_⟩
    · rw [hty]; exact h2
    · rw [hty]; omega
    · rw [hty]; omega

/-! ## The output of `SetupNormal` -/

theorem BinInv.init (M0 M1 : Int → Int → Nat) (FullSpans : Nat → TriFullSpan)
    (PartialBlocks : Nat → TriPartialBlock) :
    BinInv M0 M1 (fun _ _ => False)
      { FullSpans := Function.update FullSpans 0 { FullSpans 0 with Length := 0 }
        span := 0
        PartialBlocks := PartialBlocks
        block := 0 } 0 0 := by
  refine ⟨?_, ?_, ?_, ?_, ?_⟩
  · intro hne
    simp at hne
  · intro px py
    unfold covSt
    simp only [Nat.le_zero, exists_eq_left, Function.update_same, Nat.not_lt_zero, false_and,
      exists_false, or_false, exists_const]
    constructor
    · intro h
      exact absurd h (inSpan_length_zero _ rfl px py)
    · intro h
      exact absurd h (fun h => h)
  · intro i hi
    exact absurd hi (Nat.not_lt_zero _)
  · intro i hi j hj
    have hi0 : i = 0 := Nat.le_zero.1 hi
    subst hi0
    simp at hj
  · intro i hi
    exact absurd hi (Nat.not_lt_zero _)

theorem SetupNormal_early (args : TriDrawTriangleArgs) (thread : WorkerThreadData)
    (h : minx args ≥ maxx args ∨ miny args ≥ maxy args) :
    SetupNormal args thread = { thread with NumFullSpans := 0, NumPartialBlocks := 0 } := by
  unfold SetupNormal
  rw [if_pos h]

theorem SetupNormal_run (args : TriDrawTriangleArgs) (thread : WorkerThreadData)
    (h : ¬ (minx args ≥ maxx args ∨ miny args ≥ maxy args)) :
    outState (SetupNormal args thread) =
      blockLoops (normalBlock args) (snap (minx args)) (maxx args) (startY args thread)
        (maxy args) thread.num_cores
        { FullSpans := Function.update thread.FullSpans 0 { thread.FullSpans 0 with Length := 0 }
          span := 0
          PartialBlocks := thread.PartialBlocks
          block := 0 } := by
  unfold SetupNormal
  rw [if_neg h]
  rfl

theorem SetupNormal_inv (args : TriDrawTriangleArgs) (thread : WorkerThreadData)
    (hn : 0 < thread.num_cores)
    (h : ¬ (minx args ≥ maxx args ∨ miny args ≥ maxy args)) :
    BinInv (fun x y => (normalTileMasks args x y).1) (fun x y => (normalTileMasks args x y).2)
        (visits args thread) (outState (SetupNormal args thread)) 0 0 ∧
      ((SetupNormal args thread).FullSpans (SetupNormal args thread).NumFullSpans).Length = 0 := by
  have hinit := BinInv.init (fun x y => (normalTileMasks args x y).1)
    (fun x y => (normalTileMasks args x y).2) thread.FullSpans thread.PartialBlocks
  have key := blockLoops_inv (fun x y st => normalBlock_eq args x y st)
    (snap (minx args)) (maxx args) (startY args thread) (maxy args) hn hinit (by simp)
  rw [← SetupNormal_run args thread h] at key
  refine ⟨key.1.congr ?_, key.2⟩
  intro tx ty
  unfold visits
  simp only [false_or]

theorem Covers_iff_covSt (t : WorkerThreadData)
    (hl : (t.FullSpans t.NumFullSpans).Length = 0) (px py : Int) :
    Covers t px py ↔ covSt (outState t) px py := by
  unfold Covers covSt outState
  simp only
  constructor
  · rintro (⟨i, hi, hs⟩ | hb)
    · exact Or.inl ⟨i, le_of_lt hi, hs⟩
    · exact Or.inr hb
  · rintro (⟨i, hi, hs⟩ | hb)
    · by_cases hii : i = t.NumFullSpans
      · subst hii
        exact absurd hs (inSpan_length_zero _ hl px py)
      · exact Or.inl ⟨i, by omega, hs⟩
    · exact Or.inr hb

theorem minx_nonneg (args : TriDrawTriangleArgs) : 0 ≤ minx args := le_max_right _ _

theorem miny_nonneg (args : TriDrawTriangleArgs) : 0 ≤ miny args := le_max_right _ _

theorem snap_dvd (v : Int) (hv : 0 ≤ v) : 8 ∣ snap v := ⟨v / 8, snap_eq v hv⟩

theorem visits_dvd (args : TriDrawTriangleArgs) (thread : WorkerThreadData) (tx ty : Int)
    (h : visits args thread tx ty) : 8 ∣ tx ∧ 8 ∣ ty := by
  obtain ⟨i, j, hx, _, hy, _⟩ := h
  obtain ⟨kx, hkx⟩ := snap_dvd (minx args) (minx_nonneg args)
  obtain ⟨ky, hky⟩ := snap_dvd (miny args) (miny_nonneg args)
  constructor
  · rw [hx, hkx]
    exact ⟨kx + i, by ring⟩
  · rw [hy]
    unfold startY
    rw [hky]
    exact ⟨ky + core_skip (8 * ky) thread.core thread.num_cores + j * thread.num_cores, by
      unfold q; ring⟩

/-- The pixels that a binner output covers, read off the invariant of its
block loops: those that pass the per-pixel test `P` and lie in a block that
the block loops of the worker reach. -/
theorem covers_of_inv (args : TriDrawTriangleArgs) (thread out : WorkerThreadData)
    (M0 M1 : Int → Int → Nat) (P : Int → Int → Prop)
    (hinv : BinInv M0 M1 (visits args thread) (outState out) 0 0)
    (hlen : (out.FullSpans out.NumFullSpans).Length = 0)
    (htile : ∀ x y px py, 8 ∣ x → 8 ∣ y →
      (inBlock ⟨x, y, M0 x y, M1 x y⟩ px py ↔
        (x ≤ px ∧ px < x + 8 ∧ y ≤ py ∧ py < y + 8 ∧ P px py)))
    (hn : 0 < thread.num_cores) (hc0 : 0 ≤ thread.core) (hc : thread.core < thread.num_cores)
    (px py : Int) :
    Covers out px py ↔
      (snap (minx args) ≤ px ∧ 8 * (px / 8) < maxx args ∧
        snap (miny args) ≤ py ∧ 8 * (py / 8) < maxy args ∧
        (py / 8) % thread.num_cores = thread.core ∧ P px py) := by
  rw [Covers_iff_covSt _ hlen, hinv.cov]
  have hskip := core_skip_spec (snap (miny args)) thread.core thread.num_cores hn hc0 hc
  have hcol := visited_col_iff (snap (minx args)) (maxx args) px
    (snap_dvd _ (minx_nonneg args))
  have hrow := visited_row_iff (snap (miny args))
    (core_skip (snap (miny args)) thread.core thread.num_cores) thread.num_cores (maxy args) py
    thread.core (snap_dvd _ (miny_nonneg args)) hn hskip.1 hskip.2.1 hskip.2.2
  have hq : q = 8 := rfl
  constructor
  · rintro ⟨tx, ty, hv, hb⟩
    obtain ⟨hdx, hdy⟩ := visits_dvd args thread tx ty hv
    rw [htile tx ty px py hdx hdy] at hb
    obtain ⟨i, j, hx, hxl, hy, hyl⟩ := hv
    obtain ⟨hb1, hb2, hb3, hb4, hp⟩ := hb
    have c := hcol.1 ⟨i, by rw [← hx]; exact hxl, by rw [← hx]; exact hb1,
      by rw [← hx]; exact hb2⟩
    unfold startY at hy
    rw [hq] at hy
    have r := hrow.1 ⟨j, by rw [← hy]; exact hyl, by rw [← hy]; exact hb3,
      by rw [← hy]; exact hb4⟩
    exact ⟨c.1, c.2, r.1, r.2.1, r.2.2, hp⟩
  · rintro ⟨c1, c2, r1, r2, r3, hp⟩
    obtain ⟨i, hi1, hi2, hi3⟩ := hcol.2 ⟨c1, c2⟩
    obtain ⟨j, hj1, hj2, hj3⟩ := hrow.2 ⟨r1, r2, r3⟩
    have hv : visits args thread (snap (minx args) + (i : Int) * 8)
        (startY args thread + (j : Int) * (8 * thread.num_cores)) := by
      refine ⟨i, j, rfl, hi1, rfl, ?_⟩
      unfold startY; rw [hq]; exact hj1
    obtain ⟨hdx, hdy⟩ := visits_dvd args thread _ _ hv
    refine ⟨_, _, hv, ?_⟩
    rw [htile _ _ px py hdx hdy]
    refine ⟨hi2, hi3, ?_, ?_, hp⟩
    · unfold startY; rw [hq]; exact hj2
    · unfold startY; rw [hq]; exact hj3

theorem not_covers_of_counts_zero (t : WorkerThreadData) (h0 : t.NumFullSpans = 0)
    (h1 : t.NumPartialBlocks = 0) (px py : Int) : ¬ Covers t px py := by
  rintro (⟨i, hi, _⟩ | ⟨i, hi, _⟩)
  · rw [h0] at hi; exact absurd hi (Nat.not_lt_zero _)
  · rw [h1] at hi; exact absurd hi (Nat.not_lt_zero _)

/-- The pixels that the output of `SetupNormal` covers, for a worker
`0 ≤ core < num_cores`: those that pass every test and lie in a block that
the block loops of this worker reach. -/
theorem SetupNormal_covers_iff (args : TriDrawTriangleArgs) (thread : WorkerThreadData)
    (hn : 0 < thread.num_cores) (hc0 : 0 ≤ thread.core) (hc : thread.core < thread.num_cores)
    (px py : Int) :
    Covers (SetupNormal args thread) px py ↔
      (minx args < maxx args ∧ miny args < maxy args ∧
        snap (minx args) ≤ px ∧ 8 * (px / 8) < maxx args ∧
        snap (miny args) ≤ py ∧ 8 * (py / 8) < maxy args ∧
        (py / 8) % thread.num_cores = thread.core ∧ normalPass args px py) := by
  by_cases h : minx args ≥ maxx args ∨ miny args ≥ maxy args
  · rw [SetupNormal_early args thread h]
    constructor
    · intro hcov
      exact absurd hcov (not_covers_of_counts_zero _ rfl rfl px py)
    · rintro ⟨h1, h2, _⟩
      rcases h with h | h <;> omega
  · obtain ⟨hinv, hlen⟩ := SetupNormal_inv args thread hn h
    have hrun : minx args < maxx args ∧ miny args < maxy args := by
      constructor
      · by_contra hc; exact h (Or.inl (by omega))
      · by_contra hc; exact h (Or.inr (by omega))
    rw [covers_of_inv args thread _ _ _ (normalPass args) hinv hlen
      (fun x y px py hx hy => normal_tile_iff args x y px py hx hy) hn hc0 hc px py]
    constructor
    · intro hh; exact ⟨hrun.1, hrun.2, hh⟩
    · intro hh; exact hh.2.2

/-! ## One block of `SetupSubsector`, pixel by pixel -/

theorem subsectorTestPixel_fold (args : TriDrawTriangleArgs) (s : Int) (m : Nat) (n : Nat) :
    (List.range n).foldl (subsectorTestPixel args s) m =
      pushMany m (fun ix => decide (args.subsectorGBuffer (s + (ix : Int)) ≥ args.subsectorDepth))
        n := by
  induction n with
  | zero => simp [pushMany]
  | succ n ih =>
    rw [List.range_succ, List.foldl_append, ih]
    simp only [List.foldl_cons, List.foldl_nil, subsectorTestPixel, pushMany]

theorem subsectorTestRow_fold (args : TriDrawTriangleArgs) (x y : Int) (a : Nat) (m : Nat)
    (n : Nat) :
    (List.range' a n).foldl (subsectorTestRow args)
        (m, x + y * args.pitch + (a : Int) * args.pitch) =
      (pushMany m (fun k => subsectorTest args x y (k % 8) (a + k / 8)) (8 * n),
        x + y * args.pitch + ((a + n : Nat) : Int) * args.pitch) := by
  induction n with
  | zero => simp [pushMany]
  | succ n ih =>
    rw [List.range'_1_concat, List.foldl_append, ih]
    simp only [List.foldl_cons, List.foldl_nil, subsectorTestRow]
    rw [subsectorTestPixel_fold]
    have h8 : 8 * (n + 1) = 8 * n + 8 := by ring
    rw [h8, ← pushMany_add]
    have hc : pushMany (pushMany m (fun k => subsectorTest args x y (k % 8) (a + k / 8)) (8 * n))
        (fun ix => decide (args.subsectorGBuffer
          (x + y * args.pitch + ((a + n : Nat) : Int) * args.pitch + (ix : Int)) ≥
            args.subsectorDepth)) 8 =
        pushMany (pushMany m (fun k => subsectorTest args x y (k % 8) (a + k / 8)) (8 * n))
        (fun i => subsectorTest args x y ((8 * n + i) % 8) (a + (8 * n + i) / 8)) 8 := by
      apply pushMany_congr
      intro i hi
      have h1 : (8 * n + i) % 8 = i := by omega
      have h2 : (8 * n + i) / 8 = n := by omega
      rw [h1, h2]
      rfl
    rw [hc]
    have hp : x + y * args.pitch + ((a + n : Nat) : Int) * args.pitch + args.pitch =
        x + y * args.pitch + ((a + (n + 1) : Nat) : Int) * args.pitch := by
      push_cast; ring
    rw [hp]

theorem subsectorTestMasks_eq (args : TriDrawTriangleArgs) (x y : Int) :
    subsectorTestMasks args x y = packTile (subsectorTest args x y) := by
  have hl0 : ([0, 1, 2, 3] : List Nat) = List.range' 0 4 := rfl
  have hl4 : ([4, 5, 6, 7] : List Nat) = List.range' 4 4 := rfl
  have top := subsectorTestRow_fold args x y 0 0 4
  have bottom := subsectorTestRow_fold args x y 4 0 4
  have h0 : x + y * args.pitch = x + y * args.pitch + ((0 : Nat) : Int) * args.pitch := by simp
  unfold subsectorTestMasks packTile
  simp only [hl0, hl4]
  rw [h0, top]
  simp only [Nat.zero_add]
  rw [bottom]

theorem subsectorPixel_fold (args : TriDrawTriangleArgs) (x y : Int) (iy : Nat) (m : Nat)
    (n : Nat) :
    (List.range n).foldl
        (subsectorPixel args x y iy (x + y * args.pitch + (iy : Int) * args.pitch))
        (m, edge1 args x (y + iy), edge2 args x (y + iy), edge3 args x (y + iy)) =
      (pushMany m (fun ix => subsectorCovered args x y ix iy) n,
        edge1 args (x + n) (y + iy), edge2 args (x + n) (y + iy), edge3 args (x + n) (y + iy)) := by
  induction n with
  | zero => simp [pushMany]
  | succ n ih =>
    rw [List.range_succ, List.foldl_append, ih]
    simp only [List.foldl_cons, List.foldl_nil, subsectorPixel, pushMany, subsectorCovered,
      subsectorTest]
    have e1 := (edge_step (C1 args) (DX12 args) (DY12 args) (x + n) (y + iy)).1
    have e2 := (edge_step (C2 args) (DX23 args) (DY23 args) (x + n) (y + iy)).1
    have e3 := (edge_step (C3 args) (DX31 args) (DY31 args) (x + n) (y + iy)).1
    simp only [edge1, edge2, edge3, FDY12, FDY23, FDY31, Nat.cast_add, Nat.cast_one,
      ← add_assoc, e1, e2, e3]

theorem subsectorRow_eq (args : TriDrawTriangleArgs) (x y : Int) (iy : Nat) (m : Nat) :
    subsectorRow args x y
        (m, edge1 args x (y + iy), edge2 args x (y + iy), edge3 args x (y + iy),
          x + y * args.pitch + (iy : Int) * args.pitch) iy =
      (pushMany m (fun ix => subsectorCovered args x y ix iy) 8,
        edge1 args x (y + (iy + 1 : Nat)), edge2 args x (y + (iy + 1 : Nat)),
        edge3 args x (y + (iy + 1 : Nat)),
        x + y * args.pitch + ((iy + 1 : Nat) : Int) * args.pitch) := by
  unfold subsectorRow
  simp only
  rw [subsectorPixel_fold]
  have e1 := (edge_step (C1 args) (DX12 args) (DY12 args) x (y + iy)).2
  have e2 := (edge_step (C2 args) (DX23 args) (DY23 args) x (y + iy)).2
  have e3 := (edge_step (C3 args) (DX31 args) (DY31 args) x (y + iy)).2
  have hp : x + y * args.pitch + (iy : Int) * args.pitch + args.pitch =
      x + y * args.pitch + ((iy : Int) + 1) * args.pitch := by ring
  simp only [edge1, edge2, edge3, FDX12, FDX23, FDX31, Nat.cast_add, Nat.cast_one,
    ← add_assoc, e1, e2, e3, hp]

theorem subsectorRow_fold (args : TriDrawTriangleArgs) (x y : Int) (a : Nat) (m : Nat) (n : Nat) :
    (List.range' a n).foldl (subsectorRow args x y)
        (m, edge1 args x (y + a), edge2 args x (y + a), edge3 args x (y + a),
          x + y * args.pitch + (a : Int) * args.pitch) =
      (pushMany m (fun k => subsectorCovered args x y (k % 8) (a + k / 8)) (8 * n),
        edge1 args x (y + (a + n : Nat)), edge2 args x (y + (a + n : Nat)),
        edge3 args x (y + (a + n : Nat)),
        x + y * args.pitch + ((a + n : Nat) : Int) * args.pitch) := by
  induction n with
  | zero => simp [pushMany]
  | succ n ih =>
    rw [List.range'_1_concat, List.foldl_append, ih]
    simp only [List.foldl_cons, List.foldl_nil]
    rw [subsectorRow_eq]
    have h8 : 8 * (n + 1) = 8 * n + 8 := by ring
    rw [h8, ← pushMany_add]
    have hc : pushMany
        (pushMany m (fun k => subsectorCovered args x y (k % 8) (a + k / 8)) (8 * n))
        (fun ix => subsectorCovered args x y ix (a + n)) 8 =
        pushMany (pushMany m (fun k => subsectorCovered args x y (k % 8) (a + k / 8)) (8 * n))
        (fun i => subsectorCovered args x y ((8 * n + i) % 8) (a + (8 * n + i) / 8)) 8 := by
      apply pushMany_congr
      intro i hi
      have h1 : (8 * n + i) % 8 = i := by omega
      have h2 : (8 * n + i) / 8 = n := by omega
      rw [h1, h2]
    rw [hc]
    rfl

theorem subsectorMasks_eq (args : TriDrawTriangleArgs) (x y : Int) :
    subsectorMasks args x y = packTile (subsectorCovered args x y) := by
  have hl0 : ([0, 1, 2, 3] : List Nat) = List.range' 0 4 := rfl
  have hl4 : ([4, 5, 6, 7] : List Nat) = List.range' 4 4 := rfl
  have top := subsectorRow_fold args x y 0 0 4
  have bottom := subsectorRow_fold args x y 4 0 4
  simp only [Nat.cast_zero, zero_mul, add_zero, Nat.zero_add] at top
  unfold subsectorMasks packTile
  simp only [hl0, hl4]
  have e1 : C1 args + DX12 args * (y * 16) - DY12 args * (x * 16) = edge1 args x y := rfl
  have e2 : C2 args + DX23 args * (y * 16) - DY23 args * (x * 16) = edge2 args x y := rfl
  have e3 : C3 args + DX31 args * (y * 16) - DY31 args * (x * 16) = edge3 args x y := rfl
  rw [e1, e2, e3, top]
  simp only
  rw [bottom]

theorem subsectorBlock_eq (args : TriDrawTriangleArgs) (x y : Int) (st : BinState) :
    subsectorBlock args y x st =
      emitMasks st x y (subsectorTileMasks args x y).1 (subsectorTileMasks args x y).2 := by
  unfold subsectorBlock subsectorTileMasks
  simp only
  split
  · exact closeSpan_eq_emitMasks st x y
  · split
    · rfl
    · rfl

theorem subsectorTest_iff (args : TriDrawTriangleArgs) (x y : Int) (ix iy : Nat) :
    subsectorTest args x y ix iy = true ↔
      args.subsectorGBuffer ((x + ix) + (y + iy) * args.pitch) ≥ args.subsectorDepth := by
  unfold subsectorTest
  have h : x + y * args.pitch + (iy : Int) * args.pitch + (ix : Int) =
      (x + ix) + (y + iy) * args.pitch := by ring
  rw [h, decide_eq_true_eq]

theorem subsectorCovered_iff (args : TriDrawTriangleArgs) (x y : Int) (ix iy : Nat)
    (hx : 8 ∣ x) (hy : 8 ∣ y) (hix : ix < 8) (hiy : iy < 8)
    (hskip : blockIsSingleStencil args (stencilBlockIndex args x y) = true →
      args.stencilMasks (stencilBlockIndex args x y) &&& 0xff ≥ args.stencilTestValue) :
    subsectorCovered args x y ix iy = true ↔ subsectorPass args (x + ix) (y + iy) := by
  unfold subsectorCovered subsectorPass insideTriangle
  rw [stencilAt_tile args x y ix iy hx hy hix hiy]
  simp only [Bool.and_eq_true, Bool.or_eq_true, decide_eq_true_eq, subsectorTest_iff]
  by_cases hs : blockIsSingleStencil args (stencilBlockIndex args x y) = true
  · simp only [hs, if_true, hskip hs, true_or, and_true]
    tauto
  · simp only [hs, if_false, false_or]
    tauto

theorem subsector_tile_iff (args : TriDrawTriangleArgs) (x y px py : Int)
    (hx : 8 ∣ x) (hy : 8 ∣ y) :
    inBlock ⟨x, y, (subsectorTileMasks args x y).1, (subsectorTileMasks args x y).2⟩ px py ↔
      (x ≤ px ∧ px < x + 8 ∧ y ≤ py ∧ py < y + 8 ∧ subsectorPass args px py) := by
  by_cases htile : x ≤ px ∧ px < x + 8 ∧ y ≤ py ∧ py < y + 8
  swap
  · constructor
    · intro h
      exact absurd ⟨h.1, h.2.1, h.2.2.1, h.2.2.2.1⟩ htile
    · intro h
      exact absurd ⟨h.1, h.2.1, h.2.2.1, h.2.2.2.1⟩ htile
  obtain ⟨hx0, hx8, hy0, hy8⟩ := htile
  obtain ⟨ix, hix⟩ := Int.eq_ofNat_of_zero_le (sub_nonneg.2 hx0)
  obtain ⟨iy, hiy⟩ := Int.eq_ofNat_of_zero_le (sub_nonneg.2 hy0)
  have hpx : px = x + ix := by omega
  have hpy : py = y + iy := by omega
  have hix8 : ix < 8 := by omega
  have hiy8 : iy < 8 := by omega
  subst hpx hpy
  have hi0 : (0 : Int) ≤ (ix : Int) := Int.natCast_nonneg _
  have hj0 : (0 : Int) ≤ (iy : Int) := Int.natCast_nonneg _
  have hi7 : (ix : Int) ≤ 7 := by omega
  have hj7 : (iy : Int) ≤ 7 := by omega
  unfold inBlock
  simp only [add_sub_cancel_left, Int.toNat_ofNat, hx0, hx8, hy0, hy8, true_and]
  unfold subsectorTileMasks
  simp only
  split
  · rename_i hrej
    simp only [maskBit_zero, Bool.false_eq_true, false_iff]
    intro hp
    rcases hrej with ha | hb | hc | hs
    · rw [cornerMask_eq_zero] at ha
      have := affine_nonpos _ _ _ x y ix iy hi0 hi7 hj0 hj7 ha.1 ha.2.1 ha.2.2.1 ha.2.2.2
      have h1 := hp.1.1
      unfold edge1 at h1
      omega
    · rw [cornerMask_eq_zero] at hb
      have := affine_nonpos _ _ _ x y ix iy hi0 hi7 hj0 hj7 hb.1 hb.2.1 hb.2.2.1 hb.2.2.2
      have h1 := hp.1.2.1
      unfold edge2 at h1
      omega
    · rw [cornerMask_eq_zero] at hc
      have := affine_nonpos _ _ _ x y ix iy hi0 hi7 hj0 hj7 hc.1 hc.2.1 hc.2.2.1 hc.2.2.2
      have h1 := hp.1.2.2
      unfold edge3 at h1
      omega
    · have h4 := hp.2.2.2.1
      rw [stencilAt_tile args x y ix iy hx hy hix8 hiy8] at h4
      simp only [Bool.and_eq_true, decide_eq_true_eq] at hs
      rw [if_pos hs.1] at h4
      omega
  · rename_i hrej
    have hskip : blockIsSingleStencil args (stencilBlockIndex args x y) = true →
        args.stencilMasks (stencilBlockIndex args x y) &&& 0xff ≥ args.stencilTestValue := by
      intro hs
      by_contra hne
      exact hrej (Or.inr (Or.inr (Or.inr (by
        simp only [Bool.and_eq_true, decide_eq_true_eq]
        exact ⟨hs, by omega⟩))))
    split
    · rename_i hfull
      obtain ⟨ha, hb, hc, hcx, hcy, hs⟩ := hfull
      rw [subsectorTestMasks_eq, packTile_bit _ ix iy hix8 hiy8, subsectorTest_iff]
      rw [cornerMask_eq_full] at ha hb hc
      constructor
      · intro hsub
        refine ⟨⟨?_, ?_, ?_⟩, ?_, ?_, ?_, hsub⟩
        · exact affine_pos _ _ _ x y ix iy hi0 hi7 hj0 hj7 ha.1 ha.2.1 ha.2.2.1 ha.2.2.2
        · exact affine_pos _ _ _ x y ix iy hi0 hi7 hj0 hj7 hb.1 hb.2.1 hb.2.2.1 hb.2.2.2
        · exact affine_pos _ _ _ x y ix iy hi0 hi7 hj0 hj7 hc.1 hc.2.1 hc.2.2.1 hc.2.2.2
        · unfold q at hcx; omega
        · unfold q at hcy; omega
        · rw [stencilAt_tile args x y ix iy hx hy hix8 hiy8, if_pos hs]
          exact hskip hs
      · intro hp
        exact hp.2.2.2.2
    · rw [subsectorMasks_eq, packTile_bit _ ix iy hix8 hiy8]
      exact subsectorCovered_iff args x y ix iy hx hy hix8 hiy8 hskip

/-! ## The output of `SetupSubsector` -/

theorem SetupSubsector_early (args : TriDrawTriangleArgs) (thread : WorkerThreadData)
    (h : minx args ≥ maxx args ∨ miny args ≥ maxy args) :
    SetupSubsector args thread = { thread with NumFullSpans := 0, NumPartialBlocks := 0 } := by
  unfold SetupSubsector
  rw [if_pos h]

theorem SetupSubsector_run (args : TriDrawTriangleArgs) (thread : WorkerThreadData)
    (h : ¬ (minx args ≥ maxx args ∨ miny args ≥ maxy args)) :
    outState (SetupSubsector args thread) =
      blockLoops (subsectorBlock args) (snap (minx args)) (maxx args) (startY args thread)
        (maxy args) thread.num_cores
        { FullSpans := Function.update thread.FullSpans 0 { thread.FullSpans 0 with Length := 0 }
          span := 0
          PartialBlocks := thread.PartialBlocks
          block := 0 } := by
  unfold SetupSubsector
  rw [if_neg h]
  rfl

theorem SetupSubsector_inv (args : TriDrawTriangleArgs) (thread : WorkerThreadData)
    (hn : 0 < thread.num_cores)
    (h : ¬ (minx args ≥ maxx args ∨ miny args ≥ maxy args)) :
    BinInv (fun x y => (subsectorTileMasks args x y).1)
        (fun x y => (subsectorTileMasks args x y).2)
        (visits args thread) (outState (SetupSubsector args thread)) 0 0 ∧
      ((SetupSubsector args thread).FullSpans
        (SetupSubsector args thread).NumFullSpans).Length = 0 := by
  have hinit := BinInv.init (fun x y => (subsectorTileMasks args x y).1)
    (fun x y => (subsectorTileMasks args x y).2) thread.FullSpans thread.PartialBlocks
  have key := blockLoops_inv (fun x y st => subsectorBlock_eq args x y st)
    (snap (minx args)) (maxx args) (startY args thread) (maxy args) hn hinit (by simp)
  rw [← SetupSubsector_run args thread h] at key
  refine ⟨key.1.congr ?_, key.2⟩
  intro tx ty
  unfold visits
  simp only [false_or]

/-- The pixels that the output of `SetupSubsector` covers, for a worker
`0 ≤ core < num_cores`. -/
theorem SetupSubsector_covers_iff (args : TriDrawTriangleArgs) (thread : WorkerThreadData)
    (hn : 0 < thread.num_cores) (hc0 : 0 ≤ thread.core) (hc : thread.core < thread.num_cores)
    (px py : Int) :
    Covers (SetupSubsector args thread) px py ↔
      (minx args < maxx args ∧ miny args < maxy args ∧
        snap (minx args) ≤ px ∧ 8 * (px / 8) < maxx args ∧
        snap (miny args) ≤ py ∧ 8 * (py / 8) < maxy args ∧
        (py / 8) % thread.num_cores = thread.core ∧ subsectorPass args px py) := by
  by_cases h : minx args ≥ maxx args ∨ miny args ≥ maxy args
  · rw [SetupSubsector_early args thread h]
    constructor
    · intro hcov
      exact absurd hcov (not_covers_of_counts_zero _ rfl rfl px py)
    · rintro ⟨h1, h2, _⟩
      rcases h with h | h <;> omega
  · obtain ⟨hinv, hlen⟩ := SetupSubsector_inv args thread hn h
    have hrun : minx args < maxx args ∧ miny args < maxy args := by
      constructor
      · by_contra hc; exact h (Or.inl (by omega))
      · by_contra hc; exact h (Or.inr (by omega))
    rw [covers_of_inv args thread _ _ _ (subsectorPass args) hinv hlen
      (fun x y px py hx hy => subsector_tile_iff args x y px py hx hy) hn hc0 hc px py]
    constructor
    · intro hh; exact ⟨hrun.1, hrun.2, hh⟩
    · intro hh; exact hh.2.2

/-! ## Consequences for the output entries -/

theorem core_skip_nonneg (miny core num_cores : Int) (hn : 0 < num_cores) :
    0 ≤ core_skip miny core num_cores := by
  unfold core_skip
  have hr2 := Int.tmod_lt_of_pos (miny / q - core) hn
  exact Int.tmod_nonneg _ (by omega)

theorem visits_nonneg (args : TriDrawTriangleArgs) (thread : WorkerThreadData)
    (hn : 0 < thread.num_cores) (tx ty : Int) (h : visits args thread tx ty) :
    0 ≤ tx ∧ 0 ≤ ty := by
  obtain ⟨i, j, hx, _, hy, _⟩ := h
  have h1 := snap_eq (minx args) (minx_nonneg args)
  have h2 := snap_eq (miny args) (miny_nonneg args)
  have h3 := minx_nonneg args
  have h4 := miny_nonneg args
  have h5 := core_skip_nonneg (snap (miny args)) thread.core thread.num_cores hn
  have h6 : (0 : Int) ≤ (j : Int) * (8 * thread.num_cores) :=
    mul_nonneg (Int.natCast_nonneg _) (by omega)
  constructor
  · rw [hx, h1]; omega
  · rw [hy]
    unfold startY q
    generalize core_skip (snap (miny args)) thread.core thread.num_cores = s at h5 ⊢
    rw [h2]
    omega

theorem visits_row (args : TriDrawTriangleArgs) (thread : WorkerThreadData)
    (hn : 0 < thread.num_cores) (hc0 : 0 ≤ thread.core) (hc : thread.core < thread.num_cores)
    (tx ty : Int) (h : visits args thread tx ty) :
    (ty / 8) % thread.num_cores = thread.core := by
  obtain ⟨i, j, _, _, hy, hyl⟩ := h
  have hskip := core_skip_spec (snap (miny args)) thread.core thread.num_cores hn hc0 hc
  have hrow := visited_row_iff (snap (miny args))
    (core_skip (snap (miny args)) thread.core thread.num_cores) thread.num_cores (maxy args) ty
    thread.core (snap_dvd _ (miny_nonneg args)) hn hskip.1 hskip.2.1 hskip.2.2
  have hq : q = 8 := rfl
  unfold startY at hy
  rw [hq] at hy
  exact (hrow.1 ⟨j, by rw [← hy]; exact hyl, by rw [← hy], by rw [← hy]; omega⟩).2.2

theorem BinInv.entries {M0 M1 : Int → Int → Nat} {S : Int → Int → Prop} {st : BinState}
    {x y : Int} (h : BinInv M0 M1 S st x y) :
    (∀ i, i < st.span → S (st.FullSpans i).X (st.FullSpans i).Y) ∧
      (∀ i, i < st.block → S (st.PartialBlocks i).X (st.PartialBlocks i).Y) := by
  constructor
  · intro i hi
    have hl := h.done i hi
    have := (h.spans i (le_of_lt hi) 0 (Nat.pos_of_ne_zero hl)).1
    simpa using this
  · intro i hi
    exact (h.blocks i hi).1

/-- Every entry of a binner output lies on a block row of its worker. -/
theorem rows_of_inv (args : TriDrawTriangleArgs) (thread out : WorkerThreadData)
    (M0 M1 : Int → Int → Nat)
    (hinv : BinInv M0 M1 (visits args thread) (outState out) 0 0)
    (hn : 0 < thread.num_cores) (hc0 : 0 ≤ thread.core) (hc : thread.core < thread.num_cores) :
    (∀ i, i < out.NumFullSpans → ((out.FullSpans i).Y / 8) % thread.num_cores = thread.core) ∧
      (∀ i, i < out.NumPartialBlocks →
        ((out.PartialBlocks i).Y / 8) % thread.num_cores = thread.core) := by
  obtain ⟨hs, hb⟩ := hinv.entries
  exact ⟨fun i hi => visits_row args thread hn hc0 hc _ _ (hs i hi),
    fun i hi => visits_row args thread hn hc0 hc _ _ (hb i hi)⟩

/-- Clip containment of a binner output, read off the invariant of its block
loops, when every pixel that passes the per-pixel test `P` lies inside the
clip rectangle. -/
theorem clip_of_inv (args : TriDrawTriangleArgs) (thread out : WorkerThreadData)
    (M0 M1 : Int → Int → Nat) (P : Int → Int → Prop)
    (hinv : BinInv M0 M1 (visits args thread) (outState out) 0 0)
    (htile : ∀ x y px py, 8 ∣ x → 8 ∣ y →
      (inBlock ⟨x, y, M0 x y, M1 x y⟩ px py ↔
        (x ≤ px ∧ px < x + 8 ∧ y ≤ py ∧ py < y + 8 ∧ P px py)))
    (hP : ∀ px py, P px py → px < args.clipright ∧ py < args.clipbottom)
    (hn : 0 < thread.num_cores) :
    (∀ i, i < out.NumPartialBlocks → ∀ px py : Int, inBlock (out.PartialBlocks i) px py →
        0 ≤ px ∧ px < args.clipright ∧ 0 ≤ py ∧ py < args.clipbottom) ∧
      (∀ i, i < out.NumFullSpans →
        0 ≤ (out.FullSpans i).X ∧ 0 ≤ (out.FullSpans i).Y ∧
        (out.FullSpans i).X + 8 * ((out.FullSpans i).Length : Int) ≤ args.clipright ∧
        (out.FullSpans i).Y + 8 ≤ args.clipbottom) := by
  constructor
  · intro i hi px py hb
    obtain ⟨hv, hm0, hm1, _, _⟩ := hinv.blocks i hi
    obtain ⟨hdx, hdy⟩ := visits_dvd args thread _ _ hv
    obtain ⟨hx0, hy0⟩ := visits_nonneg args thread hn _ _ hv
    have hb' : inBlock ⟨(out.PartialBlocks i).X, (out.PartialBlocks i).Y,
        M0 (out.PartialBlocks i).X (out.PartialBlocks i).Y,
        M1 (out.PartialBlocks i).X (out.PartialBlocks i).Y⟩ px py := by
      have hm0' : (out.PartialBlocks i).Mask0 =
          M0 (out.PartialBlocks i).X (out.PartialBlocks i).Y := hm0
      have hm1' : (out.PartialBlocks i).Mask1 =
          M1 (out.PartialBlocks i).X (out.PartialBlocks i).Y := hm1
      rw [← hm0', ← hm1']
      exact hb
    obtain ⟨h1, _, h3, _, hp⟩ := (htile _ _ px py hdx hdy).1 hb'
    obtain ⟨hc1, hc2⟩ := hP px py hp
    have hx0' : 0 ≤ (out.PartialBlocks i).X := hx0
    have hy0' : 0 ≤ (out.PartialBlocks i).Y := hy0
    exact ⟨by omega, hc1, by omega, hc2⟩
  · intro i hi
    have hl : (out.FullSpans i).Length ≠ 0 := hinv.done i hi
    have hspans : ∀ i, i ≤ out.NumFullSpans → ∀ j : Nat, j < (out.FullSpans i).Length →
        visits args thread ((out.FullSpans i).X + 8 * (j : Int)) (out.FullSpans i).Y ∧
          M0 ((out.FullSpans i).X + 8 * (j : Int)) (out.FullSpans i).Y = 0xffffffff ∧
          M1 ((out.FullSpans i).X + 8 * (j : Int)) (out.FullSpans i).Y = 0xffffffff :=
      hinv.spans
    obtain ⟨hv0, _, _⟩ := hspans i (le_of_lt hi) 0 (Nat.pos_of_ne_zero hl)
    obtain ⟨hvl, hm0, hm1⟩ := hspans i (le_of_lt hi) ((out.FullSpans i).Length - 1)
      (by omega)
    have hv0' : visits args thread (out.FullSpans i).X (out.FullSpans i).Y := by
      simpa using hv0
    obtain ⟨hx0, hy0⟩ := visits_nonneg args thread hn _ _ hv0'
    obtain ⟨hdx, hdy⟩ := visits_dvd args thread _ _ hvl
    have hlast := (htile _ _
      ((out.FullSpans i).X + 8 * (((out.FullSpans i).Length - 1 : Nat) : Int) + 7)
      ((out.FullSpans i).Y + 7) hdx hdy).1 (by
        rw [hm0, hm1, inBlock_ones]
        omega)
    obtain ⟨hc1, hc2⟩ := hP _ _ hlast.2.2.2.2
    have hcast : (((out.FullSpans i).Length - 1 : Nat) : Int) =
        ((out.FullSpans i).Length : Int) - 1 := by
      have : 1 ≤ (out.FullSpans i).Length := Nat.pos_of_ne_zero hl
      omega
    rw [hcast] at hc1
    exact ⟨hx0, hy0, by omega, by omega⟩

theorem sample_covers : Covers (SetupNormal sampleArgs sampleThread) 1 1 := by
  rw [SetupNormal_covers_iff sampleArgs sampleThread (by decide) (by decide) (by decide)]
  rw [snap_eq _ (minx_nonneg _), snap_eq _ (miny_nonneg _)]
  refine ⟨by decide, by decide, by decide, by decide, by decide, by decide, by decide, ?_⟩
  unfold normalPass insideTriangle
  decide


/-! ## Degenerate and off-screen triangles -/

theorem forLoop_fix {σ : Type} (bound stride : Int) (body : Int → σ → σ) (st : σ)
    (h : ∀ v, body v st = st) : ∀ (fuel : Nat) (v : Int), forLoop bound stride body fuel v st = st := by
  intro fuel
  induction fuel with
  | zero => intro v; rfl
  | succ fuel ih =>
    intro v
    show (if v < bound then _ else _) = st
    split
    · rw [h v]; exact ih _
    · rfl

theorem closeSpan_of_length_zero (st : BinState) (h : (st.FullSpans st.span).Length = 0) :
    closeSpan st = st := by
  unfold closeSpan
  rw [if_neg (by simpa using h)]

theorem blockLoops_reject (body : Int → Int → BinState → BinState)
    (hbody : ∀ x y st, body y x st = closeSpan st)
    (minx maxx miny maxy num_cores : Int) (st : BinState)
    (h : (st.FullSpans st.span).Length = 0) :
    blockLoops body minx maxx miny maxy num_cores st = st := by
  unfold blockLoops
  apply forLoop_fix
  intro y
  have hin : forLoop maxx q (body y) (maxx - minx).toNat minx st = st := by
    apply forLoop_fix
    intro x
    rw [hbody, closeSpan_of_length_zero st h]
  simp only [hin]
  exact closeSpan_of_length_zero st h

theorem cornerMask_degenerate (X Y x y : Int) :
    cornerMask (edgeConstant 0 0 X Y) 0 0 x y = 0 := by
  rw [cornerMask_eq_zero]
  unfold edgeConstant
  simp

theorem shiftRight_four (v : Int) : Int.shiftRight v 4 = v / 16 := by
  have h := Int.shiftRight_eq_div_pow v 4
  simpa using h

theorem early_of_offscreen (args : TriDrawTriangleArgs)
    (h : (args.X1 ≤ 0 ∧ args.X2 ≤ 0 ∧ args.X3 ≤ 0) ∨
      (16 * args.clipright ≤ args.X1 ∧ 16 * args.clipright ≤ args.X2 ∧
        16 * args.clipright ≤ args.X3) ∨
      (args.Y1 ≤ 0 ∧ args.Y2 ≤ 0 ∧ args.Y3 ≤ 0) ∨
      (16 * args.clipbottom ≤ args.Y1 ∧ 16 * args.clipbottom ≤ args.Y2 ∧
        16 * args.clipbottom ≤ args.Y3)) :
    minx args ≥ maxx args ∨ miny args ≥ maxy args := by
  unfold minx maxx miny maxy
  simp only [shiftRight_four]
  rcases h with h | h | h | h
  · left
    have : max (max args.X1 args.X2) args.X3 ≤ 0 := by simp [h.1, h.2.1, h.2.2]
    omega
  · left
    have : 16 * args.clipright ≤ min (min args.X1 args.X2) args.X3 := by simp [h.1, h.2.1, h.2.2]
    omega
  · right
    have : max (max args.Y1 args.Y2) args.Y3 ≤ 0 := by simp [h.1, h.2.1, h.2.2]
    omega
  · right
    have : 16 * args.clipbottom ≤ min (min args.Y1 args.Y2) args.Y3 := by
      simp [h.1, h.2.1, h.2.2]
    omega

theorem corner_of_coincident (args : TriDrawTriangleArgs)
    (h : (args.X1 = args.X2 ∧ args.Y1 = args.Y2) ∨ (args.X2 = args.X3 ∧ args.Y2 = args.Y3) ∨
      (args.X3 = args.X1 ∧ args.Y3 = args.Y1)) (x y : Int) :
    cornerMask (C1 args) (DX12 args) (DY12 args) x y = 0 ∨
      cornerMask (C2 args) (DX23 args) (DY23 args) x y = 0 ∨
      cornerMask (C3 args) (DX31 args) (DY31 args) x y = 0 := by
  rcases h with h | h | h
  · left
    have hx : DX12 args = 0 := by unfold DX12; omega
    have hy : DY12 args = 0 := by unfold DY12; omega
    unfold C1
    rw [hx, hy]
    exact cornerMask_degenerate _ _ x y
  · right; left
    have hx : DX23 args = 0 := by unfold DX23; omega
    have hy : DY23 args = 0 := by unfold DY23; omega
    unfold C2
    rw [hx, hy]
    exact cornerMask_degenerate _ _ x y
  · right; right
    have hx : DX31 args = 0 := by unfold DX31; omega
    have hy : DY31 args = 0 := by unfold DY31; omega
    unfold C3
    rw [hx, hy]
    exact cornerMask_degenerate _ _ x y

theorem normalBlock_of_coincident (args : TriDrawTriangleArgs)
    (h : (args.X1 = args.X2 ∧ args.Y1 = args.Y2) ∨ (args.X2 = args.X3 ∧ args.Y2 = args.Y3) ∨
      (args.X3 = args.X1 ∧ args.Y3 = args.Y1)) (x y : Int) (st : BinState) :
    normalBlock args y x st = closeSpan st := by
  unfold normalBlock
  simp only
  rw [if_pos]
  rcases corner_of_coincident args h x y with h | h | h
  · exact Or.inl h
  · exact Or.inr (Or.inl h)
  · exact Or.inr (Or.inr (Or.inl h))

theorem subsectorBlock_of_coincident (args : TriDrawTriangleArgs)
    (h : (args.X1 = args.X2 ∧ args.Y1 = args.Y2) ∨ (args.X2 = args.X3 ∧ args.Y2 = args.Y3) ∨
      (args.X3 = args.X1 ∧ args.Y3 = args.Y1)) (x y : Int) (st : BinState) :
    subsectorBlock args y x st = closeSpan st := by
  unfold subsectorBlock
  simp only
  rw [if_pos]
  rcases corner_of_coincident args h x y with h | h | h
  · exact Or.inl h
  · exact Or.inr (Or.inl h)
  · exact Or.inr (Or.inr (Or.inl h))

theorem counts_of_coincident (args : TriDrawTriangleArgs) (thread : WorkerThreadData)
    (h : (args.X1 = args.X2 ∧ args.Y1 = args.Y2) ∨ (args.X2 = args.X3 ∧ args.Y2 = args.Y3) ∨
      (args.X3 = args.X1 ∧ args.Y3 = args.Y1)) :
    ((SetupNormal args thread).NumFullSpans = 0 ∧ (SetupNormal args thread).NumPartialBlocks = 0) ∧
      ((SetupSubsector args thread).NumFullSpans = 0 ∧
        (SetupSubsector args thread).NumPartialBlocks = 0) := by
  by_cases he : minx args ≥ maxx args ∨ miny args ≥ maxy args
  · rw [SetupNormal_early args thread he, SetupSubsector_early args thread he]
    exact ⟨⟨rfl, rfl⟩, ⟨rfl, rfl⟩⟩
  · have hN := SetupNormal_run args thread he
    have hS := SetupSubsector_run args thread he
    rw [blockLoops_reject _ (fun x y st => normalBlock_of_coincident args h x y st) _ _ _ _ _ _
      (by simp)] at hN
    rw [blockLoops_reject _ (fun x y st => subsectorBlock_of_coincident args h x y st) _ _ _ _ _ _
      (by simp)] at hS
    have hN1 : (outState (SetupNormal args thread)).span = 0 := by rw [hN]
    have hN2 : (outState (SetupNormal args thread)).block = 0 := by rw [hN]
    have hS1 : (outState (SetupSubsector args thread)).span = 0 := by rw [hS]
    have hS2 : (outState (SetupSubsector args thread)).block = 0 := by rw [hS]
    exact ⟨⟨hN1, hN2⟩, ⟨hS1, hS2⟩⟩

/-! ## Stencil states that denote the same content -/

set_option maxRecDepth 100000 in
theorem uniform_word (v : Nat) (hv : v < 256) :
    (0xFFFFFF00 ||| v) &&& 0xffffff00 = 0xffffff00 ∧ (0xFFFFFF00 ||| v) &&& 0xff = v := by
  have h : ∀ v, v < 256 →
      ((0xFFFFFF00 ||| v) &&& 0xffffff00 = 0xffffff00 ∧ (0xFFFFFF00 ||| v) &&& 0xff = v) := by
    decide
  exact h v hv

theorem stencilAt_of_tileEquiv (masks1 values1 masks2 values2 : Int → Nat)
    (h : ∀ b, tileEquiv masks1 values1 masks2 values2 b) (stencilPitch px py : Int) :
    stencilAt masks1 values1 stencilPitch px py = stencilAt masks2 values2 stencilPitch px py := by
  unfold stencilAt
  simp only
  have hk0 : 0 ≤ px % 8 + py % 8 * 8 := by omega
  have hk1 : px % 8 + py % 8 * 8 < 64 := by omega
  generalize px % 8 + py % 8 * 8 = k at hk0 hk1
  generalize px / 8 + py / 8 * stencilPitch = b
  rcases h b with ⟨hm, hv⟩ | ⟨v, hv, hm1, hm2, hb⟩ | ⟨v, hv, hm2, hm1, hb⟩
  · rw [hm, hv k hk0 hk1]
  · rw [hm1, hm2, if_pos (uniform_word v hv).1, (uniform_word v hv).2, if_neg (by decide),
      hb k hk0 hk1]
  · rw [hm1, hm2, if_pos (uniform_word v hv).1, (uniform_word v hv).2, if_neg (by decide),
      hb k hk0 hk1]

theorem masks_eq_of_bits (m0 m1 n0 n1 : Nat) (hm0 : m0 < 2 ^ 32) (hm1 : m1 < 2 ^ 32)
    (hn0 : n0 < 2 ^ 32) (hn1 : n1 < 2 ^ 32)
    (h : ∀ ix iy, ix < 8 → iy < 8 → maskBit m0 m1 ix iy = maskBit n0 n1 ix iy) :
    m0 = n0 ∧ m1 = n1 := by
  have hbig : ∀ m : Nat, m < 2 ^ 32 → ∀ j, 32 ≤ j → m.testBit j = false := by
    intro m hm j hj
    exact Nat.testBit_lt_two_pow (lt_of_lt_of_le hm (Nat.pow_le_pow_right (by norm_num) hj))
  constructor
  · apply Nat.eq_of_testBit_eq
    intro j
    by_cases hj : j < 32
    · have := h ((31 - j) % 8) ((31 - j) / 8) (by omega) (by omega)
      unfold maskBit at this
      rw [if_pos (by omega), if_pos (by omega)] at this
      have hidx : 31 - ((31 - j) % 8 + 8 * ((31 - j) / 8)) = j := by omega
      rw [hidx] at this
      exact this
    · rw [hbig m0 hm0 j (by omega), hbig n0 hn0 j (by omega)]
  · apply Nat.eq_of_testBit_eq
    intro j
    by_cases hj : j < 32
    · have := h ((31 - j) % 8) ((31 - j) / 8 + 4) (by omega) (by omega)
      unfold maskBit at this
      rw [if_neg (by omega), if_neg (by omega)] at this
      have hidx : 31 - ((31 - j) % 8 + 8 * ((31 - j) / 8 + 4 - 4)) = j := by omega
      rw [hidx] at this
      exact this
    · rw [hbig m1 hm1 j (by omega), hbig n1 hn1 j (by omega)]

theorem inBlock_iff_maskBit (x y : Int) (m0 m1 : Nat) (ix iy : Nat) (hx : ix < 8) (hy : iy < 8) :
    inBlock ⟨x, y, m0, m1⟩ (x + ix) (y + iy) ↔ maskBit m0 m1 ix iy = true := by
  unfold inBlock
  simp only [add_sub_cancel_left, Int.toNat_ofNat]
  constructor
  · intro h; exact h.2.2.2.2
  · intro h; exact ⟨by omega, by omega, by omega, by omega, h⟩

/-- Two mask pairs below `2 ^ 32` that cover the same pixels of a block are
equal. -/
theorem masks_eq_of_inBlock (x y : Int) (m0 m1 n0 n1 : Nat) (hm0 : m0 < 2 ^ 32)
    (hm1 : m1 < 2 ^ 32) (hn0 : n0 < 2 ^ 32) (hn1 : n1 < 2 ^ 32)
    (h : ∀ px py, inBlock ⟨x, y, m0, m1⟩ px py ↔ inBlock ⟨x, y, n0, n1⟩ px py) :
    m0 = n0 ∧ m1 = n1 := by
  apply masks_eq_of_bits m0 m1 n0 n1 hm0 hm1 hn0 hn1
  intro ix iy hx hy
  have h1 := inBlock_iff_maskBit x y m0 m1 ix iy hx hy
  have h2 := inBlock_iff_maskBit x y n0 n1 ix iy hx hy
  have h3 := h (x + ix) (y + iy)
  rw [Bool.eq_iff_iff]
  exact h1.symm.trans (h3.trans h2)

theorem normalTileMasks_lt (args : TriDrawTriangleArgs) (x y : Int) :
    (normalTileMasks args x y).1 < 2 ^ 32 ∧ (normalTileMasks args x y).2 < 2 ^ 32 := by
  unfold normalTileMasks
  simp only
  split
  · exact ⟨by norm_num, by norm_num⟩
  · split
    · exact ⟨by norm_num, by norm_num⟩
    · rw [normalMasks_eq]; exact packTile_lt _

theorem subsectorTileMasks_lt (args : TriDrawTriangleArgs) (x y : Int) :
    (subsectorTileMasks args x y).1 < 2 ^ 32 ∧ (subsectorTileMasks args x y).2 < 2 ^ 32 := by
  unfold subsectorTileMasks
  simp only
  split
  · exact ⟨by norm_num, by norm_num⟩
  · split
    · rw [subsectorTestMasks_eq]; exact packTile_lt _
    · rw [subsectorMasks_eq]; exact packTile_lt _

theorem forLoop_congr {σ : Type} (bound stride : Int) (body1 body2 : Int → σ → σ)
    (A : Int → Prop) (hA : ∀ v, A v → A (v + stride))
    (h : ∀ v st, A v → body1 v st = body2 v st) :
    ∀ (fuel : Nat) (v : Int) (st : σ), A v →
      forLoop bound stride body1 fuel v st = forLoop bound stride body2 fuel v st := by
  intro fuel
  induction fuel with
  | zero => intro v st _; rfl
  | succ fuel ih =>
    intro v st hv
    show (if v < bound then _ else _) = (if v < bound then _ else _)
    split
    · rw [h v st hv]
      exact ih _ _ (hA v hv)
    · rfl

theorem blockLoops_congr (body1 body2 : Int → Int → BinState → BinState)
    (h : ∀ x y st, 8 ∣ x → 8 ∣ y → body1 y x st = body2 y x st)
    (minx maxx miny maxy num_cores : Int) (hx : 8 ∣ minx) (hy : 8 ∣ miny) (st : BinState) :
    blockLoops body1 minx maxx miny maxy num_cores st =
      blockLoops body2 minx maxx miny maxy num_cores st := by
  unfold blockLoops
  apply forLoop_congr maxy (q * num_cores) _ _ (fun v => 8 ∣ v)
  · intro v hv
    exact dvd_add hv (Dvd.intro num_cores rfl)
  · intro y st' hy'
    have hin : forLoop maxx q (body1 y) (maxx - minx).toNat minx st' =
        forLoop maxx q (body2 y) (maxx - minx).toNat minx st' := by
      apply forLoop_congr maxx q _ _ (fun v => 8 ∣ v)
      · intro v hv
        exact dvd_add hv (dvd_refl _)
      · intro x st'' hx'
        exact h x y st'' hx' hy'
      · exact hx
    simp only [hin]
  · exact hy

theorem normalPass_of_tileEquiv (args : TriDrawTriangleArgs) (masks2 values2 : Int → Nat)
    (h : ∀ b, tileEquiv args.stencilMasks args.stencilValues masks2 values2 b) (px py : Int) :
    normalPass { args with stencilMasks := masks2, stencilValues := values2 } px py ↔
      normalPass args px py := by
  have hs := stencilAt_of_tileEquiv _ _ _ _ h args.stencilPitch px py
  show (insideTriangle args px py ∧ px < args.clipright ∧ py < args.clipbottom ∧
      stencilAt masks2 values2 args.stencilPitch px py = args.stencilTestValue) ↔
    (insideTriangle args px py ∧ px < args.clipright ∧ py < args.clipbottom ∧
      stencilAt args.stencilMasks args.stencilValues args.stencilPitch px py =
        args.stencilTestValue)
  rw [hs]

theorem subsectorPass_of_tileEquiv (args : TriDrawTriangleArgs) (masks2 values2 : Int → Nat)
    (h : ∀ b, tileEquiv args.stencilMasks args.stencilValues masks2 values2 b) (px py : Int) :
    subsectorPass { args with stencilMasks := masks2, stencilValues := values2 } px py ↔
      subsectorPass args px py := by
  have hs := stencilAt_of_tileEquiv _ _ _ _ h args.stencilPitch px py
  show (insideTriangle args px py ∧ px < args.clipright ∧ py < args.clipbottom ∧
      stencilAt masks2 values2 args.stencilPitch px py ≥ args.stencilTestValue ∧
      args.subsectorGBuffer (px + py * args.pitch) ≥ args.subsectorDepth) ↔
    (insideTriangle args px py ∧ px < args.clipright ∧ py < args.clipbottom ∧
      stencilAt args.stencilMasks args.stencilValues args.stencilPitch px py ≥
        args.stencilTestValue ∧
      args.subsectorGBuffer (px + py * args.pitch) ≥ args.subsectorDepth)
  rw [hs]

theorem normalBlock_of_tileEquiv (args : TriDrawTriangleArgs) (masks2 values2 : Int → Nat)
    (h : ∀ b, tileEquiv args.stencilMasks args.stencilValues masks2 values2 b)
    (x y : Int) (st : BinState) (hx : 8 ∣ x) (hy : 8 ∣ y) :
    normalBlock args y x st =
      normalBlock { args with stencilMasks := masks2, stencilValues := values2 } y x st := by
  rw [normalBlock_eq, normalBlock_eq]
  have hm := masks_eq_of_inBlock x y _ _ _ _ (normalTileMasks_lt args x y).1
    (normalTileMasks_lt args x y).2
    (normalTileMasks_lt { args with stencilMasks := masks2, stencilValues := values2 } x y).1
    (normalTileMasks_lt { args with stencilMasks := masks2, stencilValues := values2 } x y).2
    (by
      intro px py
      rw [normal_tile_iff args x y px py hx hy, normal_tile_iff _ x y px py hx hy,
        normalPass_of_tileEquiv args masks2 values2 h])
  rw [hm.1, hm.2]

theorem subsectorBlock_of_tileEquiv (args : TriDrawTriangleArgs) (masks2 values2 : Int → Nat)
    (h : ∀ b, tileEquiv args.stencilMasks args.stencilValues masks2 values2 b)
    (x y : Int) (st : BinState) (hx : 8 ∣ x) (hy : 8 ∣ y) :
    subsectorBlock args y x st =
      subsectorBlock { args with stencilMasks := masks2, stencilValues := values2 } y x st := by
  rw [subsectorBlock_eq, subsectorBlock_eq]
  have hm := masks_eq_of_inBlock x y _ _ _ _ (subsectorTileMasks_lt args x y).1
    (subsectorTileMasks_lt args x y).2
    (subsectorTileMasks_lt { args with stencilMasks := masks2, stencilValues := values2 } x y).1
    (subsectorTileMasks_lt { args with stencilMasks := masks2, stencilValues := values2 } x y).2
    (by
      intro px py
      rw [subsector_tile_iff args x y px py hx hy, subsector_tile_iff _ x y px py hx hy,
        subsectorPass_of_tileEquiv args masks2 values2 h])
  rw [hm.1, hm.2]

theorem startY_dvd (args : TriDrawTriangleArgs) (thread : WorkerThreadData) :
    8 ∣ startY args thread := by
  obtain ⟨ky, hky⟩ := snap_dvd (miny args) (miny_nonneg args)
  unfold startY
  rw [hky]
  exact ⟨ky + core_skip (8 * ky) thread.core thread.num_cores, by unfold q; ring⟩

theorem SetupNormal_of_tileEquiv (args : TriDrawTriangleArgs) (masks2 values2 : Int → Nat)
    (h : ∀ b, tileEquiv args.stencilMasks args.stencilValues masks2 values2 b)
    (thread : WorkerThreadData) :
    SetupNormal args thread =
      SetupNormal { args with stencilMasks := masks2, stencilValues := values2 } thread := by
  have hloops := blockLoops_congr (normalBlock args)
    (normalBlock { args with stencilMasks := masks2, stencilValues := values2 })
    (fun x y st hx hy => normalBlock_of_tileEquiv args masks2 values2 h x y st hx hy)
    (snap (minx args)) (maxx args) (startY args thread) (maxy args) thread.num_cores
    (snap_dvd _ (minx_nonneg args)) (startY_dvd args thread)
    { FullSpans := Function.update thread.FullSpans 0 { thread.FullSpans 0 with Length := 0 }
      span := 0
      PartialBlocks := thread.PartialBlocks
      block := 0 }
  unfold startY at hloops
  unfold SetupNormal
  simp only [hloops]
  rfl

theorem SetupSubsector_of_tileEquiv (args : TriDrawTriangleArgs) (masks2 values2 : Int → Nat)
    (h : ∀ b, tileEquiv args.stencilMasks args.stencilValues masks2 values2 b)
    (thread : WorkerThreadData) :
    SetupSubsector args thread =
      SetupSubsector { args with stencilMasks := masks2, stencilValues := values2 } thread := by
  have hloops := blockLoops_congr (subsectorBlock args)
    (subsectorBlock { args with stencilMasks := masks2, stencilValues := values2 })
    (fun x y st hx hy => subsectorBlock_of_tileEquiv args masks2 values2 h x y st hx hy)
    (snap (minx args)) (maxx args) (startY args thread) (maxy args) thread.num_cores
    (snap_dvd _ (minx_nonneg args)) (startY_dvd args thread)
    { FullSpans := Function.update thread.FullSpans 0 { thread.FullSpans 0 with Length := 0 }
      span := 0
      PartialBlocks := thread.PartialBlocks
      block := 0 }
  unfold startY at hloops
  unfold SetupSubsector
  simp only [hloops]
  rfl

/-! ## The stencil writer -/

/-- A run of stores of one value `u` at the `n` consecutive indices from
`base` on. -/
theorem fold_update_const (base : Int) (u : Nat) (f : Int → Nat) (n : Nat) (a : Int) :
    ((∃ j : Nat, j < n ∧ a = base + (j : Int)) →
        (List.range n).foldl (fun g (x : Nat) => Function.update g (base + (x : Int)) u) f a = u) ∧
      ((¬ ∃ j : Nat, j < n ∧ a = base + (j : Int)) →
        (List.range n).foldl (fun g (x : Nat) => Function.update g (base + (x : Int)) u) f a =
          f a) := by
  induction n with
  | zero =>
    constructor
    · rintro ⟨j, hj, _⟩
      exact absurd hj (Nat.not_lt_zero _)
    · intro _
      rfl
  | succ n ih =>
    rw [List.range_succ, List.foldl_append]
    simp only [List.foldl_cons, List.foldl_nil]
    by_cases ha : a = base + (n : Int)
    · constructor
      · intro _
        rw [ha, Function.update_same]
      · intro hno
        exact absurd ⟨n, by omega, ha⟩ hno
    · rw [Function.update_noteq ha]
      constructor
      · rintro ⟨j, hj, hje⟩
        have hjn : j ≠ n := by
          intro h; rw [h] at hje; exact ha hje
        exact ih.1 ⟨j, by omega, hje⟩
      · intro hno
        exact ih.2 (fun ⟨j, hj, hje⟩ => hno ⟨j, by omega, hje⟩)

theorem tileValue_uniform (s : StencilBuffer) (b k : Int) (W : Nat) (hW : W < 256)
    (h : s.stencilMasks b = 0xffffff00 ||| W) : tileValue s b k = W := by
  unfold tileValue
  rw [h, if_pos (uniform_word W hW).1, (uniform_word W hW).2]

theorem tileValue_congr (s t : StencilBuffer) (b k : Int)
    (hm : t.stencilMasks b = s.stencilMasks b)
    (hv : t.stencilValues (b * 64 + k) = s.stencilValues (b * 64 + k)) :
    tileValue t b k = tileValue s b k := by
  unfold tileValue
  rw [hm, hv]

theorem writeSpan_values (W : Nat) (p : Int) (s : StencilBuffer) (span : TriFullSpan) :
    (writeSpan W p s span).stencilValues = s.stencilValues := rfl

theorem writeSpan_masks (W : Nat) (p : Int) (s : StencilBuffer) (span : TriFullSpan) (b : Int) :
    ((∃ j : Nat, j < span.Length ∧ b = Int.tdiv span.X 8 + Int.tdiv span.Y 8 * p + (j : Int)) →
        (writeSpan W p s span).stencilMasks b = 0xffffff00 ||| W) ∧
      ((¬ ∃ j : Nat, j < span.Length ∧ b = Int.tdiv span.X 8 + Int.tdiv span.Y 8 * p + (j : Int)) →
        (writeSpan W p s span).stencilMasks b = s.stencilMasks b) := by
  unfold writeSpan
  exact fold_update_const (Int.tdiv span.X 8 + Int.tdiv span.Y 8 * p) (0xffffff00 ||| W) s.stencilMasks
    span.Length b

theorem writeSpan_tileValue (W : Nat) (hW : W < 256) (p : Int) (s : StencilBuffer)
    (span : TriFullSpan) (b k : Int) :
    ((∃ j : Nat, j < span.Length ∧ b = Int.tdiv span.X 8 + Int.tdiv span.Y 8 * p + (j : Int)) →
        tileValue (writeSpan W p s span) b k = W) ∧
      ((¬ ∃ j : Nat, j < span.Length ∧ b = Int.tdiv span.X 8 + Int.tdiv span.Y 8 * p + (j : Int)) →
        tileValue (writeSpan W p s span) b k = tileValue s b k) := by
  constructor
  · intro h
    exact tileValue_uniform _ b k W hW ((writeSpan_masks W p s span b).1 h)
  · intro h
    exact tileValue_congr _ _ b k ((writeSpan_masks W p s span b).2 h) rfl

theorem shifted_bit (x m n : Nat) (hn : n ≤ 31) (hx : x % 2 ^ 32 = (m * 2 ^ n) % 2 ^ 32) :
    ((x &&& (1 <<< 31)) ≠ 0) ↔ m.testBit (31 - n) = true := by
  have e : (1 : Nat) <<< 31 = 2 ^ 31 := Nat.one_shiftLeft 31
  have h1 : decide (31 < 32) = true := by decide
  have hb : x.testBit 31 = m.testBit (31 - n) := by
    have hx1 : (x % 2 ^ 32).testBit 31 = x.testBit 31 := by
      rw [Nat.testBit_mod_two_pow, h1, Bool.true_and]
    rw [← hx1, hx, Nat.testBit_mod_two_pow, Nat.mul_comm m, Nat.testBit_mul_pow_two]
    have h2 : decide (31 ≥ n) = true := decide_eq_true hn
    rw [h1, h2]
    simp only [Bool.true_and]
  rw [e, Nat.and_two_pow, hb]
  cases m.testBit (31 - n) <;> simp

theorem shifted_step (x m n : Nat) (hx : x % 2 ^ 32 = (m * 2 ^ n) % 2 ^ 32) :
    ((x <<< 1) % 2 ^ 32) % 2 ^ 32 = (m * 2 ^ (n + 1)) % 2 ^ 32 := by
  have h : m * 2 ^ (n + 1) = 2 * (m * 2 ^ n) := by rw [pow_succ]; ring
  rw [Nat.shiftLeft_eq, h]
  generalize m * 2 ^ n = y at hx
  omega

/-- The loop over `n ≤ 32` bytes of a tile, from byte `a` on, with the
coverage mask `m`: the bytes whose mask bit is set become
`stencilWriteValue`, the other bytes are kept, and `count` grows by `n`
exactly when every byte now holds `stencilWriteValue`. -/
theorem writePixel_fold (W : Nat) (sb : Int) (a : Nat) (values : Int → Nat) (c m : Nat) (n : Nat)
    (hn : n ≤ 32) :
    ((List.range' a n).foldl (writePixel W sb) (values, c, m)).2.2 % 2 ^ 32 =
        (m * 2 ^ n) % 2 ^ 32 ∧
      (∀ i, i < n → m.testBit (31 - i) = true →
        ((List.range' a n).foldl (writePixel W sb) (values, c, m)).1
          (sb * 64 + ((a + i : Nat) : Int)) = W) ∧
      (∀ addr : Int,
        (¬ ∃ i, i < n ∧ addr = sb * 64 + ((a + i : Nat) : Int) ∧ m.testBit (31 - i) = true) →
        ((List.range' a n).foldl (writePixel W sb) (values, c, m)).1 addr = values addr) ∧
      (∃ cnt, cnt ≤ n ∧
        ((List.range' a n).foldl (writePixel W sb) (values, c, m)).2.1 = c + cnt ∧
        (cnt = n ↔ ∀ i, i < n →
          (m.testBit (31 - i) = true ∨ values (sb * 64 + ((a + i : Nat) : Int)) = W))) := by
  induction n with
  | zero =>
    refine ⟨?_, ?_, ?_, ?_⟩
    · show m % 2 ^ 32 = m * 2 ^ 0 % 2 ^ 32
      rw [pow_zero, Nat.mul_one]
    · intro i hi; exact absurd hi (Nat.not_lt_zero _)
    · intro addr _; rfl
    · exact ⟨0, le_refl _, rfl, by simp⟩
  | succ n ih =>
    obtain ⟨ihm, ihset, ihkeep, cnt, hcnt, hc, hiff⟩ := ih (by omega)
    rw [List.range'_1_concat, List.foldl_append]
    simp only [List.foldl_cons, List.foldl_nil]
    generalize (List.range' a n).foldl (writePixel W sb) (values, c, m) = R at ihm ihset ihkeep hc
    have hcur : R.1 (sb * 64 + ((a + n : Nat) : Int)) = values (sb * 64 + ((a + n : Nat) : Int)) := by
      apply ihkeep
      rintro ⟨i, hi, he, _⟩
      omega
    have hcond : ((R.2.2 &&& (1 <<< 31)) ≠ 0 ∨ R.1 (sb * 64 + ((a + n : Nat) : Int)) = W) ↔
        (m.testBit (31 - n) = true ∨ values (sb * 64 + ((a + n : Nat) : Int)) = W) := by
      rw [shifted_bit R.2.2 m n (by omega) ihm, hcur]
    have hmask : ((R.2.2 <<< 1) % 2 ^ 32) % 2 ^ 32 = (m * 2 ^ (n + 1)) % 2 ^ 32 :=
      shifted_step R.2.2 m n ihm
    unfold writePixel
    split
    · rename_i hyes
      have hyes' := hcond.1 hyes
      refine ⟨hmask, ?_, ?_, ?_⟩
      · intro i hi hbit
        by_cases hin : i = n
        · subst hin
          simp only [Function.update_same]
        · simp only
          rw [Function.update_noteq (by omega)]
          exact ihset i (by omega) hbit
      · intro addr hno
        by_cases haddr : addr = sb * 64 + ((a + n : Nat) : Int)
        · subst haddr
          simp only [Function.update_same]
          rcases hyes' with hb | hv
          · exact absurd ⟨n, by omega, rfl, hb⟩ hno
          · exact hv.symm
        · simp only
          rw [Function.update_noteq haddr]
          exact ihkeep addr (fun ⟨i, hi, he, hb⟩ => hno ⟨i, by omega, he, hb⟩)
      · refine ⟨cnt + 1, by omega, by simp only [hc]; omega, ?_⟩
        constructor
        · intro hcn i hi
          by_cases hin : i = n
          · subst hin; exact hyes'
          · exact (hiff.1 (by omega)) i (by omega)
        · intro hall
          have := hiff.2 (fun i hi => hall i (by omega))
          omega
    · rename_i hnot
      have hnot' : ¬ (m.testBit (31 - n) = true ∨ values (sb * 64 + ((a + n : Nat) : Int)) = W) :=
        fun h => hnot (hcond.2 h)
      refine ⟨hmask, ?_, ?_, ?_⟩
      · intro i hi hbit
        by_cases hin : i = n
        · subst hin
          exact absurd (Or.inl hbit) hnot'
        · exact ihset i (by omega) hbit
      · intro addr hno
        exact ihkeep addr (fun ⟨i, hi, he, hb⟩ => hno ⟨i, by omega, he, hb⟩)
      · refine ⟨cnt, by omega, hc, ?_⟩
        constructor
        · intro hcn; omega
        · intro hall
          exact absurd (hall n (by omega)) hnot'

theorem maskBit_low (M0 M1 : Nat) (i : Nat) (hi : i < 32) :
    maskBit M0 M1 (i % 8) (i / 8) = M0.testBit (31 - i) := by
  unfold maskBit
  rw [if_pos (by omega)]
  have : i % 8 + 8 * (i / 8) = i := by omega
  rw [this]

theorem maskBit_high (M0 M1 : Nat) (i : Nat) (hi : i < 32) :
    maskBit M0 M1 ((32 + i) % 8) ((32 + i) / 8) = M1.testBit (31 - i) := by
  unfold maskBit
  rw [if_neg (by omega)]
  have : (32 + i) % 8 + 8 * ((32 + i) / 8 - 4) = i := by omega
  rw [this]

/-- The two loops over the 64 bytes of a tile (lines 657-675), started on the
bytes `values` with the masks `M0` and `M1`. -/
theorem writeTile_spec (W : Nat) (sb : Int) (values : Int → Nat) (M0 M1 : Nat) :
    (∀ k : Nat, k < 64 → maskBit M0 M1 (k % 8) (k / 8) = true →
        ((List.range' 32 32).foldl (writePixel W sb)
          (((List.range' 0 32).foldl (writePixel W sb) (values, 0, M0)).1,
            ((List.range' 0 32).foldl (writePixel W sb) (values, 0, M0)).2.1, M1)).1
          (sb * 64 + (k : Int)) = W) ∧
      (∀ k : Nat, k < 64 → maskBit M0 M1 (k % 8) (k / 8) = false →
        ((List.range' 32 32).foldl (writePixel W sb)
          (((List.range' 0 32).foldl (writePixel W sb) (values, 0, M0)).1,
            ((List.range' 0 32).foldl (writePixel W sb) (values, 0, M0)).2.1, M1)).1
          (sb * 64 + (k : Int)) = values (sb * 64 + (k : Int))) ∧
      (∀ addr : Int, (¬ ∃ k : Nat, k < 64 ∧ addr = sb * 64 + (k : Int)) →
        ((List.range' 32 32).foldl (writePixel W sb)
          (((List.range' 0 32).foldl (writePixel W sb) (values, 0, M0)).1,
            ((List.range' 0 32).foldl (writePixel W sb) (values, 0, M0)).2.1, M1)).1 addr =
          values addr) ∧
      (((List.range' 32 32).foldl (writePixel W sb)
          (((List.range' 0 32).foldl (writePixel W sb) (values, 0, M0)).1,
            ((List.range' 0 32).foldl (writePixel W sb) (values, 0, M0)).2.1, M1)).2.1 = 64 ↔
        ∀ k : Nat, k < 64 →
          (maskBit M0 M1 (k % 8) (k / 8) = true ∨ values (sb * 64 + (k : Int)) = W)) := by
  obtain ⟨_, set0, keep0, cnt0, hcnt0, hc0, hiff0⟩ :=
    writePixel_fold W sb 0 values 0 M0 32 (le_refl _)
  generalize (List.range' 0 32).foldl (writePixel W sb) (values, 0, M0) = r0
    at set0 keep0 hc0
  obtain ⟨_, set1, keep1, cnt1, hcnt1, hc1, hiff1⟩ :=
    writePixel_fold W sb 32 r0.1 r0.2.1 M1 32 (le_refl _)
  generalize (List.range' 32 32).foldl (writePixel W sb) (r0.1, r0.2.1, M1) = r1
    at set1 keep1 hc1
  have hr0hi : ∀ i : Nat, i < 32 →
      r0.1 (sb * 64 + ((32 + i : Nat) : Int)) = values (sb * 64 + ((32 + i : Nat) : Int)) := by
    intro i hi
    apply keep0
    rintro ⟨j, hj, he, _⟩
    omega
  have hr1lo : ∀ i : Nat, i < 32 →
      r1.1 (sb * 64 + ((0 + i : Nat) : Int)) = r0.1 (sb * 64 + ((0 + i : Nat) : Int)) := by
    intro i hi
    apply keep1
    rintro ⟨j, hj, he, _⟩
    omega
  refine ⟨?_, ?_, ?_, ?_⟩
  · intro k hk hbit
    by_cases hlo : k < 32
    · rw [maskBit_low M0 M1 k hlo] at hbit
      have h1 := hr1lo k hlo
      have h2 := set0 k hlo hbit
      simp only [Nat.zero_add] at h1 h2
      rw [h1, h2]
    · obtain ⟨i, rfl⟩ : ∃ i, k = 32 + i := ⟨k - 32, by omega⟩
      rw [maskBit_high M0 M1 i (by omega)] at hbit
      exact set1 i (by omega) hbit
  · intro k hk hbit
    by_cases hlo : k < 32
    · rw [maskBit_low M0 M1 k hlo] at hbit
      have h1 := hr1lo k hlo
      have h2 := keep0 (sb * 64 + (k : Int)) (by
        rintro ⟨j, hj, he, hb⟩
        have : j = k := by omega
        subst this
        rw [hbit] at hb
        exact absurd hb (by decide))
      simp only [Nat.zero_add] at h1
      rw [h1, h2]
    · obtain ⟨i, rfl⟩ : ∃ i, k = 32 + i := ⟨k - 32, by omega⟩
      rw [maskBit_high M0 M1 i (by omega)] at hbit
      have h1 := keep1 (sb * 64 + ((32 + i : Nat) : Int)) (by
        rintro ⟨j, hj, he, hb⟩
        have : j = i := by omega
        subst this
        rw [hbit] at hb
        exact absurd hb (by decide))
      rw [h1, hr0hi i (by omega)]
  · intro addr hno
    have h1 := keep1 addr (by
      rintro ⟨j, hj, he, _⟩
      exact hno ⟨32 + j, by omega, he⟩)
    have h2 := keep0 addr (by
      rintro ⟨j, hj, he, _⟩
      exact hno ⟨0 + j, by omega, he⟩)
    rw [h1, h2]
  · rw [hc1, hc0]
    constructor
    · intro htot
      have e0 : cnt0 = 32 := by omega
      have e1 : cnt1 = 32 := by omega
      intro k hk
      by_cases hlo : k < 32
      · have := hiff0.1 e0 k hlo
        rw [maskBit_low M0 M1 k hlo]
        simpa using this
      · obtain ⟨i, rfl⟩ : ∃ i, k = 32 + i := ⟨k - 32, by omega⟩
        have := hiff1.1 e1 i (by omega)
        rw [maskBit_high M0 M1 i (by omega)]
        rw [hr0hi i (by omega)] at this
        exact this
    · intro hall
      have e0 : cnt0 = 32 := by
        apply hiff0.2
        intro i hi
        have := hall i (by omega)
        rw [maskBit_low M0 M1 i hi] at this
        simpa using this
      have e1 : cnt1 = 32 := by
        apply hiff1.2
        intro i hi
        have := hall (32 + i) (by omega)
        rw [maskBit_high M0 M1 i hi] at this
        rw [hr0hi i hi]
        exact this
      omega

theorem materialize_spec (s : StencilBuffer) (sb : Int) :
    ((materialize s sb).stencilMasks sb &&& 0xffffff00) ≠ 0xffffff00 ∧
      (∀ k : Nat, k < 64 →
        (materialize s sb).stencilValues (sb * 64 + (k : Int)) = tileValue s sb k) ∧
      (∀ b, b ≠ sb → (materialize s sb).stencilMasks b = s.stencilMasks b) ∧
      (∀ addr : Int, (¬ ∃ k : Nat, k < 64 ∧ addr = sb * 64 + (k : Int)) →
        (materialize s sb).stencilValues addr = s.stencilValues addr) := by
  unfold materialize tileValue
  split
  · rename_i hu
    refine ⟨?_, ?_, ?_, ?_⟩
    · simp only [Function.update_same]
      decide
    · intro k hk
      exact (fold_update_const (sb * 64) _ s.stencilValues 64 _).1 ⟨k, hk, rfl⟩
    · intro b hb
      simp only
      rw [Function.update_noteq hb]
    · intro addr hno
      exact (fold_update_const (sb * 64) _ s.stencilValues 64 addr).2 hno
  · rename_i hu
    exact ⟨hu, fun _ _ => rfl, fun _ _ => rfl, fun _ _ => rfl⟩

/-- What `StencilWrite` does with one partial block, in terms of the stencil
values that the buffer denotes: on the tile of the block the pixels whose mask
bit is set get `stencilWriteValue` and the others keep their value; nothing
else changes. -/
theorem writeBlock_spec (W : Nat) (hW : W < 256) (p : Int) (s : StencilBuffer)
    (blk : TriPartialBlock) :
    (∀ k : Nat, k < 64 → maskBit blk.Mask0 blk.Mask1 (k % 8) (k / 8) = true →
        tileValue (writeBlock W p s blk) (Int.tdiv blk.X 8 + Int.tdiv blk.Y 8 * p) k = W) ∧
      (∀ k : Nat, k < 64 → maskBit blk.Mask0 blk.Mask1 (k % 8) (k / 8) = false →
        tileValue (writeBlock W p s blk) (Int.tdiv blk.X 8 + Int.tdiv blk.Y 8 * p) k =
          tileValue s (Int.tdiv blk.X 8 + Int.tdiv blk.Y 8 * p) k) ∧
      (∀ b, b ≠ Int.tdiv blk.X 8 + Int.tdiv blk.Y 8 * p →
        (writeBlock W p s blk).stencilMasks b = s.stencilMasks b) ∧
      (∀ addr : Int, (¬ ∃ k : Nat, k < 64 ∧ addr = (Int.tdiv blk.X 8 + Int.tdiv blk.Y 8 * p) * 64 + (k : Int)) →
        (writeBlock W p s blk).stencilValues addr = s.stencilValues addr) := by
  obtain ⟨hnu, hmat, hmk, hvk⟩ := materialize_spec s (Int.tdiv blk.X 8 + Int.tdiv blk.Y 8 * p)
  obtain ⟨hset, hkeep, hout, hcount⟩ :=
    writeTile_spec W (Int.tdiv blk.X 8 + Int.tdiv blk.Y 8 * p)
      (materialize s (Int.tdiv blk.X 8 + Int.tdiv blk.Y 8 * p)).stencilValues blk.Mask0 blk.Mask1
  unfold writeBlock
  simp only
  generalize (List.range' 32 32).foldl (writePixel W (Int.tdiv blk.X 8 + Int.tdiv blk.Y 8 * p))
    (((List.range' 0 32).foldl (writePixel W (Int.tdiv blk.X 8 + Int.tdiv blk.Y 8 * p))
        ((materialize s (Int.tdiv blk.X 8 + Int.tdiv blk.Y 8 * p)).stencilValues, 0, blk.Mask0)).1,
      ((List.range' 0 32).foldl (writePixel W (Int.tdiv blk.X 8 + Int.tdiv blk.Y 8 * p))
        ((materialize s (Int.tdiv blk.X 8 + Int.tdiv blk.Y 8 * p)).stencilValues, 0, blk.Mask0)).2.1,
      blk.Mask1) = r1 at hset hkeep hout hcount
  split
  · rename_i h64
    have hall := hcount.1 h64
    refine ⟨?_, ?_, ?_, ?_⟩
    · intro k _ _
      exact tileValue_uniform _ _ _ W hW (by simp only [Function.update_same])
    · intro k hk hbit
      rw [tileValue_uniform _ _ _ W hW (by simp only [Function.update_same])]
      rcases hall k hk with h | h
      · rw [hbit] at h
        exact absurd h (by decide)
      · rw [← hmat k hk, h]
    · intro b hb
      simp only
      rw [Function.update_noteq hb]
      exact hmk b hb
    · intro addr hno
      simp only
      rw [hout addr hno]
      exact hvk addr hno
  · rename_i h64
    refine ⟨?_, ?_, ?_, ?_⟩
    · intro k hk hbit
      unfold tileValue
      simp only
      rw [if_neg hnu]
      exact hset k hk hbit
    · intro k hk hbit
      have h1 : tileValue
          { stencilValues := r1.1
            stencilMasks := (materialize s (Int.tdiv blk.X 8 + Int.tdiv blk.Y 8 * p)).stencilMasks }
          (Int.tdiv blk.X 8 + Int.tdiv blk.Y 8 * p) k = r1.1 ((Int.tdiv blk.X 8 + Int.tdiv blk.Y 8 * p) * 64 + (k : Int)) := by
        unfold tileValue
        simp only
        rw [if_neg hnu]
      rw [h1, hkeep k hk hbit]
      exact hmat k hk
    · intro b hb
      exact hmk b hb
    · intro addr hno
      simp only
      rw [hout addr hno]
      exact hvk addr hno

theorem fold_hit {σ : Type} (val : σ → Nat) (step : σ → Nat → σ) (hit : Nat → Prop) (W : Nat)
    (h : ∀ s i, (hit i → val (step s i) = W) ∧ (¬ hit i → val (step s i) = val s))
    (n : Nat) (s : σ) :
    ((∃ i, i < n ∧ hit i) → val ((List.range n).foldl step s) = W) ∧
      ((¬ ∃ i, i < n ∧ hit i) → val ((List.range n).foldl step s) = val s) := by
  induction n with
  | zero =>
    constructor
    · rintro ⟨i, hi, _⟩
      exact absurd hi (Nat.not_lt_zero _)
    · intro _; rfl
  | succ n ih =>
    rw [List.range_succ, List.foldl_append]
    simp only [List.foldl_cons, List.foldl_nil]
    by_cases hn : hit n
    · constructor
      · intro _
        exact (h _ n).1 hn
      · intro hno
        exact absurd ⟨n, by omega, hn⟩ hno
    · rw [(h _ n).2 hn]
      constructor
      · rintro ⟨i, hi, hhit⟩
        have : i ≠ n := by
          intro e; rw [e] at hhit; exact hn hhit
        exact ih.1 ⟨i, by omega, hhit⟩
      · intro hno
        exact ih.2 (fun ⟨i, hi, hhit⟩ => hno ⟨i, by omega, hhit⟩)

theorem fold_keep {σ α : Type} (val : σ → α) (step : σ → Nat → σ) (n : Nat)
    (h : ∀ s i, i < n → val (step s i) = val s) (s : σ) :
    val ((List.range n).foldl step s) = val s := by
  induction n with
  | zero => rfl
  | succ n ih =>
    rw [List.range_succ, List.foldl_append]
    simp only [List.foldl_cons, List.foldl_nil]
    rw [h _ n (by omega)]
    exact ih (fun s i hi => h s i (by omega))

theorem writeBlock_tileValue (W : Nat) (hW : W < 256) (p : Int) (s : StencilBuffer)
    (blk : TriPartialBlock) (b : Int) (k : Nat) (hk : k < 64) :
    ((b = Int.tdiv blk.X 8 + Int.tdiv blk.Y 8 * p ∧ maskBit blk.Mask0 blk.Mask1 (k % 8) (k / 8) = true) →
        tileValue (writeBlock W p s blk) b k = W) ∧
      ((¬ (b = Int.tdiv blk.X 8 + Int.tdiv blk.Y 8 * p ∧ maskBit blk.Mask0 blk.Mask1 (k % 8) (k / 8) = true)) →
        tileValue (writeBlock W p s blk) b k = tileValue s b k) := by
  obtain ⟨h1, h2, h3, h4⟩ := writeBlock_spec W hW p s blk
  constructor
  · rintro ⟨hb, hbit⟩
    rw [hb]
    exact h1 k hk hbit
  · intro hno
    by_cases hb : b = Int.tdiv blk.X 8 + Int.tdiv blk.Y 8 * p
    · have hbit : maskBit blk.Mask0 blk.Mask1 (k % 8) (k / 8) = false := by
        cases hm : maskBit blk.Mask0 blk.Mask1 (k % 8) (k / 8)
        · rfl
        · exact absurd ⟨hb, hm⟩ hno
      rw [hb]
      exact h2 k hk hbit
    · apply tileValue_congr
      · exact h3 b hb
      · apply h4
        rintro ⟨k', hk', he⟩
        apply hb
        omega

/-- The stencil value that `StencilWrite` leaves at byte `k` of the tile `b`:
`stencilWriteValue` when a span names the tile or a block names it with the
bit of the byte set, the value denoted before otherwise. -/
theorem StencilWrite_tile (args : TriDrawTriangleArgs) (thread : WorkerThreadData)
    (hW : args.stencilWriteValue < 256) (b : Int) (k : Nat) (hk : k < 64) :
    (((∃ i, i < thread.NumFullSpans ∧ ∃ j : Nat, j < (thread.FullSpans i).Length ∧
          b = Int.tdiv (thread.FullSpans i).X 8 + Int.tdiv (thread.FullSpans i).Y 8 * args.stencilPitch +
            (j : Int)) ∨
        (∃ i, i < thread.NumPartialBlocks ∧
          (b = Int.tdiv (thread.PartialBlocks i).X 8 +
              Int.tdiv (thread.PartialBlocks i).Y 8 * args.stencilPitch ∧
            maskBit (thread.PartialBlocks i).Mask0 (thread.PartialBlocks i).Mask1 (k % 8) (k / 8) =
              true))) →
      tileValue (StencilWrite args thread) b k = args.stencilWriteValue) ∧
    ((¬ ((∃ i, i < thread.NumFullSpans ∧ ∃ j : Nat, j < (thread.FullSpans i).Length ∧
          b = Int.tdiv (thread.FullSpans i).X 8 + Int.tdiv (thread.FullSpans i).Y 8 * args.stencilPitch +
            (j : Int)) ∨
        (∃ i, i < thread.NumPartialBlocks ∧
          (b = Int.tdiv (thread.PartialBlocks i).X 8 +
              Int.tdiv (thread.PartialBlocks i).Y 8 * args.stencilPitch ∧
            maskBit (thread.PartialBlocks i).Mask0 (thread.PartialBlocks i).Mask1 (k % 8) (k / 8) =
              true)))) →
      tileValue (StencilWrite args thread) b k =
        tileValue { stencilValues := args.stencilValues, stencilMasks := args.stencilMasks } b k) := by
  have hs := fold_hit (fun s => tileValue s b k)
    (fun s i => writeSpan args.stencilWriteValue args.stencilPitch s (thread.FullSpans i))
    (fun i => ∃ j : Nat, j < (thread.FullSpans i).Length ∧
      b = Int.tdiv (thread.FullSpans i).X 8 + Int.tdiv (thread.FullSpans i).Y 8 * args.stencilPitch + (j : Int))
    args.stencilWriteValue
    (fun s i => writeSpan_tileValue args.stencilWriteValue hW args.stencilPitch s
      (thread.FullSpans i) b k)
    thread.NumFullSpans
    { stencilValues := args.stencilValues, stencilMasks := args.stencilMasks }
  have hb := fold_hit (fun s => tileValue s b k)
    (fun s i => writeBlock args.stencilWriteValue args.stencilPitch s (thread.PartialBlocks i))
    (fun i => b = Int.tdiv (thread.PartialBlocks i).X 8 +
        Int.tdiv (thread.PartialBlocks i).Y 8 * args.stencilPitch ∧
      maskBit (thread.PartialBlocks i).Mask0 (thread.PartialBlocks i).Mask1 (k % 8) (k / 8) = true)
    args.stencilWriteValue
    (fun s i => writeBlock_tileValue args.stencilWriteValue hW args.stencilPitch s
      (thread.PartialBlocks i) b k hk)
    thread.NumPartialBlocks
    ((List.range thread.NumFullSpans).foldl
      (fun s i => writeSpan args.stencilWriteValue args.stencilPitch s (thread.FullSpans i))
      { stencilValues := args.stencilValues, stencilMasks := args.stencilMasks })
  unfold StencilWrite
  simp only at hs hb ⊢
  constructor
  · rintro (h | h)
    · by_cases hblk : ∃ i, i < thread.NumPartialBlocks ∧
          (b = Int.tdiv (thread.PartialBlocks i).X 8 +
              Int.tdiv (thread.PartialBlocks i).Y 8 * args.stencilPitch ∧
            maskBit (thread.PartialBlocks i).Mask0 (thread.PartialBlocks i).Mask1 (k % 8) (k / 8) =
              true)
      · exact hb.1 hblk
      · rw [hb.2 hblk]
        exact hs.1 h
    · exact hb.1 h
  · intro hno
    rw [hb.2 (fun h => hno (Or.inr h)), hs.2 (fun h => hno (Or.inl h))]

/-- A tile that no span and no block names keeps its mask word and its 64
bytes. -/
theorem StencilWrite_frame (args : TriDrawTriangleArgs) (thread : WorkerThreadData)
    (hW : args.stencilWriteValue < 256) (b : Int)
    (hs : ∀ i, i < thread.NumFullSpans → ∀ j : Nat, j < (thread.FullSpans i).Length →
      b ≠ Int.tdiv (thread.FullSpans i).X 8 + Int.tdiv (thread.FullSpans i).Y 8 * args.stencilPitch + (j : Int))
    (hb : ∀ i, i < thread.NumPartialBlocks →
      b ≠ Int.tdiv (thread.PartialBlocks i).X 8 + Int.tdiv (thread.PartialBlocks i).Y 8 * args.stencilPitch) :
    (StencilWrite args thread).stencilMasks b = args.stencilMasks b ∧
      ∀ k : Nat, k < 64 →
        (StencilWrite args thread).stencilValues (b * 64 + (k : Int)) =
          args.stencilValues (b * 64 + (k : Int)) := by
  unfold StencilWrite
  simp only
  constructor
  · rw [fold_keep (fun s => s.stencilMasks b) _ thread.NumPartialBlocks
      (fun s i hi => (writeBlock_spec args.stencilWriteValue hW args.stencilPitch s
        (thread.PartialBlocks i)).2.2.1 b (hb i hi))]
    exact fold_keep (fun s => s.stencilMasks b) _ thread.NumFullSpans
      (fun s i hi => (writeSpan_masks args.stencilWriteValue args.stencilPitch s
        (thread.FullSpans i) b).2 (fun ⟨j, hj, he⟩ => hs i hi j hj he)) _
  · intro k hk
    rw [fold_keep (fun s => s.stencilValues (b * 64 + (k : Int))) _ thread.NumPartialBlocks
      (fun s i hi => (writeBlock_spec args.stencilWriteValue hW args.stencilPitch s
        (thread.PartialBlocks i)).2.2.2 (b * 64 + (k : Int)) (by
          rintro ⟨k', hk', he⟩
          apply hb i hi
          omega))]
    exact fold_keep (fun (s : StencilBuffer) => s.stencilValues (b * 64 + (k : Int)))
      (fun s i => writeSpan args.stencilWriteValue args.stencilPitch s (thread.FullSpans i))
      thread.NumFullSpans (fun s i _ => rfl) _

theorem tile_index_inj (p c r c' r' : Int) (hc : 0 ≤ c) (hcp : c < p) (hc' : 0 ≤ c')
    (hcp' : c' < p) (h : c + r * p = c' + r' * p) : c = c' ∧ r = r' := by
  have h1 : (c + r * p) % p = c := by
    rw [Int.add_mul_emod_self]; exact Int.emod_eq_of_lt hc hcp
  have h2 : (c' + r' * p) % p = c' := by
    rw [Int.add_mul_emod_self]; exact Int.emod_eq_of_lt hc' hcp'
  have hcc : c = c' := by rw [← h1, ← h2, h]
  refine ⟨hcc, ?_⟩
  have hp : p ≠ 0 := by omega
  have h3 : r * p = r' * p := by rw [hcc] at h; omega
  exact mul_right_cancel₀ hp h3

theorem stencilAt_eq_tileValue (masks values : Int → Nat) (p px py : Int) :
    stencilAt masks values p px py =
      tileValue { stencilValues := values, stencilMasks := masks } (px / 8 + py / 8 * p)
        (((px % 8 + py % 8 * 8).toNat : Nat) : Int) := by
  have hk : (((px % 8 + py % 8 * 8).toNat : Nat) : Int) = px % 8 + py % 8 * 8 := by omega
  rw [hk]
  rfl

theorem span_hit_iff (p : Int) (span : TriFullSpan) (px py : Int)
    (hx0 : 0 ≤ span.X) (_hy0 : 0 ≤ span.Y) (hdx : 8 ∣ span.X) (hdy : 8 ∣ span.Y)
    (hrow : span.X + 8 * (span.Length : Int) ≤ 8 * p)
    (hpx0 : 0 ≤ px) (hpx : px < 8 * p) :
    (∃ j : Nat, j < span.Length ∧ px / 8 + py / 8 * p = Int.tdiv span.X 8 + Int.tdiv span.Y 8 * p + (j : Int)) ↔
      inSpan span px py := by
  have t1 := Int.tdiv_eq_ediv_of_dvd hdx
  have t2 := Int.tdiv_eq_ediv_of_dvd hdy
  obtain ⟨cx, hcx⟩ := hdx
  obtain ⟨cy, hcy⟩ := hdy
  unfold inSpan
  have e1 : Int.tdiv span.X 8 = cx := by rw [t1]; omega
  have e2 : Int.tdiv span.Y 8 = cy := by rw [t2]; omega
  rw [e1, e2]
  have b1 : 0 ≤ px / 8 := by omega
  have b2 : px / 8 < p := by omega
  constructor
  · rintro ⟨j, hj, he⟩
    have he' : px / 8 + py / 8 * p = (cx + (j : Int)) + cy * p := by rw [he]; ring
    have b3 : 0 ≤ cx + (j : Int) := by omega
    have b4 : cx + (j : Int) < p := by omega
    obtain ⟨h1, h2⟩ := tile_index_inj p (px / 8) (py / 8) (cx + (j : Int)) cy b1 b2 b3 b4 he'
    refine ⟨by omega, by omega, by omega, by omega⟩
  · rintro ⟨h1, h2, h3, h4⟩
    refine ⟨(px / 8 - cx).toNat, by omega, ?_⟩
    have hj : (((px / 8 - cx).toNat : Nat) : Int) = px / 8 - cx := by omega
    have hy : py / 8 = cy := by omega
    rw [hj, hy]
    ring

theorem block_hit_iff (p : Int) (blk : TriPartialBlock) (px py : Int)
    (hx0 : 0 ≤ blk.X) (_hy0 : 0 ≤ blk.Y) (hdx : 8 ∣ blk.X) (hdy : 8 ∣ blk.Y)
    (hrow : blk.X + 8 ≤ 8 * p) (hpx0 : 0 ≤ px) (hpx : px < 8 * p) :
    (px / 8 + py / 8 * p = Int.tdiv blk.X 8 + Int.tdiv blk.Y 8 * p ∧
        maskBit blk.Mask0 blk.Mask1 ((px % 8 + py % 8 * 8).toNat % 8)
          ((px % 8 + py % 8 * 8).toNat / 8) = true) ↔
      inBlock blk px py := by
  have t1 := Int.tdiv_eq_ediv_of_dvd hdx
  have t2 := Int.tdiv_eq_ediv_of_dvd hdy
  obtain ⟨cx, hcx⟩ := hdx
  obtain ⟨cy, hcy⟩ := hdy
  unfold inBlock
  have e1 : Int.tdiv blk.X 8 = cx := by rw [t1]; omega
  have e2 : Int.tdiv blk.Y 8 = cy := by rw [t2]; omega
  rw [e1, e2]
  have b1 : 0 ≤ px / 8 := by omega
  have b2 : px / 8 < p := by omega
  have b3 : 0 ≤ cx := by omega
  have b4 : cx < p := by omega
  constructor
  · rintro ⟨he, hbit⟩
    obtain ⟨h1, h2⟩ := tile_index_inj p (px / 8) (py / 8) cx cy b1 b2 b3 b4 he
    have k1 : (px % 8 + py % 8 * 8).toNat % 8 = (px - blk.X).toNat := by omega
    have k2 : (px % 8 + py % 8 * 8).toNat / 8 = (py - blk.Y).toNat := by omega
    rw [k1, k2] at hbit
    exact ⟨by omega, by omega, by omega, by omega, hbit⟩
  · rintro ⟨h1, h2, h3, h4, hbit⟩
    have hxx : px / 8 = cx := by omega
    have hyy : py / 8 = cy := by omega
    have k1 : (px % 8 + py % 8 * 8).toNat % 8 = (px - blk.X).toNat := by omega
    have k2 : (px % 8 + py % 8 * 8).toNat / 8 = (py - blk.Y).toNat := by omega
    rw [k1, k2, hxx, hyy]
    exact ⟨rfl, hbit⟩

/-- For a list within the rows, a pixel of the buffer is covered by the list
exactly when a span names its tile or a block names it with the bit of the
pixel set. -/
theorem covers_iff_hit (p : Int) (thread : WorkerThreadData) (hwf : WithinRows p thread)
    (px py : Int) (hpx0 : 0 ≤ px) (hpx : px < 8 * p) :
    Covers thread px py ↔
      ((∃ i, i < thread.NumFullSpans ∧ ∃ j : Nat, j < (thread.FullSpans i).Length ∧
          px / 8 + py / 8 * p =
            Int.tdiv (thread.FullSpans i).X 8 + Int.tdiv (thread.FullSpans i).Y 8 * p + (j : Int)) ∨
        (∃ i, i < thread.NumPartialBlocks ∧
          (px / 8 + py / 8 * p =
              Int.tdiv (thread.PartialBlocks i).X 8 + Int.tdiv (thread.PartialBlocks i).Y 8 * p ∧
            maskBit (thread.PartialBlocks i).Mask0 (thread.PartialBlocks i).Mask1
              ((px % 8 + py % 8 * 8).toNat % 8) ((px % 8 + py % 8 * 8).toNat / 8) = true))) := by
  unfold Covers
  constructor
  · rintro (⟨i, hi, hs⟩ | ⟨i, hi, hb⟩)
    · obtain ⟨a1, a2, a3, a4, a5⟩ := hwf.1 i hi
      exact Or.inl ⟨i, hi, (span_hit_iff p _ px py a1 a2 a3 a4 a5 hpx0 hpx).2 hs⟩
    · obtain ⟨a1, a2, a3, a4, a5⟩ := hwf.2 i hi
      exact Or.inr ⟨i, hi, (block_hit_iff p _ px py a1 a2 a3 a4 a5 hpx0 hpx).2 hb⟩
  · rintro (⟨i, hi, hs⟩ | ⟨i, hi, hb⟩)
    · obtain ⟨a1, a2, a3, a4, a5⟩ := hwf.1 i hi
      exact Or.inl ⟨i, hi, (span_hit_iff p _ px py a1 a2 a3 a4 a5 hpx0 hpx).1 hs⟩
    · obtain ⟨a1, a2, a3, a4, a5⟩ := hwf.2 i hi
      exact Or.inr ⟨i, hi, (block_hit_iff p _ px py a1 a2 a3 a4 a5 hpx0 hpx).1 hb⟩

/-- The stencil value that `StencilWrite` leaves at a pixel of the buffer,
for a list within the rows. -/
theorem StencilWrite_pixel (args : TriDrawTriangleArgs) (thread : WorkerThreadData)
    (hW : args.stencilWriteValue < 256) (hwf : WithinRows args.stencilPitch thread)
    (px py : Int) (hpx0 : 0 ≤ px) (hpx : px < 8 * args.stencilPitch) :
    (Covers thread px py →
        stencilAt (StencilWrite args thread).stencilMasks (StencilWrite args thread).stencilValues
          args.stencilPitch px py = args.stencilWriteValue) ∧
      (¬ Covers thread px py →
        stencilAt (StencilWrite args thread).stencilMasks (StencilWrite args thread).stencilValues
          args.stencilPitch px py =
        stencilAt args.stencilMasks args.stencilValues args.stencilPitch px py) := by
  have hk : (px % 8 + py % 8 * 8).toNat < 64 := by omega
  have ht := StencilWrite_tile args thread hW (px / 8 + py / 8 * args.stencilPitch)
    (px % 8 + py % 8 * 8).toNat hk
  rw [← covers_iff_hit args.stencilPitch thread hwf px py hpx0 hpx] at ht
  rw [stencilAt_eq_tileValue, stencilAt_eq_tileValue]
  exact ht

/-- A partial block leaves the mask words of the other tiles and the bytes
outside its tile alone, whatever value is written. -/
theorem writeBlock_other (W : Nat) (p : Int) (s : StencilBuffer) (blk : TriPartialBlock) :
    (∀ b, b ≠ Int.tdiv blk.X 8 + Int.tdiv blk.Y 8 * p →
        (writeBlock W p s blk).stencilMasks b = s.stencilMasks b) ∧
      (∀ addr : Int,
        (¬ ∃ k : Nat, k < 64 ∧ addr = (Int.tdiv blk.X 8 + Int.tdiv blk.Y 8 * p) * 64 + (k : Int)) →
        (writeBlock W p s blk).stencilValues addr = s.stencilValues addr) := by
  obtain ⟨_, _, hmk, hvk⟩ := materialize_spec s (Int.tdiv blk.X 8 + Int.tdiv blk.Y 8 * p)
  obtain ⟨_, _, hout, _⟩ :=
    writeTile_spec W (Int.tdiv blk.X 8 + Int.tdiv blk.Y 8 * p)
      (materialize s (Int.tdiv blk.X 8 + Int.tdiv blk.Y 8 * p)).stencilValues blk.Mask0 blk.Mask1
  unfold writeBlock
  simp only
  split
  · refine ⟨?_, ?_⟩
    · intro b hb
      simp only
      rw [Function.update_noteq hb]
      exact hmk b hb
    · intro addr hno
      simp only
      rw [hout addr hno]
      exact hvk addr hno
  · refine ⟨?_, ?_⟩
    · intro b hb
      exact hmk b hb
    · intro addr hno
      simp only
      rw [hout addr hno]
      exact hvk addr hno

/-- The mask word that the loop over the full spans of `StencilWrite` leaves
at a tile that one of the spans names. -/
theorem spans_fold_masks (W : Nat) (p : Int) (spans : Nat → TriFullSpan) (n : Nat)
    (s : StencilBuffer) (b : Int)
    (h : ∃ i, i < n ∧ ∃ j : Nat, j < (spans i).Length ∧
      b = Int.tdiv (spans i).X 8 + Int.tdiv (spans i).Y 8 * p + (j : Int)) :
    ((List.range n).foldl (fun s i => writeSpan W p s (spans i)) s).stencilMasks b =
      0xffffff00 ||| W :=
  (fold_hit (fun (s : StencilBuffer) => s.stencilMasks b)
    (fun s i => writeSpan W p s (spans i))
    (fun i => ∃ j : Nat, j < (spans i).Length ∧
      b = Int.tdiv (spans i).X 8 + Int.tdiv (spans i).Y 8 * p + (j : Int))
    (0xffffff00 ||| W)
    (fun s i => writeSpan_masks W p s (spans i) b) n s).1 h

/-- The loop over the full spans of `StencilWrite` writes no byte. -/
theorem spans_fold_values (W : Nat) (p : Int) (spans : Nat → TriFullSpan) (n : Nat)
    (s : StencilBuffer) :
    ((List.range n).foldl (fun s i => writeSpan W p s (spans i)) s).stencilValues =
      s.stencilValues :=
  fold_keep (fun (s : StencilBuffer) => s.stencilValues) (fun s i => writeSpan W p s (spans i)) n
    (fun _ _ _ => rfl) s

/-- The loop over the partial blocks of `StencilWrite` leaves a tile that no
block names as it is. -/
theorem blocks_fold_other (W : Nat) (p : Int) (blocks : Nat → TriPartialBlock) (n : Nat)
    (s : StencilBuffer) (b : Int)
    (hb : ∀ i, i < n → b ≠ Int.tdiv (blocks i).X 8 + Int.tdiv (blocks i).Y 8 * p) :
    ((List.range n).foldl (fun s i => writeBlock W p s (blocks i)) s).stencilMasks b =
        s.stencilMasks b ∧
      ∀ k : Nat, k < 64 →
        ((List.range n).foldl (fun s i => writeBlock W p s (blocks i)) s).stencilValues
            (b * 64 + (k : Int)) = s.stencilValues (b * 64 + (k : Int)) := by
  constructor
  · exact fold_keep (fun (s : StencilBuffer) => s.stencilMasks b)
      (fun s i => writeBlock W p s (blocks i)) n
      (fun s i hi => (writeBlock_other W p s (blocks i)).1 b (hb i hi)) s
  · intro k hk
    exact fold_keep (fun (s : StencilBuffer) => s.stencilValues (b * 64 + (k : Int)))
      (fun s i => writeBlock W p s (blocks i)) n
      (fun s i hi => (writeBlock_other W p s (blocks i)).2 (b * 64 + (k : Int)) (by
        rintro ⟨k', hk', he⟩
        apply hb i hi
        omega)) s

/-- A property of the state that every step keeps holds after the loop. -/
theorem fold_inv {σ : Type} (P : σ → Prop) (step : σ → Nat → σ)
    (h : ∀ s i, P s → P (step s i)) (n : Nat) (s : σ) (hs : P s) :
    P ((List.range n).foldl step s) := by
  induction n with
  | zero => exact hs
  | succ n ih =>
    rw [List.range_succ, List.foldl_append]
    exact h _ n ih

theorem LegalMask_update (masks : Int → Nat) (b : Int) (m : Nat) (hm : LegalMask m)
    (h : ∀ c, LegalMask (masks c)) (c : Int) : LegalMask (Function.update masks b m c) := by
  by_cases hc : c = b
  · rw [hc, Function.update_same]
    exact hm
  · rw [Function.update_noteq hc]
    exact h c

theorem writeSpan_legal (W : Nat) (hW : W < 256) (p : Int) (s : StencilBuffer)
    (span : TriFullSpan) (h : ∀ c, LegalMask (s.stencilMasks c)) (c : Int) :
    LegalMask ((writeSpan W p s span).stencilMasks c) := by
  by_cases hc : ∃ j : Nat, j < span.Length ∧
      c = Int.tdiv span.X 8 + Int.tdiv span.Y 8 * p + (j : Int)
  · rw [(writeSpan_masks W p s span c).1 hc]
    exact Or.inr ⟨W, hW, rfl⟩
  · rw [(writeSpan_masks W p s span c).2 hc]
    exact h c

theorem materialize_legal (s : StencilBuffer) (sb : Int) (h : ∀ c, LegalMask (s.stencilMasks c))
    (c : Int) : LegalMask ((materialize s sb).stencilMasks c) := by
  unfold materialize
  split
  · exact LegalMask_update _ _ _ (Or.inl rfl) h c
  · exact h c

theorem writeBlock_legal (W : Nat) (hW : W < 256) (p : Int) (s : StencilBuffer)
    (blk : TriPartialBlock) (h : ∀ c, LegalMask (s.stencilMasks c)) (c : Int) :
    LegalMask ((writeBlock W p s blk).stencilMasks c) := by
  unfold writeBlock
  simp only
  split
  · exact LegalMask_update _ _ _ (Or.inr ⟨W, hW, rfl⟩) (materialize_legal s _ h) c
  · exact materialize_legal s _ h c

theorem uniform_word_and (W : Nat) : (0xffffff00 ||| W) &&& 0xffffff00 = 0xffffff00 := by
  apply Nat.eq_of_testBit_eq
  intro i
  rw [Nat.testBit_and, Nat.testBit_or]
  cases (0xffffff00 : Nat).testBit i <;> simp

/-- The mask word of the tile after a uniform tile has been materialized: `0`
when the word was legal. -/
theorem materialize_mask (s : StencilBuffer) (sb : Int) (h : LegalMask (s.stencilMasks sb)) :
    (materialize s sb).stencilMasks sb = 0 := by
  unfold materialize
  split
  · simp only [Function.update_same]
  · rename_i hnu
    rcases h with h | ⟨v, _, hv⟩
    · exact h
    · rw [hv] at hnu
      exact absurd (uniform_word_and v) hnu

/-- What `StencilWrite` does with one partial block, in terms of the mask word
and the bytes of its tile `sb`: the word becomes `0xffffff00 | W` exactly when
every pixel has its mask bit set or denoted `W` before; otherwise the word is
the one that `materialize` left and the pixels whose mask bit is clear hold
the value they denoted before. -/
theorem writeBlock_collapse (W : Nat) (p : Int) (s : StencilBuffer) (blk : TriPartialBlock) :
    ((writeBlock W p s blk).stencilMasks (Int.tdiv blk.X 8 + Int.tdiv blk.Y 8 * p) =
        0xffffff00 ||| W ↔
      ∀ k : Nat, k < 64 → (maskBit blk.Mask0 blk.Mask1 (k % 8) (k / 8) = true ∨
        tileValue s (Int.tdiv blk.X 8 + Int.tdiv blk.Y 8 * p) k = W)) ∧
    ((¬ ∀ k : Nat, k < 64 → (maskBit blk.Mask0 blk.Mask1 (k % 8) (k / 8) = true ∨
        tileValue s (Int.tdiv blk.X 8 + Int.tdiv blk.Y 8 * p) k = W)) →
      (writeBlock W p s blk).stencilMasks (Int.tdiv blk.X 8 + Int.tdiv blk.Y 8 * p) =
          (materialize s (Int.tdiv blk.X 8 + Int.tdiv blk.Y 8 * p)).stencilMasks
            (Int.tdiv blk.X 8 + Int.tdiv blk.Y 8 * p) ∧
        ∀ k : Nat, k < 64 → maskBit blk.Mask0 blk.Mask1 (k % 8) (k / 8) = false →
          (writeBlock W p s blk).stencilValues
              ((Int.tdiv blk.X 8 + Int.tdiv blk.Y 8 * p) * 64 + (k : Int)) =
            tileValue s (Int.tdiv blk.X 8 + Int.tdiv blk.Y 8 * p) k) := by
  obtain ⟨hnu, hmat, _, _⟩ := materialize_spec s (Int.tdiv blk.X 8 + Int.tdiv blk.Y 8 * p)
  obtain ⟨_, hkeep, _, hcount⟩ :=
    writeTile_spec W (Int.tdiv blk.X 8 + Int.tdiv blk.Y 8 * p)
      (materialize s (Int.tdiv blk.X 8 + Int.tdiv blk.Y 8 * p)).stencilValues blk.Mask0 blk.Mask1
  have hall : (∀ k : Nat, k < 64 → (maskBit blk.Mask0 blk.Mask1 (k % 8) (k / 8) = true ∨
      (materialize s (Int.tdiv blk.X 8 + Int.tdiv blk.Y 8 * p)).stencilValues
        ((Int.tdiv blk.X 8 + Int.tdiv blk.Y 8 * p) * 64 + (k : Int)) = W)) ↔
      ∀ k : Nat, k < 64 → (maskBit blk.Mask0 blk.Mask1 (k % 8) (k / 8) = true ∨
        tileValue s (Int.tdiv blk.X 8 + Int.tdiv blk.Y 8 * p) k = W) := by
    constructor
    · intro h k hk
      rw [← hmat k hk]
      exact h k hk
    · intro h k hk
      rw [hmat k hk]
      exact h k hk
  rw [hall] at hcount
  unfold writeBlock
  simp only
  generalize (List.range' 32 32).foldl (writePixel W (Int.tdiv blk.X 8 + Int.tdiv blk.Y 8 * p))
    (((List.range' 0 32).foldl (writePixel W (Int.tdiv blk.X 8 + Int.tdiv blk.Y 8 * p))
        ((materialize s (Int.tdiv blk.X 8 + Int.tdiv blk.Y 8 * p)).stencilValues, 0, blk.Mask0)).1,
      ((List.range' 0 32).foldl (writePixel W (Int.tdiv blk.X 8 + Int.tdiv blk.Y 8 * p))
        ((materialize s (Int.tdiv blk.X 8 + Int.tdiv blk.Y 8 * p)).stencilValues, 0, blk.Mask0)).2.1,
      blk.Mask1) = r1 at hkeep hcount
  split
  · rename_i h64
    refine ⟨?_, ?_⟩
    · simp only [Function.update_same, true_iff]
      exact hcount.1 h64
    · intro hno
      exact absurd (hcount.1 h64) hno
  · rename_i h64
    refine ⟨?_, ?_⟩
    · constructor
      · intro he
        simp only at he
        rw [he] at hnu
        exact absurd (uniform_word_and W) hnu
      · intro h
        exact absurd (hcount.2 h) h64
    · intro _
      refine ⟨rfl, ?_⟩
      intro k hk hbit
      simp only
      rw [hkeep k hk hbit]
      exact hmat k hk

/-! ## The subsector writer -/

/-- The rows of a full span: after `n` rows the row pointer has advanced by
`n * pitch` and exactly the `width` first entries of each of the rows hold the
value `u`. -/
theorem subsectorSpanRow_fold (u : Nat) (pitch : Int) (width : Nat) (buffer : Int → Nat)
    (base : Int) (n : Nat) :
    ((List.range n).foldl (subsectorSpanRow u pitch width) (buffer, base)).2 =
        base + (n : Int) * pitch ∧
      ∀ a : Int,
        ((∃ y x : Nat, y < n ∧ x < width ∧ a = base + (y : Int) * pitch + (x : Int)) →
          ((List.range n).foldl (subsectorSpanRow u pitch width) (buffer, base)).1 a = u) ∧
        ((¬ ∃ y x : Nat, y < n ∧ x < width ∧ a = base + (y : Int) * pitch + (x : Int)) →
          ((List.range n).foldl (subsectorSpanRow u pitch width) (buffer, base)).1 a =
            buffer a) := by
  induction n with
  | zero =>
    refine ⟨by simp, fun a => ⟨?_, fun _ => rfl⟩⟩
    rintro ⟨y, x, hy, _⟩
    exact absurd hy (Nat.not_lt_zero _)
  | succ n ih =>
    rw [List.range_succ, List.foldl_append]
    simp only [List.foldl_cons, List.foldl_nil]
    obtain ⟨hp, hb⟩ := ih
    generalize (List.range n).foldl (subsectorSpanRow u pitch width) (buffer, base) = r at hp hb
    unfold subsectorSpanRow
    simp only
    rw [hp]
    refine ⟨by push_cast; ring, fun a => ?_⟩
    have hrow := fold_update_const (base + (n : Int) * pitch) u r.1 width a
    by_cases hn : ∃ j : Nat, j < width ∧ a = base + (n : Int) * pitch + (j : Int)
    · constructor
      · intro _
        exact hrow.1 hn
      · intro hno
        obtain ⟨j, hj, he⟩ := hn
        exact absurd ⟨n, j, by omega, hj, he⟩ hno
    · rw [hrow.2 hn]
      constructor
      · rintro ⟨y, x, hy, hx, he⟩
        have hyn : y ≠ n := by
          intro e
          rw [e] at he
          exact hn ⟨x, hx, he⟩
        exact (hb a).1 ⟨y, x, by omega, hx, he⟩
      · intro hno
        exact (hb a).2 (fun ⟨y, x, hy, hx, he⟩ => hno ⟨y, x, by omega, hx, he⟩)

/-- What `SubsectorWrite` does with one full span: the entries of the pixels
of the span get the value `u`, the others are kept. -/
theorem subsectorSpan_spec (u : Nat) (pitch : Int) (buffer : Int → Nat) (span : TriFullSpan)
    (a : Int) :
    ((∃ px py : Int, inSpan span px py ∧ a = px + py * pitch) →
        subsectorSpan u pitch buffer span a = u) ∧
      ((¬ ∃ px py : Int, inSpan span px py ∧ a = px + py * pitch) →
        subsectorSpan u pitch buffer span a = buffer a) := by
  have h := (subsectorSpanRow_fold u pitch (span.Length * 8) buffer (span.X + span.Y * pitch) 8).2 a
  have hiff : (∃ y x : Nat, y < 8 ∧ x < span.Length * 8 ∧
      a = span.X + span.Y * pitch + (y : Int) * pitch + (x : Int)) ↔
      ∃ px py : Int, inSpan span px py ∧ a = px + py * pitch := by
    unfold inSpan
    constructor
    · rintro ⟨y, x, hy, hx, he⟩
      refine ⟨span.X + (x : Int), span.Y + (y : Int), ⟨by omega, by omega, by omega, by omega⟩, ?_⟩
      rw [he]
      ring
    · rintro ⟨px, py, ⟨h1, h2, h3, h4⟩, he⟩
      refine ⟨(py - span.Y).toNat, (px - span.X).toNat, by omega, by omega, ?_⟩
      have e1 : (((py - span.Y).toNat : Nat) : Int) = py - span.Y := by omega
      have e2 : (((px - span.X).toNat : Nat) : Int) = px - span.X := by omega
      rw [e1, e2, he]
      ring
  rw [hiff] at h
  exact h

/-- The pixels of one row of a partial block: after `n` pixels the mask has
been shifted `n` times and exactly the entries whose mask bit is set hold the
value `u`.  `M` is the mask of the block and `t` the number of shifts done
before the row. -/
theorem subsectorMaskPixel_fold (u : Nat) (ptr : Int) (buffer : Int → Nat) (M mask t : Nat)
    (hx : mask % 2 ^ 32 = (M * 2 ^ t) % 2 ^ 32) (n : Nat) (hn : t + n ≤ 32) :
    ((List.range n).foldl (subsectorMaskPixel u ptr) (buffer, mask)).2 % 2 ^ 32 =
        (M * 2 ^ (t + n)) % 2 ^ 32 ∧
      ∀ a : Int,
        ((∃ x : Nat, x < n ∧ a = ptr + (x : Int) ∧ M.testBit (31 - (t + x)) = true) →
          ((List.range n).foldl (subsectorMaskPixel u ptr) (buffer, mask)).1 a = u) ∧
        ((¬ ∃ x : Nat, x < n ∧ a = ptr + (x : Int) ∧ M.testBit (31 - (t + x)) = true) →
          ((List.range n).foldl (subsectorMaskPixel u ptr) (buffer, mask)).1 a = buffer a) := by
  induction n with
  | zero =>
    refine ⟨hx, fun a => ⟨?_, fun _ => rfl⟩⟩
    rintro ⟨x, hx', _⟩
    exact absurd hx' (Nat.not_lt_zero _)
  | succ n ih =>
    rw [List.range_succ, List.foldl_append]
    simp only [List.foldl_cons, List.foldl_nil]
    obtain ⟨hm, hb⟩ := ih (by omega)
    generalize (List.range n).foldl (subsectorMaskPixel u ptr) (buffer, mask) = r at hm hb
    have hbit := shifted_bit r.2 M (t + n) (by omega) hm
    have hstep := shifted_step r.2 M (t + n) hm
    unfold subsectorMaskPixel
    simp only
    refine ⟨by rw [hstep]; rfl, fun a => ?_⟩
    by_cases hset : (r.2 &&& (1 <<< 31)) ≠ 0
    · rw [if_pos hset]
      have htb := hbit.1 hset
      by_cases ha : a = ptr + (n : Int)
      · rw [ha, Function.update_same]
        refine ⟨fun _ => rfl, fun hno => ?_⟩
        exact absurd ⟨n, by omega, rfl, htb⟩ hno
      · rw [Function.update_noteq ha]
        constructor
        · rintro ⟨x, hx', he, hb'⟩
          have hxn : x ≠ n := by
            intro e
            rw [e] at he
            exact ha he
          exact (hb a).1 ⟨x, by omega, he, hb'⟩
        · intro hno
          exact (hb a).2 (fun ⟨x, hx', he, hb'⟩ => hno ⟨x, by omega, he, hb'⟩)
    · rw [if_neg hset]
      have htb : ¬ M.testBit (31 - (t + n)) = true := fun h => hset (hbit.2 h)
      constructor
      · rintro ⟨x, hx', he, hb'⟩
        have hxn : x ≠ n := by
          intro e
          rw [e] at hb'
          exact htb hb'
        exact (hb a).1 ⟨x, by omega, he, hb'⟩
      · intro hno
        exact (hb a).2 (fun ⟨x, hx', he, hb'⟩ => hno ⟨x, by omega, he, hb'⟩)

/-- The rows of one half of a partial block: after `n` rows the row pointer
has advanced by `n * pitch`, the mask `M` has been shifted `8 * n` times, and
exactly the entries whose mask bit is set hold the value `u`. -/
theorem subsectorMaskRow_fold (u : Nat) (pitch : Int) (buffer : Int → Nat) (M : Nat) (base : Int)
    (n : Nat) (hn : n ≤ 4) :
    ((List.range n).foldl (subsectorMaskRow u pitch) (buffer, M, base)).2.2 =
        base + (n : Int) * pitch ∧
      ((List.range n).foldl (subsectorMaskRow u pitch) (buffer, M, base)).2.1 % 2 ^ 32 =
        (M * 2 ^ (8 * n)) % 2 ^ 32 ∧
      ∀ a : Int,
        ((∃ y x : Nat, y < n ∧ x < 8 ∧ a = base + (y : Int) * pitch + (x : Int) ∧
            M.testBit (31 - (8 * y + x)) = true) →
          ((List.range n).foldl (subsectorMaskRow u pitch) (buffer, M, base)).1 a = u) ∧
        ((¬ ∃ y x : Nat, y < n ∧ x < 8 ∧ a = base + (y : Int) * pitch + (x : Int) ∧
            M.testBit (31 - (8 * y + x)) = true) →
          ((List.range n).foldl (subsectorMaskRow u pitch) (buffer, M, base)).1 a = buffer a) := by
  induction n with
  | zero =>
    refine ⟨by simp, by simp, fun a => ⟨?_, fun _ => rfl⟩⟩
    rintro ⟨y, x, hy, _⟩
    exact absurd hy (Nat.not_lt_zero _)
  | succ n ih =>
    rw [List.range_succ, List.foldl_append]
    simp only [List.foldl_cons, List.foldl_nil]
    obtain ⟨hp, hm, hb⟩ := ih (by omega)
    generalize (List.range n).foldl (subsectorMaskRow u pitch) (buffer, M, base) = r at hp hm hb
    obtain ⟨hm', hrow⟩ := subsectorMaskPixel_fold u r.2.2 r.1 M r.2.1 (8 * n) hm 8 (by omega)
    unfold subsectorMaskRow
    simp only
    rw [hp] at hrow hm' ⊢
    refine ⟨by push_cast; ring, by rw [hm']; rfl, fun a => ?_⟩
    by_cases hn' : ∃ x : Nat, x < 8 ∧ a = base + (n : Int) * pitch + (x : Int) ∧
        M.testBit (31 - (8 * n + x)) = true
    · constructor
      · intro _
        exact (hrow a).1 hn'
      · intro hno
        obtain ⟨x, hx, he, hb'⟩ := hn'
        exact absurd ⟨n, x, by omega, hx, he, hb'⟩ hno
    · rw [(hrow a).2 hn']
      constructor
      · rintro ⟨y, x, hy, hx, he, hb'⟩
        have hyn : y ≠ n := by
          intro e
          rw [e] at he hb'
          exact hn' ⟨x, hx, he, hb'⟩
        exact (hb a).1 ⟨y, x, by omega, hx, he, hb'⟩
      · intro hno
        exact (hb a).2 (fun ⟨y, x, hy, hx, he, hb'⟩ => hno ⟨y, x, by omega, hx, he, hb'⟩)

/-- The pixels that a partial block covers, by half and by mask bit. -/
theorem inBlock_iff_halves (blk : TriPartialBlock) (pitch a : Int) :
    (∃ px py : Int, inBlock blk px py ∧ a = px + py * pitch) ↔
      ((∃ y x : Nat, y < 4 ∧ x < 8 ∧ a = blk.X + blk.Y * pitch + (y : Int) * pitch + (x : Int) ∧
          blk.Mask0.testBit (31 - (8 * y + x)) = true) ∨
        (∃ y x : Nat, y < 4 ∧ x < 8 ∧
          a = blk.X + blk.Y * pitch + ((4 : Nat) : Int) * pitch + (y : Int) * pitch + (x : Int) ∧
          blk.Mask1.testBit (31 - (8 * y + x)) = true)) := by
  unfold inBlock maskBit
  constructor
  · rintro ⟨px, py, ⟨h1, h2, h3, h4, hbit⟩, he⟩
    have ex : (((px - blk.X).toNat : Nat) : Int) = px - blk.X := by omega
    have ey : (((py - blk.Y).toNat : Nat) : Int) = py - blk.Y := by omega
    by_cases hy : (py - blk.Y).toNat < 4
    · rw [if_pos hy] at hbit
      refine Or.inl ⟨(py - blk.Y).toNat, (px - blk.X).toNat, hy, by omega, ?_, ?_⟩
      · rw [ex, ey, he]
        ring
      · rw [Nat.add_comm]
        exact hbit
    · rw [if_neg hy] at hbit
      refine Or.inr ⟨(py - blk.Y).toNat - 4, (px - blk.X).toNat, by omega, by omega, ?_, ?_⟩
      · have ey4 : ((((py - blk.Y).toNat - 4 : Nat) : Nat) : Int) = py - blk.Y - 4 := by omega
        rw [ex, ey4, he]
        push_cast
        ring
      · rw [Nat.add_comm]
        exact hbit
  · rintro (⟨y, x, hy, hx, he, hbit⟩ | ⟨y, x, hy, hx, he, hbit⟩)
    · refine ⟨blk.X + (x : Int), blk.Y + (y : Int),
        ⟨by omega, by omega, by omega, by omega, ?_⟩, by rw [he]; ring⟩
      have ex : (blk.X + (x : Int) - blk.X).toNat = x := by omega
      have ey : (blk.Y + (y : Int) - blk.Y).toNat = y := by omega
      rw [ex, ey, if_pos hy, Nat.add_comm]
      exact hbit
    · refine ⟨blk.X + (x : Int), blk.Y + ((4 + y : Nat) : Int),
        ⟨by omega, by omega, by omega, by omega, ?_⟩, by rw [he]; push_cast; ring⟩
      have ex : (blk.X + (x : Int) - blk.X).toNat = x := by omega
      have ey : (blk.Y + ((4 + y : Nat) : Int) - blk.Y).toNat = 4 + y := by omega
      have hy4 : ¬ 4 + y < 4 := by omega
      have e4 : 4 + y - 4 = y := by omega
      rw [ex, ey, if_neg hy4, e4, Nat.add_comm]
      exact hbit

/-- What `SubsectorWrite` does with one partial block: the entries of the
pixels whose mask bit is set get the value `u`, the others are kept. -/
theorem subsectorPartial_spec (u : Nat) (pitch : Int) (buffer : Int → Nat)
    (blk : TriPartialBlock) (a : Int) :
    ((∃ px py : Int, inBlock blk px py ∧ a = px + py * pitch) →
        subsectorPartial u pitch buffer blk a = u) ∧
      ((¬ ∃ px py : Int, inBlock blk px py ∧ a = px + py * pitch) →
        subsectorPartial u pitch buffer blk a = buffer a) := by
  rw [inBlock_iff_halves]
  have e1 : ∀ s, [0, 1, 2, 3].foldl (subsectorMaskRow u pitch) s =
      (List.range 4).foldl (subsectorMaskRow u pitch) s := fun _ => rfl
  have e2 : ∀ s, [4, 5, 6, 7].foldl (subsectorMaskRow u pitch) s =
      (List.range 4).foldl (subsectorMaskRow u pitch) s := fun _ => rfl
  unfold subsectorPartial
  rw [e1, e2]
  obtain ⟨hp, _, htop⟩ :=
    subsectorMaskRow_fold u pitch buffer blk.Mask0 (blk.X + blk.Y * pitch) 4 (le_refl 4)
  generalize (List.range 4).foldl (subsectorMaskRow u pitch)
    (buffer, blk.Mask0, blk.X + blk.Y * pitch) = top at hp htop
  obtain ⟨_, _, hbot⟩ := subsectorMaskRow_fold u pitch top.1 blk.Mask1 top.2.2 4 (le_refl 4)
  rw [hp] at hbot ⊢
  by_cases h2 : ∃ y x : Nat, y < 4 ∧ x < 8 ∧
      a = blk.X + blk.Y * pitch + ((4 : Nat) : Int) * pitch + (y : Int) * pitch + (x : Int) ∧
      blk.Mask1.testBit (31 - (8 * y + x)) = true
  · exact ⟨fun _ => (hbot a).1 h2, fun hno => absurd (Or.inr h2) hno⟩
  · rw [(hbot a).2 h2]
    constructor
    · rintro (h1 | h1)
      · exact (htop a).1 h1
      · exact absurd h1 h2
    · intro hno
      exact (htop a).2 (fun h1 => hno (Or.inl h1))

/-- The subsector buffer entry that `SubsectorWrite` leaves at the index `a`:
`subsectorDepth` when `a` is the index of a pixel that the list covers, the
entry from before the call otherwise. -/
theorem SubsectorWrite_entry (args : TriDrawTriangleArgs) (thread : WorkerThreadData) (a : Int) :
    ((∃ px py : Int, Covers thread px py ∧ a = px + py * args.pitch) →
        SubsectorWrite args thread a = args.subsectorDepth) ∧
      ((¬ ∃ px py : Int, Covers thread px py ∧ a = px + py * args.pitch) →
        SubsectorWrite args thread a = args.subsectorGBuffer a) := by
  have hs := fold_hit (fun (buffer : Int → Nat) => buffer a)
    (fun buffer i => subsectorSpan args.subsectorDepth args.pitch buffer (thread.FullSpans i))
    (fun i => ∃ px py : Int, inSpan (thread.FullSpans i) px py ∧ a = px + py * args.pitch)
    args.subsectorDepth
    (fun buffer i => subsectorSpan_spec args.subsectorDepth args.pitch buffer
      (thread.FullSpans i) a)
    thread.NumFullSpans args.subsectorGBuffer
  have hb := fold_hit (fun (buffer : Int → Nat) => buffer a)
    (fun buffer i => subsectorPartial args.subsectorDepth args.pitch buffer
      (thread.PartialBlocks i))
    (fun i => ∃ px py : Int, inBlock (thread.PartialBlocks i) px py ∧ a = px + py * args.pitch)
    args.subsectorDepth
    (fun buffer i => subsectorPartial_spec args.subsectorDepth args.pitch buffer
      (thread.PartialBlocks i) a)
    thread.NumPartialBlocks
    ((List.range thread.NumFullSpans).foldl
      (fun buffer i => subsectorSpan args.subsectorDepth args.pitch buffer (thread.FullSpans i))
      args.subsectorGBuffer)
  unfold SubsectorWrite
  simp only at hs hb ⊢
  unfold Covers
  constructor
  · rintro ⟨px, py, (⟨i, hi, hin⟩ | ⟨i, hi, hin⟩), he⟩
    · by_cases hblk : ∃ i, i < thread.NumPartialBlocks ∧
          ∃ px py : Int, inBlock (thread.PartialBlocks i) px py ∧ a = px + py * args.pitch
      · exact hb.1 hblk
      · rw [hb.2 hblk]
        exact hs.1 ⟨i, hi, px, py, hin, he⟩
    · exact hb.1 ⟨i, hi, px, py, hin, he⟩
  · intro hno
    rw [hb.2 (fun ⟨i, hi, px, py, hin, he⟩ => hno ⟨px, py, Or.inr ⟨i, hi, hin⟩, he⟩),
      hs.2 (fun ⟨i, hi, px, py, hin, he⟩ => hno ⟨px, py, Or.inl ⟨i, hi, hin⟩, he⟩)]

/-- For a list within the rows of `pitch` pixels, the index `px + py * pitch`
of a pixel of the buffer is the index of a covered pixel only when the pixel
itself is covered. -/
theorem covers_of_index (pitch : Int) (thread : WorkerThreadData) (hwf : WithinPitch pitch thread)
    (px py : Int) (hpx0 : 0 ≤ px) (hpx : px < pitch)
    (h : ∃ qx qy : Int, Covers thread qx qy ∧ px + py * pitch = qx + qy * pitch) :
    Covers thread px py := by
  obtain ⟨qx, qy, hc, he⟩ := h
  have hq : 0 ≤ qx ∧ qx < pitch := by
    rcases hc with ⟨i, hi, hin⟩ | ⟨i, hi, hin⟩
    · obtain ⟨a1, a2⟩ := hwf.1 i hi
      unfold inSpan at hin
      omega
    · obtain ⟨a1, a2⟩ := hwf.2 i hi
      unfold inBlock at hin
      omega
  obtain ⟨e1, e2⟩ := tile_index_inj pitch px py qx qy hpx0 hpx hq.1 hq.2 he
  rw [e1, e2]
  exact hc

/-! ## The subsector test rejects every pixel -/

theorem subsectorTest_of_depth (args : TriDrawTriangleArgs)
    (h : ∀ a, args.subsectorGBuffer a < args.subsectorDepth) (x y : Int) (ix iy : Nat) :
    subsectorTest args x y ix iy = false := by
  unfold subsectorTest
  exact decide_eq_false (Nat.not_le.mpr (h _))

theorem subsectorTileMasks_of_depth (args : TriDrawTriangleArgs)
    (h : ∀ a, args.subsectorGBuffer a < args.subsectorDepth) (x y : Int) :
    subsectorTileMasks args x y = (0, 0) := by
  unfold subsectorTileMasks
  simp only
  split
  · rfl
  · split
    · rw [subsectorTestMasks_eq, ← packTile_false]
      exact packTile_congr _ _ (fun ix iy _ _ => subsectorTest_of_depth args h x y ix iy)
    · rw [subsectorMasks_eq, ← packTile_false]
      apply packTile_congr
      intro ix iy _ _
      unfold subsectorCovered
      rw [subsectorTest_of_depth args h x y ix iy, Bool.and_false]

theorem subsectorBlock_of_depth (args : TriDrawTriangleArgs)
    (h : ∀ a, args.subsectorGBuffer a < args.subsectorDepth) (x y : Int) (st : BinState) :
    subsectorBlock args y x st = closeSpan st := by
  rw [subsectorBlock_eq, subsectorTileMasks_of_depth args h x y]
  exact (closeSpan_eq_emitMasks st x y).symm

/-- When every subsector buffer entry is smaller than `subsectorDepth`, the
subsector variant emits nothing. -/
theorem counts_of_depth (args : TriDrawTriangleArgs) (thread : WorkerThreadData)
    (h : ∀ a, args.subsectorGBuffer a < args.subsectorDepth) :
    (SetupSubsector args thread).NumFullSpans = 0 ∧
      (SetupSubsector args thread).NumPartialBlocks = 0 := by
  by_cases he : minx args ≥ maxx args ∨ miny args ≥ maxy args
  · rw [SetupSubsector_early args thread he]
    exact ⟨rfl, rfl⟩
  · have hS := SetupSubsector_run args thread he
    rw [blockLoops_reject _ (fun x y st => subsectorBlock_of_depth args h x y st) _ _ _ _ _ _
      (by simp)] at hS
    have hS1 : (outState (SetupSubsector args thread)).span = 0 := by rw [hS]
    have hS2 : (outState (SetupSubsector args thread)).block = 0 := by rw [hS]
    exact ⟨hS1, hS2⟩

/-- A pixel of a block that the worker walks satisfies the conditions on the
block of the pixel in the characterisations of the covered pixels. -/
theorem walked_of_visits (args : TriDrawTriangleArgs) (thread : WorkerThreadData)
    (hn : 0 < thread.num_cores) (hc0 : 0 ≤ thread.core) (hc : thread.core < thread.num_cores)
    (tx ty : Int) (hv : visits args thread tx ty) (px py : Int)
    (hx0 : tx ≤ px) (hx1 : px < tx + 8) (hy0 : ty ≤ py) (hy1 : py < ty + 8) :
    snap (minx args) ≤ px ∧ 8 * (px / 8) < maxx args ∧ snap (miny args) ≤ py ∧
      8 * (py / 8) < maxy args ∧ (py / 8) % thread.num_cores = thread.core := by
  obtain ⟨dx, dy⟩ := visits_dvd args thread tx ty hv
  have hrow := visits_row args thread hn hc0 hc tx ty hv
  obtain ⟨i, j, hi, hix, hj, hjy⟩ := hv
  have hskip := core_skip_nonneg (snap (miny args)) thread.core thread.num_cores hn
  have hpx : px / 8 = tx / 8 := by omega
  have hpy : py / 8 = ty / 8 := by omega
  have h8x : 8 * (tx / 8) = tx := by omega
  have h8y : 8 * (ty / 8) = ty := by omega
  have hsy : snap (miny args) ≤ ty := by
    unfold startY q at hj
    have : 0 ≤ (j : Int) * (8 * thread.num_cores) := by positivity
    have : 0 ≤ core_skip (snap (miny args)) thread.core thread.num_cores * 8 := by positivity
    omega
  refine ⟨by omega, by rw [hpx, h8x]; exact hix, by omega, by rw [hpy, h8y]; exact hjy, ?_⟩
  rw [hpy]
  exact hrow

theorem sample_visits : visits sampleArgs sampleThread 0 0 := by
  refine ⟨0, 0, ?_, by decide, ?_, by decide⟩
  · rw [snap_eq _ (minx_nonneg _)]
    decide
  · unfold startY
    rw [snap_eq _ (miny_nonneg _)]
    decide


/-! ## No partial block of a binner output names a tile of a full span -/

theorem visits_lt_maxx (args : TriDrawTriangleArgs) (thread : WorkerThreadData) (tx ty : Int)
    (h : visits args thread tx ty) : tx < args.clipright - 1 := by
  obtain ⟨i, j, _, hx, _, _⟩ := h
  have : maxx args ≤ args.clipright - 1 := by
    unfold maxx
    exact min_le_right _ _
  omega

/-- In the output of a binner, for a stencil row that is at least as wide as
the clip rectangle, the stencil tile index of a partial block is not the index
of any tile of a full span. -/
theorem separated_of_inv (args : TriDrawTriangleArgs) (thread out : WorkerThreadData)
    (M0 M1 : Int → Int → Nat)
    (hinv : BinInv M0 M1 (visits args thread) (outState out) 0 0)
    (hn : 0 < thread.num_cores) (hp : args.clipright ≤ 8 * args.stencilPitch) :
    ∀ i, i < out.NumPartialBlocks → ∀ n, n < out.NumFullSpans →
      ∀ j : Nat, j < (out.FullSpans n).Length →
        Int.tdiv (out.PartialBlocks i).X 8 +
            Int.tdiv (out.PartialBlocks i).Y 8 * args.stencilPitch ≠
          Int.tdiv (out.FullSpans n).X 8 +
            Int.tdiv (out.FullSpans n).Y 8 * args.stencilPitch + (j : Int) := by
  intro i hi n hn' j hj he
  obtain ⟨hes, heb⟩ := hinv.entries
  have hvb : visits args thread (out.PartialBlocks i).X (out.PartialBlocks i).Y := heb i hi
  have hvs : visits args thread (out.FullSpans n).X (out.FullSpans n).Y := hes n hn'
  have hsj : visits args thread ((out.FullSpans n).X + 8 * (j : Int)) (out.FullSpans n).Y ∧
      M0 ((out.FullSpans n).X + 8 * (j : Int)) (out.FullSpans n).Y = 0xffffffff ∧
      M1 ((out.FullSpans n).X + 8 * (j : Int)) (out.FullSpans n).Y = 0xffffffff :=
    hinv.spans n (le_of_lt hn') j hj
  have hbm : (out.PartialBlocks i).Mask0 = M0 (out.PartialBlocks i).X (out.PartialBlocks i).Y ∧
      (out.PartialBlocks i).Mask1 = M1 (out.PartialBlocks i).X (out.PartialBlocks i).Y ∧
      ¬ ((out.PartialBlocks i).Mask0 = 0 ∧ (out.PartialBlocks i).Mask1 = 0) ∧
      ¬ ((out.PartialBlocks i).Mask0 = 0xffffffff ∧ (out.PartialBlocks i).Mask1 = 0xffffffff) :=
    (hinv.blocks i hi).2
  obtain ⟨dbx, dby⟩ := visits_dvd args thread _ _ hvb
  obtain ⟨dsx, dsy⟩ := visits_dvd args thread _ _ hvs
  obtain ⟨nbx, _⟩ := visits_nonneg args thread hn _ _ hvb
  obtain ⟨nsx, _⟩ := visits_nonneg args thread hn _ _ hvs
  have lb := visits_lt_maxx args thread _ _ hvb
  have ls := visits_lt_maxx args thread _ _ hsj.1
  rw [Int.tdiv_eq_ediv_of_dvd dbx, Int.tdiv_eq_ediv_of_dvd dby, Int.tdiv_eq_ediv_of_dvd dsx,
    Int.tdiv_eq_ediv_of_dvd dsy] at he
  have he' : (out.PartialBlocks i).X / 8 + (out.PartialBlocks i).Y / 8 * args.stencilPitch =
      ((out.FullSpans n).X / 8 + (j : Int)) + (out.FullSpans n).Y / 8 * args.stencilPitch := by
    rw [he]
    ring
  obtain ⟨c1, c2⟩ := tile_index_inj args.stencilPitch _ _ _ _ (by omega) (by omega) (by omega)
    (by omega) he'
  have eX : (out.PartialBlocks i).X = (out.FullSpans n).X + 8 * (j : Int) := by omega
  have eY : (out.PartialBlocks i).Y = (out.FullSpans n).Y := by omega
  rw [eX, eY] at hbm
  exact hbm.2.2.2 ⟨by rw [hbm.1]; exact hsj.2.1, by rw [hbm.2.1]; exact hsj.2.2⟩

/-- The outputs of both binners satisfy the separation that `StencilWrite`
needs for its full spans. -/
theorem binner_separated (args : TriDrawTriangleArgs) (thread : WorkerThreadData)
    (hn : 0 < thread.num_cores) (hp : args.clipright ≤ 8 * args.stencilPitch) :
    (∀ i, i < (SetupNormal args thread).NumPartialBlocks →
      ∀ n, n < (SetupNormal args thread).NumFullSpans →
      ∀ j : Nat, j < ((SetupNormal args thread).FullSpans n).Length →
        Int.tdiv ((SetupNormal args thread).PartialBlocks i).X 8 +
            Int.tdiv ((SetupNormal args thread).PartialBlocks i).Y 8 * args.stencilPitch ≠
          Int.tdiv ((SetupNormal args thread).FullSpans n).X 8 +
            Int.tdiv ((SetupNormal args thread).FullSpans n).Y 8 * args.stencilPitch + (j : Int)) ∧
    (∀ i, i < (SetupSubsector args thread).NumPartialBlocks →
      ∀ n, n < (SetupSubsector args thread).NumFullSpans →
      ∀ j : Nat, j < ((SetupSubsector args thread).FullSpans n).Length →
        Int.tdiv ((SetupSubsector args thread).PartialBlocks i).X 8 +
            Int.tdiv ((SetupSubsector args thread).PartialBlocks i).Y 8 * args.stencilPitch ≠
          Int.tdiv ((SetupSubsector args thread).FullSpans n).X 8 +
            Int.tdiv ((SetupSubsector args thread).FullSpans n).Y 8 * args.stencilPitch +
              (j : Int)) := by
  by_cases he : minx args ≥ maxx args ∨ miny args ≥ maxy args
  · rw [SetupNormal_early args thread he, SetupSubsector_early args thread he]
    constructor
    · intro i hi
      exact absurd hi (Nat.not_lt_zero _)
    · intro i hi
      exact absurd hi (Nat.not_lt_zero _)
  · exact ⟨separated_of_inv args thread _ _ _ (SetupNormal_inv args thread hn he).1 hn hp,
      separated_of_inv args thread _ _ _ (SetupSubsector_inv args thread hn he).1 hn hp⟩

/-! ## Well-formed entries -/

theorem wellFormed_of_counts_zero (t : WorkerThreadData) (h0 : t.NumFullSpans = 0)
    (h1 : t.NumPartialBlocks = 0) : WellFormed t := by
  constructor
  · intro i hi
    rw [h0] at hi
    exact absurd hi (Nat.not_lt_zero _)
  · intro i hi
    rw [h1] at hi
    exact absurd hi (Nat.not_lt_zero _)

theorem wellFormed_of_inv (args : TriDrawTriangleArgs) (thread out : WorkerThreadData)
    (M0 M1 : Int → Int → Nat)
    (hinv : BinInv M0 M1 (visits args thread) (outState out) 0 0)
    (hn : 0 < thread.num_cores) : WellFormed out := by
  obtain ⟨hes, heb⟩ := hinv.entries
  constructor
  · intro i hi
    have hd : (out.FullSpans i).Length ≠ 0 := hinv.done i hi
    have hv : visits args thread (out.FullSpans i).X (out.FullSpans i).Y := hes i hi
    obtain ⟨d1, d2⟩ := visits_dvd args thread _ _ hv
    obtain ⟨n1, n2⟩ := visits_nonneg args thread hn _ _ hv
    exact ⟨by omega, n1, d1, n2, d2⟩
  · intro i hi
    have hv : visits args thread (out.PartialBlocks i).X (out.PartialBlocks i).Y := heb i hi
    obtain ⟨d1, d2⟩ := visits_dvd args thread _ _ hv
    obtain ⟨n1, n2⟩ := visits_nonneg args thread hn _ _ hv
    have hb : ¬ ((out.PartialBlocks i).Mask0 = 0 ∧ (out.PartialBlocks i).Mask1 = 0) ∧
        ¬ ((out.PartialBlocks i).Mask0 = 0xffffffff ∧ (out.PartialBlocks i).Mask1 = 0xffffffff) :=
      (hinv.blocks i hi).2.2.2
    exact ⟨n1, d1, n2, d2, hb.1, hb.2⟩

/-! ## The order of the emitted entries -/

theorem precedes_mono {X Y x y x' y' : Int} (h : precedes X Y x y)
    (hle : y < y' ∨ (y = y' ∧ x ≤ x')) : precedes X Y x' y' := by
  unfold precedes at h ⊢
  omega

theorem OrdInv.ordInit (FullSpans : Nat → TriFullSpan) (PartialBlocks : Nat → TriPartialBlock)
    (x y : Int) :
    OrdInv
      { FullSpans := Function.update FullSpans 0 { FullSpans 0 with Length := 0 }
        span := 0
        PartialBlocks := PartialBlocks
        block := 0 } x y := by
  refine ⟨?_, ?_, ?_, ?_, ?_, ?_⟩
  · intro h
    simp at h
  · intro i hi
    exact absurd hi (Nat.not_lt_zero _)
  · intro i hi
    exact absurd hi (Nat.not_lt_zero _)
  · intro i j _ hj
    exact absurd hj (Nat.not_lt_zero _)
  · intro i hi h
    have : i = 0 := by simpa using hi
    subst this
    simp at h
  · intro i j hij hj
    have : j = 0 := by simpa using hj
    omega

theorem OrdInv.ordMove {st : BinState} {x y : Int} (h : OrdInv st x y)
    (hl : (st.FullSpans st.span).Length = 0) (x' y' : Int)
    (hle : y < y' ∨ (y = y' ∧ x ≤ x')) : OrdInv st x' y' :=
  ⟨fun hne => absurd hl hne, h.done,
    fun i hi => precedes_mono (h.blockPos i hi) hle, h.blockOrd,
    fun i hi hne => precedes_mono (h.spanPos i hi hne) hle, h.spanOrd⟩

theorem OrdInv.ordNextSpan {st : BinState} {x y : Int} (h : OrdInv st x y)
    (hl : (st.FullSpans st.span).Length ≠ 0) : OrdInv (nextSpan st) x y := by
  have hspan : (ScreenTriangle.nextSpan st).span = st.span + 1 := rfl
  refine ⟨?_, ?_, h.blockPos, h.blockOrd, ?_, ?_⟩
  · intro hne
    rw [hspan] at hne
    exact absurd (nextSpan_FullSpans_length st) hne
  · intro i hi
    rw [hspan] at hi
    rw [nextSpan_FullSpans_of_ne st i (by omega)]
    by_cases hlt : i < st.span
    · exact h.done i hlt
    · have : i = st.span := by omega
      rw [this]
      exact hl
  · intro i hi hne
    rw [hspan] at hi
    by_cases hii : i = st.span + 1
    · subst hii
      exact absurd (nextSpan_FullSpans_length st) hne
    · rw [nextSpan_FullSpans_of_ne st i hii] at hne ⊢
      exact h.spanPos i (by omega) hne
  · intro i j hij hj hne
    rw [hspan] at hj
    by_cases hjj : j = st.span + 1
    · subst hjj
      exact absurd (nextSpan_FullSpans_length st) hne
    · rw [nextSpan_FullSpans_of_ne st j hjj] at hne ⊢
      rw [nextSpan_FullSpans_of_ne st i (by omega)]
      exact h.spanOrd i j hij (by omega) hne

theorem OrdInv.ordCloseSpan {st : BinState} {x y : Int} (h : OrdInv st x y) :
    OrdInv (closeSpan st) x y := by
  unfold ScreenTriangle.closeSpan
  split
  · rename_i hl
    exact h.ordNextSpan hl
  · exact h

theorem OrdInv.ordInsertBlock {st : BinState} {x y : Int} (h : OrdInv st x y)
    (hl : (st.FullSpans st.span).Length = 0) (m0 m1 : Nat) :
    OrdInv
      { st with
        PartialBlocks := Function.update st.PartialBlocks st.block ⟨x, y, m0, m1⟩
        block := st.block + 1 } (x + 8) y := by
  have hle : y < y ∨ (y = y ∧ x ≤ x + 8) := Or.inr ⟨rfl, by omega⟩
  refine ⟨fun hne => absurd hl hne, h.done, ?_, ?_,
    fun i hi hne => precedes_mono (h.spanPos i hi hne) hle, h.spanOrd⟩
  · intro i hi
    simp only at hi ⊢
    by_cases hii : i = st.block
    · subst hii
      rw [Function.update_same]
      show precedes x y (x + 8) y
      exact Or.inr ⟨rfl, by omega⟩
    · rw [Function.update_noteq hii]
      exact precedes_mono (h.blockPos i (by omega)) hle
  · intro i j hij hj
    simp only at hj ⊢
    rw [Function.update_noteq (show i ≠ st.block by omega)]
    by_cases hjj : j = st.block
    · subst hjj
      rw [Function.update_same]
      exact h.blockPos i hij
    · rw [Function.update_noteq hjj]
      exact h.blockOrd i j hij (by omega)

theorem OrdInv.ordGrowSpan {st : BinState} {x y : Int} (h : OrdInv st x y) :
    OrdInv (growSpan st x y) (x + 8) y := by
  have hle : y < y ∨ (y = y ∧ x ≤ x + 8) := Or.inr ⟨rfl, by omega⟩
  unfold ScreenTriangle.growSpan
  split
  · rename_i hl
    obtain ⟨hY, hX⟩ := h.adj hl
    refine ⟨?_, ?_, fun i hi => precedes_mono (h.blockPos i hi) hle, h.blockOrd, ?_, ?_⟩
    · intro _
      simp only [Function.update_same]
      refine ⟨hY, ?_⟩
      push_cast
      omega
    · intro i hi
      simp only at hi ⊢
      rw [Function.update_noteq (show i ≠ st.span by omega)]
      exact h.done i hi
    · intro i hi hne
      simp only at hi hne ⊢
      by_cases hii : i = st.span
      · subst hii
        rw [Function.update_same]
        refine Or.inr ⟨hY, ?_⟩
        simp only
        push_cast
        omega
      · rw [Function.update_noteq hii] at hne ⊢
        exact precedes_mono (h.spanPos i hi hne) hle
    · intro i j hij hj hne
      simp only at hj hne ⊢
      rw [Function.update_noteq (show i ≠ st.span by omega)]
      by_cases hjj : j = st.span
      · subst hjj
        rw [Function.update_same]
        exact h.spanOrd i _ hij (le_refl _) hl
      · rw [Function.update_noteq hjj] at hne ⊢
        exact h.spanOrd i j hij hj hne
  · rename_i hl
    have hl0 : (st.FullSpans st.span).Length = 0 := by simpa using hl
    refine ⟨?_, ?_, fun i hi => precedes_mono (h.blockPos i hi) hle, h.blockOrd, ?_, ?_⟩
    · intro _
      simp only [Function.update_same]
      refine ⟨trivial, ?_⟩
      push_cast
      omega
    · intro i hi
      simp only at hi ⊢
      rw [Function.update_noteq (show i ≠ st.span by omega)]
      exact h.done i hi
    · intro i hi hne
      simp only at hi hne ⊢
      by_cases hii : i = st.span
      · subst hii
        rw [Function.update_same]
        refine Or.inr ⟨rfl, ?_⟩
        simp only
        push_cast
        omega
      · rw [Function.update_noteq hii] at hne ⊢
        exact precedes_mono (h.spanPos i hi hne) hle
    · intro i j hij hj hne
      simp only at hj hne ⊢
      rw [Function.update_noteq (show i ≠ st.span by omega)]
      by_cases hjj : j = st.span
      · subst hjj
        rw [Function.update_same]
        exact h.spanPos i (by omega) (h.done i hij)
      · rw [Function.update_noteq hjj] at hne ⊢
        exact h.spanOrd i j hij hj hne

theorem OrdInv.ordEmitMasks {st : BinState} {x y : Int} (h : OrdInv st x y) (m0 m1 : Nat) :
    OrdInv (emitMasks st x y m0 m1) (x + 8) y := by
  unfold ScreenTriangle.emitMasks
  split
  · have hc : OrdInv (ScreenTriangle.closeSpan st) x y := h.ordCloseSpan
    have hcl := closeSpan_length st
    have hce : (if (st.FullSpans st.span).Length > 0 then ScreenTriangle.nextSpan st else st)
        = ScreenTriangle.closeSpan st := by
      unfold ScreenTriangle.closeSpan
      simp [Nat.pos_iff_ne_zero]
    simp only [hce]
    split
    · exact hc.ordMove hcl _ _ (Or.inr ⟨rfl, by omega⟩)
    · exact hc.ordInsertBlock hcl m0 m1
  · exact h.ordGrowSpan

theorem rowLoop_ord {M0 M1 : Int → Int → Nat} {body : Int → Int → BinState → BinState}
    (hbody : ∀ x y st, body y x st = emitMasks st x y (M0 x y) (M1 x y))
    (minx maxx : Int) {st : BinState} (y : Int) (h : OrdInv st minx y) :
    ∃ x' : Int,
      OrdInv (closeSpan (forLoop maxx q (body y) (maxx - minx).toNat minx st)) x' y := by
  have hq : (0 : Int) < q := by decide
  have key := forLoop_rec maxx q hq (body y) minx
    (fun n st => OrdInv st (minx + (n : Int) * q) y)
    (by
      intro n st _ hR
      have h1 := hR.ordEmitMasks (M0 (minx + (n : Int) * q) y) (M1 (minx + (n : Int) * q) y)
      rw [← hbody] at h1
      have hpos : minx + (n : Int) * q + 8 = minx + ((n + 1 : Nat) : Int) * q := by
        push_cast; unfold q; ring
      rw [hpos] at h1
      exact h1)
    (maxx - minx).toNat 0 st
    (by
      have hz : minx + ((0 : Nat) : Int) * q = minx := by simp
      show OrdInv st (minx + ((0 : Nat) : Int) * q) y
      rw [hz]
      exact h)
    (le_of_eq (by simp))
  obtain ⟨m, _, _, _, hR⟩ := key
  have hz : minx + ((0 : Nat) : Int) * q = minx := by simp
  rw [hz] at hR
  exact ⟨_, hR.ordCloseSpan⟩

theorem blockLoops_ord {M0 M1 : Int → Int → Nat} {body : Int → Int → BinState → BinState}
    (hbody : ∀ x y st, body y x st = emitMasks st x y (M0 x y) (M1 x y))
    (minx maxx miny maxy : Int) {num_cores : Int} (hn : 0 < num_cores)
    {st : BinState} (h : OrdInv st minx miny) (hl : (st.FullSpans st.span).Length = 0) :
    ∃ x' y' : Int, OrdInv (blockLoops body minx maxx miny maxy num_cores st) x' y' := by
  have hq : (0 : Int) < q * num_cores := by unfold q; omega
  have key := forLoop_rec maxy (q * num_cores) hq
    (fun y st => closeSpan (forLoop maxx q (body y) (maxx - minx).toNat minx st)) miny
    (fun n st => OrdInv st minx (miny + (n : Int) * (q * num_cores)) ∧
      (st.FullSpans st.span).Length = 0)
    (by
      intro n st _ hR
      obtain ⟨x', hx'⟩ := rowLoop_ord hbody minx maxx (miny + (n : Int) * (q * num_cores)) hR.1
      refine ⟨hx'.ordMove (closeSpan_length _) _ _ (Or.inl ?_), closeSpan_length _⟩
      push_cast
      have : (n : Int) * (q * num_cores) + q * num_cores = ((n : Int) + 1) * (q * num_cores) := by
        ring
      omega)
    (maxy - miny).toNat 0 st
    (by
      have hz : miny + ((0 : Nat) : Int) * (q * num_cores) = miny := by simp
      show OrdInv st minx (miny + ((0 : Nat) : Int) * (q * num_cores)) ∧
        (st.FullSpans st.span).Length = 0
      rw [hz]
      exact ⟨h, hl⟩)
    (le_of_eq (by simp))
  obtain ⟨m, _, _, _, hR⟩ := key
  have hz : miny + ((0 : Nat) : Int) * (q * num_cores) = miny := by simp
  rw [hz] at hR
  exact ⟨_, _, hR.1⟩

/-- The order of the entries of an output, read off the order invariant. -/
theorem ordered_of_ord (out : WorkerThreadData) (x y : Int) (h : OrdInv (outState out) x y) :
    (∀ i j, i < j → j < out.NumPartialBlocks →
        precedes (out.PartialBlocks i).X (out.PartialBlocks i).Y
          (out.PartialBlocks j).X (out.PartialBlocks j).Y) ∧
      (∀ i j, i < j → j < out.NumFullSpans →
        precedes ((out.FullSpans i).X + 8 * (((out.FullSpans i).Length : Int) - 1))
          (out.FullSpans i).Y (out.FullSpans j).X (out.FullSpans j).Y) :=
  ⟨fun i j hij hj => h.blockOrd i j hij hj,
    fun i j hij hj => h.spanOrd i j hij (le_of_lt hj) (h.done j hj)⟩

theorem SetupNormal_ord (args : TriDrawTriangleArgs) (thread : WorkerThreadData)
    (hn : 0 < thread.num_cores)
    (h : ¬ (minx args ≥ maxx args ∨ miny args ≥ maxy args)) :
    ∃ x y : Int, OrdInv (outState (SetupNormal args thread)) x y := by
  have key := blockLoops_ord (fun x y st => normalBlock_eq args x y st)
    (snap (minx args)) (maxx args) (startY args thread) (maxy args) hn
    (OrdInv.ordInit thread.FullSpans thread.PartialBlocks _ _) (by simp)
  rw [← SetupNormal_run args thread h] at key
  exact key

theorem SetupSubsector_ord (args : TriDrawTriangleArgs) (thread : WorkerThreadData)
    (hn : 0 < thread.num_cores)
    (h : ¬ (minx args ≥ maxx args ∨ miny args ≥ maxy args)) :
    ∃ x y : Int, OrdInv (outState (SetupSubsector args thread)) x y := by
  have key := blockLoops_ord (fun x y st => subsectorBlock_eq args x y st)
    (snap (minx args)) (maxx args) (startY args thread) (maxy args) hn
    (OrdInv.ordInit thread.FullSpans thread.PartialBlocks _ _) (by simp)
  rw [← SetupSubsector_run args thread h] at key
  exact key

theorem emissionOrder_of_counts_zero (args : TriDrawTriangleArgs) (thread t : WorkerThreadData)
    (h0 : t.NumFullSpans = 0) (h1 : t.NumPartialBlocks = 0) : EmissionOrder args thread t := by
  refine ⟨?_, ?_, ?_, ?_⟩
  · intro i j _ hj
    rw [h1] at hj
    exact absurd hj (Nat.not_lt_zero _)
  · intro i j _ hj
    rw [h0] at hj
    exact absurd hj (Nat.not_lt_zero _)
  · intro i j _ hj
    rw [h0] at hj
    exact absurd hj (Nat.not_lt_zero _)
  · intro i hi
    rw [h0] at hi
    exact absurd hi (Nat.not_lt_zero _)

theorem emissionOrder_of_inv (args : TriDrawTriangleArgs) (thread out : WorkerThreadData)
    (M0 M1 : Int → Int → Nat)
    (hinv : BinInv M0 M1 (visits args thread) (outState out) 0 0)
    (x y : Int) (hord : OrdInv (outState out) x y) : EmissionOrder args thread out := by
  obtain ⟨hb, hs⟩ := ordered_of_ord out x y hord
  refine ⟨hb, ?_, ?_, ?_⟩
  · intro i j hij hj
    have hi : i < out.NumFullSpans := by omega
    have hd : (out.FullSpans i).Length ≠ 0 := hinv.done i hi
    have h := hs i j hij hj
    unfold precedes at h ⊢
    have : (1 : Int) ≤ ((out.FullSpans i).Length : Int) := by omega
    omega
  · intro i j hij hj hY
    have h := hs i j hij hj
    unfold precedes at h
    omega
  · intro i hi k hk
    have h := hinv.spans i (le_of_lt hi) k hk
    exact h.1

/-! ## Scenarios -/

/-- The covered pixels of a single worker, with the bounding rectangle given
by its four numbers. -/
theorem covers_single_worker (args : TriDrawTriangleArgs) (thread : WorkerThreadData)
    (hcore : thread.core = 0) (hnum : thread.num_cores = 1) (x0 x1 y0 y1 : Int)
    (hx0 : minx args = x0) (hx1 : maxx args = x1) (hy0 : miny args = y0) (hy1 : maxy args = y1)
    (px py : Int) :
    Covers (SetupNormal args thread) px py ↔
      (x0 < x1 ∧ y0 < y1 ∧ 8 * (x0 / 8) ≤ px ∧ 8 * (px / 8) < x1 ∧ 8 * (y0 / 8) ≤ py ∧
        8 * (py / 8) < y1 ∧ normalPass args px py) := by
  rw [SetupNormal_covers_iff args thread (by omega) (by omega) (by omega) px py,
    snap_eq _ (minx_nonneg _), snap_eq _ (miny_nonneg _), hx0, hx1, hy0, hy1, hnum, hcore]
  constructor
  · rintro ⟨a1, a2, a3, a4, a5, a6, _, a8⟩
    exact ⟨a1, a2, a3, a4, a5, a6, a8⟩
  · rintro ⟨a1, a2, a3, a4, a5, a6, a8⟩
    exact ⟨a1, a2, a3, a4, a5, a6, by omega, a8⟩

/-- The three corrected half-space functions of the triangle (0,0), (0,1),
(1,0) in pixels. -/
theorem edges_topLeft (args : TriDrawTriangleArgs) (px py : Int) :
    edge1 (withVertices args 0 0 0 16 16 0) px py = 1 + 256 * px ∧
      edge2 (withVertices args 0 0 0 16 16 0) px py = 256 - 256 * py - 256 * px ∧
      edge3 (withVertices args 0 0 0 16 16 0) px py = 1 + 256 * py := by
  refine ⟨?_, ?_, ?_⟩
  · simp [edge1, C1, DX12, DY12, edgeConstant, withVertices]
    ring
  · simp [edge2, C2, DX23, DY23, edgeConstant, withVertices]
    ring
  · simp [edge3, C3, DX31, DY31, edgeConstant, withVertices]
    ring

theorem bounds_topLeft (args : TriDrawTriangleArgs) (hcr : 8 ≤ args.clipright)
    (hcb : 8 ≤ args.clipbottom) :
    minx (withVertices args 0 0 0 16 16 0) = 0 ∧ maxx (withVertices args 0 0 0 16 16 0) = 1 ∧
      miny (withVertices args 0 0 0 16 16 0) = 0 ∧ maxy (withVertices args 0 0 0 16 16 0) = 1 := by
  refine ⟨?_, ?_, ?_, ?_⟩
  · simp [minx, withVertices, shiftRight_four]
  · simp [maxx, withVertices, shiftRight_four]
    omega
  · simp [miny, withVertices, shiftRight_four]
  · simp [maxy, withVertices, shiftRight_four]
    omega

/-- The sample stencil buffer passes the stencil test at every pixel. -/
theorem sample_stencil_passes (px py : Int) :
    stencilAt sampleArgs.stencilMasks sampleArgs.stencilValues sampleArgs.stencilPitch px py =
      sampleArgs.stencilTestValue := by
  unfold stencilAt
  show (if ((0xffffff00 : Nat) &&& 0xffffff00) = 0xffffff00 then (0xffffff00 : Nat) &&& 0xff
    else _) = 0
  rw [if_pos (by decide)]
  decide


/-- The three corrected half-space functions of the triangle (0,0), (16,16),
(16,0) in pixels. -/
theorem edges_quadUpper (args : TriDrawTriangleArgs) (px py : Int) :
    edge1 (withVertices args 0 0 256 256 256 0) px py = 1 + 4096 * px - 4096 * py ∧
      edge2 (withVertices args 0 0 256 256 256 0) px py = 65536 - 4096 * px ∧
      edge3 (withVertices args 0 0 256 256 256 0) px py = 1 + 4096 * py := by
  refine ⟨?_, ?_, ?_⟩
  · simp [edge1, C1, DX12, DY12, edgeConstant, withVertices]
    ring
  · simp [edge2, C2, DX23, DY23, edgeConstant, withVertices]
    ring
  · simp [edge3, C3, DX31, DY31, edgeConstant, withVertices]
    ring

/-- The three corrected half-space functions of the triangle (0,0), (0,16),
(16,16) in pixels. -/
theorem edges_quadLower (args : TriDrawTriangleArgs) (px py : Int) :
    edge1 (withVertices args 0 0 0 256 256 256) px py = 1 + 4096 * px ∧
      edge2 (withVertices args 0 0 0 256 256 256) px py = 65536 - 4096 * py ∧
      edge3 (withVertices args 0 0 0 256 256 256) px py = 4096 * py - 4096 * px := by
  refine ⟨?_, ?_, ?_⟩
  · simp [edge1, C1, DX12, DY12, edgeConstant, withVertices]
    ring
  · simp [edge2, C2, DX23, DY23, edgeConstant, withVertices]
    ring
  · simp [edge3, C3, DX31, DY31, edgeConstant, withVertices]
    ring

theorem bounds_quadUpper (args : TriDrawTriangleArgs) (hcr : 17 ≤ args.clipright)
    (hcb : 17 ≤ args.clipbottom) :
    minx (withVertices args 0 0 256 256 256 0) = 0 ∧
      maxx (withVertices args 0 0 256 256 256 0) = 16 ∧
      miny (withVertices args 0 0 256 256 256 0) = 0 ∧
      maxy (withVertices args 0 0 256 256 256 0) = 16 := by
  refine ⟨?_, ?_, ?_, ?_⟩
  · simp [minx, withVertices, shiftRight_four]
  · simp [maxx, withVertices, shiftRight_four]
    omega
  · simp [miny, withVertices, shiftRight_four]
  · simp [maxy, withVertices, shiftRight_four]
    omega

theorem bounds_quadLower (args : TriDrawTriangleArgs) (hcr : 17 ≤ args.clipright)
    (hcb : 17 ≤ args.clipbottom) :
    minx (withVertices args 0 0 0 256 256 256) = 0 ∧
      maxx (withVertices args 0 0 0 256 256 256) = 16 ∧
      miny (withVertices args 0 0 0 256 256 256) = 0 ∧
      maxy (withVertices args 0 0 0 256 256 256) = 16 := by
  refine ⟨?_, ?_, ?_, ?_⟩
  · simp [minx, withVertices, shiftRight_four]
  · simp [maxx, withVertices, shiftRight_four]
    omega
  · simp [miny, withVertices, shiftRight_four]
  · simp [maxy, withVertices, shiftRight_four]
    omega

/-- The pixels of `[0,16) x [0,16)` that each of the two triangles of the quad
covers: the upper one those with `py ≤ px`, the lower one those with
`px < py`. -/
theorem quad_covers (args : TriDrawTriangleArgs) (thread : WorkerThreadData)
    (hcore : thread.core = 0) (hnum : thread.num_cores = 1)
    (hcr : 17 ≤ args.clipright) (hcb : 17 ≤ args.clipbottom)
    (hpass : ∀ px py : Int,
      stencilAt args.stencilMasks args.stencilValues args.stencilPitch px py =
        args.stencilTestValue)
    (px py : Int) (hx0 : 0 ≤ px) (hx1 : px < 16) (hy0 : 0 ≤ py) (hy1 : py < 16) :
    (Covers (SetupNormal (withVertices args 0 0 256 256 256 0) thread) px py ↔ py ≤ px) ∧
      (Covers (SetupNormal (withVertices args 0 0 0 256 256 256) thread) px py ↔ px < py) := by
  obtain ⟨a1, a2, a3, a4⟩ := bounds_quadUpper args hcr hcb
  obtain ⟨b1, b2, b3, b4⟩ := bounds_quadLower args hcr hcb
  obtain ⟨e1, e2, e3⟩ := edges_quadUpper args px py
  obtain ⟨f1, f2, f3⟩ := edges_quadLower args px py
  have hcl : px < args.clipright ∧ py < args.clipbottom := by omega
  constructor
  · rw [covers_single_worker _ thread hcore hnum 0 16 0 16 a1 a2 a3 a4]
    unfold normalPass insideTriangle
    rw [e1, e2, e3]
    constructor
    · rintro ⟨_, _, _, _, _, _, ⟨h1, _, _⟩, _⟩
      omega
    · intro h
      exact ⟨by decide, by decide, by omega, by omega, by omega, by omega,
        ⟨by omega, by omega, by omega⟩, hcl.1, hcl.2, hpass px py⟩
  · rw [covers_single_worker _ thread hcore hnum 0 16 0 16 b1 b2 b3 b4]
    unfold normalPass insideTriangle
    rw [f1, f2, f3]
    constructor
    · rintro ⟨_, _, _, _, _, _, ⟨_, _, h3⟩, _⟩
      omega
    · intro h
      exact ⟨by decide, by decide, by omega, by omega, by omega, by omega,
        ⟨by omega, by omega, by omega⟩, hcl.1, hcl.2, hpass px py⟩

theorem wide_stencil_passes (px py : Int) :
    stencilAt wideArgs.stencilMasks wideArgs.stencilValues wideArgs.stencilPitch px py =
      wideArgs.stencilTestValue := by
  unfold stencilAt
  show (if ((0xffffff00 : Nat) &&& 0xffffff00) = 0xffffff00 then (0xffffff00 : Nat) &&& 0xff
    else _) = 0
  rw [if_pos (by decide)]
  decide

/-! ## A covered point lies in the bounding rectangle -/

/-- The value of a half-space function before the fill-convention correction
is not negative where the corrected function is positive, and the correction
was applied where the uncorrected value is 0. -/
theorem edgeConstant_pos (DX DY X Y t : Int) (h : edgeConstant DX DY X Y + t > 0) :
    0 ≤ DY * X - DX * Y + t ∧
      (DY * X - DX * Y + t = 0 → DY < 0 ∨ (DY = 0 ∧ DX > 0)) := by
  unfold edgeConstant at h
  simp only at h
  split at h
  · rename_i hc
    exact ⟨by omega, fun _ => hc⟩
  · exact ⟨by omega, fun h0 => absurd h0 (by omega)⟩

/-- A convex combination with integer weights: if the weights `a, b, c` are not
negative and add up to `S > 0`, then `S * v = a * v1 + b * v2 + c * v3` puts
`v` between the least and the greatest of `v1, v2, v3`. -/
theorem between_of_weights (S a b c v v1 v2 v3 : Int) (hS : 0 < S) (ha : 0 ≤ a) (hb : 0 ≤ b)
    (hc : 0 ≤ c) (hsum : a + b + c = S) (hv : S * v = a * v1 + b * v2 + c * v3) :
    min (min v1 v2) v3 ≤ v ∧ v ≤ max (max v1 v2) v3 := by
  have hm1 : min (min v1 v2) v3 ≤ v1 := le_trans (min_le_left _ _) (min_le_left _ _)
  have hm2 : min (min v1 v2) v3 ≤ v2 := le_trans (min_le_left _ _) (min_le_right _ _)
  have hm3 : min (min v1 v2) v3 ≤ v3 := min_le_right _ _
  have hM1 : v1 ≤ max (max v1 v2) v3 := le_trans (le_max_left _ _) (le_max_left _ _)
  have hM2 : v2 ≤ max (max v1 v2) v3 := le_trans (le_max_right _ _) (le_max_left _ _)
  have hM3 : v3 ≤ max (max v1 v2) v3 := le_max_right _ _
  generalize min (min v1 v2) v3 = m at hm1 hm2 hm3 ⊢
  generalize max (max v1 v2) v3 = M at hM1 hM2 hM3 ⊢
  constructor
  · have h1 : 0 ≤ S * (v - m) := by
      have e : S * (v - m) = a * (v1 - m) + b * (v2 - m) + c * (v3 - m) := by
        rw [mul_sub, hv, ← hsum]
        ring
      rw [e]
      have := mul_nonneg ha (sub_nonneg.mpr hm1)
      have := mul_nonneg hb (sub_nonneg.mpr hm2)
      have := mul_nonneg hc (sub_nonneg.mpr hm3)
      omega
    have := nonneg_of_mul_nonneg_right h1 hS
    omega
  · have h1 : 0 ≤ S * (M - v) := by
      have e : S * (M - v) = a * (M - v1) + b * (M - v2) + c * (M - v3) := by
        rw [mul_sub, hv, ← hsum]
        ring
      rw [e]
      have := mul_nonneg ha (sub_nonneg.mpr hM1)
      have := mul_nonneg hb (sub_nonneg.mpr hM2)
      have := mul_nonneg hc (sub_nonneg.mpr hM3)
      omega
    have := nonneg_of_mul_nonneg_right h1 hS
    omega

/-- A pixel at which all three corrected half-space functions are strictly
positive lies in the bounding rectangle of the three vertices. -/
theorem inside_bounds (args : TriDrawTriangleArgs) (px py : Int)
    (h : insideTriangle args px py) :
    (min (min args.X1 args.X2) args.X3 ≤ px * 16 ∧ px * 16 ≤ max (max args.X1 args.X2) args.X3) ∧
      (min (min args.Y1 args.Y2) args.Y3 ≤ py * 16 ∧
        py * 16 ≤ max (max args.Y1 args.Y2) args.Y3) := by
  obtain ⟨h1, h2, h3⟩ := h
  unfold edge1 C1 at h1
  unfold edge2 C2 at h2
  unfold edge3 C3 at h3
  unfold DX12 DY12 at h1
  unfold DX23 DY23 at h2
  unfold DX31 DY31 at h3
  have k1 := edgeConstant_pos (args.X1 - args.X2) (args.Y1 - args.Y2) args.X1 args.Y1
    ((args.X1 - args.X2) * (py * 16) - (args.Y1 - args.Y2) * (px * 16)) (by linarith)
  have k2 := edgeConstant_pos (args.X2 - args.X3) (args.Y2 - args.Y3) args.X2 args.Y2
    ((args.X2 - args.X3) * (py * 16) - (args.Y2 - args.Y3) * (px * 16)) (by linarith)
  have k3 := edgeConstant_pos (args.X3 - args.X1) (args.Y3 - args.Y1) args.X3 args.Y3
    ((args.X3 - args.X1) * (py * 16) - (args.Y3 - args.Y1) * (px * 16)) (by linarith)
  obtain ⟨n1, z1⟩ := k1
  obtain ⟨n2, z2⟩ := k2
  obtain ⟨n3, z3⟩ := k3
  generalize hF1 : (args.Y1 - args.Y2) * args.X1 - (args.X1 - args.X2) * args.Y1 +
    ((args.X1 - args.X2) * (py * 16) - (args.Y1 - args.Y2) * (px * 16)) = F1 at n1 z1
  generalize hF2 : (args.Y2 - args.Y3) * args.X2 - (args.X2 - args.X3) * args.Y2 +
    ((args.X2 - args.X3) * (py * 16) - (args.Y2 - args.Y3) * (px * 16)) = F2 at n2 z2
  generalize hF3 : (args.Y3 - args.Y1) * args.X3 - (args.X3 - args.X1) * args.Y3 +
    ((args.X3 - args.X1) * (py * 16) - (args.Y3 - args.Y1) * (px * 16)) = F3 at n3 z3
  have hS : 0 < F2 + F3 + F1 := by
    by_contra hle
    have e1 : F1 = 0 := by omega
    have e2 : F2 = 0 := by omega
    have e3 : F3 = 0 := by omega
    have c1 := z1 e1
    have c2 := z2 e2
    have c3 := z3 e3
    omega
  have hx : (F2 + F3 + F1) * (px * 16) = F2 * args.X1 + F3 * args.X2 + F1 * args.X3 := by
    rw [← hF1, ← hF2, ← hF3]
    ring
  have hy : (F2 + F3 + F1) * (py * 16) = F2 * args.Y1 + F3 * args.Y2 + F1 * args.Y3 := by
    rw [← hF1, ← hF2, ← hF3]
    ring
  exact ⟨between_of_weights _ F2 F3 F1 _ _ _ _ hS n2 n3 n1 rfl hx,
    between_of_weights _ F2 F3 F1 _ _ _ _ hS n2 n3 n1 rfl hy⟩


/-! ## The entries for one tile of the walk -/

/-- A tile that the worker walks and whose masks, as handed to the emission
step, have the bit of some pixel set without being all ones: the output has
exactly one partial block at the tile, with these masks, and no full span
contains the tile. -/
theorem partial_tile_entry (args : TriDrawTriangleArgs) (thread out : WorkerThreadData)
    (M0 M1 : Int → Int → Nat)
    (hinv : BinInv M0 M1 (visits args thread) (outState out) 0 0)
    (hlen : (out.FullSpans out.NumFullSpans).Length = 0)
    (x y : Int) (hord : OrdInv (outState out) x y)
    (tx ty : Int) (hv : visits args thread tx ty) (px py : Int)
    (hpix : inBlock ⟨tx, ty, M0 tx ty, M1 tx ty⟩ px py)
    (hno : ¬ (M0 tx ty = 0xffffffff ∧ M1 tx ty = 0xffffffff)) :
    (∃ i, i < out.NumPartialBlocks ∧
        (out.PartialBlocks i).X = tx ∧ (out.PartialBlocks i).Y = ty ∧
        (out.PartialBlocks i).Mask0 = M0 tx ty ∧ (out.PartialBlocks i).Mask1 = M1 tx ty ∧
        ∀ j, j < out.NumPartialBlocks → (out.PartialBlocks j).X = tx →
          (out.PartialBlocks j).Y = ty → j = i) ∧
      (∀ i, i < out.NumFullSpans →
        ¬ ((out.FullSpans i).Y = ty ∧ (out.FullSpans i).X ≤ tx ∧
          tx < (out.FullSpans i).X + 8 * ((out.FullSpans i).Length : Int))) := by
  obtain ⟨dtx, dty⟩ := visits_dvd args thread tx ty hv
  obtain ⟨hes, heb⟩ := hinv.entries
  have hspan : ∀ i, i < out.NumFullSpans →
      ¬ ((out.FullSpans i).Y = ty ∧ (out.FullSpans i).X ≤ tx ∧
        tx < (out.FullSpans i).X + 8 * ((out.FullSpans i).Length : Int)) := by
    rintro i hi ⟨hY, hX0, hX1⟩
    have hvi : visits args thread (out.FullSpans i).X (out.FullSpans i).Y := hes i hi
    obtain ⟨dX, _⟩ := visits_dvd args thread _ _ hvi
    have hk : ((tx - (out.FullSpans i).X) / 8).toNat < (out.FullSpans i).Length := by omega
    have hs : visits args thread
        ((out.FullSpans i).X + 8 * ((((tx - (out.FullSpans i).X) / 8).toNat : Nat) : Int))
        (out.FullSpans i).Y ∧
        M0 ((out.FullSpans i).X + 8 * ((((tx - (out.FullSpans i).X) / 8).toNat : Nat) : Int))
          (out.FullSpans i).Y = 0xffffffff ∧
        M1 ((out.FullSpans i).X + 8 * ((((tx - (out.FullSpans i).X) / 8).toNat : Nat) : Int))
          (out.FullSpans i).Y = 0xffffffff := hinv.spans i (le_of_lt hi) _ hk
    have e : (out.FullSpans i).X + 8 * ((((tx - (out.FullSpans i).X) / 8).toNat : Nat) : Int) =
        tx := by omega
    rw [e, hY] at hs
    exact hno hs.2
  refine ⟨?_, hspan⟩
  have hcov : covSt (outState out) px py := (hinv.cov px py).2 ⟨tx, ty, hv, hpix⟩
  obtain ⟨p1, p2, p3, p4, _⟩ := hpix
  simp only at p1 p2 p3 p4
  rcases hcov with ⟨i, hi, hin⟩ | ⟨i, hi, hin⟩
  · exfalso
    have hi' : i ≤ out.NumFullSpans := hi
    have hin' : inSpan (out.FullSpans i) px py := hin
    by_cases hii : i = out.NumFullSpans
    · rw [hii] at hin'
      exact inSpan_length_zero _ hlen px py hin'
    · have hlt : i < out.NumFullSpans := by omega
      have hvi : visits args thread (out.FullSpans i).X (out.FullSpans i).Y := hes i hlt
      obtain ⟨dX, dY⟩ := visits_dvd args thread _ _ hvi
      obtain ⟨s1, s2, s3, s4⟩ := hin'
      exact hspan i hlt ⟨by omega, by omega, by omega⟩
  · have hi' : i < out.NumPartialBlocks := hi
    have hin' : inBlock (out.PartialBlocks i) px py := hin
    have hvi : visits args thread (out.PartialBlocks i).X (out.PartialBlocks i).Y := heb i hi
    obtain ⟨dX, dY⟩ := visits_dvd args thread _ _ hvi
    obtain ⟨s1, s2, s3, s4, _⟩ := hin'
    have eX : (out.PartialBlocks i).X = tx := by omega
    have eY : (out.PartialBlocks i).Y = ty := by omega
    have hb : (out.PartialBlocks i).Mask0 = M0 (out.PartialBlocks i).X (out.PartialBlocks i).Y ∧
        (out.PartialBlocks i).Mask1 = M1 (out.PartialBlocks i).X (out.PartialBlocks i).Y :=
      ⟨(hinv.blocks i hi).2.1, (hinv.blocks i hi).2.2.1⟩
    rw [eX, eY] at hb
    refine ⟨i, hi', eX, eY, hb.1, hb.2, ?_⟩
    intro j hj jX jY
    by_contra hne
    rcases Nat.lt_or_gt_of_ne hne with hlt | hgt
    · have := hord.blockOrd j i hlt hi
      unfold precedes at this
      have a1 : (out.PartialBlocks j).X = tx := jX
      have a2 : (out.PartialBlocks j).Y = ty := jY
      have a3 : ((outState out).PartialBlocks j).X = tx := a1
      have a4 : ((outState out).PartialBlocks j).Y = ty := a2
      have a5 : ((outState out).PartialBlocks i).X = tx := eX
      have a6 : ((outState out).PartialBlocks i).Y = ty := eY
      omega
    · have := hord.blockOrd i j hgt hj
      unfold precedes at this
      have a3 : ((outState out).PartialBlocks j).X = tx := jX
      have a4 : ((outState out).PartialBlocks j).Y = ty := jY
      have a5 : ((outState out).PartialBlocks i).X = tx := eX
      have a6 : ((outState out).PartialBlocks i).Y = ty := eY
      omega


/-! ## Scenario: a heterogeneous stencil tile under a covering triangle -/

/-- A single worker walks the tile at (0,0) when the pixels (0,0) and (7,7)
are inside the triangle and the clip rectangle holds the tile. -/
theorem origin_tile_walked (args : TriDrawTriangleArgs) (thread : WorkerThreadData)
    (hcore : thread.core = 0) (hnum : thread.num_cores = 1)
    (hcr : 8 ≤ args.clipright) (hcb : 8 ≤ args.clipbottom)
    (h00 : insideTriangle args 0 0) (h77 : insideTriangle args 7 7) :
    ¬ (minx args ≥ maxx args ∨ miny args ≥ maxy args) ∧ visits args thread 0 0 := by
  obtain ⟨⟨ax0, _⟩, ⟨ay0, _⟩⟩ := inside_bounds args 0 0 h00
  obtain ⟨⟨_, ax7⟩, ⟨_, ay7⟩⟩ := inside_bounds args 7 7 h77
  have hminx : minx args = 0 := by
    unfold minx
    rw [shiftRight_four]
    omega
  have hminy : miny args = 0 := by
    unfold miny
    rw [shiftRight_four]
    omega
  have hmaxx : 7 ≤ maxx args := by
    unfold maxx
    rw [shiftRight_four]
    omega
  have hmaxy : 7 ≤ maxy args := by
    unfold maxy
    rw [shiftRight_four]
    omega
  have hs : snap 0 = 0 := by
    rw [snap_eq 0 (le_refl 0)]
    decide
  refine ⟨by omega, 0, 0, ?_, by omega, ?_, by omega⟩
  · rw [hminx, hs]
    decide
  · unfold startY
    rw [hminy, hs, hcore, hnum]
    decide

/-- The bits of the masks `0xF0F0F0F0, 0xF0F0F0F0`: the four columns on the
left of every row. -/
theorem leftHalf_bit (ix iy : Nat) (hx : ix < 8) (hy : iy < 8) :
    maskBit 0xF0F0F0F0 0xF0F0F0F0 ix iy = decide (ix < 4) := by
  have h : ∀ a : Fin 8, ∀ b : Fin 8,
      maskBit 0xF0F0F0F0 0xF0F0F0F0 a.val b.val = decide (a.val < 4) := by decide
  exact h ⟨ix, hx⟩ ⟨iy, hy⟩

/-- The masks handed to the emission step for the tile at (0,0) when the
triangle covers all of its pixels, the clip rectangle holds it, and its
stencil tile is heterogeneous with the tested value in the columns 0..3 and
another value in the columns 4..7. -/
theorem normalTileMasks_leftHalf (args : TriDrawTriangleArgs)
    (hcr : 8 ≤ args.clipright) (hcb : 8 ≤ args.clipbottom)
    (hin : ∀ px py : Int, 0 ≤ px → px < 8 → 0 ≤ py → py < 8 → insideTriangle args px py)
    (hhet : (args.stencilMasks 0 &&& 0xffffff00) ≠ 0xffffff00)
    (hbytes : ∀ px py : Int, 0 ≤ px → px < 8 → 0 ≤ py → py < 8 →
      (args.stencilValues (px + py * 8) = args.stencilTestValue ↔ px < 4)) :
    normalTileMasks args 0 0 = (0xF0F0F0F0, 0xF0F0F0F0) := by
  have hiff : ∀ px py : Int,
      inBlock ⟨0, 0, (normalTileMasks args 0 0).1, (normalTileMasks args 0 0).2⟩ px py ↔
        inBlock ⟨0, 0, 0xF0F0F0F0, 0xF0F0F0F0⟩ px py := by
    intro px py
    rw [normal_tile_iff args 0 0 px py (dvd_zero 8) (dvd_zero 8)]
    unfold inBlock
    simp only
    constructor
    · rintro ⟨h1, h2, h3, h4, _, _, _, hst⟩
      refine ⟨h1, h2, h3, h4, ?_⟩
      rw [leftHalf_bit _ _ (by omega) (by omega)]
      apply decide_eq_true
      unfold stencilAt at hst
      simp only at hst
      have hb : px / 8 + py / 8 * args.stencilPitch = 0 := by
        have e1 : px / 8 = 0 := by omega
        have e2 : py / 8 = 0 := by omega
        rw [e1, e2]
        simp
      rw [hb, if_neg hhet] at hst
      have hk : (0 : Int) * 64 + (px % 8 + py % 8 * 8) = px + py * 8 := by omega
      rw [hk] at hst
      have := (hbytes px py (by omega) (by omega) (by omega) (by omega)).1 hst
      omega
    · rintro ⟨h1, h2, h3, h4, hbit⟩
      rw [leftHalf_bit _ _ (by omega) (by omega)] at hbit
      have hlt : (px - 0).toNat < 4 := of_decide_eq_true hbit
      refine ⟨h1, h2, h3, h4, hin px py (by omega) (by omega) (by omega) (by omega),
        by omega, by omega, ?_⟩
      unfold stencilAt
      simp only
      have hb : px / 8 + py / 8 * args.stencilPitch = 0 := by
        have e1 : px / 8 = 0 := by omega
        have e2 : py / 8 = 0 := by omega
        rw [e1, e2]
        simp
      rw [hb, if_neg hhet]
      have hk : (0 : Int) * 64 + (px % 8 + py % 8 * 8) = px + py * 8 := by omega
      rw [hk]
      exact (hbytes px py (by omega) (by omega) (by omega) (by omega)).2 (by omega)
  obtain ⟨l1, l2⟩ := normalTileMasks_lt args 0 0
  obtain ⟨e1, e2⟩ := masks_eq_of_inBlock 0 0 _ _ 0xF0F0F0F0 0xF0F0F0F0 l1 l2 (by decide)
    (by decide) hiff
  exact Prod.ext e1 e2


theorem halfArgs_inside (px py : Int) (h1 : 0 ≤ px) (h2 : px < 8) (h3 : 0 ≤ py) (h4 : py < 8) :
    edge1 halfArgs px py > 0 ∧ edge2 halfArgs px py > 0 ∧ edge3 halfArgs px py > 0 := by
  have e1 : edge1 halfArgs px py = 1 + 8192 * px := by
    simp [edge1, C1, DX12, DY12, edgeConstant, halfArgs, sampleArgs]
    ring
  have e2 : edge2 halfArgs px py = 262144 - 8192 * py - 8192 * px := by
    simp [edge2, C2, DX23, DY23, edgeConstant, halfArgs, sampleArgs]
    ring
  have e3 : edge3 halfArgs px py = 1 + 8192 * py := by
    simp [edge3, C3, DX31, DY31, edgeConstant, halfArgs, sampleArgs]
    ring
  rw [e1, e2, e3]
  omega

theorem halfArgs_bytes (px py : Int) (h1 : 0 ≤ px) (h2 : px < 8) (_h3 : 0 ≤ py) (_h4 : py < 8) :
    halfArgs.stencilValues (px + py * 8) = if px < 4 then 5 else 3 := by
  show (if (px + py * 8) % 8 < 4 then 5 else 3) = if px < 4 then 5 else 3
  have h : (px + py * 8) % 8 = px := by omega
  rw [h]

/-! ## The tile index of the binners -/

/-- On the block coordinates that the binners walk, multiples of 8, the tile
index computed with the flooring division is the one that the truncating
division of C yields. -/
theorem stencilBlockIndex_exact (args : TriDrawTriangleArgs) (x y : Int) (hx : 8 ∣ x)
    (hy : 8 ∣ y) :
    Int.tdiv x 8 + Int.tdiv y 8 * args.stencilPitch = stencilBlockIndex args x y := by
  unfold stencilBlockIndex
  rw [Int.tdiv_eq_ediv_of_dvd hx, Int.tdiv_eq_ediv_of_dvd hy]

/-! ## Trivial reject and winding -/

/-- No pixel of a tile is inside the triangle when the corner mask of one of
the three edges is 0. -/
theorem not_inside_of_corner (args : TriDrawTriangleArgs) (x y : Int)
    (h : cornerMask (C1 args) (DX12 args) (DY12 args) x y = 0 ∨
      cornerMask (C2 args) (DX23 args) (DY23 args) x y = 0 ∨
      cornerMask (C3 args) (DX31 args) (DY31 args) x y = 0)
    (ix iy : Int) (hx0 : 0 ≤ ix) (hx7 : ix ≤ 7) (hy0 : 0 ≤ iy) (hy7 : iy ≤ 7) :
    ¬ insideTriangle args (x + ix) (y + iy) := by
  rintro ⟨h1, h2, h3⟩
  rcases h with h | h | h
  · obtain ⟨a, b, c, d⟩ := (cornerMask_eq_zero _ _ _ x y).1 h
    have := affine_nonpos _ _ _ x y ix iy hx0 hx7 hy0 hy7 a b c d
    unfold edge1 at h1
    omega
  · obtain ⟨a, b, c, d⟩ := (cornerMask_eq_zero _ _ _ x y).1 h
    have := affine_nonpos _ _ _ x y ix iy hx0 hx7 hy0 hy7 a b c d
    unfold edge2 at h2
    omega
  · obtain ⟨a, b, c, d⟩ := (cornerMask_eq_zero _ _ _ x y).1 h
    have := affine_nonpos _ _ _ x y ix iy hx0 hx7 hy0 hy7 a b c d
    unfold edge3 at h3
    omega

/-- Where the three corrected half-space functions of a triangle are all
strictly positive, the doubled signed area of the triangle is positive. -/
theorem area_pos_of_inside (X1 Y1 X2 Y2 X3 Y3 PX PY : Int)
    (h1 : edgeValue X1 Y1 X2 Y2 PX PY > 0) (h2 : edgeValue X2 Y2 X3 Y3 PX PY > 0)
    (h3 : edgeValue X3 Y3 X1 Y1 PX PY > 0) :
    0 < (Y1 - Y2) * X1 - (X1 - X2) * Y1 + ((Y2 - Y3) * X2 - (X2 - X3) * Y2) +
      ((Y3 - Y1) * X3 - (X3 - X1) * Y3) := by
  unfold edgeValue at h1 h2 h3
  obtain ⟨n1, z1⟩ := edgeConstant_pos (X1 - X2) (Y1 - Y2) X1 Y1
    ((X1 - X2) * PY - (Y1 - Y2) * PX) (by linarith)
  obtain ⟨n2, z2⟩ := edgeConstant_pos (X2 - X3) (Y2 - Y3) X2 Y2
    ((X2 - X3) * PY - (Y2 - Y3) * PX) (by linarith)
  obtain ⟨n3, z3⟩ := edgeConstant_pos (X3 - X1) (Y3 - Y1) X3 Y3
    ((X3 - X1) * PY - (Y3 - Y1) * PX) (by linarith)
  have hsum : ((Y1 - Y2) * X1 - (X1 - X2) * Y1 + ((X1 - X2) * PY - (Y1 - Y2) * PX)) +
      ((Y2 - Y3) * X2 - (X2 - X3) * Y2 + ((X2 - X3) * PY - (Y2 - Y3) * PX)) +
      ((Y3 - Y1) * X3 - (X3 - X1) * Y3 + ((X3 - X1) * PY - (Y3 - Y1) * PX)) =
      (Y1 - Y2) * X1 - (X1 - X2) * Y1 + ((Y2 - Y3) * X2 - (X2 - X3) * Y2) +
        ((Y3 - Y1) * X3 - (X3 - X1) * Y3) := by ring
  rw [← hsum]
  generalize (Y1 - Y2) * X1 - (X1 - X2) * Y1 + ((X1 - X2) * PY - (Y1 - Y2) * PX) = F1
    at n1 z1
  generalize (Y2 - Y3) * X2 - (X2 - X3) * Y2 + ((X2 - X3) * PY - (Y2 - Y3) * PX) = F2
    at n2 z2
  generalize (Y3 - Y1) * X3 - (X3 - X1) * Y3 + ((X3 - X1) * PY - (Y3 - Y1) * PX) = F3
    at n3 z3
  by_contra hle
  have e1 : F1 = 0 := by omega
  have e2 : F2 = 0 := by omega
  have e3 : F3 = 0 := by omega
  have c1 := z1 e1
  have c2 := z2 e2
  have c3 := z3 e3
  omega

theorem not_inside_of_area (args : TriDrawTriangleArgs) (hS : doubledArea args ≤ 0)
    (px py : Int) : ¬ insideTriangle args px py := by
  rintro ⟨h1, h2, h3⟩
  have h := area_pos_of_inside args.X1 args.Y1 args.X2 args.Y2 args.X3 args.Y3 (px * 16) (py * 16)
    h1 h2 h3
  unfold doubledArea DX12 DY12 DX23 DY23 DX31 DY31 at hS
  omega

/-- The masks of every block are `(0, 0)` when no pixel is inside the
triangle. -/
theorem normalTileMasks_of_outside (args : TriDrawTriangleArgs)
    (h : ∀ px py : Int, ¬ insideTriangle args px py) (x y : Int) :
    normalTileMasks args x y = (0, 0) := by
  unfold normalTileMasks
  simp only
  split
  · rfl
  · split
    · rename_i hfull
      exfalso
      obtain ⟨a, _, _, _⟩ := (cornerMask_eq_full _ _ _ x y).1 hfull.1
      obtain ⟨b, _, _, _⟩ := (cornerMask_eq_full _ _ _ x y).1 hfull.2.1
      obtain ⟨c, _, _, _⟩ := (cornerMask_eq_full _ _ _ x y).1 hfull.2.2.1
      exact h x y ⟨a, b, c⟩
    · rw [normalMasks_eq, ← packTile_false]
      apply packTile_congr
      intro ix iy _ _
      unfold normalCovered
      have hno := h (x + ix) (y + iy)
      unfold insideTriangle at hno
      by_cases h1 : edge1 args (x + ix) (y + iy) > 0
      · by_cases h2 : edge2 args (x + ix) (y + iy) > 0
        · have h3 : ¬ edge3 args (x + ix) (y + iy) > 0 := fun h3 => hno ⟨h1, h2, h3⟩
          simp [h3]
        · simp [h2]
      · simp [h1]

theorem subsectorTileMasks_of_outside (args : TriDrawTriangleArgs)
    (h : ∀ px py : Int, ¬ insideTriangle args px py) (x y : Int) :
    subsectorTileMasks args x y = (0, 0) := by
  unfold subsectorTileMasks
  simp only
  split
  · rfl
  · split
    · rename_i hfull
      exfalso
      obtain ⟨a, _, _, _⟩ := (cornerMask_eq_full _ _ _ x y).1 hfull.1
      obtain ⟨b, _, _, _⟩ := (cornerMask_eq_full _ _ _ x y).1 hfull.2.1
      obtain ⟨c, _, _, _⟩ := (cornerMask_eq_full _ _ _ x y).1 hfull.2.2.1
      exact h x y ⟨a, b, c⟩
    · rw [subsectorMasks_eq, ← packTile_false]
      apply packTile_congr
      intro ix iy _ _
      unfold subsectorCovered
      have hno := h (x + ix) (y + iy)
      unfold insideTriangle at hno
      by_cases h1 : edge1 args (x + ix) (y + iy) > 0
      · by_cases h2 : edge2 args (x + ix) (y + iy) > 0
        · have h3 : ¬ edge3 args (x + ix) (y + iy) > 0 := fun h3 => hno ⟨h1, h2, h3⟩
          simp [h3]
        · simp [h2]
      · simp [h1]

/-- Both binners emit nothing when no pixel is inside the triangle. -/
theorem counts_of_outside (args : TriDrawTriangleArgs) (thread : WorkerThreadData)
    (h : ∀ px py : Int, ¬ insideTriangle args px py) :
    ((SetupNormal args thread).NumFullSpans = 0 ∧ (SetupNormal args thread).NumPartialBlocks = 0) ∧
      ((SetupSubsector args thread).NumFullSpans = 0 ∧
        (SetupSubsector args thread).NumPartialBlocks = 0) := by
  have hN : ∀ x y st, normalBlock args y x st = closeSpan st := by
    intro x y st
    rw [normalBlock_eq, normalTileMasks_of_outside args h x y]
    exact (closeSpan_eq_emitMasks st x y).symm
  have hSb : ∀ x y st, subsectorBlock args y x st = closeSpan st := by
    intro x y st
    rw [subsectorBlock_eq, subsectorTileMasks_of_outside args h x y]
    exact (closeSpan_eq_emitMasks st x y).symm
  by_cases he : minx args ≥ maxx args ∨ miny args ≥ maxy args
  · rw [SetupNormal_early args thread he, SetupSubsector_early args thread he]
    exact ⟨⟨rfl, rfl⟩, ⟨rfl, rfl⟩⟩
  · have hN' := SetupNormal_run args thread he
    have hS' := SetupSubsector_run args thread he
    rw [blockLoops_reject _ hN _ _ _ _ _ _ (by simp)] at hN'
    rw [blockLoops_reject _ hSb _ _ _ _ _ _ (by simp)] at hS'
    have hN1 : (outState (SetupNormal args thread)).span = 0 := by rw [hN']
    have hN2 : (outState (SetupNormal args thread)).block = 0 := by rw [hN']
    have hS1 : (outState (SetupSubsector args thread)).span = 0 := by rw [hS']
    have hS2 : (outState (SetupSubsector args thread)).block = 0 := by rw [hS']
    exact ⟨⟨hN1, hN2⟩, ⟨hS1, hS2⟩⟩

/-! ## The gaps between the spans -/

theorem precedes_trans {X Y x y x' y' : Int} (h : precedes X Y x y) (h' : precedes x y x' y') :
    precedes X Y x' y' := by
  unfold precedes at h h' ⊢
  omega

theorem GapInv.gapInit (FullSpans : Nat → TriFullSpan) (PartialBlocks : Nat → TriPartialBlock)
    (x y : Int) :
    GapInv
      { FullSpans := Function.update FullSpans 0 { FullSpans 0 with Length := 0 }
        span := 0
        PartialBlocks := PartialBlocks
        block := 0 } x y := by
  refine ⟨?_, ?_⟩
  · intro i hi
    exact absurd hi (Nat.not_lt_zero _)
  · intro i j hij hj
    have : j = 0 := by simpa using hj
    omega

theorem GapInv.gapMove {st : BinState} {x y : Int} (g : GapInv st x y) (x' y' : Int)
    (hle : y < y' ∨ (y = y' ∧ x ≤ x')) : GapInv st x' y' :=
  ⟨fun i hi => precedes_mono (g.gapPos i hi) hle, g.gapOrd⟩

theorem GapInv.gapNextSpan {st : BinState} {x y : Int} (h : OrdInv st x y) (g : GapInv st x y)
    (hl : (st.FullSpans st.span).Length ≠ 0) (x' y' : Int) (hlt : precedes x y x' y') :
    GapInv (nextSpan st) x' y' := by
  have hspan : (ScreenTriangle.nextSpan st).span = st.span + 1 := rfl
  refine ⟨?_, ?_⟩
  · intro i hi
    rw [hspan] at hi
    rw [nextSpan_FullSpans_of_ne st i (by omega)]
    by_cases hlt' : i < st.span
    · exact precedes_trans (g.gapPos i hlt') hlt
    · have hi' : i = st.span := by omega
      rw [hi']
      obtain ⟨hY, hX⟩ := h.adj hl
      rw [hY, hX]
      exact hlt
  · intro i j hij hj hne
    rw [hspan] at hj
    by_cases hjj : j = st.span + 1
    · subst hjj
      exact absurd (nextSpan_FullSpans_length st) hne
    · rw [nextSpan_FullSpans_of_ne st j hjj] at hne ⊢
      rw [nextSpan_FullSpans_of_ne st i (by omega)]
      exact g.gapOrd i j hij (by omega) hne

theorem GapInv.gapCloseSpan {st : BinState} {x y : Int} (h : OrdInv st x y) (g : GapInv st x y)
    (x' y' : Int) (hlt : precedes x y x' y') : GapInv (closeSpan st) x' y' := by
  unfold ScreenTriangle.closeSpan
  split
  · rename_i hl
    exact GapInv.gapNextSpan h g hl x' y' hlt
  · refine g.gapMove x' y' ?_
    unfold precedes at hlt
    omega

theorem GapInv.gapInsertBlock {st : BinState} {x y : Int} (g : GapInv st x y)
    (b : TriPartialBlock) :
    GapInv
      { st with
        PartialBlocks := Function.update st.PartialBlocks st.block b
        block := st.block + 1 } x y :=
  ⟨g.gapPos, g.gapOrd⟩

theorem GapInv.gapGrowSpan {st : BinState} {x y : Int} (g : GapInv st x y) :
    GapInv (growSpan st x y) (x + 8) y := by
  have hle : y < y ∨ (y = y ∧ x ≤ x + 8) := Or.inr ⟨rfl, by omega⟩
  unfold ScreenTriangle.growSpan
  split
  · rename_i hl
    refine ⟨?_, ?_⟩
    · intro i hi
      simp only at hi ⊢
      rw [Function.update_noteq (show i ≠ st.span by omega)]
      exact precedes_mono (g.gapPos i hi) hle
    · intro i j hij hj hne
      simp only at hj hne ⊢
      rw [Function.update_noteq (show i ≠ st.span by omega)]
      by_cases hjj : j = st.span
      · subst hjj
        rw [Function.update_same]
        exact g.gapOrd i _ hij (le_refl _) hl
      · rw [Function.update_noteq hjj] at hne ⊢
        exact g.gapOrd i j hij hj hne
  · refine ⟨?_, ?_⟩
    · intro i hi
      simp only at hi ⊢
      rw [Function.update_noteq (show i ≠ st.span by omega)]
      exact precedes_mono (g.gapPos i hi) hle
    · intro i j hij hj hne
      simp only at hj hne ⊢
      rw [Function.update_noteq (show i ≠ st.span by omega)]
      by_cases hjj : j = st.span
      · subst hjj
        rw [Function.update_same]
        exact g.gapPos i hij
      · rw [Function.update_noteq hjj] at hne ⊢
        exact g.gapOrd i j hij hj hne

theorem GapInv.gapEmitMasks {st : BinState} {x y : Int} (h : OrdInv st x y) (g : GapInv st x y)
    (m0 m1 : Nat) : GapInv (emitMasks st x y m0 m1) (x + 8) y := by
  unfold ScreenTriangle.emitMasks
  split
  · have hc : GapInv (ScreenTriangle.closeSpan st) (x + 8) y :=
      GapInv.gapCloseSpan h g (x + 8) y (Or.inr ⟨rfl, by omega⟩)
    have hce : (if (st.FullSpans st.span).Length > 0 then ScreenTriangle.nextSpan st else st)
        = ScreenTriangle.closeSpan st := by
      unfold ScreenTriangle.closeSpan
      simp [Nat.pos_iff_ne_zero]
    simp only [hce]
    split
    · exact hc
    · exact hc.gapInsertBlock _
  · exact g.gapGrowSpan

theorem rowLoop_gap {M0 M1 : Int → Int → Nat} {body : Int → Int → BinState → BinState}
    (hbody : ∀ x y st, body y x st = emitMasks st x y (M0 x y) (M1 x y))
    (minx maxx : Int) {st : BinState} (y : Int) (h : OrdInv st minx y) (g : GapInv st minx y) :
    ∃ x' : Int,
      OrdInv (forLoop maxx q (body y) (maxx - minx).toNat minx st) x' y ∧
        GapInv (forLoop maxx q (body y) (maxx - minx).toNat minx st) x' y := by
  have hq : (0 : Int) < q := by decide
  have key := forLoop_rec maxx q hq (body y) minx
    (fun n st => OrdInv st (minx + (n : Int) * q) y ∧ GapInv st (minx + (n : Int) * q) y)
    (by
      intro n st _ hR
      have h1 := hR.1.ordEmitMasks (M0 (minx + (n : Int) * q) y) (M1 (minx + (n : Int) * q) y)
      have h2 := GapInv.gapEmitMasks hR.1 hR.2 (M0 (minx + (n : Int) * q) y)
        (M1 (minx + (n : Int) * q) y)
      rw [← hbody] at h1 h2
      have hpos : minx + (n : Int) * q + 8 = minx + ((n + 1 : Nat) : Int) * q := by
        push_cast; unfold q; ring
      rw [hpos] at h1 h2
      exact ⟨h1, h2⟩)
    (maxx - minx).toNat 0 st
    (by
      have hz : minx + ((0 : Nat) : Int) * q = minx := by simp
      show OrdInv st (minx + ((0 : Nat) : Int) * q) y ∧
        GapInv st (minx + ((0 : Nat) : Int) * q) y
      rw [hz]
      exact ⟨h, g⟩)
    (le_of_eq (by simp))
  obtain ⟨m, _, _, _, hR⟩ := key
  have hz : minx + ((0 : Nat) : Int) * q = minx := by simp
  rw [hz] at hR
  exact ⟨_, hR⟩

theorem blockLoops_gap {M0 M1 : Int → Int → Nat} {body : Int → Int → BinState → BinState}
    (hbody : ∀ x y st, body y x st = emitMasks st x y (M0 x y) (M1 x y))
    (minx maxx miny maxy : Int) {num_cores : Int} (hn : 0 < num_cores)
    {st : BinState} (h : OrdInv st minx miny) (g : GapInv st minx miny)
    (hl : (st.FullSpans st.span).Length = 0) :
    ∃ x' y' : Int, GapInv (blockLoops body minx maxx miny maxy num_cores st) x' y' := by
  have hq : (0 : Int) < q * num_cores := by unfold q; omega
  have key := forLoop_rec maxy (q * num_cores) hq
    (fun y st => closeSpan (forLoop maxx q (body y) (maxx - minx).toNat minx st)) miny
    (fun n st => OrdInv st minx (miny + (n : Int) * (q * num_cores)) ∧
      GapInv st minx (miny + (n : Int) * (q * num_cores)) ∧
      (st.FullSpans st.span).Length = 0)
    (by
      intro n st _ hR
      obtain ⟨x', hx', gx'⟩ :=
        rowLoop_gap hbody minx maxx (miny + (n : Int) * (q * num_cores)) hR.1 hR.2.1
      have hstep : miny + (n : Int) * (q * num_cores) <
          miny + ((n + 1 : Nat) : Int) * (q * num_cores) := by
        push_cast
        have : (n : Int) * (q * num_cores) + q * num_cores =
            ((n : Int) + 1) * (q * num_cores) := by ring
        omega
      exact ⟨hx'.ordCloseSpan.ordMove (closeSpan_length _) _ _ (Or.inl hstep),
        GapInv.gapCloseSpan hx' gx' _ _ (Or.inl hstep), closeSpan_length _⟩)
    (maxy - miny).toNat 0 st
    (by
      have hz : miny + ((0 : Nat) : Int) * (q * num_cores) = miny := by simp
      show OrdInv st minx (miny + ((0 : Nat) : Int) * (q * num_cores)) ∧
        GapInv st minx (miny + ((0 : Nat) : Int) * (q * num_cores)) ∧
        (st.FullSpans st.span).Length = 0
      rw [hz]
      exact ⟨h, g, hl⟩)
    (le_of_eq (by simp))
  obtain ⟨m, _, _, _, hR⟩ := key
  have hz : miny + ((0 : Nat) : Int) * (q * num_cores) = miny := by simp
  rw [hz] at hR
  exact ⟨_, _, hR.2.1⟩

theorem SetupNormal_gap (args : TriDrawTriangleArgs) (thread : WorkerThreadData)
    (hn : 0 < thread.num_cores)
    (h : ¬ (minx args ≥ maxx args ∨ miny args ≥ maxy args)) :
    ∃ x y : Int, GapInv (outState (SetupNormal args thread)) x y := by
  have key := blockLoops_gap (fun x y st => normalBlock_eq args x y st)
    (snap (minx args)) (maxx args) (startY args thread) (maxy args) hn
    (OrdInv.ordInit thread.FullSpans thread.PartialBlocks _ _)
    (GapInv.gapInit thread.FullSpans thread.PartialBlocks _ _) (by simp)
  rw [← SetupNormal_run args thread h] at key
  exact key

theorem SetupSubsector_gap (args : TriDrawTriangleArgs) (thread : WorkerThreadData)
    (hn : 0 < thread.num_cores)
    (h : ¬ (minx args ≥ maxx args ∨ miny args ≥ maxy args)) :
    ∃ x y : Int, GapInv (outState (SetupSubsector args thread)) x y := by
  have key := blockLoops_gap (fun x y st => subsectorBlock_eq args x y st)
    (snap (minx args)) (maxx args) (startY args thread) (maxy args) hn
    (OrdInv.ordInit thread.FullSpans thread.PartialBlocks _ _)
    (GapInv.gapInit thread.FullSpans thread.PartialBlocks _ _) (by simp)
  rw [← SetupSubsector_run args thread h] at key
  exact key

/-- The tiles of an output are pairwise distinct, read off the invariants of
the emission step. -/
theorem tileDisjoint_of_inv (args : TriDrawTriangleArgs) (thread out : WorkerThreadData)
    (M0 M1 : Int → Int → Nat)
    (hinv : BinInv M0 M1 (visits args thread) (outState out) 0 0)
    (x y : Int) (hord : OrdInv (outState out) x y)
    (x' y' : Int) (hgap : GapInv (outState out) x' y') : TileDisjoint out := by
  have hb : ∀ i j, i < j → j < out.NumPartialBlocks →
      precedes (out.PartialBlocks i).X (out.PartialBlocks i).Y
        (out.PartialBlocks j).X (out.PartialBlocks j).Y :=
    fun i j hij hj => hord.blockOrd i j hij hj
  have hs : ∀ i j, i < j → j < out.NumFullSpans →
      precedes ((out.FullSpans i).X + 8 * ((out.FullSpans i).Length : Int)) (out.FullSpans i).Y
        (out.FullSpans j).X (out.FullSpans j).Y :=
    fun i j hij hj => hgap.gapOrd i j hij (le_of_lt hj) (hord.done j hj)
  refine ⟨?_, ?_, ?_, ?_⟩
  · rintro i j hi hj hne k n hk hn ⟨eX, eY⟩
    rcases Nat.lt_or_gt_of_ne hne with hlt | hgt
    · have := hs i j hlt hj
      unfold precedes at this
      omega
    · have := hs j i hgt hi
      unfold precedes at this
      omega
  · rintro i j hi hj hne ⟨eX, eY⟩
    rcases Nat.lt_or_gt_of_ne hne with hlt | hgt
    · have := hb i j hlt hj
      unfold precedes at this
      omega
    · have := hb j i hgt hi
      unfold precedes at this
      omega
  · rintro i j hi hj k hk ⟨eX, eY⟩
    have hsj : visits args thread ((out.FullSpans j).X + 8 * (k : Int)) (out.FullSpans j).Y ∧
        M0 ((out.FullSpans j).X + 8 * (k : Int)) (out.FullSpans j).Y = 0xffffffff ∧
        M1 ((out.FullSpans j).X + 8 * (k : Int)) (out.FullSpans j).Y = 0xffffffff :=
      hinv.spans j (le_of_lt hj) k hk
    have hbm : (out.PartialBlocks i).Mask0 = M0 (out.PartialBlocks i).X (out.PartialBlocks i).Y ∧
        (out.PartialBlocks i).Mask1 = M1 (out.PartialBlocks i).X (out.PartialBlocks i).Y ∧
        ¬ ((out.PartialBlocks i).Mask0 = 0 ∧ (out.PartialBlocks i).Mask1 = 0) ∧
        ¬ ((out.PartialBlocks i).Mask0 = 0xffffffff ∧ (out.PartialBlocks i).Mask1 = 0xffffffff) :=
      (hinv.blocks i hi).2
    rw [eX, eY] at hbm
    exact hbm.2.2.2 ⟨by rw [hbm.1]; exact hsj.2.1, by rw [hbm.2.1]; exact hsj.2.2⟩
  · rintro i j hi hj k hk ⟨eX, eY⟩
    rcases Nat.lt_trichotomy i j with hlt | heq | hgt
    · have := hs i j hlt hj
      unfold precedes at this
      omega
    · subst heq
      omega
    · have := hs j i hgt hi
      unfold precedes at this
      omega

theorem tileDisjoint_of_counts_zero (t : WorkerThreadData) (h0 : t.NumFullSpans = 0)
    (h1 : t.NumPartialBlocks = 0) : TileDisjoint t := by
  refine ⟨?_, ?_, ?_, ?_⟩
  · intro i j hi
    rw [h0] at hi
    exact absurd hi (Nat.not_lt_zero _)
  · intro i j hi
    rw [h1] at hi
    exact absurd hi (Nat.not_lt_zero _)
  · intro i j hi
    rw [h1] at hi
    exact absurd hi (Nat.not_lt_zero _)
  · intro i j hi
    rw [h0] at hi
    exact absurd hi (Nat.not_lt_zero _)

/-! ## The binners read their buffers inside the bounds -/

/-- Two loop bodies that agree below the bound give the same loop. -/
theorem forLoop_congr_lt {σ : Type} (bound stride : Int) (body1 body2 : Int → σ → σ)
    (A : Int → Prop) (hA : ∀ v, A v → A (v + stride))
    (h : ∀ v st, A v → v < bound → body1 v st = body2 v st) :
    ∀ (fuel : Nat) (v : Int) (st : σ), A v →
      forLoop bound stride body1 fuel v st = forLoop bound stride body2 fuel v st := by
  intro fuel
  induction fuel with
  | zero => intro v st _; rfl
  | succ fuel ih =>
    intro v st hv
    show (if v < bound then _ else _) = (if v < bound then _ else _)
    split
    · rename_i hlt
      rw [h v st hv hlt]
      exact ih _ _ (hA v hv)
    · rfl

theorem blockLoops_congr_lt (body1 body2 : Int → Int → BinState → BinState)
    (minx maxx miny maxy num_cores : Int)
    (h : ∀ x y st, 8 ∣ x → 8 ∣ y → 0 ≤ x → x < maxx → 0 ≤ y → y < maxy →
      body1 y x st = body2 y x st)
    (hx : 8 ∣ minx) (hy : 8 ∣ miny) (hx0 : 0 ≤ minx) (hy0 : 0 ≤ miny) (hn : 0 ≤ num_cores)
    (st : BinState) :
    blockLoops body1 minx maxx miny maxy num_cores st =
      blockLoops body2 minx maxx miny maxy num_cores st := by
  unfold blockLoops
  apply forLoop_congr_lt maxy (q * num_cores) _ _ (fun v => 8 ∣ v ∧ 0 ≤ v)
  · intro v hv
    have hs : 0 ≤ q * num_cores := mul_nonneg (by decide) hn
    exact ⟨dvd_add hv.1 (Dvd.intro num_cores rfl), by omega⟩
  · intro y st' hy' hylt
    have hin : forLoop maxx q (body1 y) (maxx - minx).toNat minx st' =
        forLoop maxx q (body2 y) (maxx - minx).toNat minx st' := by
      apply forLoop_congr_lt maxx q _ _ (fun v => 8 ∣ v ∧ 0 ≤ v)
      · intro v hv
        have hq : q = 8 := rfl
        exact ⟨dvd_add hv.1 (dvd_refl _), by omega⟩
      · intro x st'' hx' hxlt
        exact h x y st'' hx'.1 hy'.1 hx'.2 hxlt hy'.2 hylt
      · exact ⟨hx, hx0⟩
    simp only [hin]
  · exact ⟨hy, hy0⟩

theorem visits_lt_maxy (args : TriDrawTriangleArgs) (thread : WorkerThreadData) (tx ty : Int)
    (h : visits args thread tx ty) : ty < args.clipbottom - 1 := by
  obtain ⟨i, j, _, _, _, hy⟩ := h
  have : maxy args ≤ args.clipbottom - 1 := by
    unfold maxy
    exact min_le_right _ _
  omega

/-- The stencil tile index of a tile inside the clip rectangle is a valid
index of a stencil buffer whose rows hold the clip rectangle. -/
theorem stencilBlockIndex_bounds (args : TriDrawTriangleArgs) (rows x y : Int)
    (hp : (args.clipright + 7) / 8 ≤ args.stencilPitch) (hr : (args.clipbottom + 7) / 8 ≤ rows)
    (hx0 : 0 ≤ x) (hx1 : x < args.clipright) (hy0 : 0 ≤ y) (hy1 : y < args.clipbottom) :
    0 ≤ stencilBlockIndex args x y ∧ stencilBlockIndex args x y < args.stencilPitch * rows := by
  unfold stencilBlockIndex
  have ha0 : 0 ≤ x / 8 := by omega
  have ha1 : x / 8 < args.stencilPitch := by omega
  have hb0 : 0 ≤ y / 8 := by omega
  have hb1 : y / 8 ≤ rows - 1 := by omega
  generalize x / 8 = a at ha0 ha1
  generalize y / 8 = b at hb0 hb1
  have h1 : 0 ≤ b * args.stencilPitch := mul_nonneg hb0 (by omega)
  have h2 : b * args.stencilPitch ≤ (rows - 1) * args.stencilPitch :=
    mul_le_mul_of_nonneg_right hb1 (by omega)
  have h3 : (rows - 1) * args.stencilPitch = args.stencilPitch * rows - args.stencilPitch := by
    ring
  constructor
  · omega
  · omega

theorem stencilAt_of_agree (masks1 values1 masks2 values2 : Int → Nat) (n : Int)
    (h : AgreeOnTiles masks1 values1 masks2 values2 n) (stencilPitch px py : Int)
    (hb0 : 0 ≤ px / 8 + py / 8 * stencilPitch) (hb1 : px / 8 + py / 8 * stencilPitch < n) :
    stencilAt masks2 values2 stencilPitch px py = stencilAt masks1 values1 stencilPitch px py := by
  unfold stencilAt
  simp only
  have hk0 : 0 ≤ px % 8 + py % 8 * 8 := by omega
  have hk1 : px % 8 + py % 8 * 8 < 64 := by omega
  generalize px % 8 + py % 8 * 8 = k at hk0 hk1
  generalize px / 8 + py / 8 * stencilPitch = b at hb0 hb1
  obtain ⟨hm, hv⟩ := h b hb0 hb1
  rw [hm, hv k hk0 hk1]

/-- Inside a tile whose stencil index is below `n`, the stencil value of a
pixel is the same for two stencil buffers that agree on the first `n`
tiles. -/
theorem stencilAt_tile_of_agree (args : TriDrawTriangleArgs) (masks2 values2 : Int → Nat)
    (n : Int) (h : AgreeOnTiles args.stencilMasks args.stencilValues masks2 values2 n)
    (x y px py : Int) (hx : 8 ∣ x) (hy : 8 ∣ y)
    (hb0 : 0 ≤ stencilBlockIndex args x y) (hb1 : stencilBlockIndex args x y < n)
    (hx0 : x ≤ px) (hx8 : px < x + 8) (hy0 : y ≤ py) (hy8 : py < y + 8) :
    stencilAt masks2 values2 args.stencilPitch px py =
      stencilAt args.stencilMasks args.stencilValues args.stencilPitch px py := by
  unfold stencilBlockIndex at hb0 hb1
  have e1 : px / 8 = x / 8 := by omega
  have e2 : py / 8 = y / 8 := by omega
  apply stencilAt_of_agree _ _ _ _ n h
  · rw [e1, e2]; exact hb0
  · rw [e1, e2]; exact hb1

theorem normalBlock_of_agree (args : TriDrawTriangleArgs) (masks2 values2 g2 : Int → Nat)
    (n : Int) (h : AgreeOnTiles args.stencilMasks args.stencilValues masks2 values2 n)
    (x y : Int) (st : BinState) (hx : 8 ∣ x) (hy : 8 ∣ y)
    (hb0 : 0 ≤ stencilBlockIndex args x y) (hb1 : stencilBlockIndex args x y < n) :
    normalBlock (withBuffers args masks2 values2 g2) y x st = normalBlock args y x st := by
  rw [normalBlock_eq, normalBlock_eq]
  have hm := masks_eq_of_inBlock x y _ _ _ _
    (normalTileMasks_lt (withBuffers args masks2 values2 g2) x y).1
    (normalTileMasks_lt (withBuffers args masks2 values2 g2) x y).2
    (normalTileMasks_lt args x y).1 (normalTileMasks_lt args x y).2
    (by
      intro px py
      rw [normal_tile_iff args x y px py hx hy, normal_tile_iff _ x y px py hx hy]
      have key : ∀ (hx0 : x ≤ px) (hx8 : px < x + 8) (hy0 : y ≤ py) (hy8 : py < y + 8),
          (normalPass (withBuffers args masks2 values2 g2) px py ↔ normalPass args px py) := by
        intro hx0 hx8 hy0 hy8
        have hs := stencilAt_tile_of_agree args masks2 values2 n h x y px py hx hy hb0 hb1
          hx0 hx8 hy0 hy8
        show (insideTriangle args px py ∧ px < args.clipright ∧ py < args.clipbottom ∧
            stencilAt masks2 values2 args.stencilPitch px py = args.stencilTestValue) ↔
          (insideTriangle args px py ∧ px < args.clipright ∧ py < args.clipbottom ∧
            stencilAt args.stencilMasks args.stencilValues args.stencilPitch px py =
              args.stencilTestValue)
        rw [hs]
      constructor
      · rintro ⟨h1, h2, h3, h4, hp⟩
        exact ⟨h1, h2, h3, h4, (key h1 h2 h3 h4).1 hp⟩
      · rintro ⟨h1, h2, h3, h4, hp⟩
        exact ⟨h1, h2, h3, h4, (key h1 h2 h3 h4).2 hp⟩)
  rw [hm.1, hm.2]

theorem subsectorBlock_of_agree (args : TriDrawTriangleArgs) (masks2 values2 g2 : Int → Nat)
    (n : Int) (h : AgreeOnTiles args.stencilMasks args.stencilValues masks2 values2 n)
    (hg : AgreeInClip args.subsectorGBuffer g2 args.pitch args.clipright args.clipbottom)
    (x y : Int) (st : BinState) (hx : 8 ∣ x) (hy : 8 ∣ y) (hx0 : 0 ≤ x) (hy0 : 0 ≤ y)
    (hb0 : 0 ≤ stencilBlockIndex args x y) (hb1 : stencilBlockIndex args x y < n) :
    subsectorBlock (withBuffers args masks2 values2 g2) y x st = subsectorBlock args y x st := by
  rw [subsectorBlock_eq, subsectorBlock_eq]
  have hm := masks_eq_of_inBlock x y _ _ _ _
    (subsectorTileMasks_lt (withBuffers args masks2 values2 g2) x y).1
    (subsectorTileMasks_lt (withBuffers args masks2 values2 g2) x y).2
    (subsectorTileMasks_lt args x y).1 (subsectorTileMasks_lt args x y).2
    (by
      intro px py
      rw [subsector_tile_iff args x y px py hx hy, subsector_tile_iff _ x y px py hx hy]
      have key : ∀ (h1 : x ≤ px) (h2 : px < x + 8) (h3 : y ≤ py) (h4 : py < y + 8),
          (subsectorPass (withBuffers args masks2 values2 g2) px py ↔
            subsectorPass args px py) := by
        intro h1 h2 h3 h4
        have hs := stencilAt_tile_of_agree args masks2 values2 n h x y px py hx hy hb0 hb1
          h1 h2 h3 h4
        show (insideTriangle args px py ∧ px < args.clipright ∧ py < args.clipbottom ∧
            stencilAt masks2 values2 args.stencilPitch px py ≥ args.stencilTestValue ∧
            g2 (px + py * args.pitch) ≥ args.subsectorDepth) ↔
          (insideTriangle args px py ∧ px < args.clipright ∧ py < args.clipbottom ∧
            stencilAt args.stencilMasks args.stencilValues args.stencilPitch px py ≥
              args.stencilTestValue ∧
            args.subsectorGBuffer (px + py * args.pitch) ≥ args.subsectorDepth)
        rw [hs]
        constructor
        · rintro ⟨hi, hcx, hcy, hst, hd⟩
          rw [hg px py (by omega) hcx (by omega) hcy] at hd
          exact ⟨hi, hcx, hcy, hst, hd⟩
        · rintro ⟨hi, hcx, hcy, hst, hd⟩
          rw [← hg px py (by omega) hcx (by omega) hcy] at hd
          exact ⟨hi, hcx, hcy, hst, hd⟩
      constructor
      · rintro ⟨h1, h2, h3, h4, hp⟩
        exact ⟨h1, h2, h3, h4, (key h1 h2 h3 h4).1 hp⟩
      · rintro ⟨h1, h2, h3, h4, hp⟩
        exact ⟨h1, h2, h3, h4, (key h1 h2 h3 h4).2 hp⟩)
  rw [hm.1, hm.2]

theorem startY_nonneg (args : TriDrawTriangleArgs) (thread : WorkerThreadData)
    (hn : 0 < thread.num_cores) : 0 ≤ snap (minx args) ∧ 0 ≤ startY args thread := by
  have h1 := snap_eq (minx args) (minx_nonneg args)
  have h2 := snap_eq (miny args) (miny_nonneg args)
  have h3 := minx_nonneg args
  have h4 := miny_nonneg args
  have h5 := core_skip_nonneg (snap (miny args)) thread.core thread.num_cores hn
  constructor
  · rw [h1]; omega
  · unfold startY q
    generalize core_skip (snap (miny args)) thread.core thread.num_cores = s at h5 ⊢
    rw [h2]
    omega

/-- The output of `SetupNormal` depends on the stencil buffers only through
the tiles of a buffer that holds the clip rectangle, and not on the subsector
buffer. -/
theorem SetupNormal_of_agree (args : TriDrawTriangleArgs) (masks2 values2 g2 : Int → Nat)
    (rows : Int) (thread : WorkerThreadData) (hn : 0 < thread.num_cores)
    (hp : (args.clipright + 7) / 8 ≤ args.stencilPitch) (hr : (args.clipbottom + 7) / 8 ≤ rows)
    (h : AgreeOnTiles args.stencilMasks args.stencilValues masks2 values2
      (args.stencilPitch * rows)) :
    SetupNormal args thread = SetupNormal (withBuffers args masks2 values2 g2) thread := by
  have hmx : maxx args ≤ args.clipright - 1 := min_le_right _ _
  have hmy : maxy args ≤ args.clipbottom - 1 := min_le_right _ _
  have hloops := (blockLoops_congr_lt (normalBlock (withBuffers args masks2 values2 g2))
    (normalBlock args) (snap (minx args)) (maxx args) (startY args thread) (maxy args)
    thread.num_cores
    (fun x y st hx hy hx0 hxlt hy0 hylt =>
      normalBlock_of_agree args masks2 values2 g2 _ h x y st hx hy
        (stencilBlockIndex_bounds args rows x y hp hr hx0 (by omega) hy0 (by omega)).1
        (stencilBlockIndex_bounds args rows x y hp hr hx0 (by omega) hy0 (by omega)).2)
    (snap_dvd _ (minx_nonneg args)) (startY_dvd args thread)
    (startY_nonneg args thread hn).1 (startY_nonneg args thread hn).2 (le_of_lt hn)
    { FullSpans := Function.update thread.FullSpans 0 { thread.FullSpans 0 with Length := 0 }
      span := 0
      PartialBlocks := thread.PartialBlocks
      block := 0 }).symm
  unfold startY at hloops
  unfold SetupNormal
  simp only [hloops]
  rfl

/-- The output of `SetupSubsector` depends on the stencil buffers only through
the tiles of a buffer that holds the clip rectangle, and on the subsector
buffer only through the entries of the pixels of the clip rectangle. -/
theorem SetupSubsector_of_agree (args : TriDrawTriangleArgs) (masks2 values2 g2 : Int → Nat)
    (rows : Int) (thread : WorkerThreadData) (hn : 0 < thread.num_cores)
    (hp : (args.clipright + 7) / 8 ≤ args.stencilPitch) (hr : (args.clipbottom + 7) / 8 ≤ rows)
    (h : AgreeOnTiles args.stencilMasks args.stencilValues masks2 values2
      (args.stencilPitch * rows))
    (hg : AgreeInClip args.subsectorGBuffer g2 args.pitch args.clipright args.clipbottom) :
    SetupSubsector args thread = SetupSubsector (withBuffers args masks2 values2 g2) thread := by
  have hmx : maxx args ≤ args.clipright - 1 := min_le_right _ _
  have hmy : maxy args ≤ args.clipbottom - 1 := min_le_right _ _
  have hloops := (blockLoops_congr_lt (subsectorBlock (withBuffers args masks2 values2 g2))
    (subsectorBlock args) (snap (minx args)) (maxx args) (startY args thread) (maxy args)
    thread.num_cores
    (fun x y st hx hy hx0 hxlt hy0 hylt =>
      subsectorBlock_of_agree args masks2 values2 g2 _ h hg x y st hx hy hx0 hy0
        (stencilBlockIndex_bounds args rows x y hp hr hx0 (by omega) hy0 (by omega)).1
        (stencilBlockIndex_bounds args rows x y hp hr hx0 (by omega) hy0 (by omega)).2)
    (snap_dvd _ (minx_nonneg args)) (startY_dvd args thread)
    (startY_nonneg args thread hn).1 (startY_nonneg args thread hn).2 (le_of_lt hn)
    { FullSpans := Function.update thread.FullSpans 0 { thread.FullSpans 0 with Length := 0 }
      span := 0
      PartialBlocks := thread.PartialBlocks
      block := 0 }).symm
  unfold startY at hloops
  unfold SetupSubsector
  simp only [hloops]
  rfl

/-- An entry that `SetupSubsector` reads in the block at `(x, y)` is the entry
of a pixel to the left of `clipright` and above `clipbottom`. -/
theorem subsectorReads_clip (args : TriDrawTriangleArgs) (x y : Int) (ix iy : Nat)
    (hix : ix < 8) (hiy : iy < 8) (h : subsectorReads args x y ix iy = true) :
    x + (ix : Int) < args.clipright ∧ y + (iy : Int) < args.clipbottom := by
  unfold subsectorReads at h
  simp only at h
  have hq : q = 8 := rfl
  split at h
  · exact absurd h (by decide)
  · split at h
    · rename_i hacc
      obtain ⟨_, _, _, hcx, hcy, _⟩ := hacc
      omega
    · unfold subsectorEntryRead at h
      simp only [Bool.and_eq_true, decide_eq_true_eq] at h
      exact ⟨h.1.1.2, h.1.2⟩

/-! ## The binners stay inside the scratch arrays -/

theorem slotsUsed_ge (st : BinState) : st.span + st.block ≤ slotsUsed st := by
  unfold slotsUsed
  omega

theorem CapInv.capMono {F0 : Nat → TriFullSpan} {P0 : Nat → TriPartialBlock} {st : BinState}
    {n m : Nat} (h : CapInv F0 P0 st n) (hnm : n ≤ m) : CapInv F0 P0 st m :=
  ⟨le_trans h.used hnm, h.spanFrame, h.blockFrame⟩

theorem CapInv.capInit (F : Nat → TriFullSpan) (P : Nat → TriPartialBlock) :
    CapInv F P
      { FullSpans := Function.update F 0 { F 0 with Length := 0 }
        span := 0
        PartialBlocks := P
        block := 0 } 0 := by
  refine ⟨?_, ?_, ?_⟩
  · show 0 + 0 + (if ((Function.update F 0 { F 0 with Length := 0 }) 0).Length ≠ 0 then 1 else 0)
      ≤ 0
    rw [Function.update_same, if_neg (by simp)]
  · intro i hi
    have hi' : 0 < i := hi
    show Function.update F 0 _ i = F i
    rw [Function.update_noteq (by omega)]
  · intro i _
    rfl

theorem CapInv.capNextSpan {F0 : Nat → TriFullSpan} {P0 : Nat → TriPartialBlock}
    {st : BinState} {n : Nat} (h : CapInv F0 P0 st n)
    (hl : (st.FullSpans st.span).Length ≠ 0) : CapInv F0 P0 (nextSpan st) n := by
  have hu := h.used
  unfold slotsUsed at hu
  rw [if_pos hl] at hu
  refine ⟨?_, ?_, ?_⟩
  · show (st.span + 1) + st.block +
      (if ((Function.update st.FullSpans (st.span + 1)
        { st.FullSpans (st.span + 1) with Length := 0 }) (st.span + 1)).Length ≠ 0
        then 1 else 0) ≤ n
    rw [Function.update_same, if_neg (by simp)]
    omega
  · intro i hi
    have hi' : st.span + 1 < i := hi
    show Function.update st.FullSpans (st.span + 1) _ i = F0 i
    rw [Function.update_noteq (by omega)]
    exact h.spanFrame i (by omega)
  · exact h.blockFrame

theorem CapInv.capCloseSpan {F0 : Nat → TriFullSpan} {P0 : Nat → TriPartialBlock}
    {st : BinState} {n : Nat} (h : CapInv F0 P0 st n) : CapInv F0 P0 (closeSpan st) n := by
  unfold closeSpan
  split
  · rename_i hl
    exact h.capNextSpan hl
  · exact h

theorem CapInv.capGrowSpan {F0 : Nat → TriFullSpan} {P0 : Nat → TriPartialBlock}
    {st : BinState} {n : Nat} (h : CapInv F0 P0 st n) (x y : Int) :
    CapInv F0 P0 (growSpan st x y) (n + 1) := by
  have hu := h.used
  have hg := slotsUsed_ge st
  unfold growSpan
  split
  · refine ⟨?_, ?_, h.blockFrame⟩
    · show st.span + st.block +
        (if ((Function.update st.FullSpans st.span
          { st.FullSpans st.span with Length := (st.FullSpans st.span).Length + 1 })
            st.span).Length ≠ 0 then 1 else 0) ≤ n + 1
      split <;> omega
    · intro i hi
      have hi' : st.span < i := hi
      show Function.update st.FullSpans st.span _ i = F0 i
      rw [Function.update_noteq (by omega)]
      exact h.spanFrame i hi'
  · refine ⟨?_, ?_, h.blockFrame⟩
    · show st.span + st.block +
        (if ((Function.update st.FullSpans st.span ⟨x, y, 1⟩) st.span).Length ≠ 0
          then 1 else 0) ≤ n + 1
      split <;> omega
    · intro i hi
      have hi' : st.span < i := hi
      show Function.update st.FullSpans st.span _ i = F0 i
      rw [Function.update_noteq (by omega)]
      exact h.spanFrame i hi'

theorem CapInv.capInsertBlock {F0 : Nat → TriFullSpan} {P0 : Nat → TriPartialBlock}
    {st : BinState} {n : Nat} (h : CapInv F0 P0 st n)
    (hl : (st.FullSpans st.span).Length = 0) (b : TriPartialBlock) :
    CapInv F0 P0
      { st with
        PartialBlocks := Function.update st.PartialBlocks st.block b
        block := st.block + 1 } (n + 1) := by
  have hu := h.used
  unfold slotsUsed at hu
  refine ⟨?_, h.spanFrame, ?_⟩
  · show st.span + (st.block + 1) + (if (st.FullSpans st.span).Length ≠ 0 then 1 else 0) ≤ n + 1
    rw [if_neg (by simpa using hl)] at hu ⊢
    omega
  · intro i hi
    have hi' : st.block + 1 ≤ i := hi
    show Function.update st.PartialBlocks st.block b i = P0 i
    rw [Function.update_noteq (by omega)]
    exact h.blockFrame i (by omega)

theorem CapInv.capEmitMasks {F0 : Nat → TriFullSpan} {P0 : Nat → TriPartialBlock}
    {st : BinState} {n : Nat} (h : CapInv F0 P0 st n) (x y : Int) (m0 m1 : Nat) :
    CapInv F0 P0 (emitMasks st x y m0 m1) (n + 1) := by
  unfold emitMasks
  split
  · have hc : CapInv F0 P0 (if (st.FullSpans st.span).Length > 0 then nextSpan st else st) n ∧
        ((if (st.FullSpans st.span).Length > 0 then nextSpan st else st).FullSpans
          (if (st.FullSpans st.span).Length > 0 then nextSpan st else st).span).Length = 0 := by
      split
      · rename_i hl
        exact ⟨h.capNextSpan (by omega), nextSpan_FullSpans_length st⟩
      · rename_i hl
        exact ⟨h, by omega⟩
    simp only
    split
    · exact hc.1.capMono (Nat.le_succ n)
    · exact hc.1.capInsertBlock hc.2 _
  · exact h.capGrowSpan x y

/-- One block row uses up at most one slot for each block of the row. -/
theorem rowLoop_cap {F0 : Nat → TriFullSpan} {P0 : Nat → TriPartialBlock}
    {M0 M1 : Int → Int → Nat} {body : Int → Int → BinState → BinState}
    (hbody : ∀ x y st, body y x st = emitMasks st x y (M0 x y) (M1 x y))
    (minx maxx : Int) {st : BinState} (y : Int) (n : Nat) (h : CapInv F0 P0 st n) :
    CapInv F0 P0 (forLoop maxx q (body y) (maxx - minx).toNat minx st)
      (n + ((maxx - minx + 7) / 8).toNat) := by
  have hq : (0 : Int) < q := by decide
  have hq8 : q = 8 := rfl
  have key := forLoop_rec maxx q hq (body y) minx
    (fun k st => CapInv F0 P0 st (n + k))
    (by
      intro k st _ hR
      have h1 := hR.capEmitMasks (minx + (k : Int) * q) y (M0 (minx + (k : Int) * q) y)
        (M1 (minx + (k : Int) * q) y)
      rw [← hbody] at h1
      exact h1)
    (maxx - minx).toNat 0 st h (le_of_eq (by simp))
  obtain ⟨m, _, _, hk, hR⟩ := key
  have hz : minx + ((0 : Nat) : Int) * q = minx := by simp
  rw [hz] at hR
  apply hR.capMono
  cases m with
  | zero => omega
  | succ m' =>
    have hlast := hk m' (Nat.zero_le _) (Nat.lt_succ_self _)
    rw [hq8] at hlast
    omega

/-- The block loops use up at most one slot for each block of the rows from
`miny` on. -/
theorem blockLoops_cap {F0 : Nat → TriFullSpan} {P0 : Nat → TriPartialBlock}
    {M0 M1 : Int → Int → Nat} {body : Int → Int → BinState → BinState}
    (hbody : ∀ x y st, body y x st = emitMasks st x y (M0 x y) (M1 x y))
    (minx maxx miny maxy : Int) {num_cores : Int} (hn : 0 < num_cores)
    {st : BinState} (h : CapInv F0 P0 st 0) :
    CapInv F0 P0 (blockLoops body minx maxx miny maxy num_cores st)
      (((maxy - miny + 7) / 8).toNat * ((maxx - minx + 7) / 8).toNat) := by
  have hq : (0 : Int) < q * num_cores := by unfold q; omega
  have hq8 : q = 8 := rfl
  have key := forLoop_rec maxy (q * num_cores) hq
    (fun y st => closeSpan (forLoop maxx q (body y) (maxx - minx).toNat minx st)) miny
    (fun j st => CapInv F0 P0 st (j * ((maxx - minx + 7) / 8).toNat))
    (by
      intro j st _ hR
      have h1 := (rowLoop_cap hbody minx maxx (miny + (j : Int) * (q * num_cores)) _
        hR).capCloseSpan
      rw [Nat.succ_mul]
      exact h1)
    (maxy - miny).toNat 0 st
    (by
      show CapInv F0 P0 st (0 * ((maxx - minx + 7) / 8).toNat)
      rw [Nat.zero_mul]
      exact h)
    (le_of_eq (by simp))
  obtain ⟨m, _, _, hk, hR⟩ := key
  have hz : miny + ((0 : Nat) : Int) * (q * num_cores) = miny := by simp
  rw [hz] at hR
  apply hR.capMono
  apply Nat.mul_le_mul_right
  cases m with
  | zero => omega
  | succ m' =>
    have hlast := hk m' (Nat.zero_le _) (Nat.lt_succ_self _)
    have hmul : (m' : Int) * 8 ≤ (m' : Int) * (q * num_cores) :=
      mul_le_mul_of_nonneg_left (by rw [hq8]; omega) (Int.natCast_nonneg _)
    generalize (m' : Int) * (q * num_cores) = w at hlast hmul
    omega

/-- The output of `SetupNormal` uses up at most one slot for each block of the
bounding box, and leaves the slots after them as they were. -/
theorem SetupNormal_cap (args : TriDrawTriangleArgs) (thread : WorkerThreadData)
    (hn : 0 < thread.num_cores)
    (h : ¬ (minx args ≥ maxx args ∨ miny args ≥ maxy args)) :
    CapInv thread.FullSpans thread.PartialBlocks (outState (SetupNormal args thread))
      (tileCount args) := by
  have key := blockLoops_cap (fun x y st => normalBlock_eq args x y st)
    (snap (minx args)) (maxx args) (startY args thread) (maxy args) hn
    (CapInv.capInit thread.FullSpans thread.PartialBlocks)
  rw [← SetupNormal_run args thread h] at key
  apply key.capMono
  unfold tileCount tileColumns tileRows
  rw [Nat.mul_comm]
  apply Nat.mul_le_mul_left
  have h5 := core_skip_nonneg (snap (miny args)) thread.core thread.num_cores hn
  unfold startY q
  generalize core_skip (snap (miny args)) thread.core thread.num_cores = s at h5 ⊢
  omega

/-! ## The two conversions to 28.4 fixed point -/

theorem binaryDigits_le : ∀ (fuel b n : Nat), n < 2 ^ b → binaryDigits fuel n ≤ b := by
  intro fuel
  induction fuel with
  | zero => intro b n _; exact Nat.zero_le _
  | succ fuel ih =>
    intro b n hn
    show (if n = 0 then 0 else binaryDigits fuel (n / 2) + 1) ≤ b
    split
    · exact Nat.zero_le _
    · rename_i h0
      cases b with
      | zero =>
        have : n < 1 := by simpa using hn
        omega
      | succ b' =>
        have h2 : n / 2 < 2 ^ b' := by
          rw [pow_succ] at hn
          omega
        have := ih b' (n / 2) h2
        omega

/-- A value with at most 24 binary digits above `2 ^ -149` is a binary32
value: rounding leaves it as it is. -/
theorem round_exact (man exp : Int) (hm : man.natAbs < 2 ^ 24) (he : -149 ≤ exp) :
    Float32.round man exp = ⟨man, exp⟩ := by
  have hd := binaryDigits_le 512 24 man.natAbs hm
  unfold Float32.round
  simp only
  rw [if_pos (by omega)]

/-- The scalar conversion of `n / 16`, for an integer `n` of at most 22 binary
digits, is `n`. -/
theorem fixedScalar_sixteenths (n : Int) (hn : n.natAbs < 2 ^ 22) :
    fixedScalar ⟨n, -4⟩ = n := by
  unfold fixedScalar Float32.mul m16
  simp only
  rw [round_exact _ _ (by omega) (by decide)]
  unfold intRound
  simp

/-- The conversion of the tie `n + 0.5` to an integer gives the even
neighbour. -/
theorem cvtps_half (n : Int) (hn : n.natAbs < 2 ^ 22) :
    cvtps_epi32 ⟨2 * n + 1, -1⟩ = if n % 2 = 0 then n else n + 1 := by
  have hd : divNearestEven (2 * n + 1) (2 ^ (-(-1 : Int)).toNat) =
      if n % 2 = 0 then n else n + 1 := by
    have e5 : ((-(-1 : Int)).toNat) = 1 := by decide
    rw [e5]
    unfold divNearestEven
    simp only
    have e6 : (2 * n + 1) / 2 ^ 1 = n := by omega
    have e7 : (2 * n + 1) % 2 ^ 1 = 1 := by omega
    rw [e6, e7, if_neg (by decide), if_neg (by decide)]
  unfold cvtps_epi32
  simp only
  rw [if_neg (by decide : ¬ ((-1 : Int) ≥ 0)), hd]
  split
  · rw [if_pos (by omega)]
  · rw [if_pos (by omega)]

/-- The packed conversion of `n / 16`, for an integer `n` of at most 22 binary
digits, is `n` when `n` is even and `n + 1` when `n` is odd: `n + 0.5` is a
tie, which goes to the even neighbour. -/
theorem fixedPacked_sixteenths (n : Int) (hn : n.natAbs < 2 ^ 22) :
    fixedPacked ⟨n, -4⟩ = if n % 2 = 0 then n else n + 1 := by
  unfold fixedPacked Float32.mul Float32.add m16 mhalf
  simp only
  rw [round_exact (n * 1) (-4 + 4) (by omega) (by decide)]
  simp only
  have e1 : min ((-4 : Int) + 4) (-1) = -1 := by decide
  rw [e1]
  have e2 : (((-4 : Int) + 4 - -1).toNat) = 1 := by decide
  have e3 : (((-1 : Int) - -1).toNat) = 0 := by decide
  rw [e2, e3]
  have e4 : n * 1 * 2 ^ 1 + 1 * 2 ^ 0 = 2 * n + 1 := by ring
  rw [e4, round_exact (2 * n + 1) (-1) (by omega) (by decide)]
  exact cvtps_half n hn

/-! ## The 32-bit binners agree with the exact ones while the edge values fit -/

theorem wrap32_of_inRange (v : Int) (h : InRange v) : wrap32 v = v := by
  unfold InRange at h
  unfold wrap32
  omega

theorem wrap32_modEq (a : Int) : wrap32 a ≡ a [ZMOD 4294967296] := by
  unfold wrap32 Int.ModEq
  omega

theorem wrap32_congr {a b : Int} (h : a ≡ b [ZMOD 4294967296]) : wrap32 a = wrap32 b := by
  unfold Int.ModEq at h
  unfold wrap32
  omega

/-- The C expression `C + DX * (y << 4) - DY * (x << 4)` on `int` is the exact
value wrapped once. -/
theorem edgeExpr32 (C DX DY x y : Int) :
    sub32 (add32 C (mul32 DX (shl32 y))) (mul32 DY (shl32 x)) =
      wrap32 (C + DX * (y * 16) - DY * (x * 16)) := by
  unfold sub32 add32 mul32 shl32
  apply wrap32_congr
  exact Int.ModEq.sub
    ((wrap32_modEq _).trans
      (Int.ModEq.add_left C ((wrap32_modEq _).trans (Int.ModEq.mul_left DX (wrap32_modEq _)))))
    ((wrap32_modEq _).trans (Int.ModEq.mul_left DY (wrap32_modEq _)))

theorem edgeStep32 (C DX DY px py : Int) :
    sub32 (wrap32 (C + DX * (py * 16) - DY * (px * 16))) (shl32 DY) =
        wrap32 (C + DX * (py * 16) - DY * ((px + 1) * 16)) ∧
      add32 (wrap32 (C + DX * (py * 16) - DY * (px * 16))) (shl32 DX) =
        wrap32 (C + DX * ((py + 1) * 16) - DY * (px * 16)) := by
  have e := edge_step C DX DY px py
  unfold sub32 add32 shl32
  constructor
  · rw [← e.1]
    apply wrap32_congr
    exact Int.ModEq.sub (wrap32_modEq _) (wrap32_modEq _)
  · rw [← e.2]
    apply wrap32_congr
    exact Int.ModEq.add (wrap32_modEq _) (wrap32_modEq _)

theorem normalPixel32_fold (args : TriDrawTriangleArgs) (x y : Int) (iy : Nat) (m : Nat)
    (n : Nat) :
    (List.range n).foldl (normalPixel32 args x y iy)
        (m, edge1_32 args x (y + iy), edge2_32 args x (y + iy), edge3_32 args x (y + iy)) =
      (pushMany m (fun ix => normalCovered32 args x y ix iy) n,
        edge1_32 args (x + n) (y + iy), edge2_32 args (x + n) (y + iy),
        edge3_32 args (x + n) (y + iy)) := by
  induction n with
  | zero => simp [pushMany]
  | succ n ih =>
    rw [List.range_succ, List.foldl_append, ih]
    simp only [List.foldl_cons, List.foldl_nil, normalPixel32, pushMany, normalCovered32]
    have e1 := (edgeStep32 (C1_32 args) (DX12_32 args) (DY12_32 args) (x + n) (y + iy)).1
    have e2 := (edgeStep32 (C2_32 args) (DX23_32 args) (DY23_32 args) (x + n) (y + iy)).1
    have e3 := (edgeStep32 (C3_32 args) (DX31_32 args) (DY31_32 args) (x + n) (y + iy)).1
    simp only [edge1_32, edge2_32, edge3_32, FDY12_32, FDY23_32, FDY31_32, Nat.cast_add,
      Nat.cast_one, ← add_assoc, e1, e2, e3]

theorem normalRow32_eq (args : TriDrawTriangleArgs) (x y : Int) (iy : Nat) (m : Nat) :
    normalRow32 args x y
        (m, edge1_32 args x (y + iy), edge2_32 args x (y + iy), edge3_32 args x (y + iy)) iy =
      (pushMany m (fun ix => normalCovered32 args x y ix iy) 8,
        edge1_32 args x (y + (iy + 1 : Nat)), edge2_32 args x (y + (iy + 1 : Nat)),
        edge3_32 args x (y + (iy + 1 : Nat))) := by
  unfold normalRow32
  rw [normalPixel32_fold]
  have e1 := (edgeStep32 (C1_32 args) (DX12_32 args) (DY12_32 args) x (y + iy)).2
  have e2 := (edgeStep32 (C2_32 args) (DX23_32 args) (DY23_32 args) x (y + iy)).2
  have e3 := (edgeStep32 (C3_32 args) (DX31_32 args) (DY31_32 args) x (y + iy)).2
  simp only [edge1_32, edge2_32, edge3_32, FDX12_32, FDX23_32, FDX31_32, Nat.cast_add,
    Nat.cast_one, ← add_assoc, e1, e2, e3]

theorem normalRow32_fold (args : TriDrawTriangleArgs) (x y : Int) (a : Nat) (m : Nat)
    (n : Nat) :
    (List.range' a n).foldl (normalRow32 args x y)
        (m, edge1_32 args x (y + a), edge2_32 args x (y + a), edge3_32 args x (y + a)) =
      (pushMany m (fun k => normalCovered32 args x y (k % 8) (a + k / 8)) (8 * n),
        edge1_32 args x (y + (a + n : Nat)), edge2_32 args x (y + (a + n : Nat)),
        edge3_32 args x (y + (a + n : Nat))) := by
  induction n with
  | zero => simp [pushMany]
  | succ n ih =>
    rw [List.range'_1_concat, List.foldl_append, ih]
    simp only [List.foldl_cons, List.foldl_nil]
    rw [normalRow32_eq]
    have h8 : 8 * (n + 1) = 8 * n + 8 := by ring
    rw [h8, ← pushMany_add]
    have hc : pushMany
        (pushMany m (fun k => normalCovered32 args x y (k % 8) (a + k / 8)) (8 * n))
        (fun ix => normalCovered32 args x y ix (a + n)) 8 =
        pushMany (pushMany m (fun k => normalCovered32 args x y (k % 8) (a + k / 8)) (8 * n))
        (fun i => normalCovered32 args x y ((8 * n + i) % 8) (a + (8 * n + i) / 8)) 8 := by
      apply pushMany_congr
      intro i hi
      have h1 : (8 * n + i) % 8 = i := by omega
      have h2 : (8 * n + i) / 8 = n := by omega
      rw [h1, h2]
    rw [hc]
    rfl

/-- The masks of the partially covered path of the 32-bit `SetupNormal` hold
the coverage test of each pixel, taken on the wrapped half-space functions. -/
theorem normalMasks32_eq (args : TriDrawTriangleArgs) (x y : Int) :
    normalMasks32 args x y = packTile (normalCovered32 args x y) := by
  have hl0 : ([0, 1, 2, 3] : List Nat) = List.range' 0 4 := rfl
  have hl4 : ([4, 5, 6, 7] : List Nat) = List.range' 4 4 := rfl
  have top := normalRow32_fold args x y 0 0 4
  have bottom := normalRow32_fold args x y 4 0 4
  simp only [Nat.cast_zero, add_zero, Nat.zero_add] at top
  unfold normalMasks32 packTile
  simp only [hl0, hl4, edgeExpr32]
  have e1 : wrap32 (C1_32 args + DX12_32 args * (y * 16) - DY12_32 args * (x * 16)) =
      edge1_32 args x y := rfl
  have e2 : wrap32 (C2_32 args + DX23_32 args * (y * 16) - DY23_32 args * (x * 16)) =
      edge2_32 args x y := rfl
  have e3 : wrap32 (C3_32 args + DX31_32 args * (y * 16) - DY31_32 args * (x * 16)) =
      edge3_32 args x y := rfl
  rw [e1, e2, e3, top]
  simp only
  rw [bottom]

theorem subsectorPixel32_fold (args : TriDrawTriangleArgs) (x y : Int) (iy : Nat) (m : Nat)
    (n : Nat) :
    (List.range n).foldl
        (subsectorPixel32 args x y iy (x + y * args.pitch + (iy : Int) * args.pitch))
        (m, edge1_32 args x (y + iy), edge2_32 args x (y + iy), edge3_32 args x (y + iy)) =
      (pushMany m (fun ix => subsectorCovered32 args x y ix iy) n,
        edge1_32 args (x + n) (y + iy), edge2_32 args (x + n) (y + iy),
        edge3_32 args (x + n) (y + iy)) := by
  induction n with
  | zero => simp [pushMany]
  | succ n ih =>
    rw [List.range_succ, List.foldl_append, ih]
    simp only [List.foldl_cons, List.foldl_nil, subsectorPixel32, pushMany, subsectorCovered32,
      subsectorTest]
    have e1 := (edgeStep32 (C1_32 args) (DX12_32 args) (DY12_32 args) (x + n) (y + iy)).1
    have e2 := (edgeStep32 (C2_32 args) (DX23_32 args) (DY23_32 args) (x + n) (y + iy)).1
    have e3 := (edgeStep32 (C3_32 args) (DX31_32 args) (DY31_32 args) (x + n) (y + iy)).1
    simp only [edge1_32, edge2_32, edge3_32, FDY12_32, FDY23_32, FDY31_32, Nat.cast_add,
      Nat.cast_one, ← add_assoc, e1, e2, e3]

theorem subsectorRow32_eq (args : TriDrawTriangleArgs) (x y : Int) (iy : Nat) (m : Nat) :
    subsectorRow32 args x y
        (m, edge1_32 args x (y + iy), edge2_32 args x (y + iy), edge3_32 args x (y + iy),
          x + y * args.pitch + (iy : Int) * args.pitch) iy =
      (pushMany m (fun ix => subsectorCovered32 args x y ix iy) 8,
        edge1_32 args x (y + (iy + 1 : Nat)), edge2_32 args x (y + (iy + 1 : Nat)),
        edge3_32 args x (y + (iy + 1 : Nat)),
        x + y * args.pitch + ((iy + 1 : Nat) : Int) * args.pitch) := by
  unfold subsectorRow32
  simp only
  rw [subsectorPixel32_fold]
  have e1 := (edgeStep32 (C1_32 args) (DX12_32 args) (DY12_32 args) x (y + iy)).2
  have e2 := (edgeStep32 (C2_32 args) (DX23_32 args) (DY23_32 args) x (y + iy)).2
  have e3 := (edgeStep32 (C3_32 args) (DX31_32 args) (DY31_32 args) x (y + iy)).2
  have hp : x + y * args.pitch + (iy : Int) * args.pitch + args.pitch =
      x + y * args.pitch + ((iy : Int) + 1) * args.pitch := by ring
  simp only [edge1_32, edge2_32, edge3_32, FDX12_32, FDX23_32, FDX31_32, Nat.cast_add,
    Nat.cast_one, ← add_assoc, e1, e2, e3, hp]

theorem subsectorRow32_fold (args : TriDrawTriangleArgs) (x y : Int) (a : Nat) (m : Nat)
    (n : Nat) :
    (List.range' a n).foldl (subsectorRow32 args x y)
        (m, edge1_32 args x (y + a), edge2_32 args x (y + a), edge3_32 args x (y + a),
          x + y * args.pitch + (a : Int) * args.pitch) =
      (pushMany m (fun k => subsectorCovered32 args x y (k % 8) (a + k / 8)) (8 * n),
        edge1_32 args x (y + (a + n : Nat)), edge2_32 args x (y + (a + n : Nat)),
        edge3_32 args x (y + (a + n : Nat)),
        x + y * args.pitch + ((a + n : Nat) : Int) * args.pitch) := by
  induction n with
  | zero => simp [pushMany]
  | succ n ih =>
    rw [List.range'_1_concat, List.foldl_append, ih]
    simp only [List.foldl_cons, List.foldl_nil]
    rw [subsectorRow32_eq]
    have h8 : 8 * (n + 1) = 8 * n + 8 := by ring
    rw [h8, ← pushMany_add]
    have hc : pushMany
        (pushMany m (fun k => subsectorCovered32 args x y (k % 8) (a + k / 8)) (8 * n))
        (fun ix => subsectorCovered32 args x y ix (a + n)) 8 =
        pushMany (pushMany m (fun k => subsectorCovered32 args x y (k % 8) (a + k / 8)) (8 * n))
        (fun i => subsectorCovered32 args x y ((8 * n + i) % 8) (a + (8 * n + i) / 8)) 8 := by
      apply pushMany_congr
      intro i hi
      have h1 : (8 * n + i) % 8 = i := by omega
      have h2 : (8 * n + i) / 8 = n := by omega
      rw [h1, h2]
    rw [hc]
    rfl

/-- The masks of the partially covered path of the 32-bit `SetupSubsector`
hold the coverage test of each pixel, taken on the wrapped half-space
functions. -/
theorem subsectorMasks32_eq (args : TriDrawTriangleArgs) (x y : Int) :
    subsectorMasks32 args x y = packTile (subsectorCovered32 args x y) := by
  have hl0 : ([0, 1, 2, 3] : List Nat) = List.range' 0 4 := rfl
  have hl4 : ([4, 5, 6, 7] : List Nat) = List.range' 4 4 := rfl
  have top := subsectorRow32_fold args x y 0 0 4
  have bottom := subsectorRow32_fold args x y 4 0 4
  simp only [Nat.cast_zero, zero_mul, add_zero, Nat.zero_add] at top
  unfold subsectorMasks32 packTile
  simp only [hl0, hl4, edgeExpr32]
  have e1 : wrap32 (C1_32 args + DX12_32 args * (y * 16) - DY12_32 args * (x * 16)) =
      edge1_32 args x y := rfl
  have e2 : wrap32 (C2_32 args + DX23_32 args * (y * 16) - DY23_32 args * (x * 16)) =
      edge2_32 args x y := rfl
  have e3 : wrap32 (C3_32 args + DX31_32 args * (y * 16) - DY31_32 args * (x * 16)) =
      edge3_32 args x y := rfl
  rw [e1, e2, e3, top]
  simp only
  rw [bottom]

/-- With a delta pair that fits in `int`, the 32-bit half-edge constant is the
exact one wrapped. -/
theorem edgeConstant32_modEq (DX DY X Y : Int) :
    edgeConstant32 DX DY X Y ≡ edgeConstant DX DY X Y [ZMOD 4294967296] := by
  have hC : sub32 (mul32 DY X) (mul32 DX Y) ≡ DY * X - DX * Y [ZMOD 4294967296] := by
    unfold sub32 mul32
    exact (wrap32_modEq _).trans (Int.ModEq.sub (wrap32_modEq _) (wrap32_modEq _))
  unfold edgeConstant32 edgeConstant
  simp only
  split
  · unfold add32
    exact (wrap32_modEq _).trans (Int.ModEq.add_right 1 hC)
  · exact hC

/-- The wrapped value of an affine edge expression depends on the constant
only modulo `2 ^ 32`. -/
theorem edgeValue32_congr (C C' DX DY px py : Int) (h : C ≡ C' [ZMOD 4294967296]) :
    wrap32 (C + DX * (py * 16) - DY * (px * 16)) =
      wrap32 (C' + DX * (py * 16) - DY * (px * 16)) := by
  apply wrap32_congr
  exact Int.ModEq.sub_right _ (Int.ModEq.add_right _ h)

/-- While the deltas fit in `int`, the half-space functions that the 32-bit
code holds are the exact ones wrapped. -/
theorem edges32_eq (args : TriDrawTriangleArgs) (h : EdgesInRange args) (px py : Int) :
    edge1_32 args px py = wrap32 (edge1 args px py) ∧
      edge2_32 args px py = wrap32 (edge2 args px py) ∧
      edge3_32 args px py = wrap32 (edge3 args px py) := by
  obtain ⟨_, ⟨h1, h2, h3, h4, h5, h6⟩, _⟩ := h
  have d1 : DX12_32 args = DX12 args := wrap32_of_inRange _ h1
  have d2 : DX23_32 args = DX23 args := wrap32_of_inRange _ h2
  have d3 : DX31_32 args = DX31 args := wrap32_of_inRange _ h3
  have d4 : DY12_32 args = DY12 args := wrap32_of_inRange _ h4
  have d5 : DY23_32 args = DY23 args := wrap32_of_inRange _ h5
  have d6 : DY31_32 args = DY31 args := wrap32_of_inRange _ h6
  unfold edge1_32 edge2_32 edge3_32 edge1 edge2 edge3 C1_32 C2_32 C3_32 C1 C2 C3
  rw [d1, d2, d3, d4, d5, d6]
  exact ⟨edgeValue32_congr _ _ _ _ _ _ (edgeConstant32_modEq _ _ _ _),
    edgeValue32_congr _ _ _ _ _ _ (edgeConstant32_modEq _ _ _ _),
    edgeValue32_congr _ _ _ _ _ _ (edgeConstant32_modEq _ _ _ _)⟩

/-- At a pixel of the blocks of the bounding rectangle the 32-bit half-space
functions are the exact ones. -/
theorem edges32_exact (args : TriDrawTriangleArgs) (h : EdgesInRange args) (px py : Int)
    (hx0 : snap (minx args) ≤ px) (hx1 : px < maxx args + 7)
    (hy0 : snap (miny args) ≤ py) (hy1 : py < maxy args + 7) :
    edge1_32 args px py = edge1 args px py ∧ edge2_32 args px py = edge2 args px py ∧
      edge3_32 args px py = edge3 args px py := by
  obtain ⟨e1, e2, e3⟩ := edges32_eq args h px py
  obtain ⟨r1, r2, r3⟩ := h.2.2 px py hx0 hx1 hy0 hy1
  rw [e1, e2, e3]
  exact ⟨wrap32_of_inRange _ r1, wrap32_of_inRange _ r2, wrap32_of_inRange _ r3⟩

theorem cornerMask32_of_edges (C32 DX32 DY32 C DX DY x y : Int)
    (h00 : wrap32 (C32 + DX32 * (y * 16) - DY32 * (x * 16)) = C + DX * (y * 16) - DY * (x * 16))
    (h10 : wrap32 (C32 + DX32 * (y * 16) - DY32 * ((x + q - 1) * 16)) =
      C + DX * (y * 16) - DY * ((x + q - 1) * 16))
    (h01 : wrap32 (C32 + DX32 * ((y + q - 1) * 16) - DY32 * (x * 16)) =
      C + DX * ((y + q - 1) * 16) - DY * (x * 16))
    (h11 : wrap32 (C32 + DX32 * ((y + q - 1) * 16) - DY32 * ((x + q - 1) * 16)) =
      C + DX * ((y + q - 1) * 16) - DY * ((x + q - 1) * 16)) :
    cornerMask32 C32 DX32 DY32 x y = cornerMask C DX DY x y := by
  unfold cornerMask32 cornerMask
  simp only [edgeExpr32, h00, h10, h01, h11]

/-- The corner tests of a block of the bounding rectangle are the same on
`int` as on exact integers. -/
theorem cornerMasks32_eq (args : TriDrawTriangleArgs) (h : EdgesInRange args) (x y : Int)
    (hx0 : snap (minx args) ≤ x) (hx1 : x < maxx args)
    (hy0 : snap (miny args) ≤ y) (hy1 : y < maxy args) :
    cornerMask32 (C1_32 args) (DX12_32 args) (DY12_32 args) x y =
        cornerMask (C1 args) (DX12 args) (DY12 args) x y ∧
      cornerMask32 (C2_32 args) (DX23_32 args) (DY23_32 args) x y =
        cornerMask (C2 args) (DX23 args) (DY23 args) x y ∧
      cornerMask32 (C3_32 args) (DX31_32 args) (DY31_32 args) x y =
        cornerMask (C3 args) (DX31 args) (DY31 args) x y := by
  have hq : q = 8 := rfl
  have a00 := edges32_exact args h x y hx0 (by omega) hy0 (by omega)
  have a10 := edges32_exact args h (x + q - 1) y (by omega) (by omega) hy0 (by omega)
  have a01 := edges32_exact args h x (y + q - 1) hx0 (by omega) (by omega) (by omega)
  have a11 := edges32_exact args h (x + q - 1) (y + q - 1) (by omega) (by omega) (by omega)
    (by omega)
  exact ⟨cornerMask32_of_edges _ _ _ _ _ _ x y a00.1 a10.1 a01.1 a11.1,
    cornerMask32_of_edges _ _ _ _ _ _ x y a00.2.1 a10.2.1 a01.2.1 a11.2.1,
    cornerMask32_of_edges _ _ _ _ _ _ x y a00.2.2 a10.2.2 a01.2.2 a11.2.2⟩

theorem normalMasks32_exact (args : TriDrawTriangleArgs) (h : EdgesInRange args) (x y : Int)
    (hx0 : snap (minx args) ≤ x) (hx1 : x < maxx args)
    (hy0 : snap (miny args) ≤ y) (hy1 : y < maxy args) :
    normalMasks32 args x y = normalMasks args x y := by
  rw [normalMasks32_eq, normalMasks_eq]
  apply packTile_congr
  intro ix iy hix hiy
  obtain ⟨e1, e2, e3⟩ := edges32_exact args h (x + ix) (y + iy) (by omega) (by omega)
    (by omega) (by omega)
  unfold normalCovered32 normalCovered
  rw [e1, e2, e3]

theorem subsectorMasks32_exact (args : TriDrawTriangleArgs) (h : EdgesInRange args) (x y : Int)
    (hx0 : snap (minx args) ≤ x) (hx1 : x < maxx args)
    (hy0 : snap (miny args) ≤ y) (hy1 : y < maxy args) :
    subsectorMasks32 args x y = subsectorMasks args x y := by
  rw [subsectorMasks32_eq, subsectorMasks_eq]
  apply packTile_congr
  intro ix iy hix hiy
  obtain ⟨e1, e2, e3⟩ := edges32_exact args h (x + ix) (y + iy) (by omega) (by omega)
    (by omega) (by omega)
  unfold subsectorCovered32 subsectorCovered
  rw [e1, e2, e3]

theorem normalBlock32_exact (args : TriDrawTriangleArgs) (h : EdgesInRange args) (x y : Int)
    (st : BinState) (hx0 : snap (minx args) ≤ x) (hx1 : x < maxx args)
    (hy0 : snap (miny args) ≤ y) (hy1 : y < maxy args) :
    normalBlock32 args y x st = normalBlock args y x st := by
  obtain ⟨c1, c2, c3⟩ := cornerMasks32_eq args h x y hx0 hx1 hy0 hy1
  unfold normalBlock32 normalBlock
  rw [c1, c2, c3, normalMasks32_exact args h x y hx0 hx1 hy0 hy1]

theorem subsectorBlock32_exact (args : TriDrawTriangleArgs) (h : EdgesInRange args) (x y : Int)
    (st : BinState) (hx0 : snap (minx args) ≤ x) (hx1 : x < maxx args)
    (hy0 : snap (miny args) ≤ y) (hy1 : y < maxy args) :
    subsectorBlock32 args y x st = subsectorBlock args y x st := by
  obtain ⟨c1, c2, c3⟩ := cornerMasks32_eq args h x y hx0 hx1 hy0 hy1
  unfold subsectorBlock32 subsectorBlock
  rw [c1, c2, c3, subsectorMasks32_exact args h x y hx0 hx1 hy0 hy1]

/-- Two block bodies that agree on the blocks of the box that the loops range
over give the same block loops. -/
theorem blockLoops_congr_box (body1 body2 : Int → Int → BinState → BinState)
    (minx maxx miny0 miny maxy num_cores : Int)
    (h : ∀ x y st, minx ≤ x → x < maxx → miny0 ≤ y → y < maxy → body1 y x st = body2 y x st)
    (hy0 : miny0 ≤ miny) (hn : 0 ≤ num_cores) (st : BinState) :
    blockLoops body1 minx maxx miny maxy num_cores st =
      blockLoops body2 minx maxx miny maxy num_cores st := by
  unfold blockLoops
  apply forLoop_congr_lt maxy (q * num_cores) _ _ (fun v => miny0 ≤ v)
  · intro v hv
    have hs : 0 ≤ q * num_cores := mul_nonneg (by decide) hn
    omega
  · intro y st' hy' hylt
    have hin : forLoop maxx q (body1 y) (maxx - minx).toNat minx st' =
        forLoop maxx q (body2 y) (maxx - minx).toNat minx st' := by
      apply forLoop_congr_lt maxx q _ _ (fun v => minx ≤ v)
      · intro v hv
        have hq : q = 8 := rfl
        omega
      · intro x st'' hx' hxlt
        exact h x y st'' hx' hxlt hy' hylt
      · exact le_refl _
    simp only [hin]
  · exact hy0

theorem bounds32_eq (args : TriDrawTriangleArgs) (h : EdgesInRange args) :
    minx32 args = minx args ∧ maxx32 args = maxx args ∧ miny32 args = miny args ∧
      maxy32 args = maxy args := by
  obtain ⟨⟨h1, h2, h3, h4⟩, _, _⟩ := h
  unfold minx32 maxx32 miny32 maxy32 minx maxx miny maxy add32
  rw [wrap32_of_inRange _ h1, wrap32_of_inRange _ h2, wrap32_of_inRange _ h3,
    wrap32_of_inRange _ h4]
  exact ⟨rfl, rfl, rfl, rfl⟩

/-- While no value that decides the output leaves the range of `int`, the
32-bit `SetupNormal` returns what the exact one returns. -/
theorem SetupNormal32_eq (args : TriDrawTriangleArgs) (thread : WorkerThreadData)
    (hn : 0 < thread.num_cores) (h : EdgesInRange args) :
    SetupNormal32 args thread = SetupNormal args thread := by
  obtain ⟨b1, b2, b3, b4⟩ := bounds32_eq args h
  have h5 := core_skip_nonneg (snap (miny args)) thread.core thread.num_cores hn
  have hloops := blockLoops_congr_box (normalBlock32 args) (normalBlock args)
    (snap (minx args)) (maxx args) (snap (miny args))
    (snap (miny args) + core_skip (snap (miny args)) thread.core thread.num_cores * q)
    (maxy args) thread.num_cores
    (fun x y st hx0 hx1 hy0 hy1 => normalBlock32_exact args h x y st hx0 hx1 hy0 hy1)
    (by
      have hq : q = 8 := rfl
      rw [hq]
      omega)
    (le_of_lt hn)
    { FullSpans := Function.update thread.FullSpans 0 { thread.FullSpans 0 with Length := 0 }
      span := 0
      PartialBlocks := thread.PartialBlocks
      block := 0 }
  unfold SetupNormal32 SetupNormal
  rw [b1, b2, b3, b4]
  simp only [hloops]

/-- While no value that decides the output leaves the range of `int`, the
32-bit `SetupSubsector` returns what the exact one returns. -/
theorem SetupSubsector32_eq (args : TriDrawTriangleArgs) (thread : WorkerThreadData)
    (hn : 0 < thread.num_cores) (h : EdgesInRange args) :
    SetupSubsector32 args thread = SetupSubsector args thread := by
  obtain ⟨b1, b2, b3, b4⟩ := bounds32_eq args h
  have h5 := core_skip_nonneg (snap (miny args)) thread.core thread.num_cores hn
  have hloops := blockLoops_congr_box (subsectorBlock32 args) (subsectorBlock args)
    (snap (minx args)) (maxx args) (snap (miny args))
    (snap (miny args) + core_skip (snap (miny args)) thread.core thread.num_cores * q)
    (maxy args) thread.num_cores
    (fun x y st hx0 hx1 hy0 hy1 => subsectorBlock32_exact args h x y st hx0 hx1 hy0 hy1)
    (by
      have hq : q = 8 := rfl
      rw [hq]
      omega)
    (le_of_lt hn)
    { FullSpans := Function.update thread.FullSpans 0 { thread.FullSpans 0 with Length := 0 }
      span := 0
      PartialBlocks := thread.PartialBlocks
      block := 0 }
  unfold SetupSubsector32 SetupSubsector
  rw [b1, b2, b3, b4]
  simp only [hloops]

theorem mul_bounds (a b A B : Int) (ha0 : -A ≤ a) (ha1 : a ≤ A) (hb0 : -B ≤ b) (hb1 : b ≤ B) :
    -(A * B) ≤ a * b ∧ a * b ≤ A * B := by
  have h1 := mul_nonneg (sub_nonneg.2 ha1) (sub_nonneg.2 hb1)
  have h2 := mul_nonneg (by linarith : 0 ≤ a + A) (by linarith : 0 ≤ b + B)
  have h3 := mul_nonneg (sub_nonneg.2 ha1) (by linarith : 0 ≤ b + B)
  have h4 := mul_nonneg (by linarith : 0 ≤ a + A) (sub_nonneg.2 hb1)
  constructor
  · nlinarith
  · nlinarith

/-- A corrected half-space function of an edge whose end points lie within
512 pixels of the origin fits in `int` at every sample point of the first
518 pixel columns and rows. -/
theorem edge_inRange_of_small (DX DY X Y s t : Int)
    (hDX : -16384 ≤ DX ∧ DX ≤ 16384) (hDY : -16384 ≤ DY ∧ DY ≤ 16384)
    (hX : -8192 ≤ X ∧ X ≤ 8192) (hY : -8192 ≤ Y ∧ Y ≤ 8192)
    (hs : -8288 ≤ s ∧ s ≤ 8288) (ht : -8288 ≤ t ∧ t ≤ 8288) :
    InRange (edgeConstant DX DY X Y + DX * t - DY * s) := by
  have p1 := mul_bounds DY X 16384 8192 hDY.1 hDY.2 hX.1 hX.2
  have p2 := mul_bounds DX Y 16384 8192 hDX.1 hDX.2 hY.1 hY.2
  have p3 := mul_bounds DX t 16384 8288 hDX.1 hDX.2 ht.1 ht.2
  have p4 := mul_bounds DY s 16384 8288 hDY.1 hDY.2 hs.1 hs.2
  unfold InRange edgeConstant
  simp only
  generalize DY * X = u1 at p1 ⊢
  generalize DX * Y = u2 at p2 ⊢
  generalize DX * t = u3 at p3 ⊢
  generalize DY * s = u4 at p4 ⊢
  split <;> omega

/-- Every triangle whose fixed-point vertices lie within 512 pixels of the
origin (`|X|, |Y| ≤ 8192`) keeps all values that decide the output in the
range of `int`. -/
theorem edgesInRange_of_small (args : TriDrawTriangleArgs)
    (hX1 : -8192 ≤ args.X1 ∧ args.X1 ≤ 8192) (hY1 : -8192 ≤ args.Y1 ∧ args.Y1 ≤ 8192)
    (hX2 : -8192 ≤ args.X2 ∧ args.X2 ≤ 8192) (hY2 : -8192 ≤ args.Y2 ∧ args.Y2 ≤ 8192)
    (hX3 : -8192 ≤ args.X3 ∧ args.X3 ≤ 8192) (hY3 : -8192 ≤ args.Y3 ∧ args.Y3 ≤ 8192) :
    EdgesInRange args := by
  refine ⟨?_, ?_, ?_⟩
  · unfold InRange
    omega
  · unfold InRange
    omega
  · intro px py hx0 hx1 hy0 hy1
    have sx := snap_eq (minx args) (minx_nonneg args)
    have sy := snap_eq (miny args) (miny_nonneg args)
    have nx := minx_nonneg args
    have ny := miny_nonneg args
    have mx : maxx args ≤ 512 := by
      unfold maxx
      rw [shiftRight_four]
      omega
    have my : maxy args ≤ 512 := by
      unfold maxy
      rw [shiftRight_four]
      omega
    have hs : -8288 ≤ px * 16 ∧ px * 16 ≤ 8288 := by omega
    have ht : -8288 ≤ py * 16 ∧ py * 16 ≤ 8288 := by omega
    unfold edge1 edge2 edge3 C1 C2 C3 DX12 DX23 DX31 DY12 DY23 DY31
    exact ⟨edge_inRange_of_small _ _ _ _ _ _ (by omega) (by omega) hX1 hY1 hs ht,
      edge_inRange_of_small _ _ _ _ _ _ (by omega) (by omega) hX2 hY2 hs ht,
      edge_inRange_of_small _ _ _ _ _ _ (by omega) (by omega) hX3 hY3 hs ht⟩

/-- The coverage of `SetupSubsector` over exact integers: within a walked tile a
pixel is covered exactly when it passes every test, and nothing is emitted
when every subsector entry is smaller than `subsectorDepth`. -/
theorem subsectorCoverage_exact (args : TriDrawTriangleArgs) (thread : WorkerThreadData)
    (hn : 0 < thread.num_cores) (hc0 : 0 ≤ thread.core) (hc : thread.core < thread.num_cores) :
    (minx args < maxx args → miny args < maxy args →
      ∀ tx ty : Int, visits args thread tx ty →
        ∀ px py : Int, tx ≤ px → px < tx + 8 → ty ≤ py → py < ty + 8 →
          (Covers (SetupSubsector args thread) px py ↔
            (edge1 args px py > 0 ∧ edge2 args px py > 0 ∧ edge3 args px py > 0 ∧
              px < args.clipright ∧ py < args.clipbottom ∧
              stencilAt args.stencilMasks args.stencilValues args.stencilPitch px py ≥
                args.stencilTestValue ∧
              args.subsectorGBuffer (px + py * args.pitch) ≥ args.subsectorDepth))) ∧
    ((∀ a, args.subsectorGBuffer a < args.subsectorDepth) →
      (SetupSubsector args thread).NumFullSpans = 0 ∧
        (SetupSubsector args thread).NumPartialBlocks = 0) := by
  refine ⟨fun hx hy tx ty hv px py hx0 hx1 hy0 hy1 => ?_, counts_of_depth args thread⟩
  obtain ⟨w1, w2, w3, w4, w5⟩ :=
    walked_of_visits args thread hn hc0 hc tx ty hv px py hx0 hx1 hy0 hy1
  rw [SetupSubsector_covers_iff args thread hn hc0 hc px py]
  unfold subsectorPass insideTriangle
  constructor
  · rintro ⟨_, _, _, _, _, _, _, ⟨e1, e2, e3⟩, c1, c2, s1, s2⟩
    exact ⟨e1, e2, e3, c1, c2, s1, s2⟩
  · rintro ⟨e1, e2, e3, c1, c2, s1, s2⟩
    exact ⟨hx, hy, w1, w2, w3, w4, w5, ⟨e1, e2, e3⟩, c1, c2, s1, s2⟩

/-- Over exact integers, a tile at the origin that the triangle covers and
whose stencil bytes pass in the columns 0..3 only becomes exactly one partial
block with the masks `0xF0F0F0F0`, and lies in no span. -/
theorem partialPass_exact (args : TriDrawTriangleArgs) (thread : WorkerThreadData)
    (hcore : thread.core = 0) (hnum : thread.num_cores = 1)
    (hcr : 8 ≤ args.clipright) (hcb : 8 ≤ args.clipbottom)
    (htest : args.stencilTestValue = 5)
    (hin : ∀ px py : Int, 0 ≤ px → px < 8 → 0 ≤ py → py < 8 →
      edge1 args px py > 0 ∧ edge2 args px py > 0 ∧ edge3 args px py > 0)
    (hhet : (args.stencilMasks 0 &&& 0xffffff00) ≠ 0xffffff00)
    (hbytes : ∀ px py : Int, 0 ≤ px → px < 8 → 0 ≤ py → py < 8 →
      args.stencilValues (px + py * 8) = if px < 4 then 5 else 3) :
    (∃ i, i < (SetupNormal args thread).NumPartialBlocks ∧
        ((SetupNormal args thread).PartialBlocks i).X = 0 ∧
        ((SetupNormal args thread).PartialBlocks i).Y = 0 ∧
        ((SetupNormal args thread).PartialBlocks i).Mask0 = 0xF0F0F0F0 ∧
        ((SetupNormal args thread).PartialBlocks i).Mask1 = 0xF0F0F0F0 ∧
        ∀ j, j < (SetupNormal args thread).NumPartialBlocks →
          ((SetupNormal args thread).PartialBlocks j).X = 0 →
          ((SetupNormal args thread).PartialBlocks j).Y = 0 → j = i) ∧
      (∀ i, i < (SetupNormal args thread).NumFullSpans →
        ¬ (((SetupNormal args thread).FullSpans i).Y = 0 ∧
          ((SetupNormal args thread).FullSpans i).X ≤ 0 ∧
          0 < ((SetupNormal args thread).FullSpans i).X +
            8 * (((SetupNormal args thread).FullSpans i).Length : Int))) := by
  have hn : 0 < thread.num_cores := by omega
  obtain ⟨hrun, hv⟩ := origin_tile_walked args thread hcore hnum hcr hcb
    (hin 0 0 (by decide) (by decide) (by decide) (by decide))
    (hin 7 7 (by decide) (by decide) (by decide) (by decide))
  have hmask := normalTileMasks_leftHalf args hcr hcb hin hhet (by
    intro px py h1 h2 h3 h4
    rw [hbytes px py h1 h2 h3 h4, htest]
    by_cases h : px < 4
    · simp [h]
    · simp [h])
  obtain ⟨hinv, hlen⟩ := SetupNormal_inv args thread hn hrun
  obtain ⟨x, y, hord⟩ := SetupNormal_ord args thread hn hrun
  have hpix : inBlock
      ⟨0, 0, (fun x y => (normalTileMasks args x y).1) 0 0,
        (fun x y => (normalTileMasks args x y).2) 0 0⟩ 0 0 := by
    simp only [hmask]
    unfold inBlock
    decide
  have key := partial_tile_entry args thread (SetupNormal args thread) _ _ hinv hlen x y hord
    0 0 hv 0 0 hpix (by simp only [hmask]; decide)
  simp only [hmask] at key
  exact key

/-- Over exact integers a triangle whose doubled signed area is not positive
has no inside point, and both binners emit nothing. -/
theorem winding_exact (args : TriDrawTriangleArgs) (thread : WorkerThreadData)
    (hS : doubledArea args ≤ 0) :
    (∀ PX PY : Int,
        ¬ (edgeValue args.X1 args.Y1 args.X2 args.Y2 PX PY > 0 ∧
          edgeValue args.X2 args.Y2 args.X3 args.Y3 PX PY > 0 ∧
          edgeValue args.X3 args.Y3 args.X1 args.Y1 PX PY > 0)) ∧
      ((SetupNormal args thread).NumFullSpans = 0 ∧
        (SetupNormal args thread).NumPartialBlocks = 0) ∧
      ((SetupSubsector args thread).NumFullSpans = 0 ∧
        (SetupSubsector args thread).NumPartialBlocks = 0) ∧
      (∀ px py : Int, ¬ Covers (SetupNormal args thread) px py ∧
        ¬ Covers (SetupSubsector args thread) px py) := by
  have hc := counts_of_outside args thread (not_inside_of_area args hS)
  refine ⟨?_, hc.1, hc.2, fun px py =>
    ⟨not_covers_of_counts_zero _ hc.1.1 hc.1.2 px py,
      not_covers_of_counts_zero _ hc.2.1 hc.2.2 px py⟩⟩
  rintro PX PY ⟨h1, h2, h3⟩
  have h := area_pos_of_inside args.X1 args.Y1 args.X2 args.Y2 args.X3 args.Y3 PX PY h1 h2 h3
  unfold doubledArea DX12 DY12 DX23 DY23 DX31 DY31 at hS
  omega

/-! ## Scenarios beyond the range of `int` -/

theorem minx32_nonneg (args : TriDrawTriangleArgs) : 0 ≤ minx32 args := le_max_right _ _

theorem miny32_nonneg (args : TriDrawTriangleArgs) : 0 ≤ miny32 args := le_max_right _ _

set_option maxRecDepth 100000 in
/-- The 32-bit binners emit nothing for the triangle (0,0), (0,3424), (3424,0):
the constant `C2` wraps to a negative value and every block is rejected. -/
theorem overflow_counts :
    ((SetupNormal32 overflowArgs sampleThread).NumFullSpans = 0 ∧
        (SetupNormal32 overflowArgs sampleThread).NumPartialBlocks = 0) ∧
      ((SetupSubsector32 overflowArgs sampleThread).NumFullSpans = 0 ∧
        (SetupSubsector32 overflowArgs sampleThread).NumPartialBlocks = 0) ∧
      ((SetupNormal32 overflowHalfArgs sampleThread).NumFullSpans = 0 ∧
        (SetupNormal32 overflowHalfArgs sampleThread).NumPartialBlocks = 0) := by
  unfold SetupNormal32 SetupSubsector32
  rw [if_neg (by decide), if_neg (by decide), if_neg (by decide)]
  simp only [snap_eq _ (minx32_nonneg _), snap_eq _ (miny32_nonneg _)]
  decide

set_option maxRecDepth 100000 in
/-- The 32-bit `SetupNormal` emits a span for the block at the origin over a
uniform stencil buffer and none over a heterogeneous one. -/
theorem wrapTile_counts :
    (SetupNormal32 wrapTileArgs sampleThread).NumFullSpans = 1 ∧
      (SetupNormal32 { wrapTileArgs with stencilMasks := fun _ => 0, stencilValues := fun _ => 0 }
        sampleThread).NumFullSpans = 0 := by
  unfold SetupNormal32
  rw [if_neg (by decide), if_neg (by decide)]
  simp only [snap_eq _ (minx32_nonneg _), snap_eq _ (miny32_nonneg _)]
  decide

set_option maxRecDepth 100000 in
/-- The 32-bit binners emit a partial block for the clockwise triangle. -/
theorem clockwise_counts :
    ((SetupNormal32 clockwiseArgs sampleThread).NumPartialBlocks = 1 ∧
        ((SetupNormal32 clockwiseArgs sampleThread).PartialBlocks 0).Mask0 = 0x0080C0E0) ∧
      (SetupSubsector32 clockwiseArgs sampleThread).NumPartialBlocks = 1 := by
  unfold SetupNormal32 SetupSubsector32
  rw [if_neg (by decide), if_neg (by decide)]
  simp only [snap_eq _ (minx32_nonneg _), snap_eq _ (miny32_nonneg _)]
  decide

theorem overflow_visits : visits overflowArgs sampleThread 0 0 := by
  refine ⟨0, 0, ?_, by decide, ?_, by decide⟩
  · rw [snap_eq _ (minx_nonneg _)]
    decide
  · unfold startY
    rw [snap_eq _ (miny_nonneg _)]
    decide

theorem overflow_stencil_passes (px py : Int) :
    stencilAt overflowArgs.stencilMasks overflowArgs.stencilValues overflowArgs.stencilPitch
      px py ≥ overflowArgs.stencilTestValue :=
  le_of_eq (sample_stencil_passes px py).symm

theorem overflowHalf_inside (px py : Int) (h1 : 0 ≤ px) (h2 : px < 8) (h3 : 0 ≤ py)
    (h4 : py < 8) :
    edge1 overflowHalfArgs px py > 0 ∧ edge2 overflowHalfArgs px py > 0 ∧
      edge3 overflowHalfArgs px py > 0 := by
  have e1 : edge1 overflowHalfArgs px py = 1 + 876544 * px := by
    simp [edge1, C1, DX12, DY12, edgeConstant, overflowHalfArgs, withVertices]
    ring
  have e2 : edge2 overflowHalfArgs px py = 3001286656 - 876544 * py - 876544 * px := by
    simp [edge2, C2, DX23, DY23, edgeConstant, overflowHalfArgs, withVertices]
    ring
  have e3 : edge3 overflowHalfArgs px py = 1 + 876544 * py := by
    simp [edge3, C3, DX31, DY31, edgeConstant, overflowHalfArgs, withVertices]
    ring
  rw [e1, e2, e3]
  omega

theorem overflowHalf_bytes (px py : Int) (h1 : 0 ≤ px) (h2 : px < 8) (_h3 : 0 ≤ py)
    (_h4 : py < 8) :
    overflowHalfArgs.stencilValues (px + py * 8) = if px < 4 then 5 else 3 := by
  show (if (px + py * 8) % 8 < 4 then 5 else 3) = if px < 4 then 5 else 3
  have h : (px + py * 8) % 8 = px := by omega
  rw [h]

theorem sample_inRange : EdgesInRange sampleArgs :=
  edgesInRange_of_small sampleArgs (by decide) (by decide) (by decide) (by decide) (by decide)
    (by decide)

/-! ## The properties of the specification -/

/-- C1. Soundness of `SetupNormal`: every pixel that the output covers (it
lies in a block of one of the first `NumFullSpans` spans, or its bit is set in
one of the first `NumPartialBlocks` blocks) has all three corrected half-space
functions strictly positive and a stencil value equal to `stencilTestValue`.
This holds for every stencil buffer state, legal or not. -/
theorem SetupNormal_sound (args : TriDrawTriangleArgs) (thread : WorkerThreadData)
    (hn : 0 < thread.num_cores) (hc0 : 0 ≤ thread.core) (hc : thread.core < thread.num_cores)
    (px py : Int) (hcov : Covers (SetupNormal args thread) px py) :
    edge1 args px py > 0 ∧ edge2 args px py > 0 ∧ edge3 args px py > 0 ∧
      stencilAt args.stencilMasks args.stencilValues args.stencilPitch px py =
        args.stencilTestValue := by
  have h := (SetupNormal_covers_iff args thread hn hc0 hc px py).1 hcov
  obtain ⟨_, _, _, _, _, _, _, hp⟩ := h
  exact ⟨hp.1.1, hp.1.2.1, hp.1.2.2, hp.2.2.2⟩

/-- Witness of C1: the pixel (1,1) of the sample triangle is covered. -/
theorem SetupNormal_sound_witness :
    (0 < sampleThread.num_cores ∧ 0 ≤ sampleThread.core ∧
        sampleThread.core < sampleThread.num_cores ∧
        Covers (SetupNormal sampleArgs sampleThread) 1 1) ∧
      (edge1 sampleArgs 1 1 > 0 ∧ edge2 sampleArgs 1 1 > 0 ∧ edge3 sampleArgs 1 1 > 0 ∧
        stencilAt sampleArgs.stencilMasks sampleArgs.stencilValues sampleArgs.stencilPitch 1 1 =
          sampleArgs.stencilTestValue) :=
  ⟨⟨by decide, by decide, by decide, sample_covers⟩,
    SetupNormal_sound sampleArgs sampleThread (by decide) (by decide) (by decide) 1 1
      sample_covers⟩

/-- C2 (the code drops pixels of the last column). With one worker, a 9 x 9
clip rectangle and a stencil buffer that passes everywhere, the pixel (8,1)
lies inside the clip rectangle, has all three half-space functions strictly
positive and passes the stencil test, yet the output of `SetupNormal` does
not cover it: `maxx = min(.., clipright - 1) = 8` is used as the exclusive
bound of the block loop, so the block at `x = 8` is never visited. -/
theorem SetupNormal_drops_last_column :
    (0 ≤ (8 : Int) ∧ (8 : Int) < sampleArgs.clipright ∧ 0 ≤ (1 : Int) ∧
        (1 : Int) < sampleArgs.clipbottom) ∧
      normalPass sampleArgs 8 1 ∧
      sampleThread.core = 0 ∧ sampleThread.num_cores = 1 ∧
      ¬ Covers (SetupNormal sampleArgs sampleThread) 8 1 := by
  refine ⟨by decide, ?_, rfl, rfl, ?_⟩
  · unfold normalPass insideTriangle
    decide
  · rw [SetupNormal_covers_iff sampleArgs sampleThread (by decide) (by decide) (by decide)]
    intro h
    exact absurd h.2.2.2.1 (by decide)

/-- C4. Tile-row partition: for `N ≥ 1` workers `0, .., N - 1`, the sets of
pixels covered by the `N` runs of `SetupNormal` are pairwise disjoint, and
their union is the set of pixels covered by the run of a single worker
(`core = 0`, `num_cores = 1`); so the coverage does not depend on `N`. -/
theorem tile_row_partition (args : TriDrawTriangleArgs) (N : Int) (hN : 1 ≤ N)
    (worker : Int → WorkerThreadData) (single : WorkerThreadData)
    (hw : ∀ c, (worker c).core = c ∧ (worker c).num_cores = N)
    (hs : single.core = 0 ∧ single.num_cores = 1) :
    (∀ c1 c2 : Int, 0 ≤ c1 → c1 < N → 0 ≤ c2 → c2 < N → c1 ≠ c2 → ∀ px py : Int,
        ¬ (Covers (SetupNormal args (worker c1)) px py ∧
            Covers (SetupNormal args (worker c2)) px py)) ∧
      (∀ px py : Int, Covers (SetupNormal args single) px py ↔
        ∃ c : Int, 0 ≤ c ∧ c < N ∧ Covers (SetupNormal args (worker c)) px py) := by
  have hrun : ∀ c : Int, 0 ≤ c → c < N → ∀ px py : Int,
      (Covers (SetupNormal args (worker c)) px py ↔
        (minx args < maxx args ∧ miny args < maxy args ∧
          snap (minx args) ≤ px ∧ 8 * (px / 8) < maxx args ∧
          snap (miny args) ≤ py ∧ 8 * (py / 8) < maxy args ∧
          (py / 8) % N = c ∧ normalPass args px py)) := by
    intro c hc0 hc px py
    have h := SetupNormal_covers_iff args (worker c) (by rw [(hw c).2]; omega)
      (by rw [(hw c).1]; exact hc0) (by rw [(hw c).1, (hw c).2]; exact hc) px py
    rw [(hw c).1, (hw c).2] at h
    exact h
  have hsingle : ∀ px py : Int,
      (Covers (SetupNormal args single) px py ↔
        (minx args < maxx args ∧ miny args < maxy args ∧
          snap (minx args) ≤ px ∧ 8 * (px / 8) < maxx args ∧
          snap (miny args) ≤ py ∧ 8 * (py / 8) < maxy args ∧ normalPass args px py)) := by
    intro px py
    have h := SetupNormal_covers_iff args single (by rw [hs.2]; decide)
      (by rw [hs.1]) (by rw [hs.1, hs.2]; decide) px py
    rw [hs.1, hs.2] at h
    rw [h]
    have h1 : (py / 8) % (1 : Int) = 0 := Int.emod_one _
    simp only [h1, true_and]
  constructor
  · intro c1 c2 h10 h1 h20 h2 hne px py
    rintro ⟨a, b⟩
    have ha := ((hrun c1 h10 h1 px py).1 a).2.2.2.2.2.2.1
    have hb := ((hrun c2 h20 h2 px py).1 b).2.2.2.2.2.2.1
    exact hne (ha.symm.trans hb)
  · intro px py
    rw [hsingle]
    constructor
    · rintro ⟨a1, a2, a3, a4, a5, a6, a7⟩
      have hN0 : N ≠ 0 := by omega
      refine ⟨(py / 8) % N, Int.emod_nonneg _ hN0, Int.emod_lt_of_pos _ (by omega), ?_⟩
      rw [hrun _ (Int.emod_nonneg _ hN0) (Int.emod_lt_of_pos _ (by omega))]
      exact ⟨a1, a2, a3, a4, a5, a6, rfl, a7⟩
    · rintro ⟨c, hc0, hc, hcov⟩
      obtain ⟨a1, a2, a3, a4, a5, a6, _, a7⟩ := (hrun c hc0 hc px py).1 hcov
      exact ⟨a1, a2, a3, a4, a5, a6, a7⟩

/-- Witness of C4: two workers that share the scratch contents of the sample
worker. -/
theorem tile_row_partition_witness :
    (1 : Int) ≤ 2 ∧
      ((∀ c1 c2 : Int, 0 ≤ c1 → c1 < 2 → 0 ≤ c2 → c2 < 2 → c1 ≠ c2 → ∀ px py : Int,
        ¬ (Covers (SetupNormal sampleArgs { sampleThread with core := c1, num_cores := 2 }) px py ∧
            Covers (SetupNormal sampleArgs { sampleThread with core := c2, num_cores := 2 })
              px py)) ∧
      (∀ px py : Int, Covers (SetupNormal sampleArgs sampleThread) px py ↔
        ∃ c : Int, 0 ≤ c ∧ c < 2 ∧
          Covers (SetupNormal sampleArgs { sampleThread with core := c, num_cores := 2 })
            px py)) :=
  ⟨by decide, tile_row_partition sampleArgs 2 (by decide)
    (fun c => { sampleThread with core := c, num_cores := 2 }) sampleThread
    (fun _ => ⟨rfl, rfl⟩) ⟨rfl, rfl⟩⟩

/-- C5. Worker sharding arithmetic: for a tile-aligned `miny ≥ 0`,
`num_cores ≥ 1` and `0 ≤ core < num_cores`, `core_skip` lies in
`[0, num_cores)` and `(miny / 8 + core_skip) mod num_cores = core`;
consequently every span and every partial block that such a worker emits, in
either binner variant, has `(Y / 8) mod num_cores = core`.  (For `miny ≥ 0`
the truncating division `miny / q` of the source is the division of the
model; the arithmetic does not otherwise use the two hypotheses on `miny`.) -/
theorem worker_sharding (miny core num_cores : Int) (_hmin : 0 ≤ miny) (_hal : 8 ∣ miny)
    (hn : 1 ≤ num_cores) (hc0 : 0 ≤ core) (hc : core < num_cores) :
    (0 ≤ core_skip miny core num_cores ∧ core_skip miny core num_cores < num_cores ∧
        (miny / 8 + core_skip miny core num_cores) % num_cores = core) ∧
      (∀ (args : TriDrawTriangleArgs) (thread : WorkerThreadData),
        thread.core = core → thread.num_cores = num_cores →
        (∀ i, i < (SetupNormal args thread).NumFullSpans →
          (((SetupNormal args thread).FullSpans i).Y / 8) % num_cores = core) ∧
        (∀ i, i < (SetupNormal args thread).NumPartialBlocks →
          (((SetupNormal args thread).PartialBlocks i).Y / 8) % num_cores = core) ∧
        (∀ i, i < (SetupSubsector args thread).NumFullSpans →
          (((SetupSubsector args thread).FullSpans i).Y / 8) % num_cores = core) ∧
        (∀ i, i < (SetupSubsector args thread).NumPartialBlocks →
          (((SetupSubsector args thread).PartialBlocks i).Y / 8) % num_cores = core)) := by
  refine ⟨core_skip_spec miny core num_cores (by omega) hc0 hc, ?_⟩
  intro args thread hcore hnc
  subst hcore hnc
  have hn' : 0 < thread.num_cores := by omega
  by_cases h : minx args ≥ maxx args ∨ ScreenTriangle.miny args ≥ maxy args
  · rw [SetupNormal_early args thread h, SetupSubsector_early args thread h]
    refine ⟨?_, ?_, ?_, ?_⟩ <;> intro i hi <;> exact absurd hi (Nat.not_lt_zero _)
  · have hN := rows_of_inv args thread _ _ _ (SetupNormal_inv args thread hn' h).1 hn' hc0 hc
    have hS := rows_of_inv args thread _ _ _ (SetupSubsector_inv args thread hn' h).1 hn' hc0 hc
    exact ⟨hN.1, hN.2, hS.1, hS.2⟩

/-- Witness of C5: `miny = 16`, worker 1 of 4. -/
theorem worker_sharding_witness :
    ((0 : Int) ≤ 16 ∧ (8 : Int) ∣ 16 ∧ (1 : Int) ≤ 4 ∧ (0 : Int) ≤ 1 ∧ (1 : Int) < 4) ∧
      ((0 ≤ core_skip 16 1 4 ∧ core_skip 16 1 4 < 4 ∧ (16 / 8 + core_skip 16 1 4) % 4 = 1) ∧
      (∀ (args : TriDrawTriangleArgs) (thread : WorkerThreadData),
        thread.core = 1 → thread.num_cores = 4 →
        (∀ i, i < (SetupNormal args thread).NumFullSpans →
          (((SetupNormal args thread).FullSpans i).Y / 8) % 4 = 1) ∧
        (∀ i, i < (SetupNormal args thread).NumPartialBlocks →
          (((SetupNormal args thread).PartialBlocks i).Y / 8) % 4 = 1) ∧
        (∀ i, i < (SetupSubsector args thread).NumFullSpans →
          (((SetupSubsector args thread).FullSpans i).Y / 8) % 4 = 1) ∧
        (∀ i, i < (SetupSubsector args thread).NumPartialBlocks →
          (((SetupSubsector args thread).PartialBlocks i).Y / 8) % 4 = 1))) :=
  ⟨by decide, worker_sharding 16 1 4 (by decide) (by decide) (by decide) (by decide) (by decide)⟩

/-- C6. Clip containment: for either binner variant, no emitted partial block
has a set coverage bit for a pixel outside `[0, clipright) x [0, clipbottom)`,
and every block of every emitted full span lies inside that rectangle
(`X ≥ 0`, `Y ≥ 0`, `X + 8 * Length ≤ clipright`, `Y + 8 ≤ clipbottom`). -/
theorem clip_containment (args : TriDrawTriangleArgs) (thread : WorkerThreadData)
    (hn : 1 ≤ thread.num_cores) :
    ClipContained args (SetupNormal args thread) ∧
      ClipContained args (SetupSubsector args thread) := by
  have hn' : 0 < thread.num_cores := by omega
  unfold ClipContained
  by_cases h : minx args ≥ maxx args ∨ miny args ≥ maxy args
  · rw [SetupNormal_early args thread h, SetupSubsector_early args thread h]
    refine ⟨⟨?_, ?_⟩, ⟨?_, ?_⟩⟩ <;> intro i hi <;> exact absurd hi (Nat.not_lt_zero _)
  · exact ⟨clip_of_inv args thread _ _ _ (normalPass args) (SetupNormal_inv args thread hn' h).1
        (fun x y px py hx hy => normal_tile_iff args x y px py hx hy)
        (fun px py hp => ⟨hp.2.1, hp.2.2.1⟩) hn',
      clip_of_inv args thread _ _ _ (subsectorPass args) (SetupSubsector_inv args thread hn' h).1
        (fun x y px py hx hy => subsector_tile_iff args x y px py hx hy)
        (fun px py hp => ⟨hp.2.1, hp.2.2.1⟩) hn'⟩

/-- Witness of C6: the sample triangle with a single worker. -/
theorem clip_containment_witness :
    (1 : Int) ≤ sampleThread.num_cores ∧
      (ClipContained sampleArgs (SetupNormal sampleArgs sampleThread) ∧
        ClipContained sampleArgs (SetupSubsector sampleArgs sampleThread)) :=
  ⟨by decide, clip_containment sampleArgs sampleThread (by decide)⟩

/-- C8. Empty output for degenerates: for both binner variants, every clip
rectangle, stencil and subsector state and every worker, a triangle with two
coincident fixed-point vertices, and a triangle that is fully off-screen,
yields `NumFullSpans = 0` and `NumPartialBlocks = 0`.  Off-screen is stated on
the fixed-point coordinates `X = round(16 * x)`: all `X ≤ 0` (which holds when
all `x < 0`), all `X ≥ 16 * clipright` (when all `x ≥ clipright`), and the
same for `Y`. -/
theorem degenerate_empty (args : TriDrawTriangleArgs) (thread : WorkerThreadData)
    (h : ((args.X1 = args.X2 ∧ args.Y1 = args.Y2) ∨ (args.X2 = args.X3 ∧ args.Y2 = args.Y3) ∨
        (args.X3 = args.X1 ∧ args.Y3 = args.Y1)) ∨
      ((args.X1 ≤ 0 ∧ args.X2 ≤ 0 ∧ args.X3 ≤ 0) ∨
        (16 * args.clipright ≤ args.X1 ∧ 16 * args.clipright ≤ args.X2 ∧
          16 * args.clipright ≤ args.X3) ∨
        (args.Y1 ≤ 0 ∧ args.Y2 ≤ 0 ∧ args.Y3 ≤ 0) ∨
        (16 * args.clipbottom ≤ args.Y1 ∧ 16 * args.clipbottom ≤ args.Y2 ∧
          16 * args.clipbottom ≤ args.Y3))) :
    ((SetupNormal args thread).NumFullSpans = 0 ∧ (SetupNormal args thread).NumPartialBlocks = 0) ∧
      ((SetupSubsector args thread).NumFullSpans = 0 ∧
        (SetupSubsector args thread).NumPartialBlocks = 0) := by
  rcases h with h | h
  · exact counts_of_coincident args thread h
  · have he := early_of_offscreen args h
    rw [SetupNormal_early args thread he, SetupSubsector_early args thread he]
    exact ⟨⟨rfl, rfl⟩, ⟨rfl, rfl⟩⟩

/-- Witness of C8: the sample triangle with its second vertex moved onto the
first. -/
theorem degenerate_empty_witness :
    (coincidentArgs.X1 = coincidentArgs.X2 ∧ coincidentArgs.Y1 = coincidentArgs.Y2) ∧
      (((SetupNormal coincidentArgs sampleThread).NumFullSpans = 0 ∧
          (SetupNormal coincidentArgs sampleThread).NumPartialBlocks = 0) ∧
        ((SetupSubsector coincidentArgs sampleThread).NumFullSpans = 0 ∧
          (SetupSubsector coincidentArgs sampleThread).NumPartialBlocks = 0)) :=
  ⟨⟨rfl, rfl⟩, degenerate_empty coincidentArgs sampleThread (Or.inl (Or.inl ⟨rfl, rfl⟩))⟩

/-- C9 (as stated, refuted). On 32-bit `int` the corner tests and the pixel
tests of a block can disagree once the half-space functions wrap around. For
the triangle of `wrapTileArgs`, whose vertices lie about 800 000 pixels from
the origin, with a clip rectangle of 8 x 8 pixels, all twelve corner tests of
the block at the origin are positive while not all pixel tests are: over the
sample stencil buffer, uniformly 0, `SetupNormal` accepts the block as a span;
over the buffer whose tiles are heterogeneous with every byte 0 it computes
the pixel masks and emits no span. The two states differ as the claim says,
and the outputs differ. -/
theorem uniform_tile_equivalence_as_stated :
    (∀ b, tileEquiv wrapTileArgs.stencilMasks wrapTileArgs.stencilValues (fun _ => 0)
        (fun _ => 0) b) ∧
      (SetupNormal32 wrapTileArgs sampleThread).NumFullSpans = 1 ∧
      (SetupNormal32 { wrapTileArgs with stencilMasks := fun _ => 0, stencilValues := fun _ => 0 }
        sampleThread).NumFullSpans = 0 ∧
      SetupNormal32 wrapTileArgs sampleThread ≠
        SetupNormal32
          { wrapTileArgs with stencilMasks := fun _ => 0, stencilValues := fun _ => 0 }
          sampleThread := by
  refine ⟨fun _ => Or.inr (Or.inl ⟨0, by decide, rfl, rfl, fun _ _ _ => rfl⟩),
    wrapTile_counts.1, wrapTile_counts.2, ?_⟩
  intro h
  have hc := congrArg WorkerThreadData.NumFullSpans h
  rw [wrapTile_counts.1, wrapTile_counts.2] at hc
  exact absurd hc (by decide)

/-- C9 (amended). Uniform-tile equivalence while the edge arithmetic stays in
the range of `int`: for every triangle whose deltas and whose half-space
functions at the pixels of the blocks of its bounding rectangle fit in `int`,
every clip rectangle and every worker with `num_cores ≥ 1`, if two stencil
buffer states differ only in that some tiles are uniform with a value `v`
(mask `0xFFFFFF00 | v`) in one state and heterogeneous (mask `0`) with all 64
per-pixel bytes equal to `v` in the other, then the 32-bit `SetupNormal`
returns the same output on both states (the same counts and the same
`FullSpans` and `PartialBlocks`), and so does the 32-bit `SetupSubsector`. -/
theorem uniform_tile_equivalence (args : TriDrawTriangleArgs) (masks2 values2 : Int → Nat)
    (thread : WorkerThreadData) (hn : 0 < thread.num_cores) (hr : EdgesInRange args)
    (h : ∀ b, tileEquiv args.stencilMasks args.stencilValues masks2 values2 b) :
    SetupNormal32 args thread =
        SetupNormal32 { args with stencilMasks := masks2, stencilValues := values2 } thread ∧
      SetupSubsector32 args thread =
        SetupSubsector32 { args with stencilMasks := masks2, stencilValues := values2 }
          thread := by
  have hr2 : EdgesInRange { args with stencilMasks := masks2, stencilValues := values2 } := hr
  rw [SetupNormal32_eq args thread hn hr, SetupNormal32_eq _ thread hn hr2,
    SetupSubsector32_eq args thread hn hr, SetupSubsector32_eq _ thread hn hr2]
  exact ⟨SetupNormal_of_tileEquiv args masks2 values2 h thread,
    SetupSubsector_of_tileEquiv args masks2 values2 h thread⟩

/-- Witness of C9 (amended): the sample triangle, whose edge values fit in
`int`, with the sample stencil buffer, uniformly 0, against the buffer whose
tiles are all heterogeneous with every byte 0. -/
theorem uniform_tile_equivalence_witness :
    0 < sampleThread.num_cores ∧ EdgesInRange sampleArgs ∧
      (∀ b, tileEquiv sampleArgs.stencilMasks sampleArgs.stencilValues (fun _ => 0) (fun _ => 0)
        b) ∧
      (SetupNormal32 sampleArgs sampleThread =
        SetupNormal32 { sampleArgs with stencilMasks := fun _ => 0, stencilValues := fun _ => 0 }
          sampleThread ∧
      SetupSubsector32 sampleArgs sampleThread =
        SetupSubsector32
          { sampleArgs with stencilMasks := fun _ => 0, stencilValues := fun _ => 0 }
          sampleThread) :=
  ⟨by decide, sample_inRange,
    fun _ => Or.inr (Or.inl ⟨0, by decide, rfl, rfl, fun _ _ _ => rfl⟩),
    uniform_tile_equivalence sampleArgs (fun _ => 0) (fun _ => 0) sampleThread (by decide)
      sample_inRange (fun _ => Or.inr (Or.inl ⟨0, by decide, rfl, rfl, fun _ _ _ => rfl⟩))⟩

/-- C10, counterexample. The claim fails for a span that runs past the end of
its stencil row: with `stencilPitch = 2`, a span of three tiles at (0,0) and
`stencilWriteValue = 7`, the pixel (0,8) is not covered by the list, its
stencil value before the call is 0, and after `StencilWrite` it is 7. -/
theorem StencilWrite_overlong_span :
    sampleArgs.stencilWriteValue < 256 ∧ ¬ Covers overlongThread 0 8 ∧
      stencilAt sampleArgs.stencilMasks sampleArgs.stencilValues sampleArgs.stencilPitch 0 8 = 0 ∧
      stencilAt (StencilWrite sampleArgs overlongThread).stencilMasks
        (StencilWrite sampleArgs overlongThread).stencilValues sampleArgs.stencilPitch 0 8 = 7 := by
  refine ⟨by decide, ?_, by decide, by decide⟩
  rintro (⟨i, _, hs⟩ | ⟨i, hi, _⟩)
  · have h := hs.2.2.2
    have hY : (overlongThread.FullSpans i).Y = 0 := rfl
    rw [hY] at h
    omega
  · exact absurd hi (Nat.not_lt_zero _)

/-- C10, amended. For every stencil state, every `stencilWriteValue` in
`[0, 255]` and every span/block list whose entries are tile-aligned and lie
within the stencil row (`X + 8 * Length ≤ 8 * stencilPitch` for spans,
`X + 8 ≤ 8 * stencilPitch` for blocks), after `StencilWrite` the stencil value
denoted at each pixel of the buffer is `stencilWriteValue` if the list covers
the pixel and the value denoted before the call otherwise; a tile that no span
and no block names keeps its mask word and its 64 bytes. -/
theorem StencilWrite_meaning (args : TriDrawTriangleArgs) (thread : WorkerThreadData)
    (hW : args.stencilWriteValue < 256) (hwf : WithinRows args.stencilPitch thread) :
    (∀ px py : Int, 0 ≤ px → px < 8 * args.stencilPitch → 0 ≤ py →
      (Covers thread px py →
        stencilAt (StencilWrite args thread).stencilMasks (StencilWrite args thread).stencilValues
          args.stencilPitch px py = args.stencilWriteValue) ∧
      (¬ Covers thread px py →
        stencilAt (StencilWrite args thread).stencilMasks (StencilWrite args thread).stencilValues
          args.stencilPitch px py =
        stencilAt args.stencilMasks args.stencilValues args.stencilPitch px py)) ∧
    (∀ b : Int,
      (∀ i, i < thread.NumFullSpans → ∀ j : Nat, j < (thread.FullSpans i).Length →
        b ≠ Int.tdiv (thread.FullSpans i).X 8 + Int.tdiv (thread.FullSpans i).Y 8 * args.stencilPitch +
          (j : Int)) →
      (∀ i, i < thread.NumPartialBlocks →
        b ≠ Int.tdiv (thread.PartialBlocks i).X 8 +
          Int.tdiv (thread.PartialBlocks i).Y 8 * args.stencilPitch) →
      (StencilWrite args thread).stencilMasks b = args.stencilMasks b ∧
        ∀ k : Nat, k < 64 →
          (StencilWrite args thread).stencilValues (b * 64 + (k : Int)) =
            args.stencilValues (b * 64 + (k : Int))) :=
  ⟨fun px py hpx0 hpx _ => StencilWrite_pixel args thread hW hwf px py hpx0 hpx,
    fun b hs hb => StencilWrite_frame args thread hW b hs hb⟩

theorem sampleList_withinRows : WithinRows sampleArgs.stencilPitch sampleList := by
  constructor
  · intro i _
    show (0 : Int) ≤ 0 ∧ (0 : Int) ≤ 0 ∧ (8 : Int) ∣ 0 ∧ (8 : Int) ∣ 0 ∧
      (0 : Int) + 8 * ((2 : Nat) : Int) ≤ 8 * 2
    decide
  · intro i _
    show (0 : Int) ≤ 0 ∧ (0 : Int) ≤ 8 ∧ (8 : Int) ∣ 0 ∧ (8 : Int) ∣ 8 ∧ (0 : Int) + 8 ≤ 8 * 2
    decide

/-- Witness of C10: the sample stencil buffer and a list of one span and one
block within its rows. -/
theorem StencilWrite_meaning_witness :
    (sampleArgs.stencilWriteValue < 256 ∧ WithinRows sampleArgs.stencilPitch sampleList) ∧
    ((∀ px py : Int, 0 ≤ px → px < 8 * sampleArgs.stencilPitch → 0 ≤ py →
      (Covers sampleList px py →
        stencilAt (StencilWrite sampleArgs sampleList).stencilMasks
          (StencilWrite sampleArgs sampleList).stencilValues
          sampleArgs.stencilPitch px py = sampleArgs.stencilWriteValue) ∧
      (¬ Covers sampleList px py →
        stencilAt (StencilWrite sampleArgs sampleList).stencilMasks
          (StencilWrite sampleArgs sampleList).stencilValues
          sampleArgs.stencilPitch px py =
        stencilAt sampleArgs.stencilMasks sampleArgs.stencilValues sampleArgs.stencilPitch
          px py)) ∧
    (∀ b : Int,
      (∀ i, i < sampleList.NumFullSpans → ∀ j : Nat, j < (sampleList.FullSpans i).Length →
        b ≠ Int.tdiv (sampleList.FullSpans i).X 8 +
          Int.tdiv (sampleList.FullSpans i).Y 8 * sampleArgs.stencilPitch + (j : Int)) →
      (∀ i, i < sampleList.NumPartialBlocks →
        b ≠ Int.tdiv (sampleList.PartialBlocks i).X 8 +
          Int.tdiv (sampleList.PartialBlocks i).Y 8 * sampleArgs.stencilPitch) →
      (StencilWrite sampleArgs sampleList).stencilMasks b = sampleArgs.stencilMasks b ∧
        ∀ k : Nat, k < 64 →
          (StencilWrite sampleArgs sampleList).stencilValues (b * 64 + (k : Int)) =
            sampleArgs.stencilValues (b * 64 + (k : Int)))) :=
  ⟨⟨by decide, sampleList_withinRows⟩,
    StencilWrite_meaning sampleArgs sampleList (by decide) sampleList_withinRows⟩

/-- C11. `StencilWrite` on full spans: for a span/block list in which no
partial block names a tile of a full span, after `StencilWrite` the stencil
mask word of each of the `Length` consecutive tiles of every full span,
starting at the tile index `X / 8 + (Y / 8) * stencilPitch`, is
`0xFFFFFF00 | stencilWriteValue`, and the 64 per-pixel bytes of those tiles
are the ones from before the call. -/
theorem StencilWrite_full_spans (args : TriDrawTriangleArgs) (thread : WorkerThreadData)
    (hsep : ∀ i, i < thread.NumPartialBlocks → ∀ n, n < thread.NumFullSpans →
      ∀ j : Nat, j < (thread.FullSpans n).Length →
        Int.tdiv (thread.PartialBlocks i).X 8 +
            Int.tdiv (thread.PartialBlocks i).Y 8 * args.stencilPitch ≠
          Int.tdiv (thread.FullSpans n).X 8 +
            Int.tdiv (thread.FullSpans n).Y 8 * args.stencilPitch + (j : Int))
    (n : Nat) (hn : n < thread.NumFullSpans) (j : Nat) (hj : j < (thread.FullSpans n).Length) :
    (StencilWrite args thread).stencilMasks
        (Int.tdiv (thread.FullSpans n).X 8 +
          Int.tdiv (thread.FullSpans n).Y 8 * args.stencilPitch + (j : Int)) =
        0xFFFFFF00 ||| args.stencilWriteValue ∧
      ∀ k : Nat, k < 64 →
        (StencilWrite args thread).stencilValues
            ((Int.tdiv (thread.FullSpans n).X 8 +
              Int.tdiv (thread.FullSpans n).Y 8 * args.stencilPitch + (j : Int)) * 64 + (k : Int)) =
          args.stencilValues
            ((Int.tdiv (thread.FullSpans n).X 8 +
              Int.tdiv (thread.FullSpans n).Y 8 * args.stencilPitch + (j : Int)) * 64 + (k : Int)) := by
  have hb := blocks_fold_other args.stencilWriteValue args.stencilPitch thread.PartialBlocks
    thread.NumPartialBlocks
    ((List.range thread.NumFullSpans).foldl
      (fun s i => writeSpan args.stencilWriteValue args.stencilPitch s (thread.FullSpans i))
      { stencilValues := args.stencilValues, stencilMasks := args.stencilMasks })
    (Int.tdiv (thread.FullSpans n).X 8 +
      Int.tdiv (thread.FullSpans n).Y 8 * args.stencilPitch + (j : Int))
    (fun i hi he => hsep i hi n hn j hj he.symm)
  unfold StencilWrite
  simp only
  constructor
  · rw [hb.1]
    exact spans_fold_masks _ _ _ _ _ _ ⟨n, hn, j, hj, rfl⟩
  · intro k hk
    rw [hb.2 k hk, spans_fold_values]

theorem sampleList_separated : ∀ i, i < sampleList.NumPartialBlocks →
    ∀ n, n < sampleList.NumFullSpans → ∀ j : Nat, j < (sampleList.FullSpans n).Length →
      Int.tdiv (sampleList.PartialBlocks i).X 8 +
          Int.tdiv (sampleList.PartialBlocks i).Y 8 * sampleArgs.stencilPitch ≠
        Int.tdiv (sampleList.FullSpans n).X 8 +
          Int.tdiv (sampleList.FullSpans n).Y 8 * sampleArgs.stencilPitch + (j : Int) := by
  intro i _ n _ j hj
  have hj2 : j < 2 := hj
  show Int.tdiv 0 8 + Int.tdiv 8 8 * 2 ≠ Int.tdiv 0 8 + Int.tdiv 0 8 * 2 + (j : Int)
  have e1 : Int.tdiv 0 8 = 0 := by decide
  have e2 : Int.tdiv 8 8 = 1 := by decide
  rw [e1, e2]
  omega

/-- Witness of C11: the second tile of the span of the sample list, whose
block lies in the tile row below. -/
theorem StencilWrite_full_spans_witness :
    (StencilWrite sampleArgs sampleList).stencilMasks
        (Int.tdiv (sampleList.FullSpans 0).X 8 +
          Int.tdiv (sampleList.FullSpans 0).Y 8 * sampleArgs.stencilPitch + ((1 : Nat) : Int)) =
        0xFFFFFF00 ||| sampleArgs.stencilWriteValue ∧
      ∀ k : Nat, k < 64 →
        (StencilWrite sampleArgs sampleList).stencilValues
            ((Int.tdiv (sampleList.FullSpans 0).X 8 +
              Int.tdiv (sampleList.FullSpans 0).Y 8 * sampleArgs.stencilPitch + ((1 : Nat) : Int)) * 64 +
              (k : Int)) =
          sampleArgs.stencilValues
            ((Int.tdiv (sampleList.FullSpans 0).X 8 +
              Int.tdiv (sampleList.FullSpans 0).Y 8 * sampleArgs.stencilPitch + ((1 : Nat) : Int)) * 64 +
              (k : Int)) :=
  StencilWrite_full_spans sampleArgs sampleList sampleList_separated 0 (by decide) 1 (by decide)

/-- C12. Stencil tile format invariant: if before `StencilWrite` every stencil
mask word is `0x00000000` or `0xFFFFFF00 | v` for a byte `v`, and
`stencilWriteValue` is a byte, then after `StencilWrite`, for any span/block
list, every mask word again has one of these two forms. -/
theorem stencil_format_invariant (args : TriDrawTriangleArgs) (thread : WorkerThreadData)
    (hW : args.stencilWriteValue < 256) (hlegal : ∀ b, LegalMask (args.stencilMasks b)) :
    ∀ b, LegalMask ((StencilWrite args thread).stencilMasks b) := by
  unfold StencilWrite
  simp only
  apply fold_inv (fun (s : StencilBuffer) => ∀ b, LegalMask (s.stencilMasks b))
  · intro s i hs
    exact writeBlock_legal _ hW _ s _ hs
  · apply fold_inv (fun (s : StencilBuffer) => ∀ b, LegalMask (s.stencilMasks b))
    · intro s i hs
      exact writeSpan_legal _ hW _ s _ hs
    · exact hlegal

/-- Witness of C12: the sample stencil buffer, uniformly 0, and the list whose
span runs past the end of its row. -/
theorem stencil_format_invariant_witness :
    (sampleArgs.stencilWriteValue < 256 ∧ ∀ b, LegalMask (sampleArgs.stencilMasks b)) ∧
      ∀ b, LegalMask ((StencilWrite sampleArgs overlongThread).stencilMasks b) :=
  ⟨⟨by decide, fun _ => Or.inr ⟨0, by decide, rfl⟩⟩,
    stencil_format_invariant sampleArgs overlongThread (by decide)
      (fun _ => Or.inr ⟨0, by decide, rfl⟩)⟩

/-- C13. Stencil writer collapse: when `StencilWrite` processes a partial
block on its tile `sb = X / 8 + Y / 8 * stencilPitch`, the tile ends uniform
with the mask word `0xFFFFFF00 | stencilWriteValue` if and only if every one
of its 64 pixels has its mask bit set or denoted `stencilWriteValue` before
the write; otherwise the tile ends heterogeneous (its mask word is not of the
uniform form, and is `0` when the word was legal before) and every pixel whose
mask bit is clear holds in its per-pixel byte the value it denoted before: the
materialized uniform value or its old byte. -/
theorem stencil_writer_collapse (W : Nat) (p : Int) (s : StencilBuffer) (blk : TriPartialBlock) :
    ((writeBlock W p s blk).stencilMasks (Int.tdiv blk.X 8 + Int.tdiv blk.Y 8 * p) =
        0xFFFFFF00 ||| W ↔
      ∀ k : Nat, k < 64 → (maskBit blk.Mask0 blk.Mask1 (k % 8) (k / 8) = true ∨
        tileValue s (Int.tdiv blk.X 8 + Int.tdiv blk.Y 8 * p) k = W)) ∧
    ((¬ ∀ k : Nat, k < 64 → (maskBit blk.Mask0 blk.Mask1 (k % 8) (k / 8) = true ∨
        tileValue s (Int.tdiv blk.X 8 + Int.tdiv blk.Y 8 * p) k = W)) →
      ((writeBlock W p s blk).stencilMasks (Int.tdiv blk.X 8 + Int.tdiv blk.Y 8 * p) &&&
          0xffffff00) ≠ 0xffffff00 ∧
        (LegalMask (s.stencilMasks (Int.tdiv blk.X 8 + Int.tdiv blk.Y 8 * p)) →
          (writeBlock W p s blk).stencilMasks (Int.tdiv blk.X 8 + Int.tdiv blk.Y 8 * p) = 0) ∧
        ∀ k : Nat, k < 64 → maskBit blk.Mask0 blk.Mask1 (k % 8) (k / 8) = false →
          (writeBlock W p s blk).stencilValues
              ((Int.tdiv blk.X 8 + Int.tdiv blk.Y 8 * p) * 64 + (k : Int)) =
            tileValue s (Int.tdiv blk.X 8 + Int.tdiv blk.Y 8 * p) k) := by
  obtain ⟨h1, h2⟩ := writeBlock_collapse W p s blk
  refine ⟨h1, fun hno => ?_⟩
  obtain ⟨hm, hv⟩ := h2 hno
  refine ⟨?_, ?_, hv⟩
  · rw [hm]
    exact (materialize_spec s _).1
  · intro hl
    rw [hm]
    exact materialize_mask s _ hl

/-- Witness of C13: on the sample stencil buffer, uniformly 0, a block that
sets four pixels to 7 leaves its tile heterogeneous, with mask word 0 and the
byte 0 at every pixel whose bit is clear. -/
theorem stencil_writer_collapse_witness :
    (writeBlock 7 2 sampleBuffer sampleBlock).stencilMasks
        (Int.tdiv sampleBlock.X 8 + Int.tdiv sampleBlock.Y 8 * 2) = 0 ∧
      ∀ k : Nat, k < 64 → maskBit sampleBlock.Mask0 sampleBlock.Mask1 (k % 8) (k / 8) = false →
        (writeBlock 7 2 sampleBuffer sampleBlock).stencilValues
            ((Int.tdiv sampleBlock.X 8 + Int.tdiv sampleBlock.Y 8 * 2) * 64 + (k : Int)) =
          tileValue sampleBuffer (Int.tdiv sampleBlock.X 8 + Int.tdiv sampleBlock.Y 8 * 2) k :=
  have h := (stencil_writer_collapse 7 2 sampleBuffer sampleBlock).2
    (fun hall => absurd (hall 63 (by decide)) (by decide))
  ⟨h.2.1 (Or.inr ⟨0, by decide, rfl⟩), h.2.2⟩

/-- C14. `SubsectorWrite` writes exactly the covered pixels: after the call
the subsector buffer entry at the index `px + py * pitch` is `subsectorDepth`
for every pixel `(px, py)` that the list covers (a pixel of the
`Length * 8` by 8 rectangle of a full span, or a pixel whose bit is set in a
partial block), and every entry whose index is not the index of a covered
pixel is unchanged; for a list whose entries lie within the row width
(`0 ≤ X`, `X + 8 * Length ≤ pitch` for spans, `X + 8 ≤ pitch` for blocks),
the entry of every pixel of the buffer that the list does not cover is
unchanged. -/
theorem SubsectorWrite_exact (args : TriDrawTriangleArgs) (thread : WorkerThreadData)
    (hwf : WithinPitch args.pitch thread) :
    (∀ px py : Int, Covers thread px py →
        SubsectorWrite args thread (px + py * args.pitch) = args.subsectorDepth) ∧
      (∀ a : Int, (¬ ∃ px py : Int, Covers thread px py ∧ a = px + py * args.pitch) →
        SubsectorWrite args thread a = args.subsectorGBuffer a) ∧
      (∀ px py : Int, 0 ≤ px → px < args.pitch → ¬ Covers thread px py →
        SubsectorWrite args thread (px + py * args.pitch) =
          args.subsectorGBuffer (px + py * args.pitch)) := by
  refine ⟨fun px py hc => ?_, fun a hno => ?_, fun px py hpx0 hpx hno => ?_⟩
  · exact (SubsectorWrite_entry args thread _).1 ⟨px, py, hc, rfl⟩
  · exact (SubsectorWrite_entry args thread a).2 hno
  · exact (SubsectorWrite_entry args thread _).2
      (fun h => hno (covers_of_index args.pitch thread hwf px py hpx0 hpx h))

theorem sampleList_withinPitch : WithinPitch sampleArgs.pitch sampleList := by
  constructor
  · intro i _
    show (0 : Int) ≤ 0 ∧ (0 : Int) + 8 * ((2 : Nat) : Int) ≤ 16
    decide
  · intro i _
    show (0 : Int) ≤ 0 ∧ (0 : Int) + 8 ≤ 16
    decide

/-- Witness of C14: the sample list, one span of two tiles and one block,
within rows of 16 pixels. -/
theorem SubsectorWrite_exact_witness :
    WithinPitch sampleArgs.pitch sampleList ∧
      ((∀ px py : Int, Covers sampleList px py →
          SubsectorWrite sampleArgs sampleList (px + py * sampleArgs.pitch) =
            sampleArgs.subsectorDepth) ∧
        (∀ a : Int, (¬ ∃ px py : Int, Covers sampleList px py ∧ a = px + py * sampleArgs.pitch) →
          SubsectorWrite sampleArgs sampleList a = sampleArgs.subsectorGBuffer a) ∧
        (∀ px py : Int, 0 ≤ px → px < sampleArgs.pitch → ¬ Covers sampleList px py →
          SubsectorWrite sampleArgs sampleList (px + py * sampleArgs.pitch) =
            sampleArgs.subsectorGBuffer (px + py * sampleArgs.pitch))) :=
  ⟨sampleList_withinPitch, SubsectorWrite_exact sampleArgs sampleList sampleList_withinPitch⟩

/-- C15 (as stated, refuted). For the triangle (0,0), (0,3424), (3424,0) in
pixels with a clip rectangle of 16 x 16 pixels and one worker, the tile at the
origin is walked, and at its pixel (1,1) all three corrected half-space
functions are strictly positive, the pixel is inside the clip rectangle, its
stencil value is at least `stencilTestValue` and its subsector entry is at
least `subsectorDepth`. Yet on 32-bit `int` the constant
`C2 = 54784 * 54784` wraps to a negative value, every block is rejected by
the corner test of edge 2, and `SetupSubsector` emits nothing: the pixel is
not covered. -/
theorem SetupSubsector_coverage_as_stated :
    (0 < sampleThread.num_cores ∧ 0 ≤ sampleThread.core ∧
        sampleThread.core < sampleThread.num_cores) ∧
      (minx overflowArgs < maxx overflowArgs ∧ miny overflowArgs < maxy overflowArgs) ∧
      visits overflowArgs sampleThread 0 0 ∧
      (edge1 overflowArgs 1 1 > 0 ∧ edge2 overflowArgs 1 1 > 0 ∧ edge3 overflowArgs 1 1 > 0 ∧
        (1 : Int) < overflowArgs.clipright ∧ (1 : Int) < overflowArgs.clipbottom ∧
        stencilAt overflowArgs.stencilMasks overflowArgs.stencilValues overflowArgs.stencilPitch
          1 1 ≥ overflowArgs.stencilTestValue ∧
        overflowArgs.subsectorGBuffer (1 + 1 * overflowArgs.pitch) ≥
          overflowArgs.subsectorDepth) ∧
      ((SetupSubsector32 overflowArgs sampleThread).NumFullSpans = 0 ∧
        (SetupSubsector32 overflowArgs sampleThread).NumPartialBlocks = 0) ∧
      ¬ Covers (SetupSubsector32 overflowArgs sampleThread) 1 1 :=
  ⟨⟨by decide, by decide, by decide⟩, ⟨by decide, by decide⟩, overflow_visits,
    ⟨by decide, by decide, by decide, by decide, by decide, overflow_stencil_passes 1 1,
      by decide⟩,
    overflow_counts.2.1,
    not_covers_of_counts_zero _ overflow_counts.2.1.1 overflow_counts.2.1.2 1 1⟩

/-- C15 (amended). `SetupSubsector` coverage while the edge arithmetic stays
in the range of `int`: for every input whose deltas and whose half-space
functions at the pixels of the blocks of the bounding rectangle fit in `int`,
within every tile `(tx, ty)` that the worker walks, a pixel `(px, py)` is
covered by the output of the 32-bit `SetupSubsector` if and only if all three
corrected half-space functions are strictly positive at it, `px < clipright`,
`py < clipbottom`, its stencil value (the uniform value of its tile or its
per-pixel byte) is at least `stencilTestValue`, and
`subsectorGBuffer[px + py * pitch] ≥ subsectorDepth`; and when every subsector
buffer entry is smaller than `subsectorDepth` the variant emits nothing. -/
theorem SetupSubsector_coverage (args : TriDrawTriangleArgs) (thread : WorkerThreadData)
    (hn : 0 < thread.num_cores) (hc0 : 0 ≤ thread.core) (hc : thread.core < thread.num_cores)
    (hr : EdgesInRange args) :
    (minx args < maxx args → miny args < maxy args →
      ∀ tx ty : Int, visits args thread tx ty →
        ∀ px py : Int, tx ≤ px → px < tx + 8 → ty ≤ py → py < ty + 8 →
          (Covers (SetupSubsector32 args thread) px py ↔
            (edge1 args px py > 0 ∧ edge2 args px py > 0 ∧ edge3 args px py > 0 ∧
              px < args.clipright ∧ py < args.clipbottom ∧
              stencilAt args.stencilMasks args.stencilValues args.stencilPitch px py ≥
                args.stencilTestValue ∧
              args.subsectorGBuffer (px + py * args.pitch) ≥ args.subsectorDepth))) ∧
    ((∀ a, args.subsectorGBuffer a < args.subsectorDepth) →
      (SetupSubsector32 args thread).NumFullSpans = 0 ∧
        (SetupSubsector32 args thread).NumPartialBlocks = 0) := by
  rw [SetupSubsector32_eq args thread hn hr]
  exact subsectorCoverage_exact args thread hn hc0 hc

/-- Witness of C15 (amended): the pixel (1,1) of the sample triangle, whose
subsector entry 0 is at least the depth 0, is covered; with the buffer filled
with 10 and the depth 11 nothing is emitted, although the triangle covers the
tile at (0,0) completely. -/
theorem SetupSubsector_coverage_witness :
    Covers (SetupSubsector32 sampleArgs sampleThread) 1 1 ∧
      ((SetupSubsector32 depthRejectArgs sampleThread).NumFullSpans = 0 ∧
        (SetupSubsector32 depthRejectArgs sampleThread).NumPartialBlocks = 0) :=
  ⟨((SetupSubsector_coverage sampleArgs sampleThread (by decide) (by decide) (by decide)
      sample_inRange).1
      (by decide) (by decide) 0 0 sample_visits 1 1 (by decide) (by decide) (by decide)
      (by decide)).2 (by decide),
    (SetupSubsector_coverage depthRejectArgs sampleThread (by decide) (by decide) (by decide)
      sample_inRange).2
      (fun _ => (by decide : (10 : Nat) < 11))⟩

/-- C16. Well-formed output entries: for either binner variant, each of the
first `NumFullSpans` spans has `Length ≥ 1` and `X`, `Y` that are non-negative
multiples of 8, and each of the first `NumPartialBlocks` blocks has `X`, `Y`
that are non-negative multiples of 8 and a mask pair that is neither `(0, 0)`
nor `(0xFFFFFFFF, 0xFFFFFFFF)`. -/
theorem wellformed_entries (args : TriDrawTriangleArgs) (thread : WorkerThreadData)
    (hn : 0 < thread.num_cores) :
    WellFormed (SetupNormal args thread) ∧ WellFormed (SetupSubsector args thread) := by
  by_cases he : minx args ≥ maxx args ∨ miny args ≥ maxy args
  · rw [SetupNormal_early args thread he, SetupSubsector_early args thread he]
    exact ⟨wellFormed_of_counts_zero _ rfl rfl, wellFormed_of_counts_zero _ rfl rfl⟩
  · exact ⟨wellFormed_of_inv args thread _ _ _ (SetupNormal_inv args thread hn he).1 hn,
      wellFormed_of_inv args thread _ _ _ (SetupSubsector_inv args thread hn he).1 hn⟩

/-- Witness of C16: the upper triangle of the quad, (0,0), (16,16), (16,0),
with a clip rectangle of 17 x 17 pixels and a single worker. -/
theorem wellformed_entries_witness :
    0 < sampleThread.num_cores ∧
      (WellFormed (SetupNormal (withVertices wideArgs 0 0 256 256 256 0) sampleThread) ∧
        WellFormed (SetupSubsector (withVertices wideArgs 0 0 256 256 256 0) sampleThread)) :=
  ⟨by decide, wellformed_entries (withVertices wideArgs 0 0 256 256 256 0) sampleThread
    (by decide)⟩

/-- C17. Emission order: for either binner variant, the emitted partial blocks
are strictly increasing in the lexicographic order of `(Y, X)`; the emitted
full spans are strictly increasing in the same order, every tile of a span is
a tile of its row that the worker walks, and two spans of the same row never
overlap: the `X` of the later span is greater than `X + 8 * (Length - 1)` of
the earlier one. -/
theorem emission_order (args : TriDrawTriangleArgs) (thread : WorkerThreadData)
    (hn : 0 < thread.num_cores) :
    EmissionOrder args thread (SetupNormal args thread) ∧
      EmissionOrder args thread (SetupSubsector args thread) := by
  by_cases he : minx args ≥ maxx args ∨ miny args ≥ maxy args
  · rw [SetupNormal_early args thread he, SetupSubsector_early args thread he]
    exact ⟨emissionOrder_of_counts_zero _ _ _ rfl rfl, emissionOrder_of_counts_zero _ _ _ rfl rfl⟩
  · obtain ⟨x1, y1, h1⟩ := SetupNormal_ord args thread hn he
    obtain ⟨x2, y2, h2⟩ := SetupSubsector_ord args thread hn he
    exact ⟨emissionOrder_of_inv args thread _ _ _ (SetupNormal_inv args thread hn he).1 x1 y1 h1,
      emissionOrder_of_inv args thread _ _ _ (SetupSubsector_inv args thread hn he).1 x2 y2 h2⟩

/-- Witness of C17: the upper triangle of the quad, (0,0), (16,16), (16,0),
with a clip rectangle of 17 x 17 pixels and a single worker. -/
theorem emission_order_witness :
    0 < sampleThread.num_cores ∧
      (EmissionOrder (withVertices wideArgs 0 0 256 256 256 0) sampleThread
          (SetupNormal (withVertices wideArgs 0 0 256 256 256 0) sampleThread) ∧
        EmissionOrder (withVertices wideArgs 0 0 256 256 256 0) sampleThread
          (SetupSubsector (withVertices wideArgs 0 0 256 256 256 0) sampleThread)) :=
  ⟨by decide, emission_order (withVertices wideArgs 0 0 256 256 256 0) sampleThread (by decide)⟩

/-- C18, counterexample. With the vertices in the order that the claim
states, `v1 = (0,0)`, `v2 = (1,0)`, `v3 = (0,1)`, a clip rectangle of 9 x 9
pixels, a stencil buffer that passes everywhere and one worker, the pixel
(0,0) is not covered: the first half-space function is 0 there. -/
theorem top_left_pixel_as_stated :
    ¬ Covers (SetupNormal (withVertices sampleArgs 0 0 16 0 0 16) sampleThread) 0 0 := by
  intro h
  have hp := ((SetupNormal_covers_iff (withVertices sampleArgs 0 0 16 0 0 16) sampleThread
    (by decide) (by decide) (by decide) 0 0).1 h).2.2.2.2.2.2.2
  exact absurd hp.1.1 (by decide)

/-- C18, amended. Scenario "exactly top-left pixel" with the vertices in the
opposite order, `v1 = (0,0)`, `v2 = (0,1)`, `v3 = (1,0)`: with one worker, a
clip rectangle with `clipright, clipbottom ≥ 8` and a stencil buffer that
passes everywhere, `SetupNormal` covers the pixel (0,0) and covers neither the
pixel (1,0) nor the pixel (0,1). -/
theorem top_left_pixel (args : TriDrawTriangleArgs) (thread : WorkerThreadData)
    (hcore : thread.core = 0) (hnum : thread.num_cores = 1)
    (hcr : 8 ≤ args.clipright) (hcb : 8 ≤ args.clipbottom)
    (hpass : ∀ px py : Int,
      stencilAt args.stencilMasks args.stencilValues args.stencilPitch px py =
        args.stencilTestValue) :
    Covers (SetupNormal (withVertices args 0 0 0 16 16 0) thread) 0 0 ∧
      ¬ Covers (SetupNormal (withVertices args 0 0 0 16 16 0) thread) 1 0 ∧
      ¬ Covers (SetupNormal (withVertices args 0 0 0 16 16 0) thread) 0 1 := by
  obtain ⟨b1, b2, b3, b4⟩ := bounds_topLeft args hcr hcb
  have hcov := covers_single_worker (withVertices args 0 0 0 16 16 0) thread hcore hnum 0 1 0 1
    b1 b2 b3 b4
  have hedge := edges_topLeft args
  refine ⟨?_, ?_, ?_⟩
  · rw [hcov]
    refine ⟨by decide, by decide, by decide, by decide, by decide, by decide, ?_⟩
    obtain ⟨e1, e2, e3⟩ := hedge 0 0
    refine ⟨⟨by rw [e1]; decide, by rw [e2]; decide, by rw [e3]; decide⟩, ?_, ?_, hpass 0 0⟩
    · show (0 : Int) < args.clipright
      omega
    · show (0 : Int) < args.clipbottom
      omega
  · rw [hcov]
    rintro ⟨_, _, _, _, _, _, ⟨_, h2, _⟩, _⟩
    rw [(hedge 1 0).2.1] at h2
    exact absurd h2 (by decide)
  · rw [hcov]
    rintro ⟨_, _, _, _, _, _, ⟨_, h2, _⟩, _⟩
    rw [(hedge 0 1).2.1] at h2
    exact absurd h2 (by decide)

/-- Witness of C18: the sample clip rectangle of 9 x 9 pixels and the sample
stencil buffer, uniformly 0 and tested against 0. -/
theorem top_left_pixel_witness :
    (sampleThread.core = 0 ∧ sampleThread.num_cores = 1 ∧ 8 ≤ sampleArgs.clipright ∧
        8 ≤ sampleArgs.clipbottom ∧
        ∀ px py : Int,
          stencilAt sampleArgs.stencilMasks sampleArgs.stencilValues sampleArgs.stencilPitch px py =
            sampleArgs.stencilTestValue) ∧
      (Covers (SetupNormal (withVertices sampleArgs 0 0 0 16 16 0) sampleThread) 0 0 ∧
        ¬ Covers (SetupNormal (withVertices sampleArgs 0 0 0 16 16 0) sampleThread) 1 0 ∧
        ¬ Covers (SetupNormal (withVertices sampleArgs 0 0 0 16 16 0) sampleThread) 0 1) :=
  ⟨⟨rfl, rfl, by decide, by decide, sample_stencil_passes⟩,
    top_left_pixel sampleArgs sampleThread rfl rfl (by decide) (by decide)
      sample_stencil_passes⟩

/-- C19, counterexample. With the vertices in the order that the claim
states, the triangles (0,0), (16,0), (16,16) and (0,0), (16,16), (0,16), a clip
rectangle of 17 x 17 pixels, a stencil buffer that passes everywhere and one
worker, the pixel (0,0) is covered by neither output. -/
theorem quad_as_stated :
    ¬ (Covers (SetupNormal (withVertices wideArgs 0 0 256 0 256 256) sampleThread) 0 0 ∨
      Covers (SetupNormal (withVertices wideArgs 0 0 256 256 0 256) sampleThread) 0 0) := by
  rintro (h | h)
  · have hp := ((SetupNormal_covers_iff (withVertices wideArgs 0 0 256 0 256 256) sampleThread
      (by decide) (by decide) (by decide) 0 0).1 h).2.2.2.2.2.2.2
    exact absurd hp.1.1 (by decide)
  · have hp := ((SetupNormal_covers_iff (withVertices wideArgs 0 0 256 256 0 256) sampleThread
      (by decide) (by decide) (by decide) 0 0).1 h).2.2.2.2.2.2.2
    exact absurd hp.1.2.1 (by decide)

/-- C19, amended. Scenario "two triangles of a quad" with both triangles in
the opposite winding: running `SetupNormal` with one worker on the triangle
(0,0), (16,16), (16,0) and on the triangle (0,0), (0,16), (16,16), with a clip
rectangle of at least 17 x 17 and a stencil buffer that passes everywhere,
every pixel of `[0,16) x [0,16)` is covered by one of the two outputs and no
pixel is covered by both. -/
theorem quad_two_triangles (args : TriDrawTriangleArgs) (thread : WorkerThreadData)
    (hcore : thread.core = 0) (hnum : thread.num_cores = 1)
    (hcr : 17 ≤ args.clipright) (hcb : 17 ≤ args.clipbottom)
    (hpass : ∀ px py : Int,
      stencilAt args.stencilMasks args.stencilValues args.stencilPitch px py =
        args.stencilTestValue)
    (px py : Int) (hx0 : 0 ≤ px) (hx1 : px < 16) (hy0 : 0 ≤ py) (hy1 : py < 16) :
    (Covers (SetupNormal (withVertices args 0 0 256 256 256 0) thread) px py ∨
        Covers (SetupNormal (withVertices args 0 0 0 256 256 256) thread) px py) ∧
      ¬ (Covers (SetupNormal (withVertices args 0 0 256 256 256 0) thread) px py ∧
        Covers (SetupNormal (withVertices args 0 0 0 256 256 256) thread) px py) := by
  obtain ⟨hU, hL⟩ := quad_covers args thread hcore hnum hcr hcb hpass px py hx0 hx1 hy0 hy1
  rw [hU, hL]
  omega

/-- Witness of C19: the pixel (5,3) with a clip rectangle of 17 x 17 pixels
and a stencil buffer that is uniformly 0 and tested against 0. -/
theorem quad_two_triangles_witness :
    (sampleThread.core = 0 ∧ sampleThread.num_cores = 1 ∧ 17 ≤ wideArgs.clipright ∧
        17 ≤ wideArgs.clipbottom ∧
        ∀ px py : Int,
          stencilAt wideArgs.stencilMasks wideArgs.stencilValues wideArgs.stencilPitch px py =
            wideArgs.stencilTestValue) ∧
      ((Covers (SetupNormal (withVertices wideArgs 0 0 256 256 256 0) sampleThread) 5 3 ∨
          Covers (SetupNormal (withVertices wideArgs 0 0 0 256 256 256) sampleThread) 5 3) ∧
        ¬ (Covers (SetupNormal (withVertices wideArgs 0 0 256 256 256 0) sampleThread) 5 3 ∧
          Covers (SetupNormal (withVertices wideArgs 0 0 0 256 256 256) sampleThread) 5 3)) :=
  ⟨⟨rfl, rfl, by decide, by decide, wide_stencil_passes⟩,
    quad_two_triangles wideArgs sampleThread rfl rfl (by decide) (by decide) wide_stencil_passes
      5 3 (by decide) (by decide) (by decide) (by decide)⟩

/-- C20 (as stated, refuted). The triangle (0,0), (0,3424), (3424,0) in pixels
has all three corrected half-space functions strictly positive at the 64
pixels of the tile (0,0); with a clip rectangle of 9 x 9 pixels, one worker,
`stencilTestValue = 5` and the heterogeneous stencil tile that holds 5 in the
columns 0..3 and 3 in the columns 4..7, every hypothesis of the claim holds.
Yet on 32-bit `int` the constant `C2 = 54784 * 54784` wraps to a negative
value, the tile is rejected by the corner test of edge 2, and `SetupNormal`
emits no partial block at all. -/
theorem stencil_partial_pass_as_stated :
    (sampleThread.core = 0 ∧ sampleThread.num_cores = 1) ∧
      (8 ≤ overflowHalfArgs.clipright ∧ 8 ≤ overflowHalfArgs.clipbottom) ∧
      overflowHalfArgs.stencilTestValue = 5 ∧
      (∀ px py : Int, 0 ≤ px → px < 8 → 0 ≤ py → py < 8 →
        edge1 overflowHalfArgs px py > 0 ∧ edge2 overflowHalfArgs px py > 0 ∧
          edge3 overflowHalfArgs px py > 0) ∧
      (overflowHalfArgs.stencilMasks 0 &&& 0xffffff00) ≠ 0xffffff00 ∧
      (∀ px py : Int, 0 ≤ px → px < 8 → 0 ≤ py → py < 8 →
        overflowHalfArgs.stencilValues (px + py * 8) = if px < 4 then 5 else 3) ∧
      (SetupNormal32 overflowHalfArgs sampleThread).NumFullSpans = 0 ∧
      (SetupNormal32 overflowHalfArgs sampleThread).NumPartialBlocks = 0 ∧
      ¬ ∃ i, i < (SetupNormal32 overflowHalfArgs sampleThread).NumPartialBlocks ∧
        ((SetupNormal32 overflowHalfArgs sampleThread).PartialBlocks i).X = 0 ∧
        ((SetupNormal32 overflowHalfArgs sampleThread).PartialBlocks i).Y = 0 := by
  refine ⟨⟨rfl, rfl⟩, ⟨by decide, by decide⟩, rfl, overflowHalf_inside, by decide,
    overflowHalf_bytes, overflow_counts.2.2.1, overflow_counts.2.2.2, ?_⟩
  rintro ⟨i, hi, _⟩
  rw [overflow_counts.2.2.2] at hi
  exact absurd hi (Nat.not_lt_zero _)

/-- C20 (amended). Scenario "stencil partial pass" while the edge arithmetic
stays in the range of `int`: for every triangle whose deltas and whose
half-space functions at the pixels of the blocks of the bounding rectangle
fit in `int` and whose three corrected half-space functions are strictly
positive at all 64 pixels of the tile (0,0), with `clipright, clipbottom ≥ 8`,
one worker and `stencilTestValue = 5`, if the stencil tile (0,0) is
heterogeneous (its mask word is not of the uniform form) with the per-pixel
byte 5 at the columns 0..3 and 3 at the columns 4..7 of every row, then the
32-bit `SetupNormal` emits for that tile exactly one partial block, with
`X = 0`, `Y = 0`, `Mask0 = 0xF0F0F0F0` and `Mask1 = 0xF0F0F0F0`, and no full
span contains the tile. -/
theorem stencil_partial_pass (args : TriDrawTriangleArgs) (thread : WorkerThreadData)
    (hcore : thread.core = 0) (hnum : thread.num_cores = 1)
    (hcr : 8 ≤ args.clipright) (hcb : 8 ≤ args.clipbottom)
    (htest : args.stencilTestValue = 5)
    (hr : EdgesInRange args)
    (hin : ∀ px py : Int, 0 ≤ px → px < 8 → 0 ≤ py → py < 8 →
      edge1 args px py > 0 ∧ edge2 args px py > 0 ∧ edge3 args px py > 0)
    (hhet : (args.stencilMasks 0 &&& 0xffffff00) ≠ 0xffffff00)
    (hbytes : ∀ px py : Int, 0 ≤ px → px < 8 → 0 ≤ py → py < 8 →
      args.stencilValues (px + py * 8) = if px < 4 then 5 else 3) :
    (∃ i, i < (SetupNormal32 args thread).NumPartialBlocks ∧
        ((SetupNormal32 args thread).PartialBlocks i).X = 0 ∧
        ((SetupNormal32 args thread).PartialBlocks i).Y = 0 ∧
        ((SetupNormal32 args thread).PartialBlocks i).Mask0 = 0xF0F0F0F0 ∧
        ((SetupNormal32 args thread).PartialBlocks i).Mask1 = 0xF0F0F0F0 ∧
        ∀ j, j < (SetupNormal32 args thread).NumPartialBlocks →
          ((SetupNormal32 args thread).PartialBlocks j).X = 0 →
          ((SetupNormal32 args thread).PartialBlocks j).Y = 0 → j = i) ∧
      (∀ i, i < (SetupNormal32 args thread).NumFullSpans →
        ¬ (((SetupNormal32 args thread).FullSpans i).Y = 0 ∧
          ((SetupNormal32 args thread).FullSpans i).X ≤ 0 ∧
          0 < ((SetupNormal32 args thread).FullSpans i).X +
            8 * (((SetupNormal32 args thread).FullSpans i).Length : Int))) := by
  have hn : 0 < thread.num_cores := by omega
  rw [SetupNormal32_eq args thread hn hr]
  exact partialPass_exact args thread hcore hnum hcr hcb htest hin hhet hbytes

/-- Witness of C20 (amended): the sample triangle, which covers the tile
(0,0) and whose edge values fit in `int`, over a stencil buffer whose tiles
hold 5 in their left half and 3 in their right half. -/
theorem stencil_partial_pass_witness :
    (∃ i, i < (SetupNormal32 halfArgs sampleThread).NumPartialBlocks ∧
        ((SetupNormal32 halfArgs sampleThread).PartialBlocks i).X = 0 ∧
        ((SetupNormal32 halfArgs sampleThread).PartialBlocks i).Y = 0 ∧
        ((SetupNormal32 halfArgs sampleThread).PartialBlocks i).Mask0 = 0xF0F0F0F0 ∧
        ((SetupNormal32 halfArgs sampleThread).PartialBlocks i).Mask1 = 0xF0F0F0F0 ∧
        ∀ j, j < (SetupNormal32 halfArgs sampleThread).NumPartialBlocks →
          ((SetupNormal32 halfArgs sampleThread).PartialBlocks j).X = 0 →
          ((SetupNormal32 halfArgs sampleThread).PartialBlocks j).Y = 0 → j = i) ∧
      (∀ i, i < (SetupNormal32 halfArgs sampleThread).NumFullSpans →
        ¬ (((SetupNormal32 halfArgs sampleThread).FullSpans i).Y = 0 ∧
          ((SetupNormal32 halfArgs sampleThread).FullSpans i).X ≤ 0 ∧
          0 < ((SetupNormal32 halfArgs sampleThread).FullSpans i).X +
            8 * (((SetupNormal32 halfArgs sampleThread).FullSpans i).Length : Int))) :=
  stencil_partial_pass halfArgs sampleThread rfl rfl (by decide) (by decide) rfl
    (edgesInRange_of_small halfArgs (by decide) (by decide) (by decide) (by decide) (by decide)
      (by decide))
    halfArgs_inside (by decide) halfArgs_bytes

/-- C21 (as stated, refuted). With a clip rectangle of 8 x 8 pixels the
bounding box of the sample triangle is the single block at the origin
(`minx = 0`, `maxx = 7`, `miny = 0`, `maxy = 7`), so the capacity of the claim
is one slot. The triangle covers the block, which becomes the span in slot 0;
the end of the row then executes `span++; span->Length = 0;` and stores to
slot 1 of `FullSpans`: the length 5 that the slot held is 0 in the output.
Hence not every index that `SetupNormal` writes is smaller than the number of
blocks of the bounding box. -/
theorem scratch_capacity_as_stated :
    0 < capThread.num_cores ∧
      (snap (minx capArgs) = 0 ∧ maxx capArgs = 7 ∧ snap (miny capArgs) = 0 ∧
        maxy capArgs = 7) ∧
      tileCount capArgs = 1 ∧
      (capThread.FullSpans 1).Length = 5 ∧
      ((SetupNormal capArgs capThread).FullSpans 1).Length = 0 ∧
      ¬ ScratchWithin capArgs capThread (tileCount capArgs) (tileCount capArgs) := by
  have hx : snap (minx capArgs) = 0 := by
    rw [snap_eq _ (minx_nonneg _)]
    decide
  have hy : snap (miny capArgs) = 0 := by
    rw [snap_eq _ (miny_nonneg _)]
    decide
  have hc : tileCount capArgs = 1 := by
    unfold tileCount tileColumns tileRows
    rw [hx, hy]
    decide
  have hw : ((SetupNormal capArgs capThread).FullSpans 1).Length = 0 := by
    unfold SetupNormal
    rw [if_neg (by decide)]
    simp only [snap_eq _ (minx_nonneg capArgs), snap_eq _ (miny_nonneg capArgs)]
    decide
  refine ⟨by decide, ⟨hx, by decide, hy, by decide⟩, hc, rfl, hw, ?_⟩
  intro h
  have h1 := h.1 1 (le_of_eq hc)
  rw [h1] at hw
  exact absurd hw (by decide)

/-- C21 (amended). For every triangle, clip rectangle, stencil state and
worker with `num_cores ≥ 1`, `SetupNormal` finishes at most as many spans and
blocks, taken together, as the bounding box has blocks; it stores to no index
of `PartialBlocks` from that number on, and to no index of `FullSpans` after
that number. The slot of `FullSpans` whose index is the number of blocks can
be written (by the `Length = 0` reset after the last finished span), so
`FullSpans` needs one slot more than the bounding box has blocks. -/
theorem scratch_capacity (args : TriDrawTriangleArgs) (thread : WorkerThreadData)
    (hn : 0 < thread.num_cores) :
    (SetupNormal args thread).NumFullSpans + (SetupNormal args thread).NumPartialBlocks ≤
        tileCount args ∧
      ScratchWithin args thread (tileCount args + 1) (tileCount args) := by
  by_cases h : minx args ≥ maxx args ∨ miny args ≥ maxy args
  · unfold ScratchWithin SetupNormal
    rw [if_pos h]
    exact ⟨Nat.zero_le _, fun _ _ => rfl, fun _ _ => rfl⟩
  · have hcap := SetupNormal_cap args thread hn h
    have hu := hcap.used
    have hg := slotsUsed_ge (outState (SetupNormal args thread))
    have hsum : (SetupNormal args thread).NumFullSpans +
        (SetupNormal args thread).NumPartialBlocks ≤ tileCount args := le_trans hg hu
    refine ⟨hsum, ?_, ?_⟩
    · intro i hi
      have hlt : (SetupNormal args thread).NumFullSpans < i := by omega
      exact hcap.spanFrame i hlt
    · intro i hi
      have hle : (SetupNormal args thread).NumPartialBlocks ≤ i := by omega
      exact hcap.blockFrame i hle

/-- Witness of C21 (amended) at the one-block bounding box: one span is
finished, and the slots of `FullSpans` from index 2 on and all slots of
`PartialBlocks` from index 1 on are left as they were. -/
theorem scratch_capacity_witness :
    0 < capThread.num_cores ∧
      (SetupNormal capArgs capThread).NumFullSpans +
        (SetupNormal capArgs capThread).NumPartialBlocks ≤ tileCount capArgs ∧
      ScratchWithin capArgs capThread (tileCount capArgs + 1) (tileCount capArgs) :=
  ⟨by decide, scratch_capacity capArgs capThread (by decide)⟩

/-- C22. Trivial reject is conservative: for every edge function
`E(x, y) = C + DX * y - DY * x` and every tile at `(X, Y)`, if `E` is not
strictly positive at any of the four tested corners (the corner mask is 0),
then `E` is not strictly positive at any of the 64 pixels `(X + ix, Y + iy)`,
`0 ≤ ix, iy ≤ 7`; so when `E` is one of the three edge functions of a triangle,
the pixel is not inside the triangle. -/
theorem trivial_reject_conservative (C DX DY X Y : Int) (h : cornerMask C DX DY X Y = 0)
    (ix iy : Int) (hx0 : 0 ≤ ix) (hx7 : ix ≤ 7) (hy0 : 0 ≤ iy) (hy7 : iy ≤ 7) :
    ¬ (C + DX * ((Y + iy) * 16) - DY * ((X + ix) * 16) > 0) ∧
      ∀ args : TriDrawTriangleArgs,
        ((C = C1 args ∧ DX = DX12 args ∧ DY = DY12 args) ∨
          (C = C2 args ∧ DX = DX23 args ∧ DY = DY23 args) ∨
          (C = C3 args ∧ DX = DX31 args ∧ DY = DY31 args)) →
        ¬ insideTriangle args (X + ix) (Y + iy) := by
  constructor
  · obtain ⟨a, b, c, d⟩ := (cornerMask_eq_zero C DX DY X Y).1 h
    have := affine_nonpos C DX DY X Y ix iy hx0 hx7 hy0 hy7 a b c d
    omega
  · intro args hedge
    apply not_inside_of_corner args X Y _ ix iy hx0 hx7 hy0 hy7
    rcases hedge with ⟨e1, e2, e3⟩ | ⟨e1, e2, e3⟩ | ⟨e1, e2, e3⟩
    · rw [← e1, ← e2, ← e3]
      exact Or.inl h
    · rw [← e1, ← e2, ← e3]
      exact Or.inr (Or.inl h)
    · rw [← e1, ← e2, ← e3]
      exact Or.inr (Or.inr h)

/-- Witness of C22: the second edge of the sample triangle, the hypotenuse
from (0,32) to (32,0), and the tile at (40,40) beyond it. -/
theorem trivial_reject_conservative_witness :
    cornerMask (C2 sampleArgs) (DX23 sampleArgs) (DY23 sampleArgs) 40 40 = 0 ∧
      (¬ (C2 sampleArgs + DX23 sampleArgs * ((40 + 5) * 16) -
          DY23 sampleArgs * ((40 + 3) * 16) > 0) ∧
        ∀ args : TriDrawTriangleArgs,
          ((C2 sampleArgs = C1 args ∧ DX23 sampleArgs = DX12 args ∧ DY23 sampleArgs = DY12 args) ∨
            (C2 sampleArgs = C2 args ∧ DX23 sampleArgs = DX23 args ∧
              DY23 sampleArgs = DY23 args) ∨
            (C2 sampleArgs = C3 args ∧ DX23 sampleArgs = DX31 args ∧
              DY23 sampleArgs = DY31 args)) →
          ¬ insideTriangle args (40 + 3) (40 + 5)) :=
  ⟨by decide,
    trivial_reject_conservative (C2 sampleArgs) (DX23 sampleArgs) (DY23 sampleArgs) 40 40
      (by decide) 3 5 (by decide) (by decide) (by decide) (by decide)⟩

/-- C23. Stencil tile indexing stays in bounds, for both binners and every
worker with `num_cores ≥ 1`. Every tile `(tx, ty)` that the tile loops visit
has `0 ≤ tx < clipright - 1`, `0 ≤ ty < clipbottom - 1`, and `tx`, `ty` are
multiples of 8. When `stencilPitch ≥ ceil(clipright / 8)` and the stencil
buffer has `rows ≥ ceil(clipbottom / 8)` tile rows, the index
`block = tx / 8 + (ty / 8) * stencilPitch` of a visited tile satisfies
`0 ≤ block < stencilPitch * rows`, and the byte offset `ix + iy * q` that is
added to `block * 64` lies in `[0, 64)`. Every subsector entry that
`SetupSubsector` reads, at the offset `tx + ty * pitch + iy * pitch + ix`, is
the entry of the pixel `(tx + ix, ty + iy)`, which lies inside the clip
rectangle. Accordingly the outputs of both binners are the same for any other
buffers that agree with the given ones on the valid stencil tiles and on
the subsector entries of the pixels inside the clip rectangle. -/
theorem stencil_indexing_in_bounds (args : TriDrawTriangleArgs) (thread : WorkerThreadData)
    (hn : 0 < thread.num_cores) :
    (∀ tx ty, visits args thread tx ty →
      0 ≤ tx ∧ tx < args.clipright - 1 ∧ 0 ≤ ty ∧ ty < args.clipbottom - 1 ∧
        8 ∣ tx ∧ 8 ∣ ty) ∧
    (∀ rows : Int, (args.clipright + 7) / 8 ≤ args.stencilPitch →
      (args.clipbottom + 7) / 8 ≤ rows →
      ∀ tx ty, visits args thread tx ty →
        0 ≤ stencilBlockIndex args tx ty ∧
        stencilBlockIndex args tx ty < args.stencilPitch * rows ∧
        ∀ ix iy : Nat, ix < 8 → iy < 8 →
          0 ≤ (ix : Int) + (iy : Int) * q ∧ (ix : Int) + (iy : Int) * q < 64) ∧
    (∀ tx ty, visits args thread tx ty → ∀ ix iy : Nat, ix < 8 → iy < 8 →
      subsectorReads args tx ty ix iy = true →
        tx + ty * args.pitch + (iy : Int) * args.pitch + (ix : Int) =
          (tx + (ix : Int)) + (ty + (iy : Int)) * args.pitch ∧
        0 ≤ tx + (ix : Int) ∧ tx + (ix : Int) < args.clipright ∧
        0 ≤ ty + (iy : Int) ∧ ty + (iy : Int) < args.clipbottom) ∧
    (∀ (rows : Int) (masks2 values2 g2 : Int → Nat),
      (args.clipright + 7) / 8 ≤ args.stencilPitch → (args.clipbottom + 7) / 8 ≤ rows →
      AgreeOnTiles args.stencilMasks args.stencilValues masks2 values2
        (args.stencilPitch * rows) →
      AgreeInClip args.subsectorGBuffer g2 args.pitch args.clipright args.clipbottom →
      SetupNormal (withBuffers args masks2 values2 g2) thread = SetupNormal args thread ∧
      SetupSubsector (withBuffers args masks2 values2 g2) thread =
        SetupSubsector args thread) := by
  have hq : q = 8 := rfl
  refine ⟨?_, ?_, ?_, ?_⟩
  · intro tx ty hv
    have h0 := visits_nonneg args thread hn tx ty hv
    have hd := visits_dvd args thread tx ty hv
    exact ⟨h0.1, visits_lt_maxx args thread tx ty hv, h0.2,
      visits_lt_maxy args thread tx ty hv, hd.1, hd.2⟩
  · intro rows hp hr tx ty hv
    have h0 := visits_nonneg args thread hn tx ty hv
    have hx := visits_lt_maxx args thread tx ty hv
    have hy := visits_lt_maxy args thread tx ty hv
    have hb := stencilBlockIndex_bounds args rows tx ty hp hr h0.1 (by omega) h0.2 (by omega)
    refine ⟨hb.1, hb.2, ?_⟩
    intro ix iy hix hiy
    rw [hq]
    omega
  · intro tx ty hv ix iy hix hiy hread
    have h0 := visits_nonneg args thread hn tx ty hv
    have hc := subsectorReads_clip args tx ty ix iy hix hiy hread
    refine ⟨by ring, ?_, hc.1, ?_, hc.2⟩
    · omega
    · omega
  · intro rows masks2 values2 g2 hp hr hag hg
    exact ⟨(SetupNormal_of_agree args masks2 values2 g2 rows thread hn hp hr hag).symm,
      (SetupSubsector_of_agree args masks2 values2 g2 rows thread hn hp hr hag hg).symm⟩

/-- Witness of C23 at the sample triangle and the single sample worker: the
tile at the origin is visited, its stencil tile index is a valid index of a
stencil buffer of two rows of two tiles, and the subsector entry of its first
pixel, which is read, is the entry of a pixel of the clip rectangle. -/
theorem stencil_indexing_in_bounds_witness :
    0 < sampleThread.num_cores ∧ visits sampleArgs sampleThread 0 0 ∧
      (0 ≤ stencilBlockIndex sampleArgs 0 0 ∧
        stencilBlockIndex sampleArgs 0 0 < sampleArgs.stencilPitch * 2) ∧
      subsectorReads sampleArgs 0 0 1 1 = true ∧
      ((0 : Int) + ((1 : Nat) : Int) < sampleArgs.clipright ∧
        (0 : Int) + ((1 : Nat) : Int) < sampleArgs.clipbottom) :=
  ⟨by decide, sample_visits,
    ⟨((stencil_indexing_in_bounds sampleArgs sampleThread (by decide)).2.1 2 (by decide)
        (by decide) 0 0 sample_visits).1,
      ((stencil_indexing_in_bounds sampleArgs sampleThread (by decide)).2.1 2 (by decide)
        (by decide) 0 0 sample_visits).2.1⟩,
    by decide,
    ⟨((stencil_indexing_in_bounds sampleArgs sampleThread (by decide)).2.2.1 0 0 sample_visits
        1 1 (by decide) (by decide) (by decide)).2.2.1,
      ((stencil_indexing_in_bounds sampleArgs sampleThread (by decide)).2.2.1 0 0 sample_visits
        1 1 (by decide) (by decide) (by decide)).2.2.2.2⟩⟩

/-- C24 (the two conversion paths of the code differ). For every vertex
coordinate `v = n / 16` with `n` an integer of at most 22 binary digits, the
product `16.0f * v` is `n` exactly: the scalar path gives `(int)round(n) = n`,
while the packed path converts `n + 0.5`, a tie that goes to the even
neighbour, and gives `n + 1` when `n` is odd; so the two paths differ at every
odd `n`. They also differ where no tie occurs: at `v = 0.015625 = 2 ^ -6` the
scalar path rounds 0.25 to 0 and the packed path converts 0.75 to 1; and at
the negative coordinate `v = -0.03125 = -(2 ^ -5)` the scalar path rounds -0.5
to -1 and the packed path converts 0.0 to 0. -/
theorem conversion_paths_differ (n : Int) (hn : n.natAbs < 2 ^ 22) :
    fixedScalar ⟨n, -4⟩ = n ∧
      fixedPacked ⟨n, -4⟩ = (if n % 2 = 0 then n else n + 1) ∧
      (n % 2 = 1 → fixedScalar ⟨n, -4⟩ ≠ fixedPacked ⟨n, -4⟩) ∧
      (fixedScalar ⟨1, -6⟩ = 0 ∧ fixedPacked ⟨1, -6⟩ = 1) ∧
      (fixedScalar ⟨-1, -5⟩ = -1 ∧ fixedPacked ⟨-1, -5⟩ = 0) := by
  have hs := fixedScalar_sixteenths n hn
  have hp := fixedPacked_sixteenths n hn
  refine ⟨hs, hp, ?_, by decide, by decide⟩
  intro hodd
  rw [hs, hp, if_neg (by omega)]
  omega

/-- Witness of C24 at `n = 1`, the coordinate `v = 0.0625`: the scalar path
gives 1 and the packed path gives 2. -/
theorem conversion_paths_differ_witness :
    (1 : Int).natAbs < 2 ^ 22 ∧ fixedScalar ⟨1, -4⟩ = 1 ∧ fixedPacked ⟨1, -4⟩ = 2 ∧
      fixedScalar ⟨1, -4⟩ ≠ fixedPacked ⟨1, -4⟩ :=
  ⟨by decide, (conversion_paths_differ 1 (by decide)).1,
    (conversion_paths_differ 1 (by decide)).2.1,
    (conversion_paths_differ 1 (by decide)).2.2.1 (by decide)⟩

/-- C25 (as stated, refuted). The clockwise triangle (-2400,-2400),
(2400,-2400), (2400,2400) in pixels has the doubled signed area
`S = -5898240000 ≤ 0`. On 32-bit `int` its constants `C1` and `C2` wrap to
positive values, and with a clip rectangle of 8 x 8 pixels both binner
variants emit a partial block for the tile at the origin: the counts are not
zero. -/
theorem winding_requirement_as_stated :
    0 < sampleThread.num_cores ∧ doubledArea clockwiseArgs = -5898240000 ∧
      doubledArea clockwiseArgs ≤ 0 ∧
      (SetupNormal32 clockwiseArgs sampleThread).NumPartialBlocks = 1 ∧
      ((SetupNormal32 clockwiseArgs sampleThread).PartialBlocks 0).Mask0 = 0x0080C0E0 ∧
      (SetupSubsector32 clockwiseArgs sampleThread).NumPartialBlocks = 1 ∧
      ¬ ((SetupNormal32 clockwiseArgs sampleThread).NumFullSpans = 0 ∧
        (SetupNormal32 clockwiseArgs sampleThread).NumPartialBlocks = 0) := by
  refine ⟨by decide, by decide, by decide, clockwise_counts.1.1, clockwise_counts.1.2,
    clockwise_counts.2, ?_⟩
  rintro ⟨_, h⟩
  rw [clockwise_counts.1.1] at h
  exact absurd h (by decide)

/-- C25 (amended). Winding requirement while the edge arithmetic stays in the
range of `int`: for every triangle whose doubled signed area `S = C1 + C2 + C3`,
taken before the fill-convention correction, is not positive, there is no
point at which all three corrected half-space functions are strictly positive;
and when moreover the deltas and the half-space functions at the pixels of the
blocks of the bounding rectangle fit in `int`, both 32-bit binner variants
return `NumFullSpans = 0` and `NumPartialBlocks = 0` for every clip rectangle,
stencil state and worker with `num_cores ≥ 1`, so no pixel is covered: only a
triangle with `S > 0` can produce coverage. -/
theorem winding_requirement (args : TriDrawTriangleArgs) (thread : WorkerThreadData)
    (hn : 0 < thread.num_cores) (hr : EdgesInRange args) (hS : doubledArea args ≤ 0) :
    (∀ PX PY : Int,
        ¬ (edgeValue args.X1 args.Y1 args.X2 args.Y2 PX PY > 0 ∧
          edgeValue args.X2 args.Y2 args.X3 args.Y3 PX PY > 0 ∧
          edgeValue args.X3 args.Y3 args.X1 args.Y1 PX PY > 0)) ∧
      ((SetupNormal32 args thread).NumFullSpans = 0 ∧
        (SetupNormal32 args thread).NumPartialBlocks = 0) ∧
      ((SetupSubsector32 args thread).NumFullSpans = 0 ∧
        (SetupSubsector32 args thread).NumPartialBlocks = 0) ∧
      (∀ px py : Int, ¬ Covers (SetupNormal32 args thread) px py ∧
        ¬ Covers (SetupSubsector32 args thread) px py) := by
  rw [SetupNormal32_eq args thread hn hr, SetupSubsector32_eq args thread hn hr]
  exact winding_exact args thread hS

/-- Witness of C25 (amended): the triangle (0,0), (1,0), (0,1), whose doubled
signed area is -256 and whose edge values fit in `int`, with the sample clip
rectangle and stencil buffer. -/
theorem winding_requirement_witness :
    0 < sampleThread.num_cores ∧ EdgesInRange (withVertices sampleArgs 0 0 16 0 0 16) ∧
      doubledArea (withVertices sampleArgs 0 0 16 0 0 16) ≤ 0 ∧
      ((SetupNormal32 (withVertices sampleArgs 0 0 16 0 0 16) sampleThread).NumFullSpans = 0 ∧
        (SetupNormal32 (withVertices sampleArgs 0 0 16 0 0 16) sampleThread).NumPartialBlocks =
          0) ∧
      ((SetupSubsector32 (withVertices sampleArgs 0 0 16 0 0 16) sampleThread).NumFullSpans = 0 ∧
        (SetupSubsector32 (withVertices sampleArgs 0 0 16 0 0 16)
          sampleThread).NumPartialBlocks = 0) :=
  ⟨by decide,
    edgesInRange_of_small _ (by decide) (by decide) (by decide) (by decide) (by decide)
      (by decide),
    by decide,
    (winding_requirement (withVertices sampleArgs 0 0 16 0 0 16) sampleThread (by decide)
      (edgesInRange_of_small _ (by decide) (by decide) (by decide) (by decide) (by decide)
        (by decide)) (by decide)).2.1,
    (winding_requirement (withVertices sampleArgs 0 0 16 0 0 16) sampleThread (by decide)
      (edgesInRange_of_small _ (by decide) (by decide) (by decide) (by decide) (by decide)
        (by decide)) (by decide)).2.2.1⟩

/-- C26. Tile disjointness of the output: for either binner variant, no 8x8
tile appears in more than one emitted entry: the tiles of distinct full spans
are disjoint, partial blocks have pairwise distinct `(X, Y)`, and no partial
block lies at a tile of a full span; moreover the tile that follows a full
span on its row is a tile of no full span, so two spans of the same row are
never adjacent and spans are maximal runs. -/
theorem tile_disjointness (args : TriDrawTriangleArgs) (thread : WorkerThreadData)
    (hn : 0 < thread.num_cores) :
    TileDisjoint (SetupNormal args thread) ∧ TileDisjoint (SetupSubsector args thread) := by
  by_cases he : minx args ≥ maxx args ∨ miny args ≥ maxy args
  · rw [SetupNormal_early args thread he, SetupSubsector_early args thread he]
    exact ⟨tileDisjoint_of_counts_zero _ rfl rfl, tileDisjoint_of_counts_zero _ rfl rfl⟩
  · obtain ⟨x1, y1, h1⟩ := SetupNormal_ord args thread hn he
    obtain ⟨x2, y2, h2⟩ := SetupSubsector_ord args thread hn he
    obtain ⟨x3, y3, g1⟩ := SetupNormal_gap args thread hn he
    obtain ⟨x4, y4, g2⟩ := SetupSubsector_gap args thread hn he
    exact ⟨tileDisjoint_of_inv args thread _ _ _ (SetupNormal_inv args thread hn he).1 x1 y1 h1
        x3 y3 g1,
      tileDisjoint_of_inv args thread _ _ _ (SetupSubsector_inv args thread hn he).1 x2 y2 h2
        x4 y4 g2⟩

/-- Witness of C26: the upper triangle of the quad, (0,0), (16,16), (16,0),
with a clip rectangle of 17 x 17 pixels and a single worker. -/
theorem tile_disjointness_witness :
    0 < sampleThread.num_cores ∧
      (TileDisjoint (SetupNormal (withVertices wideArgs 0 0 256 256 256 0) sampleThread) ∧
        TileDisjoint (SetupSubsector (withVertices wideArgs 0 0 256 256 256 0) sampleThread)) :=
  ⟨by decide, tile_disjointness (withVertices wideArgs 0 0 256 256 256 0) sampleThread
    (by decide)⟩

end ScreenTriangle
